import Mathlib

/-! # LuaDisAss assembler: a shallow embedding of `Assembler.cpp`

The assembler reads a line-oriented assembly text and emits a binary chunk.
This file embeds the functions of `src/Assembler.cpp` as Lean functions over an
explicit `Assembler` state record (one field per data member of the C++ class)
and proves properties of them.

Conventions of the embedding

* A character range `[start, end)` is a `List Char`; a returned cursor is the
  remaining suffix, and a `nullptr` result is `none`.
* `std::vector` is `List`; `std::unordered_map` is an association list that is
  only ever searched by key (`find`) and assigned by key (`operator[]`).
* `std::shared_ptr<ParsedFunction>` values are always entries of `functions_`,
  each stored under its own `name`; a pointer is therefore the key of the entry
  and a mutation through the pointer is an update of that entry.
* Machine integers are `Int`/`Nat` with explicit wrap-around.
* A C++ exception that leaves a function (`std::stoi`, `std::string::assign`)
  is the result `none` of the functions that can raise it.
-/

namespace LuaDisAss

/-! ## Characters (`<cctype>` in the "C" locale) -/

/-- The `std::isblank` test: space or horizontal tab. -/
def isblank (c : Char) : Bool := c = ' ' || c = '\t'

/-- The `std::isspace` test. -/
def isspace (c : Char) : Bool :=
  c = ' ' || c = '\t' || c = '\n' || c = '\r' || c = Char.ofNat 11 || c = Char.ofNat 12

/-- The `std::isdigit` test. -/
def isdigit (c : Char) : Bool := c.isDigit

/-- The `std::isalpha` test. -/
def isalpha (c : Char) : Bool := c.isAlpha

/-- The `std::isalnum` test. -/
def isalnum (c : Char) : Bool := c.isAlphanum

/-- The `std::isxdigit` test. -/
def isxdigit (c : Char) : Bool :=
  c.isDigit || (('a'.toNat ≤ c.toNat && c.toNat ≤ 'f'.toNat)
    || ('A'.toNat ≤ c.toNat && c.toNat ≤ 'F'.toNat))

/-- The `std::tolower` function. -/
def tolower (c : Char) : Char := c.toLower

/-- The predicate of the lambda in `parseLabel`: `isalnum(c) || c == '_'`. -/
def isLabelChar (c : Char) : Bool := isalnum c || c = '_'

/-- The double quote character. -/
def dquote : Char := Char.ofNat 34

/-- The single quote character. -/
def squote : Char := Char.ofNat 39

/-- The backslash character. -/
def backslash : Char := Char.ofNat 92

/-- Modelled from the spec: `util.h` is not among the sources. `Util::lower`
lowers every character of a string (the mnemonic and directive names are
"matched case-insensitively"). -/
def lower (s : List Char) : List Char := s.map tolower

/-- Modelled from the spec: `util.h` is not among the sources. `Util::trim`
removes the white space at both ends of a line ("given a trimmed line"). -/
def trim (s : List Char) : List Char :=
  ((s.dropWhile isspace).reverse.dropWhile isspace).reverse

/-! ## Machine integers -/

/-- The integer types `parseInt` is instantiated at. -/
structure IntKind where
  is_signed : Bool
  bits : Nat
  deriving DecidableEq, Repr

/-- The type `unsigned char`. -/
def IntKind.uchar : IntKind := ⟨false, 8⟩
/-- The type `unsigned int`. -/
def IntKind.uint : IntKind := ⟨false, 32⟩
/-- The type `size_t`. -/
def IntKind.size_t : IntKind := ⟨false, 64⟩
/-- The type `int`. -/
def IntKind.int : IntKind := ⟨true, 32⟩

/-- Reduction of a mathematical integer to the value range of an integer type
(two's complement wrap-around). -/
def IntKind.wrap (k : IntKind) (x : Int) : Int :=
  if k.is_signed then (x + 2 ^ (k.bits - 1)) % 2 ^ k.bits - 2 ^ (k.bits - 1)
  else x % 2 ^ k.bits

/-- Conversion to `int`. -/
def toInt (x : Int) : Int := IntKind.int.wrap x

/-- Conversion to `unsigned int` (also `cast(Instruction, x)`). -/
def toUInt (x : Int) : Nat := (x % 2 ^ 32).toNat

/-! ## Numbers and constants -/

/-- The host number type `lua_Number`, a C `double` in the IEEE 754 binary64
format: `finite neg mant exp` is the number `(-1)^neg * mant * 2^exp`, `inf neg`
an infinity and `nan` a NaN. Each operation below is rounded once, to nearest,
ties to even, and returns its result in the canonical form of binary64
(`mant < 2^53`, `-1074 ≤ exp ≤ 971`, `2^52 ≤ mant` unless `exp = -1074`, zero as
`mant = 0`, `exp = 0`), in which a number has one representation; there is no
excess precision and no fused operation. -/
inductive lua_Number where
  | finite ( neg : Bool) (mant : Nat) (exp : Int)
  | inf ( neg : Bool)
  | nan
  deriving DecidableEq, Repr

/-- The number `2 ^ 2 ^ l`. -/
def pow2pow : Nat → Nat
  | 0 => 2
  | l + 1 => pow2pow l * pow2pow l

/-- The number of binary digits of `n`, for `n < 2 ^ 2 ^ l`. -/
def bitLengthLevel : Nat → Nat → Nat
  | 0, n => if n = 0 then 0 else 1
  | l + 1, n =>
    if pow2pow l ≤ n then 2 ^ l + bitLengthLevel l (n / pow2pow l) else bitLengthLevel l n

/-- The number of binary digits of `n`, digit by digit. -/
def bitLengthSlow : Nat → Nat → Nat
  | 0, _ => 0
  | fuel + 1, n => if n = 0 then 0 else bitLengthSlow fuel (n / 2) + 1

/-- The number of binary digits of `n`: the least `b` with `n < 2 ^ b`. -/
def bitLength (n : Nat) : Nat :=
  if n < pow2pow 12 then bitLengthLevel 12 n else bitLengthSlow n n

/-- The number `b` is the number of binary digits of `n`. -/
def IsBitLength (n b : Nat) : Prop := n < 2 ^ b ∧ (b ≠ 0 → 2 ^ (b - 1) ≤ n)

/-- The quotient `m / 2 ^ shift` rounded to nearest, ties to even. -/
def roundHalfEven (m shift : Nat) : Nat :=
  if m % 2 ^ shift < 2 ^ (shift - 1) then m / 2 ^ shift
  else if 2 ^ (shift - 1) < m % 2 ^ shift then m / 2 ^ shift + 1
  else if (m / 2 ^ shift) % 2 = 0 then m / 2 ^ shift
  else m / 2 ^ shift + 1

/-- The exponent of the binary64 number nearest to `m * 2 ^ e`, before a carry
of the rounding: 53 significant digits, and no exponent below -1074. -/
def roundExp (m : Nat) (e : Int) : Int := max (e + (bitLength m : Int) - 53) (-1074)

/-- The significand of the binary64 number nearest to `m * 2 ^ e`, before a
carry of the rounding. -/
def roundMant (m : Nat) (e : Int) : Nat :=
  if roundExp m e ≤ e then m * 2 ^ (e - roundExp m e).toNat
  else roundHalfEven m (roundExp m e - e).toNat

/-- Rounding to `double`: the binary64 number nearest to `(-1)^neg * m * 2^e`,
ties to even; an infinity when the rounded number exceeds the format. -/
def lua_Number.round ( neg : Bool) (m : Nat) (e : Int) : lua_Number :=
  if roundMant m e = 0 then .finite neg 0 0
  else if roundMant m e = 2 ^ 53 then
    if 971 < roundExp m e + 1 then .inf neg else .finite neg (2 ^ 52) (roundExp m e + 1)
  else if 971 < roundExp m e then .inf neg
  else .finite neg (roundMant m e) (roundExp m e)

/-- The conversion of an `int` to `double`. -/
def lua_Number.ofInt (n : Int) : lua_Number := .round (decide (n < 0)) n.natAbs 0

/-- The literal `0.1`: the `double` nearest to one tenth, `0x3FB999999999999A`. -/
def lua_Number.tenth : lua_Number := .finite false 7205759403792794 (-56)

/-- Addition of `double`s. -/
def lua_Number.add : lua_Number → lua_Number → lua_Number
  | .finite na ma ea, .finite nb mb eb =>
    if (if na then -1 else 1) * ((ma * 2 ^ (ea - min ea eb).toNat : Nat) : Int)
        + (if nb then -1 else 1) * ((mb * 2 ^ (eb - min ea eb).toNat : Nat) : Int) = 0
    then .finite (na && nb) 0 0
    else
      .round
        (decide ((if na then -1 else 1) * ((ma * 2 ^ (ea - min ea eb).toNat : Nat) : Int)
          + (if nb then -1 else 1) * ((mb * 2 ^ (eb - min ea eb).toNat : Nat) : Int) < 0))
        ((if na then -1 else 1) * ((ma * 2 ^ (ea - min ea eb).toNat : Nat) : Int)
          + (if nb then -1 else 1) * ((mb * 2 ^ (eb - min ea eb).toNat : Nat) : Int)).natAbs
        (min ea eb)
  | .inf na, .inf nb => if na = nb then .inf na else .nan
  | .inf na, .finite _ _ _ => .inf na
  | .finite _ _ _, .inf nb => .inf nb
  | .nan, _ => .nan
  | _, .nan => .nan

/-- Multiplication of `double`s. -/
def lua_Number.mul : lua_Number → lua_Number → lua_Number
  | .finite na ma ea, .finite nb mb eb => .round (na != nb) (ma * mb) (ea + eb)
  | .inf na, .inf nb => .inf (na != nb)
  | .inf na, .finite nb mb _ => if mb = 0 then .nan else .inf (na != nb)
  | .finite na ma _, .inf nb => if ma = 0 then .nan else .inf (na != nb)
  | .nan, _ => .nan
  | _, .nan => .nan

/-- The comparison `==` of `double`s: a NaN equals nothing, the two zeros are
equal, and two other finite numbers are equal when they have the same sign and
the same magnitude `mant * 2 ^ exp`. -/
def lua_Number.eq : lua_Number → lua_Number → Bool
  | .finite na ma ea, .finite nb mb eb =>
    (ma = 0 && mb = 0) ||
      (na = nb && ma * 2 ^ (ea - min ea eb).toNat = mb * 2 ^ (eb - min ea eb).toNat)
  | .inf na, .inf nb => na = nb
  | _, _ => false

/-- The canonical form of binary64: a zero is `mant = 0`, `exp = 0`; another
finite number has `mant < 2 ^ 53` and `-1074 ≤ exp ≤ 971`, with `2 ^ 52 ≤ mant`
unless `exp = -1074`. -/
def lua_Number.Canonical : lua_Number → Prop
  | .finite _ mant exp =>
    (mant = 0 ∧ exp = 0) ∨
      (mant ≠ 0 ∧ mant < 2 ^ 53 ∧ -1074 ≤ exp ∧ exp ≤ 971 ∧ (2 ^ 52 ≤ mant ∨ exp = -1074))
  | _ => True

/-- Modelled from the spec: `Function.h` is not among the sources. A constant
is the "tagged variant `{Nil, Bool(bool), Number(f64-equivalent),
String(bytes)}`" of the spec; the constructors carry the names of the classes
`TValue`, `TBool`, `TNumber`, `TString` that `parseConstant` instantiates. -/
inductive TValue where
  | TNil
  | TBool (value : Bool)
  | TNumber (number : lua_Number)
  | TString (string : String)
  deriving DecidableEq, Repr

/-- Modelled from the spec: `operator==` of `TValue`, the "structural and
type-tag-sensitive" equality: the tags are equal and so are the payloads, the
payloads of two numbers being compared as `double`s. -/
def TValue.eq : TValue → TValue → Bool
  | .TNil, .TNil => true
  | .TBool a, .TBool b => a = b
  | .TNumber a, .TNumber b => a.eq b
  | .TString a, .TString b => a = b
  | _, _ => false

/-- Modelled from the spec: the "one-byte type tag" of a constant, with the
values of `LUA_TNIL`, `LUA_TBOOLEAN`, `LUA_TNUMBER`, `LUA_TSTRING`. -/
def TValue.type : TValue → Nat
  | .TNil => 0
  | .TBool _ => 1
  | .TNumber _ => 3
  | .TString _ => 4

/-- The upvalue descriptor `Upvalue{instack, idx, name}`. -/
structure Upvalue where
  instack : Nat
  idx : Nat
  name : String
  deriving DecidableEq, Repr

/-! ## Instruction words

Modelled from the spec: `opcodes.h` is not among the sources. An instruction
is the "fixed-width unsigned word" with the "named bit-fields (opcode, A, B, C,
Bx, sBx, Ax)" of the spec. The macro names used by `Assembler.cpp`
(`SET_OPCODE`, `SETARG_A`, `SETARG_sBx`, `RKASK`, `MAXARG_C`, `OP_EXTRAARG`,
`NUM_OPCODES`, `luaP_opnames`) are those of Lua 5.3's `lopcodes.h`, whose
layout is taken: a 32-bit word, opcode 6 bits at 0, A 8 bits at 6, C 9 bits at
14, B 9 bits at 23, Bx 18 bits at 14, Ax 26 bits at 6.
-/

/-- The instruction word, a 32-bit unsigned integer. -/
abbrev Instruction := Nat

/-- Width of the opcode field. -/
def SIZE_OP : Nat := 6
/-- Width of the A field. -/
def SIZE_A : Nat := 8
/-- Width of the B field. -/
def SIZE_B : Nat := 9
/-- Width of the C field. -/
def SIZE_C : Nat := 9
/-- Width of the Bx field. -/
def SIZE_Bx : Nat := SIZE_C + SIZE_B
/-- Width of the Ax field. -/
def SIZE_Ax : Nat := SIZE_C + SIZE_B + SIZE_A
/-- Position of the opcode field. -/
def POS_OP : Nat := 0
/-- Position of the A field. -/
def POS_A : Nat := POS_OP + SIZE_OP
/-- Position of the C field. -/
def POS_C : Nat := POS_A + SIZE_A
/-- Position of the B field. -/
def POS_B : Nat := POS_C + SIZE_C
/-- Position of the Bx field. -/
def POS_Bx : Nat := POS_C
/-- Position of the Ax field. -/
def POS_Ax : Nat := POS_A

/-- Largest value of the Bx field. -/
def MAXARG_Bx : Nat := 2 ^ SIZE_Bx - 1
/-- Bias of the signed sBx field, `MAXARG_Bx >> 1`. -/
def MAXARG_sBx : Nat := MAXARG_Bx >>> 1
/-- Largest value of the C field. -/
def MAXARG_C : Nat := 2 ^ SIZE_C - 1
/-- The bit that marks a constant index in a B or C field. -/
def BITRK : Nat := 1 <<< (SIZE_B - 1)

/-- Bitwise complement of a 32-bit word. -/
def not32 (x : Nat) : Nat := (2 ^ 32 - 1) ^^^ (x % 2 ^ 32)

/-- The macro `MASK1(n,p)`: `n` one bits at position `p`. -/
def MASK1 (n p : Nat) : Nat := ((not32 ((not32 0 <<< n) % 2 ^ 32)) <<< p) % 2 ^ 32

/-- The macro `MASK0(n,p)`: `n` zero bits at position `p`. -/
def MASK0 (n p : Nat) : Nat := not32 (MASK1 n p)

/-- The macro `getarg(i,pos,size)`. -/
def getarg (i : Instruction) (pos size : Nat) : Nat := (i >>> pos) &&& MASK1 size 0

/-- The macro `setarg(i,v,pos,size)`, with `v` already cast to `Instruction`. -/
def setarg (i : Instruction) (v : Nat) (pos size : Nat) : Instruction :=
  (i &&& MASK0 size pos) ||| (((v <<< pos) % 2 ^ 32) &&& MASK1 size pos)

/-- The macro `GET_OPCODE`. -/
def GET_OPCODE (i : Instruction) : Nat := getarg i POS_OP SIZE_OP
/-- The macro `SET_OPCODE`. -/
def SET_OPCODE (i : Instruction) (o : Nat) : Instruction := setarg i o POS_OP SIZE_OP
/-- The macro `GETARG_A`. -/
def GETARG_A (i : Instruction) : Nat := getarg i POS_A SIZE_A
/-- The macro `SETARG_A`; the value is an `int`, cast to `Instruction`. -/
def SETARG_A (i : Instruction) (v : Int) : Instruction := setarg i (toUInt v) POS_A SIZE_A
/-- The macro `GETARG_B`. -/
def GETARG_B (i : Instruction) : Nat := getarg i POS_B SIZE_B
/-- The macro `SETARG_B`. -/
def SETARG_B (i : Instruction) (v : Int) : Instruction := setarg i (toUInt v) POS_B SIZE_B
/-- The macro `GETARG_C`. -/
def GETARG_C (i : Instruction) : Nat := getarg i POS_C SIZE_C
/-- The macro `SETARG_C`. -/
def SETARG_C (i : Instruction) (v : Int) : Instruction := setarg i (toUInt v) POS_C SIZE_C
/-- The macro `GETARG_Bx`. -/
def GETARG_Bx (i : Instruction) : Nat := getarg i POS_Bx SIZE_Bx
/-- The macro `SETARG_Bx`. -/
def SETARG_Bx (i : Instruction) (v : Int) : Instruction := setarg i (toUInt v) POS_Bx SIZE_Bx
/-- The macro `GETARG_Ax`. -/
def GETARG_Ax (i : Instruction) : Nat := getarg i POS_Ax SIZE_Ax
/-- The macro `SETARG_Ax`. -/
def SETARG_Ax (i : Instruction) (v : Int) : Instruction := setarg i (toUInt v) POS_Ax SIZE_Ax
/-- The macro `GETARG_sBx`: `GETARG_Bx(i) - MAXARG_sBx`. -/
def GETARG_sBx (i : Instruction) : Int := (GETARG_Bx i : Int) - (MAXARG_sBx : Int)
/-- The macro `SETARG_sBx`: `SETARG_Bx(i, cast(unsigned int, b + MAXARG_sBx))`. -/
def SETARG_sBx (i : Instruction) (b : Int) : Instruction :=
  SETARG_Bx i (toUInt (b + (MAXARG_sBx : Int)))
/-- The macro `RKASK(x)`: `x | BITRK`. -/
def RKASK (x : Nat) : Nat := x ||| BITRK

/-- Number of opcodes. -/
def NUM_OPCODES : Nat := 47
/-- The opcode of the extra-argument word. -/
def OP_EXTRAARG : Nat := 46

/-- Modelled from the spec: the mnemonic table `luaP_opnames` of `opcodes.h`.
The names are those written beside the rows of `opcount` and `opinfo` in
`Assembler.cpp`, in lower case, since `parseCode` lowers the mnemonic before
the comparison. -/
def luaP_opnames : List String :=
  ["move", "loadk", "loadkx", "loadbool", "loadnil", "getupval", "gettabup", "gettable",
   "settabup", "setupval", "settable", "newtable", "self", "add", "sub", "mul", "div",
   "band", "bor", "bxor", "shl", "shr", "mod", "idiv", "pow", "unm", "bnot", "not", "len",
   "concat", "jmp", "eq", "lt", "le", "test", "testset", "call", "tailcall", "return",
   "forloop", "forprep", "tforcall", "tforloop", "setlist", "closure", "vararg", "extraarg"]


/-! ## State -/

/-- Modelled from the spec: `util.h` is not among the sources. `Util::BoolRes`
is the uniform result "operation failed with a human-readable message":
a success flag and a message. -/
structure BoolRes where
  success : Bool
  error_msg : String
  deriving DecidableEq, Repr

/-- The enumeration `Assembler::ParseStatus`. -/
inductive ParseStatus where
  | PARSE_FUNC
  | PARSE_CODE
  | PARSE_CONST
  | PARSE_UPVALUE
  | PARSE_NONE
  deriving DecidableEq, Repr

/-- The record `ParsedFunction` of `Assembler.h`. -/
structure ParsedFunction where
  name : String
  instructions : List Instruction
  upvalues : List Upvalue
  usedSubroutines : List String
  lineinfos : List Int
  neededSubroutines : List (String × Int)
  constants : List TValue
  maxstacksize : Nat
  params : Nat
  vararg : Nat
  deriving DecidableEq, Repr

/-- One call issued to the byte writer, with the value it carries. -/
inductive WriteCall where
  | u8 (v : Nat)
  | i32 (v : Int)
  | size (v : Nat)
  | integer (v : Int)
  | number (v : lua_Number)
  | boolean (v : Bool)
  | bytes (s : String)
  | words (ws : List Instruction)
  | ints (ls : List Int)
  deriving DecidableEq, Repr

/-- Modelled from the spec: `WriteBuffer.h` is not among the sources. The byte
writer is the collaborator "`write<T>(value) -> Result<()>`,
`writeBytes(ptr,len) -> usize`". It is any deterministic writer: `answer` and
`count` give its reply to a call from the calls issued before it, and `written`
records the calls issued so far, in order. -/
structure WriteBuffer where
  written : List WriteCall
  answer : List WriteCall → WriteCall → BoolRes
  count : List WriteCall → WriteCall → Nat

/-- The enumeration `Operand::Type`. -/
inductive OperandType where
  | STACKIDX
  | CONSTANT
  | LOCATION
  | UPVALUE
  | EMBEDDED
  deriving DecidableEq, Repr

/-- The class `Assembler::Operand`. -/
structure Operand where
  type_ : OperandType
  value_ : Int
  deriving DecidableEq, Repr

/-- The data members of the class `Assembler`. The reader `rbuffer_` is the
list of the lines `readLine` has still to deliver (`Buffer.h` is not among the
sources); a null buffer pointer is `none`. Members the constructor leaves
uninitialised start at 0. -/
structure Assembler where
  wbuffer_ : Option WriteBuffer
  rbuffer_ : Option (List String)
  parseStatus_ : ParseStatus
  nUpvalues_ : Nat
  bUpvalues_ : Bool
  functions_ : List (String × ParsedFunction)
  subroutines_ : List (String × Int)
  usedSubroutines_ : List (String × Int)
  funcid_ : Int
  f_usedSubroutines_ : List String
  upvalues_ : List Upvalue
  funcname_ : String
  instructions_ : List Instruction
  neededSubroutines_ : List (String × Int)
  neededLocations_ : List (String × Int)
  locations_ : List (String × Int)
  lineinfos_ : List Int
  f_maxstacksize_ : Nat
  f_params_ : Nat
  f_vararg_ : Nat
  constants_ : List TValue

/-- The constructor `Assembler::Assembler(rbuffer, wbuffer)`. -/
def Assembler.new (rbuffer : Option (List String)) (wbuffer : Option WriteBuffer) : Assembler where
  wbuffer_ := wbuffer
  rbuffer_ := rbuffer
  parseStatus_ := .PARSE_NONE
  nUpvalues_ := 0
  bUpvalues_ := false
  functions_ := []
  subroutines_ := []
  usedSubroutines_ := []
  funcid_ := -1
  f_usedSubroutines_ := []
  upvalues_ := []
  funcname_ := ""
  instructions_ := []
  neededSubroutines_ := []
  neededLocations_ := []
  locations_ := []
  lineinfos_ := []
  f_maxstacksize_ := 0
  f_params_ := 0
  f_vararg_ := 0
  constants_ := []

/-- The member `find` of `std::unordered_map<std::string, T>`. -/
def mapFind {α : Type} : List (String × α) → String → Option α
  | [], _ => none
  | (k', v) :: m, k => if k' = k then some v else mapFind m k

/-- The assignment `m[k] = v` of `std::unordered_map<std::string, T>`. -/
def mapAssign {α : Type} : List (String × α) → String → α → List (String × α)
  | [], k, v => [(k, v)]
  | (k', v') :: m, k, v => if k' = k then (k, v) :: m else (k', v') :: mapAssign m k v

/-! ## Tokens -/

/-- The function `parseLabel(out, start, end)`: the label and the cursor behind it. -/
def parseLabel (start : List Char) : Option (String × List Char) :=
  match start.dropWhile isblank with
  | [] => none
  | c :: cs =>
    if c = ';' then none
    else if (c :: cs).takeWhile isLabelChar = [] then none
    else some (String.mk ((c :: cs).takeWhile isLabelChar), (c :: cs).dropWhile isLabelChar)

/-- The loop `out = out * 10 + (*start - '0')` of `parseInt`, in the type `k`. -/
def parseDigits (k : IntKind) : Int → List Char → Int
  | out, [] => out
  | out, c :: cs => parseDigits k (k.wrap (out * 10 + ((c.toNat : Int) - ('0'.toNat : Int)))) cs

/-- The function template `parseInt<T>(out, start, end)`, `T` described by `k`. -/
def parseInt (k : IntKind) (start : List Char) : Option (Int × List Char) :=
  match start.dropWhile isblank with
  | [] => none
  | c :: cs =>
    if c = ';' then none
    else
      match (if k.is_signed && c = '-' then cs else c :: cs) with
      | [] => none
      | c1 :: cs1 =>
        match (if c1 = '+' then cs1 else c1 :: cs1) with
        | [] => none
        | c2 :: cs2 =>
          if (c2 :: cs2).takeWhile isdigit = [] then none
          else
            some (if k.is_signed && c = '-'
                  then k.wrap (parseDigits k 0 ((c2 :: cs2).takeWhile isdigit) * -1)
                  else parseDigits k 0 ((c2 :: cs2).takeWhile isdigit),
                  (c2 :: cs2).dropWhile isdigit)

/-- The function `get_line_comment_from_asm_line_code(line, len)`: the text
from the first `;` at an index of at least 1 to the end of the line. -/
def get_line_comment_from_asm_line_code (line : List Char) : List Char :=
  (line.drop 1).dropWhile (fun c => c ≠ ';')

/-- The value of a decimal digit string. -/
def digitsValue : Int → List Char → Int
  | out, [] => out
  | out, c :: cs => digitsValue (out * 10 + ((c.toNat : Int) - ('0'.toNat : Int))) cs

/-- The function `std::stoi` on a non-empty digit string: `none` when it
throws `std::out_of_range`. -/
def stoi (digits : List Char) : Option Int :=
  if digitsValue 0 digits ≤ 2147483647 then some (digitsValue 0 digits) else none

/-- The function `get_linenumber_from_asm_line_comment(line_comment)`; `none`
when `std::stoi` throws. -/
def get_linenumber_from_asm_line_comment (line_comment : List Char) : Option Int :=
  match line_comment with
  | c0 :: c1 :: c2 :: rest =>
    if c0 = ';' && c1 = 'L' then
      match (c2 :: rest).dropWhile isdigit with
      | [] => some (-1)
      | t :: _ =>
        if t = ';' && 1 ≤ ((c2 :: rest).takeWhile isdigit).length
        then stoi ((c2 :: rest).takeWhile isdigit)
        else some (-1)
    else some (-1)
  | _ => some (-1)


/-! ## Constants -/

/-- The character a backslash escape stands for in a string literal (the
`switch` of `parseConstant`); an unknown escape adds nothing. -/
def escapeChar (c : Char) : List Char :=
  if c = 'a' then [Char.ofNat 7]
  else if c = 'b' then [Char.ofNat 8]
  else if c = 'f' then [Char.ofNat 12]
  else if c = 'n' then [Char.ofNat 10]
  else if c = 'r' then [Char.ofNat 13]
  else if c = 't' then [Char.ofNat 9]
  else if c = 'v' then [Char.ofNat 11]
  else if c = backslash then [backslash]
  else if c = dquote then [dquote]
  else if c = squote then [squote]
  else if c = '[' then ['[']
  else if c = ']' then [']']
  else []

/-- The string loop of `parseConstant`, entered behind the opening quote `cf`:
the string read and the cursor behind the closing quote; `none` when the
function returns `nullptr` (no closing quote, or a backslash at the end). -/
def parseStringBody (cf : Char) : List Char → List Char → Option (List Char × List Char)
  | _, [] => none
  | string, c :: cs =>
    if c = backslash then
      match cs with
      | [] => none
      | e :: cs1 => parseStringBody cf (string ++ escapeChar e) cs1
    else if c = cf then some (string, cs)
    else parseStringBody cf (string ++ [c]) cs

/-- The hexadecimal loop of `parseConstant`, `num = num * 16 + digit` in
`double` arithmetic. -/
def parseHexBody : lua_Number → List Char → lua_Number × List Char
  | num, [] => (num, [])
  | num, c :: cs =>
    if isxdigit c then
      if c.toNat ≤ '9'.toNat && '0'.toNat ≤ c.toNat then
        parseHexBody ((num.mul (.ofInt 16)).add (.ofInt ((c.toNat : Int) - ('0'.toNat : Int)))) cs
      else
        parseHexBody ((num.mul (.ofInt 16)).add
          (.ofInt (((tolower c).toNat : Int) - ('a'.toNat : Int) + 10))) cs
    else (num, c :: cs)

/-- The decimal loop of `parseConstant`, with its variables `num`, `frac`,
`dpart`, in `double` arithmetic. -/
def parseDecBody : lua_Number → lua_Number → Bool → List Char → lua_Number × List Char
  | num, _, _, [] => (num, [])
  | num, frac, dpart, c :: cs =>
    if isdigit c then
      if dpart then
        parseDecBody (num.add (frac.mul (.ofInt ((c.toNat : Int) - ('0'.toNat : Int)))))
          (frac.mul .tenth) dpart cs
      else
        parseDecBody ((num.mul (.ofInt 10)).add (.ofInt ((c.toNat : Int) - ('0'.toNat : Int))))
          frac dpart cs
    else if c = '.' && !dpart then parseDecBody num .tenth true cs
    else (num, c :: cs)

/-- Lines 226 to 372 of `parseConstant`: the literal at the cursor, as the
value `tval` and the cursor `bend` behind it; `none` when the function returns
`nullptr` there. -/
def parseLiteral (start : List Char) : Option (TValue × List Char) :=
  match start with
  | [] => none
  | c0 :: cs =>
    if tolower c0 = squote || tolower c0 = dquote then
      match parseStringBody (tolower c0) [] cs with
      | none => none
      | some (string, bend) => some (.TString (String.mk string), bend)
    else if isdigit (tolower c0) || (tolower c0 = '-' || tolower c0 = '+') then
      if tolower c0 = '-' || tolower c0 = '+' then
        match cs with
        | [] => none
        | _ :: _ =>
          if tolower c0 = '-' then
            some (.TNumber (((parseDecBody (.ofInt 0) (.ofInt 0) false cs).1).mul (.ofInt (-1))),
              (parseDecBody (.ofInt 0) (.ofInt 0) false cs).2)
          else
            some (.TNumber (parseDecBody (.ofInt 0) (.ofInt 0) false cs).1,
              (parseDecBody (.ofInt 0) (.ofInt 0) false cs).2)
      else
        match c0, cs with
        | '0', 'x' :: cs1 =>
          some (.TNumber (parseHexBody (.ofInt 0) cs1).1, (parseHexBody (.ofInt 0) cs1).2)
        | _, _ =>
          some (.TNumber (parseDecBody (.ofInt 0) (.ofInt 0) false (c0 :: cs)).1,
            (parseDecBody (.ofInt 0) (.ofInt 0) false (c0 :: cs)).2)
    else if tolower c0 = 't' || tolower c0 = 'f' || tolower c0 = 'n' then
      if lower ((c0 :: cs).takeWhile isalpha) = "true".toList then
        some (.TBool true, (c0 :: cs).dropWhile isalpha)
      else if lower ((c0 :: cs).takeWhile isalpha) = "false".toList then
        some (.TBool false, (c0 :: cs).dropWhile isalpha)
      else if lower ((c0 :: cs).takeWhile isalpha) = "nil".toList then
        some (.TNil, (c0 :: cs).dropWhile isalpha)
      else none
    else none

/-- The search loop of `parseConstant` (lines 383 to 393): the first index,
counted from `i`, of a pool entry equal to `tval`. -/
def findConstant (tval : TValue) : List TValue → Nat → Option Nat
  | [], _ => none
  | c :: cs, i => if c.eq tval then some i else findConstant tval cs (i + 1)

/-- Lines 383 to 400 of `parseConstant`: reuse of an equal pool entry or
insertion at the end; the pool and the index written to `*id`. -/
def addConstant (constants : List TValue) (tval : TValue) : List TValue × Nat :=
  match findConstant tval constants 0 with
  | some i => (constants, i)
  | none => (constants ++ [tval], (constants ++ [tval]).length - 1)

/-- Lines 374 to 381 of `parseConstant`: inside a constant segment the literal
must be followed by blanks up to the end of the line or a comment. -/
def constTrailing (status : ParseStatus) (bend : List Char) : Option (List Char) :=
  if status = .PARSE_CONST then
    match bend with
    | [] => some bend
    | c :: _ =>
      if c = ';' then some bend
      else
        match bend.dropWhile isblank with
        | [] => some []
        | d :: ds => if d = ';' then some (d :: ds) else none
  else some bend

/-- The function `Assembler::parseConstant(start, end, id)`: the returned
cursor with the index stored in `*id` (a caller passing `nullptr` ignores it),
and the state after the call. -/
def parseConstant (a : Assembler) (start : List Char) : Option (List Char × Nat) × Assembler :=
  match parseLiteral start with
  | none => (none, a)
  | some (tval, bend) =>
    match constTrailing a.parseStatus_ bend with
    | none => (none, a)
    | some bend1 =>
      (some (bend1, (addConstant a.constants_ tval).2),
        { a with constants_ := (addConstant a.constants_ tval).1 })


/-! ## Operands -/

/-- The legality bit `LIMIT_STACKIDX`. -/
def LIMIT_STACKIDX : Nat := 1
/-- The legality bit `LIMIT_UPVALUE`. -/
def LIMIT_UPVALUE : Nat := 2
/-- The legality bit `LIMIT_LOCATION`. -/
def LIMIT_LOCATION : Nat := 4
/-- The legality bit `LIMIT_CONSTANT`. -/
def LIMIT_CONSTANT : Nat := 8
/-- The legality bit `LIMIT_EMBED`. -/
def LIMIT_EMBED : Nat := 0x10
/-- The legality bit `LIMIT_PROTO`. -/
def LIMIT_PROTO : Nat := 0x20
/-- The mask `LIMIT_CONSTANT | LIMIT_STACKIDX`. -/
def LIMIT_CONST_STACK : Nat := LIMIT_CONSTANT ||| LIMIT_STACKIDX

/-- The test `limit & bit` of `parseOperand`. -/
def hasLimit (limit bit : Nat) : Bool := limit &&& bit != 0

/-- Arithmetic in `size_t`: reduction modulo `2 ^ 64`. -/
def sizeArith (x : Int) : Int := x % 2 ^ 64

/-- The call `std::strncmp(a, b, n) == 0` on NUL-terminated strings (the end
of a list is the terminator). -/
def strncmpEq : List Char → List Char → Nat → Bool
  | _, _, 0 => true
  | [], [], _ + 1 => true
  | [], _ :: _, _ + 1 => false
  | _ :: _, [], _ + 1 => false
  | x :: xs, y :: ys, n + 1 => x = y && strncmpEq xs ys n

/-- A declared and not yet assigned `Operand op;`. -/
def Operand.uninit : Operand := ⟨.STACKIDX, 0⟩

/-- The test of lines 480 to 482 of `parseOperand`: the operand starts with
`c` and its alphabetic run, which does not reach the end of the line, compares
equal to `const` under `strncmp` over the length of the run. -/
def constKeyword (start : List Char) : Bool :=
  match start with
  | [] => false
  | c :: _ =>
    c = 'c' && (start.dropWhile isalpha != [] &&
      strncmpEq start "const".toList (start.takeWhile isalpha).length)

/-- Lines 483 to 503 of `parseOperand`: the constant operand behind the
keyword, `bend` being the cursor behind the alphabetic run. -/
def parseOperandConst (a : Assembler) (operand : Operand) (bend : List Char) (limit : Nat) :
    Option (List Char) × Operand × Assembler :=
  if !hasLimit limit LIMIT_CONSTANT then (none, operand, a)
  else
    match bend.dropWhile isblank with
    | [] => (none, operand, a)
    | c :: cs =>
      if c = ';' then (none, operand, a)
      else
        match parseConstant a (c :: cs) with
        | (none, a1) => (none, operand, a1)
        | (some (bend1, id), a1) =>
          if hasLimit limit LIMIT_STACKIDX then
            (some bend1, ⟨.CONSTANT, toInt (RKASK id)⟩, a1)
          else (some bend1, ⟨.CONSTANT, toInt id⟩, a1)

/-- Lines 508 to 527 of `parseOperand`: the prototype reference. -/
def parseOperandProto (a : Assembler) (operand : Operand) (start : List Char) :
    Option (List Char) × Operand × Assembler :=
  match parseLabel start with
  | none => (none, operand, a)
  | some (label, bend) =>
    match mapFind a.usedSubroutines_ label with
    | some u =>
      if u ≠ a.funcid_ then (none, operand, a)
      else
        (some bend, { operand with value_ := -1 },
          { a with neededSubroutines_ :=
              a.neededSubroutines_ ++ [(label, toInt a.instructions_.length)] })
    | none =>
      (some bend, { operand with value_ := -1 },
        { a with
          neededSubroutines_ := a.neededSubroutines_ ++ [(label, toInt a.instructions_.length)]
          usedSubroutines_ := mapAssign a.usedSubroutines_ label a.funcid_
          f_usedSubroutines_ := a.f_usedSubroutines_ ++ [label] })

/-- Lines 529 to 560 of `parseOperand`: the embedded literal. -/
def parseOperandEmbed (a : Assembler) (operand : Operand) (start : List Char) (limit : Nat) :
    Option (List Char) × Operand × Assembler :=
  if !hasLimit limit (LIMIT_EMBED ||| LIMIT_CONSTANT) then (none, operand, a)
  else
    match start with
    | [] => (none, operand, a)
    | c :: _ =>
      if tolower c = 't' || tolower c = 'f' then
        if lower (start.takeWhile isalpha) = "true".toList then
          (some (start.dropWhile isalpha), ⟨.EMBEDDED, 1⟩, a)
        else if lower (start.takeWhile isalpha) = "false".toList then
          (some (start.dropWhile isalpha), ⟨.EMBEDDED, 0⟩, a)
        else (none, operand, a)
      else
        match parseInt .int start with
        | none => (none, operand, a)
        | some (val, bend) => (some bend, ⟨.EMBEDDED, val⟩, a)

/-- The check behind a `%N` or `@N` operand: the cursor is at the end of the
line, at a blank or at a `;`. -/
def operandEnd (bend : List Char) : Bool :=
  match bend with
  | [] => true
  | b :: _ => isblank b || b = ';'

/-- The function `Assembler::parseOperand(operand, start, end, limit)`: the
returned cursor, the operand and the state after the call. -/
def parseOperand (a : Assembler) (operand : Operand) (start : List Char) (limit : Nat) :
    Option (List Char) × Operand × Assembler :=
  match start.dropWhile isblank with
  | [] => (none, operand, a)
  | c :: cs =>
    if c = ';' then (none, operand, a)
    else if c = '%' then
      if !hasLimit limit LIMIT_STACKIDX || cs = [] then (none, operand, a)
      else
        match parseInt .size_t cs with
        | none => (none, operand, a)
        | some (val, bend) =>
          if !operandEnd bend then (none, operand, a)
          else (some bend, ⟨.STACKIDX, toInt val⟩, a)
    else if c = '@' then
      if !hasLimit limit LIMIT_UPVALUE || cs = [] then (none, operand, a)
      else
        match parseInt .size_t cs with
        | none => (none, operand, a)
        | some (val, bend) =>
          if !operandEnd bend then (none, operand, a)
          else (some bend, ⟨.UPVALUE, toInt val⟩, a)
    else if c = '$' then
      if !hasLimit limit LIMIT_LOCATION || cs = [] then (none, operand, a)
      else
        match parseLabel cs with
        | none => (none, operand, a)
        | some (label, bend) =>
          match mapFind a.locations_ label with
          | none =>
            (some bend, ⟨.LOCATION, -1⟩,
              { a with neededLocations_ :=
                  a.neededLocations_ ++ [(label, toInt a.instructions_.length)] })
          | some target =>
            (some bend,
              ⟨.LOCATION, toInt (sizeArith (target - (a.instructions_.length : Int) - 1))⟩, a)
    else if constKeyword (c :: cs) then
      parseOperandConst a operand ((c :: cs).dropWhile isalpha) limit
    else if hasLimit limit LIMIT_PROTO then parseOperandProto a operand (c :: cs)
    else parseOperandEmbed a operand (c :: cs) limit

/-! ## Opcode metadata -/

/-- The enumeration `OpPos`. -/
inductive OpPos where
  | OPP_A
  | OPP_B
  | OPP_C
  | OPP_Ax
  | OPP_Bx
  | OPP_sBx
  | OPP_ARG
  | OPP_C_ARG
  deriving DecidableEq, Repr

/-- The record `OpInfo`. -/
structure OpInfo where
  position : OpPos
  limit : Nat
  deriving DecidableEq, Repr

/-- The table `opcount`. -/
def opcount : List Nat :=
  [2, 2, 2, 3, 2, 2, 3, 3, 3, 2, 3, 3, 3, 3, 3, 3, 3, 3, 3, 3, 3, 3, 3, 3, 3, 2, 2, 2, 2, 3,
   2, 3, 3, 3, 2, 3, 3, 3, 2, 2, 2, 2, 2, 3, 2, 2, 1]

/-- The row shape of the arithmetic opcodes in `opinfo`. -/
def opinfoArith : List OpInfo :=
  [⟨.OPP_A, LIMIT_STACKIDX⟩, ⟨.OPP_B, LIMIT_CONST_STACK⟩, ⟨.OPP_C, LIMIT_CONST_STACK⟩]

/-- The table `opinfo`. -/
def opinfo : List (List OpInfo) :=
  [ [⟨.OPP_A, LIMIT_STACKIDX⟩, ⟨.OPP_B, LIMIT_STACKIDX⟩],
    [⟨.OPP_A, LIMIT_STACKIDX⟩, ⟨.OPP_Bx, LIMIT_CONSTANT⟩],
    [⟨.OPP_A, LIMIT_STACKIDX⟩, ⟨.OPP_ARG, LIMIT_CONSTANT⟩],
    [⟨.OPP_A, LIMIT_STACKIDX⟩, ⟨.OPP_B, LIMIT_EMBED⟩, ⟨.OPP_C, LIMIT_EMBED⟩],
    [⟨.OPP_A, LIMIT_STACKIDX⟩, ⟨.OPP_B, LIMIT_EMBED⟩],
    [⟨.OPP_A, LIMIT_STACKIDX⟩, ⟨.OPP_B, LIMIT_UPVALUE⟩],
    [⟨.OPP_A, LIMIT_STACKIDX⟩, ⟨.OPP_B, LIMIT_UPVALUE⟩, ⟨.OPP_C, LIMIT_CONST_STACK⟩],
    [⟨.OPP_A, LIMIT_STACKIDX⟩, ⟨.OPP_B, LIMIT_STACKIDX⟩, ⟨.OPP_C, LIMIT_CONST_STACK⟩],
    [⟨.OPP_A, LIMIT_UPVALUE⟩, ⟨.OPP_B, LIMIT_CONST_STACK⟩, ⟨.OPP_C, LIMIT_CONST_STACK⟩],
    [⟨.OPP_B, LIMIT_UPVALUE⟩, ⟨.OPP_A, LIMIT_STACKIDX⟩],
    opinfoArith,
    [⟨.OPP_A, LIMIT_STACKIDX⟩, ⟨.OPP_B, LIMIT_EMBED⟩, ⟨.OPP_C, LIMIT_EMBED⟩],
    [⟨.OPP_A, LIMIT_STACKIDX⟩, ⟨.OPP_B, LIMIT_STACKIDX⟩, ⟨.OPP_C, LIMIT_CONST_STACK⟩],
    opinfoArith, opinfoArith, opinfoArith, opinfoArith, opinfoArith, opinfoArith,
    opinfoArith, opinfoArith, opinfoArith, opinfoArith, opinfoArith, opinfoArith,
    [⟨.OPP_A, LIMIT_STACKIDX⟩, ⟨.OPP_B, LIMIT_STACKIDX⟩],
    [⟨.OPP_A, LIMIT_STACKIDX⟩, ⟨.OPP_B, LIMIT_STACKIDX⟩],
    [⟨.OPP_A, LIMIT_STACKIDX⟩, ⟨.OPP_B, LIMIT_STACKIDX⟩],
    [⟨.OPP_A, LIMIT_STACKIDX⟩, ⟨.OPP_B, LIMIT_STACKIDX⟩],
    [⟨.OPP_A, LIMIT_STACKIDX⟩, ⟨.OPP_B, LIMIT_STACKIDX⟩, ⟨.OPP_C, LIMIT_STACKIDX⟩],
    [⟨.OPP_A, LIMIT_EMBED⟩, ⟨.OPP_sBx, LIMIT_LOCATION⟩],
    [⟨.OPP_A, LIMIT_EMBED⟩, ⟨.OPP_B, LIMIT_CONST_STACK⟩, ⟨.OPP_C, LIMIT_CONST_STACK⟩],
    [⟨.OPP_A, LIMIT_EMBED⟩, ⟨.OPP_B, LIMIT_CONST_STACK⟩, ⟨.OPP_C, LIMIT_CONST_STACK⟩],
    [⟨.OPP_A, LIMIT_EMBED⟩, ⟨.OPP_B, LIMIT_CONST_STACK⟩, ⟨.OPP_C, LIMIT_CONST_STACK⟩],
    [⟨.OPP_A, LIMIT_STACKIDX⟩, ⟨.OPP_C, LIMIT_EMBED⟩],
    [⟨.OPP_A, LIMIT_STACKIDX⟩, ⟨.OPP_B, LIMIT_STACKIDX⟩, ⟨.OPP_C, LIMIT_EMBED⟩],
    [⟨.OPP_A, LIMIT_STACKIDX⟩, ⟨.OPP_B, LIMIT_EMBED⟩, ⟨.OPP_C, LIMIT_EMBED⟩],
    [⟨.OPP_A, LIMIT_STACKIDX⟩, ⟨.OPP_B, LIMIT_EMBED⟩, ⟨.OPP_C, LIMIT_EMBED⟩],
    [⟨.OPP_A, LIMIT_STACKIDX⟩, ⟨.OPP_B, LIMIT_EMBED⟩],
    [⟨.OPP_A, LIMIT_STACKIDX⟩, ⟨.OPP_sBx, LIMIT_LOCATION⟩],
    [⟨.OPP_A, LIMIT_STACKIDX⟩, ⟨.OPP_sBx, LIMIT_LOCATION⟩],
    [⟨.OPP_A, LIMIT_STACKIDX⟩, ⟨.OPP_C, LIMIT_EMBED⟩],
    [⟨.OPP_A, LIMIT_STACKIDX⟩, ⟨.OPP_sBx, LIMIT_LOCATION⟩],
    [⟨.OPP_A, LIMIT_STACKIDX⟩, ⟨.OPP_B, LIMIT_EMBED⟩, ⟨.OPP_C_ARG, LIMIT_EMBED⟩],
    [⟨.OPP_A, LIMIT_STACKIDX⟩, ⟨.OPP_Bx, LIMIT_PROTO⟩],
    [⟨.OPP_A, LIMIT_STACKIDX⟩, ⟨.OPP_Bx, LIMIT_EMBED⟩],
    [⟨.OPP_Ax, LIMIT_EMBED⟩] ]


/-! ## Code lines -/

/-- The assignment through `Instruction *ins = &instructions_[idx]`: the word
at index `idx` is replaced by `f` of it (an index outside the vector, which the
source never produces on a line it accepts, changes nothing). -/
def patchAt (instructions : List Instruction) (idx : Int) (f : Instruction → Instruction) :
    List Instruction :=
  if idx < 0 then instructions
  else
    match instructions.get? idx.toNat with
    | none => instructions
    | some i => instructions.set idx.toNat (f i)

/-- The patch loop of lines 704 to 717 of `parseCode` for the label `label`
declared at instruction count `n`: every pending entry with that name has the
sBx field of its instruction set to `n - idx - 1` and is erased. (After
`erase(it)` the source goes on with the same iterator, which then designates
the next entry.) -/
def resolveLocations (label : String) (n : Nat) :
    List (String × Int) → List Instruction → List (String × Int) × List Instruction
  | [], instructions => ([], instructions)
  | (name, idx) :: rest, instructions =>
    if name = label then
      resolveLocations label n rest
        (patchAt instructions idx (fun i => SETARG_sBx i (sizeArith ((n : Int) - idx - 1))))
    else
      ((name, idx) :: (resolveLocations label n rest instructions).1,
        (resolveLocations label n rest instructions).2)

/-- The search of the mnemonic in `luaP_opnames` (lines 727 to 733). -/
def findOpcode (opcodestr : String) : List String → Nat → Option Nat
  | [], _ => none
  | name :: names, i => if opcodestr = name then some i else findOpcode opcodestr names (i + 1)

/-- The local variables `ins`, `extended`, `useExtended` of `parseCode`. -/
structure CodeVars where
  ins : Instruction
  extended : Int
  useExtended : Bool
  deriving DecidableEq, Repr

/-- The `switch (info[i].position)` of `parseCode`. -/
def storeOperand (position : OpPos) (value : Int) (v : CodeVars) : CodeVars :=
  match position with
  | .OPP_A => { v with ins := SETARG_A v.ins value }
  | .OPP_B => { v with ins := SETARG_B v.ins value }
  | .OPP_C => { v with ins := SETARG_C v.ins value }
  | .OPP_Bx => { v with ins := SETARG_Bx v.ins value }
  | .OPP_Ax => { v with ins := SETARG_Ax v.ins value }
  | .OPP_sBx => { v with ins := SETARG_sBx v.ins value }
  | .OPP_ARG => { v with extended := value, useExtended := true }
  | .OPP_C_ARG =>
    if value > (MAXARG_C : Int) then
      { ins := SETARG_C v.ins 0, extended := value, useExtended := true }
    else { v with ins := SETARG_C v.ins value }

/-- The operand loop of `parseCode` (lines 746 to 785) over the operand slots
still to read: `none` when an operand is rejected. -/
def parseOperands : List OpInfo → Assembler → CodeVars → List Char →
    Option (CodeVars × List Char) × Assembler
  | [], a, v, bend => (some (v, bend), a)
  | info :: infos, a, v, bend =>
    match parseOperand a Operand.uninit bend info.limit with
    | (none, _, a1) => (none, a1)
    | (some bend1, op, a1) =>
      parseOperands infos a1 (storeOperand info.position op.value_ v) bend1

/-- The extra-argument word pushed by lines 795 to 798 of `parseCode`. The
block declares `Instruction extended = 0`, which hides the `int extended` of
the enclosing scope, so the value given to `SETARG_Ax` is the word itself. -/
def extraArgWord : Instruction :=
  SETARG_Ax (SET_OPCODE 0 OP_EXTRAARG) ((SET_OPCODE 0 OP_EXTRAARG : Nat) : Int)

/-- The test "the cursor, after blanks, is neither at the end of the line nor
at a `;`" (lines 787 to 788 of `parseCode`, 816 to 817 of `parseUpvalue`). -/
def trailingText (bend : List Char) : Bool :=
  match bend.dropWhile isblank with
  | [] => false
  | c :: _ => c != ';'

/-- Lines 792 to 799 of `parseCode`: the instruction is appended, followed by
the extra-argument word when `useExtended` is set. -/
def pushInstruction (instructions : List Instruction) (v : CodeVars) : List Instruction :=
  if v.useExtended then instructions ++ [v.ins] ++ [extraArgWord]
  else instructions ++ [v.ins]

/-- Lines 721 to 801 of `parseCode`: the instruction line with mnemonic
`opcodestr` and operands at `bend`. -/
def parseInstruction (a : Assembler) (opcodestr : String) (bend : List Char) :
    BoolRes × Assembler :=
  match findOpcode (String.mk (lower opcodestr.toList)) luaP_opnames 0 with
  | none => (⟨false, "invalid opcode"⟩, a)
  | some opcode =>
    match parseOperands ((opinfo.getD opcode []).take (opcount.getD opcode 0)) a
        ⟨SET_OPCODE 0 opcode, 0, false⟩ bend with
    | (none, a1) => (⟨false, "invalid operand(s)"⟩, a1)
    | (some (v, bend1), a1) =>
      if trailingText bend1 then (⟨false, "too many operands in instruction"⟩, a1)
      else (⟨true, ""⟩, { a1 with instructions_ := pushInstruction a1.instructions_ v })

/-- Lines 701 to 720 of `parseCode`: the declaration of the label `opcodestr`. -/
def declareLabel (a : Assembler) (opcodestr : String) : Assembler :=
  { a with
    locations_ := mapAssign a.locations_ opcodestr (toInt a.instructions_.length)
    neededLocations_ :=
      (resolveLocations opcodestr a.instructions_.length a.neededLocations_ a.instructions_).1
    instructions_ :=
      (resolveLocations opcodestr a.instructions_.length a.neededLocations_ a.instructions_).2 }

/-- Lines 696 to 699 of `parseCode`: the line number of the marker, when there
is one, is appended to `lineinfos_`. -/
def withLineinfo (a : Assembler) (linenumber : Int) : Assembler :=
  if linenumber ≥ 0 then { a with lineinfos_ := a.lineinfos_ ++ [linenumber] } else a

/-- The function `Assembler::parseCode(line, len)`; `none` when the line-number
marker makes `std::stoi` throw. -/
def parseCode (a : Assembler) (line : List Char) : Option (BoolRes × Assembler) :=
  match parseLabel line with
  | none => some (⟨false, "invalid opcode"⟩, a)
  | some (opcodestr, bend) =>
    match get_linenumber_from_asm_line_comment (get_line_comment_from_asm_line_code line) with
    | none => none
    | some linenumber =>
      match bend with
      | ':' :: _ => some (⟨true, ""⟩, declareLabel (withLineinfo a linenumber) opcodestr)
      | _ => some (parseInstruction (withLineinfo a linenumber) opcodestr bend)

/-- The function `Assembler::parseUpvalue(line, len)`. -/
def parseUpvalue (a : Assembler) (line : List Char) : BoolRes × Assembler :=
  match parseInt .uchar line with
  | none => (⟨false, "could not parse instack"⟩, a)
  | some (instack, c) =>
    match parseInt .uchar c with
    | none => (⟨false, "could not parse idx"⟩, a)
    | some (idx, c1) =>
      if trailingText c1 then (⟨false, "invalid upvalue"⟩, a)
      else (⟨true, ""⟩, { a with upvalues_ := a.upvalues_ ++ [⟨instack.toNat, idx.toNat, ""⟩] })

/-! ## Finalization -/

/-- The loop of lines 849 to 851 of `finalizeFunction`. -/
def appendLocations : String → List (String × Int) → String
  | locList, [] => locList
  | locList, (name, _) :: rest => appendLocations (locList ++ (", " ++ name)) rest

/-- The function `Assembler::finalizeFunction()`. A vector or string that has
been moved from is empty. -/
def finalizeFunction (a : Assembler) : BoolRes × Assembler :=
  match a.neededLocations_ with
  | (first, _) :: rest => (⟨false, appendLocations ("undeclared locations: " ++ first) rest⟩, a)
  | [] =>
    (⟨true, ""⟩,
      { a with
        funcname_ := ""
        instructions_ := []
        upvalues_ := []
        constants_ := []
        neededSubroutines_ := []
        f_usedSubroutines_ := []
        lineinfos_ := []
        functions_ := mapAssign a.functions_ a.funcname_
          { name := a.funcname_
            instructions := a.instructions_
            upvalues := a.upvalues_
            constants := a.constants_
            neededSubroutines := a.neededSubroutines_
            usedSubroutines := a.f_usedSubroutines_
            maxstacksize := a.f_maxstacksize_ % 256
            params := a.f_params_ % 256
            vararg := a.f_vararg_ % 256
            lineinfos := a.lineinfos_ } })

/-! ## Directives -/

/-- Lines 165 to 183 of `parseDirective`: the arguments of `.func`, `args`
being the range from the cursor `c` to `end`. Each argument is stored as soon
as it is read. -/
def directiveFuncArgs (a : Assembler) (args : List Char) : BoolRes × Assembler :=
  match parseLabel args with
  | none => (⟨false, "invalid args for directive .func"⟩, a)
  | some (funcname, c1) =>
    match parseInt .uint c1 with
    | none => (⟨false, "invalid args for directive .func"⟩, { a with funcname_ := funcname })
    | some (maxstacksize, c2) =>
      match parseInt .uint c2 with
      | none =>
        (⟨false, "invalid args for directive .func"⟩,
          { a with funcname_ := funcname, f_maxstacksize_ := maxstacksize.toNat })
      | some (params, c3) =>
        match parseInt .uint c3 with
        | none =>
          (⟨false, "invalid args for directive .func"⟩,
            { a with funcname_ := funcname, f_maxstacksize_ := maxstacksize.toNat
                     f_params_ := params.toNat })
        | some (vararg, _) =>
          if vararg > 2 then
            (⟨false, "vararg cannot be greater than 2"⟩,
              { a with funcname_ := funcname, f_maxstacksize_ := maxstacksize.toNat
                       f_params_ := params.toNat, f_vararg_ := vararg.toNat })
          else
            (⟨true, ""⟩,
              { a with funcname_ := funcname, f_maxstacksize_ := maxstacksize.toNat
                       f_params_ := params.toNat, f_vararg_ := vararg.toNat
                       funcid_ := toInt (a.funcid_ + 1)
                       parseStatus_ := .PARSE_FUNC })

/-- The `.func` branch of `parseDirective` (lines 154 to 183). -/
def directiveFunc (a : Assembler) (args : List Char) : BoolRes × Assembler :=
  if a.parseStatus_ ≠ .PARSE_FUNC ∧ a.parseStatus_ ≠ .PARSE_NONE then
    (⟨false, "func declaration cannot be inside a code or const segment"⟩, a)
  else if a.instructions_ = [] then directiveFuncArgs a args
  else if (finalizeFunction a).1.success then directiveFuncArgs (finalizeFunction a).2 args
  else finalizeFunction a

/-- Lines 144 to 223 of `parseDirective`: the dispatch on the lowered
directive name, `args` being the range from the cursor `c` to `end`. -/
def directiveDispatch (a : Assembler) (name : List Char) (args : List Char) :
    BoolRes × Assembler :=
  if lower name = "upvalues".toList then
    if a.bUpvalues_ then (⟨false, "already declared amount of upvalues"⟩, a)
    else
      match parseInt .uint args with
      | none => (⟨false, "invalid args for directive .upvalues"⟩, a)
      | some (n, _) => (⟨true, ""⟩, { a with nUpvalues_ := n.toNat, bUpvalues_ := true })
  else if lower name = "func".toList then directiveFunc a args
  else if lower name = "begin_const".toList then
    if a.parseStatus_ ≠ .PARSE_FUNC then
      (⟨false, "const declaration must be inside function"⟩, a)
    else (⟨true, ""⟩, { a with parseStatus_ := .PARSE_CONST })
  else if lower name = "end_const".toList then
    if a.parseStatus_ ≠ .PARSE_CONST then
      (⟨false, "end_const must be inside const segment"⟩, a)
    else (⟨true, ""⟩, { a with parseStatus_ := .PARSE_FUNC })
  else if lower name = "begin_code".toList then
    if a.parseStatus_ ≠ .PARSE_FUNC then
      (⟨false, "code declaration must be inside function"⟩, a)
    else (⟨true, ""⟩, { a with parseStatus_ := .PARSE_CODE })
  else if lower name = "end_code".toList then
    if a.parseStatus_ ≠ .PARSE_CODE then
      (⟨false, "end_code must be inside code segment"⟩, a)
    else (⟨true, ""⟩, { a with parseStatus_ := .PARSE_FUNC })
  else if lower name = "begin_upvalue".toList then
    if a.parseStatus_ ≠ .PARSE_FUNC then
      (⟨false, "upvalue declaration must be inside function"⟩, a)
    else (⟨true, ""⟩, { a with parseStatus_ := .PARSE_UPVALUE })
  else if lower name = "end_upvalue".toList then
    if a.parseStatus_ ≠ .PARSE_UPVALUE then
      (⟨false, "end_upvalue must be inside upvalue segment"⟩, a)
    else (⟨true, ""⟩, { a with parseStatus_ := .PARSE_FUNC })
  else (⟨true, ""⟩, a)

/-- Lines 136 to 223 of `parseDirective`, once the scan has fixed the name and
the argument range; `none` when `std::stoi` throws on the line-number marker. -/
def directiveNamed (a : Assembler) (line name args : List Char) : Option (BoolRes × Assembler) :=
  if name = [] then some (⟨false, "could not parse directive"⟩, a)
  else
    match get_linenumber_from_asm_line_comment (get_line_comment_from_asm_line_code line) with
    | none => none
    | some _ => some (directiveDispatch a name args)

/-- The function `Assembler::parseDirective(line, len)`, for a line whose first
character is `.`. When the name is ended by a `;` the source steps the cursor
back by one (`end = --c`): the name loses its last character and the argument
range is empty; with no name character before the `;` the range given to
`name.assign` is reversed, and the result is `none`. -/
def parseDirective (a : Assembler) (line : List Char) : Option (BoolRes × Assembler) :=
  match (line.drop 1).dropWhile isLabelChar with
  | [] => directiveNamed a line ((line.drop 1).takeWhile isLabelChar) []
  | x :: xs =>
    if isblank x then directiveNamed a line ((line.drop 1).takeWhile isLabelChar) (x :: xs)
    else if x = ';' then
      match ((line.drop 1).takeWhile isLabelChar).reverse with
      | [] => none
      | _ :: r => directiveNamed a line r.reverse []
    else
      some (⟨false, "could not parse directive: illegal character "
        ++ String.mk [squote, x, squote]⟩, a)

/-- The function `Assembler::parseLine(line, len)`. -/
def parseLine (a : Assembler) (line : List Char) : Option (BoolRes × Assembler) :=
  match line with
  | '.' :: _ => parseDirective a line
  | _ =>
    match a.parseStatus_ with
    | .PARSE_CONST =>
      match parseConstant a line with
      | (none, a1) => some (⟨false, "could not parse constant"⟩, a1)
      | (some _, a1) => some (⟨true, ""⟩, a1)
    | .PARSE_CODE => parseCode a line
    | .PARSE_UPVALUE => some (parseUpvalue a line)
    | _ => some (⟨false, "unimplemented"⟩, a)


/-! ## Writing -/

/-- The call `wbuffer_->write<T>(value)`: the writer's reply and the state
with the call recorded. (`assemble` refuses a null `wbuffer_` before any write.) -/
def wwrite (a : Assembler) (c : WriteCall) : BoolRes × Assembler :=
  match a.wbuffer_ with
  | none => (⟨false, ""⟩, a)
  | some w => (w.answer w.written c, { a with wbuffer_ := some { w with written := w.written ++ [c] } })

/-- The call `wbuffer_->writeBytes(ptr, len)`: the count the writer returns
and the state with the call recorded. -/
def wwriteBytes (a : Assembler) (c : WriteCall) : Nat × Assembler :=
  match a.wbuffer_ with
  | none => (0, a)
  | some w => (w.count w.written c, { a with wbuffer_ := some { w with written := w.written ++ [c] } })

/-- Sequencing of two steps of a writer function: the second runs only when
the first succeeded (`if (!res.success()) return res;`). -/
def andThen (r : BoolRes × Assembler) (k : Assembler → BoolRes × Assembler) :
    BoolRes × Assembler :=
  if r.1.success then k r.2 else r

/-- The check `if (writeBytes(...) != len) return BoolRes(false, msg)`. -/
def wwriteBytesAll (a : Assembler) (c : WriteCall) (len : Nat) (msg : String) :
    BoolRes × Assembler :=
  if (wwriteBytes a c).1 ≠ len then (⟨false, msg⟩, (wwriteBytes a c).2)
  else (⟨true, ""⟩, (wwriteBytes a c).2)

/-- The function `Assembler::writeString(string)`. -/
def writeString (a : Assembler) (string : String) : BoolRes × Assembler :=
  andThen
    (if string.length < 0xFE then wwrite a (.u8 ((string.length + 1) % 256))
     else andThen (wwrite a (.u8 0xFF)) fun a1 => wwrite a1 (.size (string.length + 1)))
    fun a2 => wwriteBytesAll a2 (.bytes string) string.length "could not write string"

/-- Modelled from the spec: `lconfig.h` is not among the sources. The values
of the header: "a magic signature, version byte, format byte, a fixed data
fingerprint, then byte-sized fields recording the host's `int`, `size_t`,
instruction-word, integer, and float width", "one sentinel integer and one
sentinel float value". -/
structure LConfig where
  LUA_SIGNATURE : String
  LUAC_VERSION : Nat
  LUAC_FORMAT : Nat
  LUAC_DATA : String
  sizeof_int : Nat
  sizeof_size_t : Nat
  sizeof_Instruction : Nat
  sizeof_lua_Integer : Nat
  sizeof_lua_Number : Nat
  LUAC_INT : Int
  LUAC_NUM : lua_Number

/-- The macro `WRITE_ASSERT(f, msg)`. -/
def writeAssert (r : BoolRes × Assembler) (msg : String) : BoolRes × Assembler :=
  if r.1.success then (⟨true, ""⟩, r.2) else (⟨false, msg⟩, r.2)

/-- The function `Assembler::writeHeader()`. -/
def writeHeader (cfg : LConfig) (a : Assembler) : BoolRes × Assembler :=
  andThen (wwriteBytesAll a (.bytes cfg.LUA_SIGNATURE) cfg.LUA_SIGNATURE.length
    "failed to write signature") fun a =>
  andThen (writeAssert (wwrite a (.u8 cfg.LUAC_VERSION)) "failed to write version") fun a =>
  andThen (writeAssert (wwrite a (.u8 cfg.LUAC_FORMAT)) "failed to write format") fun a =>
  andThen (wwriteBytesAll a (.bytes cfg.LUAC_DATA) cfg.LUAC_DATA.length
    "failed to write LUAC_DATA") fun a =>
  andThen (writeAssert (wwrite a (.u8 cfg.sizeof_int)) "failed to write int size") fun a =>
  andThen (writeAssert (wwrite a (.u8 cfg.sizeof_size_t)) "failed to write size_t size") fun a =>
  andThen (writeAssert (wwrite a (.u8 cfg.sizeof_Instruction))
    "failed to write instruction size") fun a =>
  andThen (writeAssert (wwrite a (.u8 cfg.sizeof_lua_Integer))
    "failed to write integer size") fun a =>
  andThen (writeAssert (wwrite a (.u8 cfg.sizeof_lua_Number))
    "failed to write number size") fun a =>
  andThen (writeAssert (wwrite a (.integer cfg.LUAC_INT)) "failed to write LUAC_INT") fun a =>
  writeAssert (wwrite a (.number cfg.LUAC_NUM)) "failed to write LUAC_NUM"

/-- Lines 920 to 939 of `writeFunction`: name, two zero integers, `params`,
`vararg`, `maxstacksize`. -/
def writeFunctionHead (function : ParsedFunction) (a : Assembler) : BoolRes × Assembler :=
  andThen (writeString a function.name) fun a =>
  andThen (wwrite a (.i32 0)) fun a =>
  andThen (wwrite a (.i32 0)) fun a =>
  andThen (wwrite a (.u8 function.params)) fun a =>
  andThen (wwrite a (.u8 function.vararg)) fun a =>
  wwrite a (.u8 function.maxstacksize)

/-- The inner loop of lines 953 to 960 of `writeFunction`: every pending
subroutine patch named `pName` has the Bx field of its instruction set to `i`
and is erased. -/
def patchSubroutines (pName : String) (i : Nat) :
    List (String × Int) → List Instruction → List (String × Int) × List Instruction
  | [], instructions => ([], instructions)
  | (name, idx) :: rest, instructions =>
    if name = pName then
      patchSubroutines pName i rest (patchAt instructions idx (fun w => SETARG_Bx w (i : Int)))
    else
      ((name, idx) :: (patchSubroutines pName i rest instructions).1,
        (patchSubroutines pName i rest instructions).2)

/-- The loop of lines 944 to 961 of `writeFunction` over the used-subroutine
names still to resolve, `i` being the index of the first of them: the name
that is missing from `functions_` if there is one, the vector `protos` (each
pointer being the key of its entry) and the function record as patched when the
loop is left. -/
def resolveSubroutines (functions : List (String × ParsedFunction)) :
    List String → Nat → List String → ParsedFunction →
    Option String × List String × ParsedFunction
  | [], _, protos, function => (none, protos, function)
  | pName :: rest, i, protos, function =>
    match mapFind functions pName with
    | none => (some pName, protos, function)
    | some _ =>
      resolveSubroutines functions rest (i + 1) (protos ++ [pName])
        { function with
          neededSubroutines :=
            (patchSubroutines pName i function.neededSubroutines function.instructions).1
          instructions :=
            (patchSubroutines pName i function.neededSubroutines function.instructions).2 }

/-- The payload written behind the type tag of a constant (the `switch` of
lines 980 to 999 of `writeFunction`). -/
def writeConstantValue (a : Assembler) (constant : TValue) : BoolRes × Assembler :=
  match constant with
  | .TString string => writeString a string
  | .TNumber number => wwrite a (.number number)
  | .TBool value => wwrite a (.boolean value)
  | .TNil => (⟨true, ""⟩, a)

/-- The loop of lines 976 to 1000 of `writeFunction`. -/
def writeConstants : List TValue → Assembler → BoolRes × Assembler
  | [], a => (⟨true, ""⟩, a)
  | constant :: rest, a =>
    andThen (wwrite a (.u8 (constant.type % 256))) fun a =>
    andThen (writeConstantValue a constant) fun a =>
    writeConstants rest a

/-- The loop of lines 1006 to 1013 of `writeFunction`. -/
def writeUpvalues : List Upvalue → Assembler → BoolRes × Assembler
  | [], a => (⟨true, ""⟩, a)
  | upvalue :: rest, a =>
    andThen (wwrite a (.u8 upvalue.instack)) fun a =>
    andThen (wwrite a (.u8 upvalue.idx)) fun a =>
    writeUpvalues rest a

/-- Lines 964 to 1013 of `writeFunction`: code, constants and upvalues. -/
def writeFunctionBody (function : ParsedFunction) (a : Assembler) : BoolRes × Assembler :=
  andThen (wwrite a (.i32 (toInt function.instructions.length))) fun a =>
  andThen (wwriteBytesAll a (.words function.instructions) (function.instructions.length * 4)
    "failed to write instructions") fun a =>
  andThen (wwrite a (.i32 (toInt function.constants.length))) fun a =>
  andThen (writeConstants function.constants a) fun a =>
  andThen (wwrite a (.i32 (toInt function.upvalues.length))) fun a =>
  writeUpvalues function.upvalues a

/-- Lines 1024 to 1041 of `writeFunction`: the line-info table, whose
`writeBytes` result is not looked at, and the two zero counts. -/
def writeFunctionTail (function : ParsedFunction) (a : Assembler) : BoolRes × Assembler :=
  andThen (wwrite a (.i32 (toInt function.lineinfos.length))) fun a =>
  andThen (wwrite (if function.lineinfos.length > 0
      then (wwriteBytes a (.ints function.lineinfos)).2 else a) (.i32 0)) fun a =>
  andThen (wwrite a (.i32 0)) fun a =>
  (⟨true, ""⟩, a)

/-- Sequencing for the recursive writer, whose result is `none` when the
recursion budget is used up. -/
def andThenSome (r : Option (BoolRes × Assembler))
    (k : Assembler → Option (BoolRes × Assembler)) : Option (BoolRes × Assembler) :=
  match r with
  | none => none
  | some (res, a) => if res.success then k a else some (res, a)

/-- The loop of lines 1018 to 1022 of `writeFunction`, given the writer
`write` for one proto. -/
def writeProtos (write : String → Assembler → Option (BoolRes × Assembler)) :
    List String → Assembler → Option (BoolRes × Assembler)
  | [], a => some (⟨true, ""⟩, a)
  | proto :: rest, a => andThenSome (write proto a) fun a => writeProtos write rest a

/-- The function `Assembler::writeFunction(function)`, the pointer `function`
being the key of its entry in `functions_`. The recursion of the source is not
bounded (a function may name itself as a subroutine); `fuel` bounds its depth
and the result is `none` when the bound is reached. -/
def writeFunction : Nat → String → Assembler → Option (BoolRes × Assembler)
  | 0, _, _ => none
  | fuel + 1, key, a =>
    match mapFind a.functions_ key with
    | none => none
    | some function =>
      andThenSome (some (writeFunctionHead function a)) fun a =>
      match resolveSubroutines a.functions_ function.usedSubroutines 0 [] function with
      | (some pName, _, function1) =>
        some (⟨false, "no such function: " ++ pName⟩,
          { a with functions_ := mapAssign a.functions_ key function1 })
      | (none, protos, function1) =>
        andThenSome (some (writeFunctionBody function1
          { a with functions_ := mapAssign a.functions_ key function1 })) fun a =>
        andThenSome (some (wwrite a (.i32 (toInt protos.length)))) fun a =>
        andThenSome (writeProtos (writeFunction fuel) protos a) fun a =>
        some (writeFunctionTail function1 a)

/-! ## The driver -/

/-- The read loop of `assemble` (lines 1053 to 1067) over the lines the reader
still delivers, `linen` being the number of lines read so far. -/
def assembleLines : List String → Nat → Assembler → Option (BoolRes × Assembler)
  | [], _, a => some (⟨true, ""⟩, { a with rbuffer_ := some [] })
  | line :: rest, linen, a =>
    match trim line.toList with
    | [] => assembleLines rest ((linen + 1) % 2 ^ 32) a
    | c :: cs =>
      if c = ';' then assembleLines rest ((linen + 1) % 2 ^ 32) a
      else
        match parseLine a (c :: cs) with
        | none => none
        | some (res, a1) =>
          if res.success then assembleLines rest ((linen + 1) % 2 ^ 32) a1
          else
            some (⟨false, "error parsing line " ++ toString ((linen + 1) % 2 ^ 32) ++ ": "
              ++ res.error_msg⟩, { a1 with rbuffer_ := some rest })

/-- Lines 1069 to 1092 of `assemble`: what follows the read loop. -/
def assembleEnd (cfg : LConfig) (fuel : Nat) (a : Assembler) : Option (BoolRes × Assembler) :=
  andThenSome (some (if a.instructions_ = [] then (⟨true, ""⟩, a) else finalizeFunction a))
    fun a =>
  if !a.bUpvalues_ then some (⟨false, "amount of upvalues never declared"⟩, a)
  else
    andThenSome (some (writeHeader cfg a)) fun a =>
    andThenSome (some (writeAssert (wwrite a (.u8 (a.nUpvalues_ % 256)))
      "failed to write num upvalues")) fun a =>
    match mapFind a.functions_ "main" with
    | none => some (⟨false, "no main function"⟩, a)
    | some _ => writeFunction fuel "main" a

/-- The function `Assembler::assemble()`; `none` when an exception leaves it or
the recursion budget `fuel` of the writer is used up. -/
def assemble (cfg : LConfig) (fuel : Nat) (a : Assembler) : Option (BoolRes × Assembler) :=
  match a.rbuffer_ with
  | none => some (⟨false, "invalid read buffer"⟩, a)
  | some lines =>
    match a.wbuffer_ with
    | none => some (⟨false, "invalid write buffer"⟩, a)
    | some _ => andThenSome (assembleLines lines 0 a) fun a => assembleEnd cfg fuel a

/-- A byte writer that accepts every call. -/
def WriteBuffer.accepting : WriteBuffer where
  written := []
  answer := fun _ _ => ⟨true, ""⟩
  count := fun _ c =>
    match c with
    | .bytes s => s.length
    | .words ws => ws.length * 4
    | .ints ls => ls.length * 4
    | _ => 0


/-! ## Runs and invariants used by the statements -/

/-- Successive calls of `parseConstant` on the literals of one function, in
order, from the state `a`: the indices stored in `*id` and the final state;
`none` when a call returns `nullptr`. -/
def parseConstantSeq : Assembler → List (List Char) → Option (List Nat × Assembler)
  | a, [] => some ([], a)
  | a, text :: texts =>
    match parseConstant a text with
    | (none, _) => none
    | (some (_, id), a1) =>
      match parseConstantSeq a1 texts with
      | none => none
      | some (ids, a2) => some (id :: ids, a2)

/-- The value of the literal at the start of a text, when there is one. -/
def literalValue (text : List Char) : Option TValue := (parseLiteral text).map Prod.fst

/-- The value of a hexadecimal digit: its place in `0123456789abcdef`, the
case left out. -/
def hexDigitValue (c : Char) : Nat := "0123456789abcdef".toList.indexOf (tolower c)

/-- The value of a hexadecimal digit string. -/
def hexValue : Nat → List Char → Nat
  | out, [] => out
  | out, c :: cs => hexValue (out * 16 + hexDigitValue c) cs

/-- The value of a number: the number itself, the sign of a zero left out. -/
def lua_Number.value : lua_Number → lua_Number
  | .finite neg mant exp => if mant = 0 then .finite false 0 0 else .finite neg mant exp
  | x => x

/-- A number below 1 in absolute value: finite, with `mant < 2 ^ -exp`. -/
def lua_Number.Fraction (x : lua_Number) : Prop :=
  ∃ neg M E, x = .finite neg M E ∧ (bitLength M : Int) + E ≤ 0

/-- The constant is an ordinary one: when it is a number, the number is not a
NaN and is in the canonical form of binary64. -/
def TValue.Ordinary (v : TValue) : Prop :=
  ∀ x, v = .TNumber x → x ≠ .nan ∧ x.Canonical

/-- The value of a constant: the constant itself, with the value of its number
when it is one. -/
def TValue.value : TValue → TValue
  | .TNumber number => .TNumber number.value
  | v => v

/-- The pair of the type tag and the value of a constant. -/
def TValue.pair (v : TValue) : Nat × TValue := (v.type, v.value)

/-- Successive calls of `parseCode` on the lines of a code segment, as the read
loop of `assemble` issues them: the run stops at the first line that fails. -/
def parseCodeLines : Assembler → List (List Char) → Option (BoolRes × Assembler)
  | a, [] => some (⟨true, ""⟩, a)
  | a, line :: lines =>
    match parseCode a line with
    | none => none
    | some (res, a1) => if res.success then parseCodeLines a1 lines else some (res, a1)

/-- Every pending location patch designates an instruction that has been
appended, and no two of them designate the same instruction. -/
def PendingOk (a : Assembler) : Prop :=
  (∀ e ∈ a.neededLocations_, 0 ≤ e.2 ∧ e.2 < (a.instructions_.length : Int)) ∧
    (a.neededLocations_.map Prod.snd).Nodup

instance (a : Assembler) : Decidable (PendingOk a) := by
  unfold PendingOk
  infer_instance

/-- The calls `writeFunction` issues before it resolves the subroutines of a
function: the encoded name, two zero integers and the three size bytes. -/
def headCalls (function : ParsedFunction) : List WriteCall :=
  ((if function.name.length < 0xFE then [WriteCall.u8 ((function.name.length + 1) % 256)]
    else [WriteCall.u8 0xFF, WriteCall.size (function.name.length + 1)]) ++
    [.bytes function.name]) ++
  [.i32 0, .i32 0, .u8 function.params, .u8 function.vararg, .u8 function.maxstacksize]

/-- The reference configuration of a Lua 5.3 chunk on a 64-bit host. -/
def LConfig.lua53 : LConfig where
  LUA_SIGNATURE := String.mk [Char.ofNat 27, 'L', 'u', 'a']
  LUAC_VERSION := 0x53
  LUAC_FORMAT := 0
  LUAC_DATA := String.mk [Char.ofNat 25, Char.ofNat 147, Char.ofNat 13, Char.ofNat 10,
    Char.ofNat 26, Char.ofNat 10]
  sizeof_int := 4
  sizeof_size_t := 8
  sizeof_Instruction := 4
  sizeof_lua_Integer := 8
  sizeof_lua_Number := 8
  LUAC_INT := 0x5678
  LUAC_NUM := .round false 741 (-1)

/-- The assembler over the source lines `source` and an accepting writer. -/
def Assembler.onSource (source : List String) : Assembler :=
  Assembler.new (some source) (some WriteBuffer.accepting)

/-- The state in which a code line is read inside a fresh function. -/
def Assembler.inCode : Assembler :=
  { Assembler.new none none with parseStatus_ := .PARSE_CODE, funcid_ := 0 }


/-- The source of the one-function scenario: `main` loads the string constant
`"hi"` and returns. -/
def sourceHello : List String :=
  [".upvalues 0",
   ".func main 2 0 0",
   ".begin_code",
   "loadk %0 const " ++ String.mk [dquote, 'h', 'i', dquote],
   "return %0 1",
   ".end_code"]

/-- A source in which the functions `main` and `other` both name the
subroutine `s` in a closure-producing instruction. -/
def sourceShared : List String :=
  [".upvalues 0",
   ".func s 2 0 0",
   ".begin_code",
   "return %0 1",
   ".end_code",
   ".func main 2 0 0",
   ".begin_code",
   "closure %0 s",
   "return %0 1",
   ".end_code",
   ".func other 2 0 0",
   ".begin_code",
   "closure %0 s",
   "return %0 1",
   ".end_code"]

/-- A source in which the function `first` declares the label `L` and the later
function `main` jumps to `L` without declaring it. -/
def sourceStaleLabel : List String :=
  [".upvalues 0",
   ".func first 2 0 0",
   ".begin_code",
   "return %0 1",
   "L:",
   "return %0 1",
   ".end_code",
   ".func main 2 0 0",
   ".begin_code",
   "jmp 0 $L",
   "return %0 1",
   ".end_code"]

/-- The state `a'` is the state `a` after the calls `calls` have been issued
to the byte writer, and nothing else has changed. -/
def Wrote (a a' : Assembler) (calls : List WriteCall) : Prop :=
  ∃ w, a.wbuffer_ = some w ∧
    a' = { a with wbuffer_ := some { w with written := w.written ++ calls } }

/-- A step of the writer, run from `a` with result `r`, issues the calls of
`full` in order and stops at the first that fails: it has issued a prefix of
`full`, the whole of it when it reports success. -/
def WPrefix (a : Assembler) (r : BoolRes × Assembler) (full : List WriteCall) : Prop :=
  ∃ calls, Wrote a r.2 calls ∧ calls <+: full ∧ (r.1.success = true → calls = full)

/-- The calls `writeString` issues for a string. -/
def stringCalls (string : String) : List WriteCall :=
  (if string.length < 0xFE then [WriteCall.u8 ((string.length + 1) % 256)]
   else [WriteCall.u8 0xFF, WriteCall.size (string.length + 1)]) ++ [.bytes string]

/-- A finalized function `main` whose single instruction, a CLOSURE, names
the subroutine `ghost`. -/
def functionGhost : ParsedFunction where
  name := "main"
  instructions := [SETARG_Bx (SET_OPCODE 0 44) (-1), 8388646]
  upvalues := []
  usedSubroutines := ["ghost"]
  lineinfos := []
  neededSubroutines := [("ghost", 0)]
  constants := []
  maxstacksize := 2
  params := 0
  vararg := 0

/-- A state whose function table holds `functionGhost` only, with an accepting
writer. -/
def stateGhost : Assembler :=
  { Assembler.new (some []) (some WriteBuffer.accepting) with
    functions_ := [("main", functionGhost)] }

/-- The common shape of the two patch loops (`resolveLocations`,
`patchSubroutines`): every entry named `label` has its instruction rewritten by
`g idx` and is erased. -/
def patchLoop (label : String) (g : Int → Instruction → Instruction) :
    List (String × Int) → List Instruction → List (String × Int) × List Instruction
  | [], instructions => ([], instructions)
  | (name, idx) :: rest, instructions =>
    if name = label then patchLoop label g rest (patchAt instructions idx (g idx))
    else
      ((name, idx) :: (patchLoop label g rest instructions).1,
        (patchLoop label g rest instructions).2)

/-- The record of `main` that `sourceForward` leaves in the function table. -/
def functionForwardMain : ParsedFunction where
  name := "main"
  instructions := [SETARG_Bx (SETARG_A (SET_OPCODE 0 44) 0) (-1), 8388646]
  upvalues := []
  usedSubroutines := ["sub"]
  lineinfos := []
  neededSubroutines := [("sub", 0)]
  constants := []
  maxstacksize := 2
  params := 0
  vararg := 0

/-- The record of `sub` that `sourceForward` leaves in the function table. -/
def functionForwardSub : ParsedFunction where
  name := "sub"
  instructions := [8388646]
  upvalues := []
  usedSubroutines := []
  lineinfos := []
  neededSubroutines := []
  constants := []
  maxstacksize := 2
  params := 0
  vararg := 0

/-- The state in which `writeFunction` is entered for `sourceForward`, before
any write. -/
def stateForward : Assembler :=
  { Assembler.new (some []) (some WriteBuffer.accepting) with
    functions_ := [("main", functionForwardMain), ("sub", functionForwardSub)] }

/-- The state a run ends in (the initial state of an assembler without buffers
when the run has no result). -/
def stateOf (r : Option (BoolRes × Assembler)) : Assembler :=
  match r with
  | some (_, a) => a
  | none => Assembler.new none none

/-- What an operand may do to the jump bookkeeping: the instruction list and
the label table are left alone and at most one pending patch, for the
instruction being read, is queued, by a slot that accepts a jump location. -/
def OperandFrame (a a1 : Assembler) (limit : Nat) : Prop :=
  a1.instructions_ = a.instructions_ ∧ a1.locations_ = a.locations_ ∧
    (a1.neededLocations_ = a.neededLocations_ ∨
      (hasLimit limit LIMIT_LOCATION = true ∧
        ∃ label, a1.neededLocations_
          = a.neededLocations_ ++ [(label, toInt a.instructions_.length)]))

/-- The relation between the state `a` before and the state `a1` after
accepted code lines, as far as jump resolution is concerned: instructions are
only appended, labels are only added, a pending patch stays queued as long as
its label is not declared, and an instruction without a pending patch is no
longer modified nor given one. -/
def Step (a a1 : Assembler) : Prop :=
  a.instructions_.length ≤ a1.instructions_.length ∧
  (∀ label, mapFind a1.locations_ label = none → mapFind a.locations_ label = none) ∧
  (∀ label idx, (label, idx) ∈ a.neededLocations_ → mapFind a1.locations_ label = none →
    (label, idx) ∈ a1.neededLocations_) ∧
  (∀ p : Nat, p < a.instructions_.length → (∀ e ∈ a.neededLocations_, e.2 ≠ (p : Int)) →
    a1.instructions_[p]? = a.instructions_[p]? ∧ ∀ e ∈ a1.neededLocations_, e.2 ≠ (p : Int))

/-- The line is read by `parseCode`, in the state `a`, as an instruction with
two operand slots, the second stored in sBx under the jump-location mask, whose
second operand is `$label`, followed by nothing but blanks or a comment. -/
def JumpLine (a : Assembler) (line : List Char) (label : String) : Prop :=
  ∃ (mnemonic : String) (rest : List Char) (linenumber : Int) (opcode : Nat) (first : OpInfo)
    (rest1 : List Char) (op : Operand) (a1 : Assembler) (cs bend : List Char),
    parseLabel line = some (mnemonic, rest) ∧ rest.head? ≠ some ':' ∧
    get_linenumber_from_asm_line_comment (get_line_comment_from_asm_line_code line)
      = some linenumber ∧
    findOpcode (String.mk (lower mnemonic.toList)) luaP_opnames 0 = some opcode ∧
    (opinfo.getD opcode []).take (opcount.getD opcode 0)
      = [first, ⟨.OPP_sBx, LIMIT_LOCATION⟩] ∧
    parseOperand (withLineinfo a linenumber) Operand.uninit rest first.limit
      = (some rest1, op, a1) ∧
    rest1.dropWhile isblank = '$' :: cs ∧ parseLabel cs = some (label, bend) ∧
    trailingText bend = false

/-- The line is read by `parseCode` as the declaration of `label`: an
identifier directly followed by a colon. -/
def LabelLine (line : List Char) (label : String) : Prop :=
  ∃ (rest : List Char) (linenumber : Int),
    parseLabel line = some (label, ':' :: rest) ∧
    get_linenumber_from_asm_line_comment (get_line_comment_from_asm_line_code line)
      = some linenumber

/-- The pending subroutine patches of the function being read each designate an
appended instruction, no two of them the same one; its used-subroutine list has
no repetition and each of its names is bound in the global usage map. -/
def SubsOk (a : Assembler) : Prop :=
  (∀ e ∈ a.neededSubroutines_, 0 ≤ e.2 ∧ e.2 < (a.instructions_.length : Int)) ∧
  (a.neededSubroutines_.map Prod.snd).Nodup ∧
  a.f_usedSubroutines_.Nodup ∧
  ∀ n ∈ a.f_usedSubroutines_, mapFind a.usedSubroutines_ n ≠ none

/-- Every record of the function table has at most one pending subroutine
patch per instruction and a used-subroutine list without repetition. -/
def TableOk (functions : List (String × ParsedFunction)) : Prop :=
  ∀ e ∈ functions, (e.2.neededSubroutines.map Prod.snd).Nodup ∧ e.2.usedSubroutines.Nodup

/-- What an operand may do to the subroutine bookkeeping: the instruction list
and the function table are left alone, and at most one pending subroutine
patch, for the instruction being read, is queued, by a slot that accepts a
prototype reference; its name joins the used-subroutine list exactly when the
global usage map did not bind it. -/
def ProtoFrame (a a1 : Assembler) (limit : Nat) : Prop :=
  a1.instructions_ = a.instructions_ ∧ a1.functions_ = a.functions_ ∧
  ((a1.neededSubroutines_ = a.neededSubroutines_ ∧
      a1.f_usedSubroutines_ = a.f_usedSubroutines_ ∧
      a1.usedSubroutines_ = a.usedSubroutines_) ∨
    (hasLimit limit LIMIT_PROTO = true ∧
      ∃ label, a1.neededSubroutines_
          = a.neededSubroutines_ ++ [(label, toInt a.instructions_.length)] ∧
        ((a1.f_usedSubroutines_ = a.f_usedSubroutines_ ∧
            a1.usedSubroutines_ = a.usedSubroutines_) ∨
          (mapFind a.usedSubroutines_ label = none ∧
            a1.f_usedSubroutines_ = a.f_usedSubroutines_ ++ [label] ∧
            a1.usedSubroutines_ = mapAssign a.usedSubroutines_ label a.funcid_))))

/-- The used-subroutine list of the function being read has no repetition and
each of its names is bound in the global usage map. -/
def UsedOk (a : Assembler) : Prop :=
  a.f_usedSubroutines_.Nodup ∧
  ∀ n ∈ a.f_usedSubroutines_, mapFind a.usedSubroutines_ n ≠ none

/-- A source whose function `first` has a constant and an upvalue descriptor
but no instruction, followed by the declaration of `main`. -/
def sourceNoCode : List String :=
  [".upvalues 0",
   ".func first 2 0 0",
   ".begin_const",
   String.mk [dquote, 'x', dquote],
   ".end_const",
   ".begin_upvalue",
   "1 0",
   ".end_upvalue",
   ".func main 2 0 0"]

/-- The source `sourceNoCode` continued by the code of `main`, which loads the
constant `"y"`. -/
def sourceNoCodeMain : List String :=
  sourceNoCode ++
    [".begin_code",
     "loadk %0 const " ++ String.mk [dquote, 'y', dquote],
     "return %0 1",
     ".end_code"]

/-- A source whose `.end_code` directive is followed directly by a comment,
and then by the declaration of a second function. -/
def sourceEndCodeComment : List String :=
  [".upvalues 0",
   ".func main 2 0 0",
   ".begin_code",
   "return %0 1",
   ".end_code;done",
   ".func other 2 0 0"]

/-- The rule of a segment directive named `name`, whatever the case of its
letters and whatever follows the name: it succeeds exactly when the parse
state is `source`, and it then sets the parse state to `target`. -/
def SegmentRule (name : String) (source target : ParseStatus) : Prop :=
  ∀ (a : Assembler) (spelling args : List Char), lower spelling = name.toList →
    ((directiveDispatch a spelling args).1.success = true ↔ a.parseStatus_ = source) ∧
    (a.parseStatus_ = source → (directiveDispatch a spelling args).2.parseStatus_ = target)

/-- The members that no operand, code line, constant line or upvalue line
touches: the parse state, the header of the function being read, the function
table, the upvalue declaration and the writer. -/
def KeepsHeader (a a1 : Assembler) : Prop :=
  a1.parseStatus_ = a.parseStatus_ ∧ a1.f_vararg_ = a.f_vararg_ ∧
  a1.functions_ = a.functions_ ∧ a1.wbuffer_ = a.wbuffer_ ∧
  a1.bUpvalues_ = a.bUpvalues_ ∧ a1.nUpvalues_ = a.nUpvalues_ ∧
  a1.funcname_ = a.funcname_ ∧ a1.funcid_ = a.funcid_

/-- Every record of the function table has a vararg mode of at most 2. -/
def TableVararg (functions : List (String × ParsedFunction)) : Prop :=
  ∀ e ∈ functions, e.2.vararg ≤ 2

/-- No instruction has been read before the first function is declared; the
vararg mode of the function being read, once one is declared, and of every
record of the function table is at most 2. -/
def VarargOk (a : Assembler) : Prop :=
  (a.parseStatus_ = .PARSE_NONE → a.instructions_ = []) ∧
  (a.parseStatus_ ≠ .PARSE_NONE → a.f_vararg_ ≤ 2) ∧
  TableVararg a.functions_

/-- The state `b` differs from the state `a` in the writer at most. -/
def OnlyWriter (a b : Assembler) : Prop := b = { a with wbuffer_ := b.wbuffer_ }

/-- The state in which `assemble` leaves the assembler of `sourceHello`. -/
def stateHelloEnd : Assembler :=
  match assemble LConfig.lua53 2 (Assembler.onSource sourceHello) with
  | some r => r.2
  | none => Assembler.onSource sourceHello

/-- The calls `writeHeader` issues, in order. -/
def headerCalls (cfg : LConfig) : List WriteCall :=
  [.bytes cfg.LUA_SIGNATURE, .u8 cfg.LUAC_VERSION, .u8 cfg.LUAC_FORMAT, .bytes cfg.LUAC_DATA,
   .u8 cfg.sizeof_int, .u8 cfg.sizeof_size_t, .u8 cfg.sizeof_Instruction,
   .u8 cfg.sizeof_lua_Integer, .u8 cfg.sizeof_lua_Number, .integer cfg.LUAC_INT,
   .number cfg.LUAC_NUM]

/-- A source that declares the amount of upvalues and one function, `helper`,
but no function `main`. -/
def sourceNoMain : List String :=
  [".upvalues 0",
   ".func helper 2 0 0",
   ".begin_code",
   "return %0 1",
   ".end_code"]

/-- The state in which the read loop of `assemble` leaves the assembler of
`sourceNoMain`. -/
def stateNoMainRead : Assembler :=
  match assembleLines sourceNoMain 0 (Assembler.onSource sourceNoMain) with
  | some r => r.2
  | none => Assembler.onSource sourceNoMain

/-- The state reached when every line of `lines` is read and accepted by the
loop of `assemble` (blank lines and comment lines are skipped); `none` when a
line is rejected or raises an exception. -/
def linesAccepted : List String → Assembler → Option Assembler
  | [], a => some a
  | line :: rest, a =>
    match trim line.toList with
    | [] => linesAccepted rest a
    | c :: cs =>
      if c = ';' then linesAccepted rest a
      else
        match parseLine a (c :: cs) with
        | none => none
        | some (res, a1) => if res.success then linesAccepted rest a1 else none

/-- A source whose last function jumps to a label that is never declared. -/
def sourcePendingAtEnd : List String :=
  [".upvalues 0",
   "",
   "; entry point",
   ".func main 2 0 0",
   ".begin_code",
   "jmp 0 $L",
   ".end_code"]

/-- The state in which the read loop of `assemble` leaves the assembler of the
source `source` (with an accepting writer). -/
def Assembler.afterRead (source : List String) : Assembler :=
  match assembleLines source 0 (Assembler.onSource source) with
  | some r => r.2
  | none => Assembler.onSource source

/-- The state in which `assemble` leaves the assembler of the source `source`
(with an accepting writer and the reference configuration). -/
def Assembler.afterAssemble (source : List String) : Assembler :=
  match assemble LConfig.lua53 2 (Assembler.onSource source) with
  | some r => r.2
  | none => Assembler.onSource source

/-- A byte writer that accepts every `write` call and every `writeBytes` call
in full, except that `writeBytes` returns the count 0 for the raw line-info
entries. -/
def WriteBuffer.shortOnInts : WriteBuffer where
  written := []
  answer := fun _ _ => ⟨true, ""⟩
  count := fun _ c =>
    match c with
    | .bytes s => s.length
    | .words ws => ws.length * 4
    | _ => 0

/-- A byte writer that accepts every `write` call and every `writeBytes` call
in full, except that `writeBytes` returns the count 0 for the instruction
words. -/
def WriteBuffer.shortOnWords : WriteBuffer where
  written := []
  answer := fun _ _ => ⟨true, ""⟩
  count := fun _ c =>
    match c with
    | .bytes s => s.length
    | .ints ls => ls.length * 4
    | _ => 0

/-- A source whose only instruction carries the line-number marker `;L7;`. -/
def sourceLineInfo : List String :=
  [".upvalues 0",
   ".func main 2 0 0",
   ".begin_code",
   "return %0 1 ;L7;",
   ".end_code"]

/-- A byte writer that never fails: every `write` call reports success and
every `writeBytes` call returns the number of bytes it was given. -/
def WriteBuffer.NonFailing (w : WriteBuffer) : Prop :=
  (∀ log c, (w.answer log c).success = true) ∧
  (∀ log s, w.count log (.bytes s) = s.length) ∧
  (∀ log ws, w.count log (.words ws) = ws.length * 4) ∧
  (∀ log ls, w.count log (.ints ls) = ls.length * 4)

/-- The assembler holds a byte writer that never fails. -/
def Ready (a : Assembler) : Prop := ∃ w, a.wbuffer_ = some w ∧ w.NonFailing

/-- A step of the writer, run from `a` with result `r`, reports success and has
issued exactly the calls `calls`, in order. -/
def Emits (a : Assembler) (r : BoolRes × Assembler) (calls : List WriteCall) : Prop :=
  r.1.success = true ∧ Wrote a r.2 calls

/-- The calls that encode one constant: the type tag, then nothing for nil,
the value for a boolean or a number, the string encoding for a string. -/
def constantCalls (constant : TValue) : List WriteCall :=
  .u8 (constant.type % 256) ::
    match constant with
    | .TString string => stringCalls string
    | .TNumber number => [.number number]
    | .TBool value => [.boolean value]
    | .TNil => []

/-- The calls that encode one upvalue descriptor: `instack`, then `idx`. -/
def upvalueCalls (upvalue : Upvalue) : List WriteCall :=
  [.u8 upvalue.instack, .u8 upvalue.idx]

/-- The calls of a function record without subroutines, in order: the encoded
name, two zero integers, `params`, `vararg`, `maxstacksize`; the instruction
count and the instruction words; the constant count and the constants; the
upvalue count and the descriptors; the proto count 0; the line-info count and
the line-info entries (no call when there is none); two zero counts. -/
def recordCalls (function : ParsedFunction) : List WriteCall :=
  stringCalls function.name ++
  [.i32 0, .i32 0, .u8 function.params, .u8 function.vararg, .u8 function.maxstacksize] ++
  [.i32 (toInt function.instructions.length), .words function.instructions] ++
  [.i32 (toInt function.constants.length)] ++
  (function.constants.map constantCalls).flatten ++
  [.i32 (toInt function.upvalues.length)] ++
  (function.upvalues.map upvalueCalls).flatten ++
  [.i32 0] ++
  [.i32 (toInt function.lineinfos.length)] ++
  (if function.lineinfos.length > 0 then [.ints function.lineinfos] else []) ++
  [.i32 0, .i32 0]

/-- A source whose function `main` has a constant of each kind, one upvalue
descriptor and one instruction with a line-number marker. -/
def sourceSample : List String :=
  [".upvalues 1",
   ".func main 2 0 0",
   ".begin_const",
   "nil",
   "true",
   "5",
   String.mk [dquote, 'h', 'i', dquote],
   ".end_const",
   ".begin_upvalue",
   "1 0",
   ".end_upvalue",
   ".begin_code",
   "return %0 1 ;L7;",
   ".end_code"]

/-- The record of `main` that `sourceSample` leaves in the function table. -/
def functionSample : ParsedFunction where
  name := "main"
  instructions := [8388646]
  upvalues := [⟨1, 0, ""⟩]
  usedSubroutines := []
  lineinfos := [7]
  neededSubroutines := []
  constants := [.TNil, .TBool true, .TNumber (.ofInt 5), .TString "hi"]
  maxstacksize := 2
  params := 0
  vararg := 0

/-- The line-number marker `parseCode` and `parseDirective` read on a line:
the result of `get_linenumber_from_asm_line_comment` on the comment of the
line. -/
def lineMarker (line : List Char) : Option Int :=
  get_linenumber_from_asm_line_comment (get_line_comment_from_asm_line_code line)

/-- The line-info entries that the lines of a code segment contribute: the
marker value of every line whose marker is not negative, in order. -/
def markerEntries (lines : List (List Char)) : List Int :=
  lines.filterMap fun line =>
    match lineMarker line with
    | some ln => if ln ≥ 0 then some ln else none
    | none => none

/-- The test of `parseCode` for a label line: the leading identifier is
directly followed by a colon. -/
def isLabelLine (line : List Char) : Bool :=
  match parseLabel line with
  | some (_, ':' :: _) => true
  | _ => false

/-- The lines of a code segment: two plain instructions, a label line, and an
instruction that needs an extra-argument word; every instruction line carries
a marker. -/
def linesLockstep : List (List Char) :=
  ["return %0 1 ;L3;".toList, "L:".toList, "setlist %0 1 600 ;L4;".toList,
   "return %0 1 ;L9;".toList]

/-- The state in which the lines `linesLockstep` leave a fresh code segment. -/
def stateLockstep : Assembler :=
  match parseCodeLines Assembler.inCode linesLockstep with
  | some r => r.2
  | none => Assembler.inCode

/-- The comment has the shape of a line-number marker: `;L`, the non-empty run
of decimal digits `digits`, `;`, and the further text `tail`. -/
def MarkerShape (comment digits tail : List Char) : Prop :=
  comment = ';' :: 'L' :: (digits ++ ';' :: tail) ∧ digits ≠ [] ∧
    ∀ d ∈ digits, isdigit d = true

/-- The line has a line-number marker with the digits `digits` behind its
first `;`: it consists of a non-empty text without `;`, then `;L`, the
non-empty run of decimal digits `digits`, `;`, and further text. -/
def MarkedLine (line digits : List Char) : Prop :=
  ∃ pre tail, line = pre ++ ';' :: 'L' :: (digits ++ ';' :: tail) ∧ pre ≠ [] ∧ ';' ∉ pre ∧
    digits ≠ [] ∧ ∀ d ∈ digits, isdigit d = true

/-- The line carries the marker `;L<n>;`: a marker behind its first `;` whose
digits have the value `n`, which fits a 32-bit `int`. -/
def CarriesMarker (line : List Char) (n : Int) : Prop :=
  ∃ digits, MarkedLine line digits ∧ digitsValue 0 digits = n ∧ n ≤ 2147483647

/-- The marker values of the lines that carry a marker, in line order; a line
without a marker behind its first `;` has none. -/
inductive MarkerValues : List (List Char) → List Int → Prop where
  | nil : MarkerValues [] []
  | marked {line : List Char} {lines : List (List Char)} {n : Int} {ns : List Int} :
    CarriesMarker line n → MarkerValues lines ns → MarkerValues (line :: lines) (n :: ns)
  | unmarked {line : List Char} {lines : List (List Char)} {ns : List Int} :
    (¬∃ digits, MarkedLine line digits) → MarkerValues lines ns →
    MarkerValues (line :: lines) ns

/-- The line is a label line: blanks, a non-empty identifier of letters, digits
and `_`, a colon, and further text. -/
def LabelText (line : List Char) : Prop :=
  ∃ blanks name rest, line = blanks ++ (name ++ ':' :: rest) ∧
    (∀ b ∈ blanks, isblank b = true) ∧ name ≠ [] ∧ ∀ c ∈ name, isLabelChar c = true

/-- The line `loadk %0 const "a;b" ;L7;`: a string constant with a `;` in
front of the marker. -/
def lineStringSemicolon : List Char :=
  "loadk %0 const ".toList ++ dquote :: "a;b".toList ++ dquote :: " ;L7;".toList

/-- The line `loadk %0 const ";L5;" ;L7;`: a string constant that reads as a
marker. -/
def lineStringMarker : List Char :=
  "loadk %0 const ".toList ++ dquote :: ";L5;".toList ++ dquote :: " ;L7;".toList

/-- The directive names `parseDirective` acts on. -/
def knownDirectives : List (List Char) :=
  ["upvalues".toList, "func".toList, "begin_const".toList, "end_const".toList,
   "begin_code".toList, "end_code".toList, "begin_upvalue".toList, "end_upvalue".toList]

/-- The non-empty prefixes of the keyword `const`. -/
def constPrefixes : List (List Char) :=
  ["c".toList, "co".toList, "con".toList, "cons".toList, "const".toList]

/-- The state in a code segment after the lines `jmp 0 $L` and `return %0 1`:
the jump at index 0 awaits the label `L`. -/
def stateAwaitingLabel : Assembler :=
  match parseCodeLines Assembler.inCode ["jmp 0 $L".toList, "return %0 1".toList] with
  | some r => r.2
  | none => Assembler.inCode

/-- The used-subroutine names of the function that the table holds under the
key `k`, when it holds one. -/
def usedOf (functions : List (String × ParsedFunction)) (k : String) : Option (List String) :=
  (mapFind functions k).map fun f => f.usedSubroutines

/-- The used-subroutine relation of a function table: the function under the
key `k` names `k2` in a closure-producing instruction. -/
def Uses (functions : List (String × ParsedFunction)) (k k2 : String) : Prop :=
  ∃ l, usedOf functions k = some l ∧ k2 ∈ l

/-- The used-subroutine relation reachable from `key` is acyclic: no function
reachable from `key` reaches itself. -/
def AcyclicFrom (functions : List (String × ParsedFunction)) (key : String) : Prop :=
  ∀ k, Relation.ReflTransGen (Uses functions) key k → ¬Relation.TransGen (Uses functions) k k

/-- A source whose function `main` names itself in its closure-producing
instruction. -/
def sourceSelfClosure : List String :=
  [".upvalues 0",
   ".func main 2 0 0",
   ".begin_code",
   "closure %0 main",
   "return %0 1",
   ".end_code"]

/-- The state in which `writeFunction` is entered for `sourceSelfClosure`: the
lines have been read and `main` has been finalized. -/
def stateSelfClosure : Assembler :=
  (finalizeFunction (Assembler.afterRead sourceSelfClosure)).2

/-! ## Lemmas on numbers -/

theorem pow2pow_eq (l : Nat) : pow2pow l = 2 ^ 2 ^ l := by
  induction l with
  | zero => rfl
  | succ l ih =>
    unfold pow2pow
    rw [ih, ← pow_add, pow_succ]
    congr 1
    omega

theorem isBitLength_unique {n b c : Nat} (hb : IsBitLength n b) (hc : IsBitLength n c) :
    b = c := by
  obtain ⟨hb1, hb2⟩ := hb
  obtain ⟨hc1, hc2⟩ := hc
  by_contra hne
  rcases Nat.lt_or_gt_of_ne hne with h | h
  · have h1 : c ≠ 0 := by omega
    have h2 := hc2 h1
    have h3 : 2 ^ b ≤ 2 ^ (c - 1) := Nat.pow_le_pow_right (by decide) (by omega)
    omega
  · have h1 : b ≠ 0 := by omega
    have h2 := hb2 h1
    have h3 : 2 ^ c ≤ 2 ^ (b - 1) := Nat.pow_le_pow_right (by decide) (by omega)
    omega

theorem bitLengthLevel_spec : ∀ (l n : Nat), n < 2 ^ 2 ^ l → IsBitLength n (bitLengthLevel l n) := by
  intro l
  induction l with
  | zero =>
    intro n hn
    have h2 : n < 2 := by simpa using hn
    unfold bitLengthLevel
    by_cases h0 : n = 0
    · subst h0
      exact ⟨by simp, fun h => absurd rfl h⟩
    · have h1 : n = 1 := by omega
      subst h1
      exact ⟨by decide, fun _ => by decide⟩
  | succ l ih =>
    intro n hn
    have hP : 0 < 2 ^ 2 ^ l := Nat.two_pow_pos _
    have hsq : 2 ^ 2 ^ (l + 1) = 2 ^ 2 ^ l * 2 ^ 2 ^ l := by
      rw [← pow_add, pow_succ]
      congr 1
      omega
    unfold bitLengthLevel
    rw [pow2pow_eq]
    by_cases hle : 2 ^ 2 ^ l ≤ n
    · rw [if_pos hle]
      have hq : n / 2 ^ 2 ^ l < 2 ^ 2 ^ l := by
        rw [Nat.div_lt_iff_lt_mul hP, ← hsq]
        exact hn
      obtain ⟨h1, h2⟩ := ih (n / 2 ^ 2 ^ l) hq
      have hq1 : 1 ≤ n / 2 ^ 2 ^ l := (Nat.one_le_div_iff hP).2 hle
      have hb : bitLengthLevel l (n / 2 ^ 2 ^ l) ≠ 0 := by
        intro h0
        rw [h0] at h1
        simp at h1
        omega
      have h3 := h2 hb
      constructor
      · rw [pow_add]
        have := Nat.lt_mul_div_succ n hP
        calc n < 2 ^ 2 ^ l * (n / 2 ^ 2 ^ l + 1) := this
          _ ≤ 2 ^ 2 ^ l * 2 ^ bitLengthLevel l (n / 2 ^ 2 ^ l) := Nat.mul_le_mul_left _ h1
      · intro _
        have e0 : ∀ k b : Nat, b ≠ 0 → k + b - 1 = k + (b - 1) := by
          intro k b hk
          omega
        have e1 := e0 (2 ^ l) _ hb
        rw [e1, pow_add]
        calc 2 ^ 2 ^ l * 2 ^ (bitLengthLevel l (n / 2 ^ 2 ^ l) - 1)
            ≤ 2 ^ 2 ^ l * (n / 2 ^ 2 ^ l) := Nat.mul_le_mul_left _ h3
          _ ≤ n := Nat.mul_div_le n _
    · rw [if_neg hle]
      exact ih n (by omega)

theorem bitLengthSlow_spec : ∀ (fuel n : Nat), n ≤ fuel → IsBitLength n (bitLengthSlow fuel n) := by
  intro fuel
  induction fuel with
  | zero =>
    intro n hn
    have h0 : n = 0 := by omega
    subst h0
    exact ⟨by simp [bitLengthSlow], fun h => absurd rfl h⟩
  | succ fuel ih =>
    intro n hn
    unfold bitLengthSlow
    by_cases h0 : n = 0
    · subst h0
      exact ⟨by simp, fun h => absurd (by simp) h⟩
    · rw [if_neg h0]
      obtain ⟨h1, h2⟩ := ih (n / 2) (by omega)
      constructor
      · rw [pow_succ]
        omega
      · intro _
        simp only [Nat.add_sub_cancel]
        by_cases hb : bitLengthSlow fuel (n / 2) = 0
        · rw [hb]
          simp
          omega
        · have h3 := h2 hb
          have e1 : bitLengthSlow fuel (n / 2) = (bitLengthSlow fuel (n / 2) - 1) + 1 := by omega
          rw [e1, pow_succ]
          omega

theorem bitLength_spec (n : Nat) : IsBitLength n (bitLength n) := by
  unfold bitLength
  rw [pow2pow_eq]
  split
  · rename_i h
    exact bitLengthLevel_spec 12 n h
  · exact bitLengthSlow_spec n n (Nat.le_refl n)

theorem bitLength_zero : bitLength 0 = 0 :=
  isBitLength_unique (bitLength_spec 0) ⟨by simp, fun h => absurd rfl h⟩

theorem bitLength_le {n b : Nat} (h : n < 2 ^ b) : bitLength n ≤ b := by
  obtain ⟨h1, h2⟩ := bitLength_spec n
  by_contra hc
  have h3 := h2 (by omega)
  have h4 : 2 ^ b ≤ 2 ^ (bitLength n - 1) := Nat.pow_le_pow_right (by decide) (by omega)
  omega

theorem lt_pow_bitLength (n : Nat) : n < 2 ^ bitLength n := (bitLength_spec n).1

theorem bitLength_mul_le (a b : Nat) : bitLength (a * b) ≤ bitLength a + bitLength b := by
  apply bitLength_le
  rw [pow_add]
  exact Nat.mul_lt_mul'' (lt_pow_bitLength a) (lt_pow_bitLength b)

theorem roundHalfEven_le (m shift : Nat) : roundHalfEven m shift ≤ m / 2 ^ shift + 1 := by
  unfold roundHalfEven
  repeat' split
  all_goals omega

theorem roundMant_le (m : Nat) (e : Int) : roundMant m e ≤ 2 ^ 53 := by
  have hb := lt_pow_bitLength m
  unfold roundMant
  split
  · rename_i hle
    unfold roundExp at hle ⊢
    have h1 : (e - max (e + (bitLength m : Int) - 53) (-1074)).toNat + bitLength m ≤ 53 := by
      omega
    calc m * 2 ^ (e - max (e + (bitLength m : Int) - 53) (-1074)).toNat
        ≤ 2 ^ bitLength m * 2 ^ (e - max (e + (bitLength m : Int) - 53) (-1074)).toNat :=
          Nat.mul_le_mul_right _ (Nat.le_of_lt hb)
      _ = 2 ^ (bitLength m + (e - max (e + (bitLength m : Int) - 53) (-1074)).toNat) := by
          rw [pow_add]
      _ ≤ 2 ^ 53 := Nat.pow_le_pow_right (by decide) (by omega)
  · rename_i hlt
    unfold roundExp at hlt ⊢
    have h1 : bitLength m ≤ (max (e + (bitLength m : Int) - 53) (-1074) - e).toNat + 53 := by
      omega
    have hq : m / 2 ^ (max (e + (bitLength m : Int) - 53) (-1074) - e).toNat < 2 ^ 53 := by
      rw [Nat.div_lt_iff_lt_mul (Nat.two_pow_pos _), ← pow_add]
      calc m < 2 ^ bitLength m := hb
        _ ≤ 2 ^ (53 + (max (e + (bitLength m : Int) - 53) (-1074) - e).toNat) :=
          Nat.pow_le_pow_right (by decide) (by omega)
    have := roundHalfEven_le m (max (e + (bitLength m : Int) - 53) (-1074) - e).toNat
    omega

theorem round_not_nan ( neg : Bool) (m : Nat) (e : Int) : lua_Number.round neg m e ≠ .nan := by
  unfold lua_Number.round
  repeat' split
  all_goals exact fun h => lua_Number.noConfusion h

theorem round_sign ( neg : Bool) (m : Nat) (e : Int) :
    lua_Number.round neg m e = .inf neg ∨ ∃ M E, lua_Number.round neg m e = .finite neg M E := by
  unfold lua_Number.round
  repeat' split
  all_goals first
    | exact Or.inl rfl
    | exact Or.inr ⟨_, _, rfl⟩

theorem round_finite ( neg : Bool) (m : Nat) (e : Int) (h : (bitLength m : Int) + e ≤ 1023) :
    ∃ M E, lua_Number.round neg m e = .finite neg M E ∧
      (bitLength M : Int) + E ≤ max ((bitLength m : Int) + e + 1) 0 := by
  have hM := roundMant_le m e
  have hE : roundExp m e = max (e + (bitLength m : Int) - 53) (-1074) := rfl
  unfold lua_Number.round
  split
  · exact ⟨0, 0, rfl, by rw [bitLength_zero]; simp⟩
  · split
    · rw [if_neg (by omega)]
      refine ⟨_, _, rfl, ?_⟩
      have : bitLength (2 ^ 52) ≤ 53 := bitLength_le (by decide)
      omega
    · rename_i h53
      rw [if_neg (by omega)]
      refine ⟨_, _, rfl, ?_⟩
      have : bitLength (roundMant m e) ≤ 53 := bitLength_le (by omega)
      omega

theorem roundHalfEven_zero (s : Nat) : roundHalfEven 0 s = 0 := by
  unfold roundHalfEven
  simp

theorem roundMant_zero (e : Int) : roundMant 0 e = 0 := by
  unfold roundMant
  split
  · simp
  · exact roundHalfEven_zero _

theorem roundHalfEven_ge (m shift : Nat) : m / 2 ^ shift ≤ roundHalfEven m shift := by
  unfold roundHalfEven
  repeat' split
  all_goals omega

theorem roundMant_ge (m : Nat) (e : Int) (hm : m ≠ 0)
    (hE : -1074 ≤ e + (bitLength m : Int) - 53) : 2 ^ 52 ≤ roundMant m e := by
  obtain ⟨-, hlow⟩ := bitLength_spec m
  have hb : bitLength m ≠ 0 := by
    intro h0
    have := lt_pow_bitLength m
    rw [h0] at this
    simp at this
    exact hm this
  have hlow := hlow hb
  have hexp : roundExp m e = e + (bitLength m : Int) - 53 := by
    unfold roundExp
    omega
  unfold roundMant
  rw [hexp]
  split
  · rename_i hle
    have e1 : (e - (e + (bitLength m : Int) - 53)).toNat = 53 - bitLength m := by omega
    rw [e1]
    calc 2 ^ 52 = 2 ^ (bitLength m - 1) * 2 ^ (53 - bitLength m) := by
          rw [← pow_add]
          congr 1
          omega
      _ ≤ m * 2 ^ (53 - bitLength m) := Nat.mul_le_mul_right _ hlow
  · rename_i hgt
    have e1 : (e + (bitLength m : Int) - 53 - e).toNat = bitLength m - 53 := by omega
    rw [e1]
    have hq : 2 ^ 52 ≤ m / 2 ^ (bitLength m - 53) := by
      rw [Nat.le_div_iff_mul_le (Nat.two_pow_pos _), ← pow_add]
      have e2 : 52 + (bitLength m - 53) = bitLength m - 1 := by omega
      rw [e2]
      exact hlow
    exact Nat.le_trans hq (roundHalfEven_ge m _)

theorem round_canonical ( neg : Bool) (m : Nat) (e : Int) :
    (lua_Number.round neg m e).Canonical := by
  have hle := roundMant_le m e
  have hE : -1074 ≤ roundExp m e := by
    unfold roundExp
    omega
  unfold lua_Number.round
  split
  · exact Or.inl ⟨rfl, rfl⟩
  · rename_i h0
    split
    · split
      · trivial
      · rename_i h971
        exact Or.inr ⟨by decide, by decide, by omega, by omega, Or.inl (Nat.le_refl _)⟩
    · rename_i h53
      split
      · trivial
      · rename_i h971
        refine Or.inr ⟨h0, by omega, hE, by omega, ?_⟩
        by_cases hsub : roundExp m e = -1074
        · exact Or.inr hsub
        · left
          have hm : m ≠ 0 := by
            intro hm0
            rw [hm0, roundMant_zero] at h0
            exact h0 rfl
          apply roundMant_ge m e hm
          unfold roundExp at hsub
          omega

theorem ofInt_canonical (n : Int) : (lua_Number.ofInt n).Canonical := round_canonical _ _ _

theorem tenth_canonical : lua_Number.tenth.Canonical :=
  Or.inr ⟨by decide, by decide, by decide, by decide, Or.inl (by decide)⟩

theorem ite_canonical (c : Prop) [Decidable c] {a b : lua_Number} (ha : a.Canonical)
    (hb : b.Canonical) : (if c then a else b).Canonical := by
  split
  · exact ha
  · exact hb

theorem add_canonical (a b : lua_Number) : (a.add b).Canonical := by
  cases a with
  | nan => cases b <;> trivial
  | inf na =>
    cases b with
    | nan => trivial
    | inf nb =>
      simp only [lua_Number.add]
      exact ite_canonical _ trivial trivial
    | finite nb mb eb => trivial
  | finite na ma ea =>
    cases b with
    | nan => trivial
    | inf nb => trivial
    | finite nb mb eb =>
      simp only [lua_Number.add]
      exact ite_canonical _ (Or.inl ⟨rfl, rfl⟩) (round_canonical _ _ _)

theorem mul_canonical (a b : lua_Number) : (a.mul b).Canonical := by
  cases a with
  | nan => cases b <;> trivial
  | inf na =>
    cases b with
    | nan => trivial
    | inf nb => trivial
    | finite nb mb eb =>
      simp only [lua_Number.mul]
      exact ite_canonical _ trivial trivial
  | finite na ma ea =>
    cases b with
    | nan => trivial
    | inf nb =>
      simp only [lua_Number.mul]
      exact ite_canonical _ trivial trivial
    | finite nb mb eb =>
      simp only [lua_Number.mul]
      exact round_canonical _ _ _

theorem parseDecBody_canonical : ∀ (cs : List Char) (num frac : lua_Number) (dpart : Bool),
    num.Canonical → (parseDecBody num frac dpart cs).1.Canonical := by
  intro cs
  induction cs with
  | nil => intro num frac dpart hn; exact hn
  | cons c cs ih =>
    intro num frac dpart hn
    unfold parseDecBody
    split
    · split
      · exact ih _ _ _ (add_canonical _ _)
      · exact ih _ _ _ (add_canonical _ _)
    · split
      · exact ih _ _ _ hn
      · exact hn

theorem parseHexBody_canonical : ∀ (cs : List Char) (num : lua_Number),
    num.Canonical → (parseHexBody num cs).1.Canonical := by
  intro cs
  induction cs with
  | nil => intro num hn; exact hn
  | cons c cs ih =>
    intro num hn
    unfold parseHexBody
    split
    · split
      · exact ih _ (add_canonical _ _)
      · exact ih _ (add_canonical _ _)
    · exact hn

theorem ofInt_finite (n : Int) (h : n.natAbs < 2 ^ 64) :
    ∃ neg M E, lua_Number.ofInt n = .finite neg M E ∧ (bitLength M : Int) + E ≤ 65 := by
  have hb : bitLength n.natAbs ≤ 64 := bitLength_le h
  obtain ⟨M, E, h1, h2⟩ := round_finite (decide (n < 0)) n.natAbs 0 (by omega)
  exact ⟨_, M, E, h1, by omega⟩

theorem char_offset_small (c : Char) (k : Int) (hk : k.natAbs < 2 ^ 32) :
    ((c.toNat : Int) + k).natAbs < 2 ^ 64 := by
  have hc : c.toNat < 2 ^ 32 := c.val.val.isLt
  omega

theorem ite_ne_nan (c : Prop) [Decidable c] {a b : lua_Number} (ha : a ≠ .nan) (hb : b ≠ .nan) :
    (if c then a else b) ≠ .nan := by
  split
  · exact ha
  · exact hb

theorem ofInt_ten : lua_Number.ofInt 10 = .finite false 5629499534213120 (-49) := by decide

theorem ofInt_sixteen : lua_Number.ofInt 16 = .finite false 4503599627370496 (-48) := by decide

theorem ofInt_minus_one : lua_Number.ofInt (-1) = .finite true 4503599627370496 (-52) := by
  decide

theorem add_finite_ne_nan {x : lua_Number} (hx : x ≠ .nan) ( neg : Bool) (M : Nat) (E : Int) :
    x.add (.finite neg M E) ≠ .nan := by
  cases x with
  | nan => exact absurd rfl hx
  | inf n =>
    simp only [lua_Number.add]
    exact fun h => lua_Number.noConfusion h
  | finite n m e =>
    simp only [lua_Number.add]
    exact ite_ne_nan _ (fun h => lua_Number.noConfusion h) (round_not_nan _ _ _)

theorem mul_finite_ne_nan {x : lua_Number} (hx : x ≠ .nan) ( neg : Bool) (M : Nat) (E : Int)
    (hM : M ≠ 0) : x.mul (.finite neg M E) ≠ .nan := by
  cases x with
  | nan => exact absurd rfl hx
  | inf n =>
    simp only [lua_Number.mul, if_neg hM]
    exact fun h => lua_Number.noConfusion h
  | finite n m e =>
    simp only [lua_Number.mul]
    exact round_not_nan _ _ _

theorem fraction_mul_finite {f : lua_Number} (hf : f.Fraction) ( neg : Bool) (M : Nat) (E : Int)
    (h : (bitLength M : Int) + E ≤ 65) :
    ∃ n1 M1 E1, f.mul (.finite neg M E) = .finite n1 M1 E1 := by
  obtain ⟨nf, Mf, Ef, rfl, hb⟩ := hf
  have hm := bitLength_mul_le Mf M
  obtain ⟨M1, E1, h1, -⟩ := round_finite (nf != neg) (Mf * M) (Ef + E) (by omega)
  exact ⟨_, M1, E1, h1⟩

theorem fraction_mul_tenth {f : lua_Number} (hf : f.Fraction) :
    (f.mul .tenth).Fraction := by
  obtain ⟨nf, Mf, Ef, rfl, hb⟩ := hf
  have hm := bitLength_mul_le Mf 7205759403792794
  have ht : bitLength 7205759403792794 ≤ 53 := bitLength_le (by decide)
  obtain ⟨M1, E1, h1, h2⟩ := round_finite (nf != false) (Mf * 7205759403792794) (Ef + (-56))
    (by omega)
  exact ⟨_, M1, E1, h1, by omega⟩

theorem fraction_tenth : lua_Number.tenth.Fraction :=
  ⟨false, 7205759403792794, -56, rfl, by
    have ht : bitLength 7205759403792794 ≤ 53 := bitLength_le (by decide)
    omega⟩

theorem fraction_zero : (lua_Number.ofInt 0).Fraction :=
  ⟨false, 0, 0, rfl, by rw [bitLength_zero]; simp⟩

theorem parseDecBody_ne_nan : ∀ (cs : List Char) (num frac : lua_Number) (dpart : Bool),
    num ≠ .nan → frac.Fraction → (parseDecBody num frac dpart cs).1 ≠ .nan := by
  intro cs
  induction cs with
  | nil => intro num frac dpart hn _; exact hn
  | cons c cs ih =>
    intro num frac dpart hn hf
    obtain ⟨nd, Md, Ed, hd, hdb⟩ := ofInt_finite ((c.toNat : Int) - ('0'.toNat : Int))
      (by
        have := char_offset_small c (-('0'.toNat : Int)) (by decide)
        simpa [sub_eq_add_neg] using this)
    unfold parseDecBody
    split
    · split
      · apply ih _ _ _ _ (fraction_mul_tenth hf)
        obtain ⟨n1, M1, E1, h1⟩ := fraction_mul_finite hf nd Md Ed hdb
        rw [hd, h1]
        exact add_finite_ne_nan hn _ _ _
      · apply ih _ _ _ _ hf
        rw [hd, ofInt_ten]
        exact add_finite_ne_nan (mul_finite_ne_nan hn false 5629499534213120 (-49) (by decide))
          _ _ _
    · split
      · exact ih _ _ _ hn fraction_tenth
      · exact hn

theorem parseHexBody_ne_nan : ∀ (cs : List Char) (num : lua_Number),
    num ≠ .nan → (parseHexBody num cs).1 ≠ .nan := by
  intro cs
  induction cs with
  | nil => intro num hn; exact hn
  | cons c cs ih =>
    intro num hn
    have h16 : num.mul (.ofInt 16) ≠ .nan := by
      rw [ofInt_sixteen]
      exact mul_finite_ne_nan hn false 4503599627370496 (-48) (by decide)
    unfold parseHexBody
    split
    · split
      · apply ih
        obtain ⟨nd, Md, Ed, hd, -⟩ := ofInt_finite ((c.toNat : Int) - ('0'.toNat : Int))
          (by
            have := char_offset_small c (-('0'.toNat : Int)) (by decide)
            simpa [sub_eq_add_neg] using this)
        rw [hd]
        exact add_finite_ne_nan h16 _ _ _
      · apply ih
        obtain ⟨nd, Md, Ed, hd, -⟩ :=
          ofInt_finite (((tolower c).toNat : Int) - ('a'.toNat : Int) + 10)
            (by
              have := char_offset_small (tolower c) (-('a'.toNat : Int) + 10) (by decide)
              simpa [sub_eq_add_neg, add_assoc] using this)
        rw [hd]
        exact add_finite_ne_nan h16 _ _ _
    · exact hn

theorem parseLiteral_ne_nan {text : List Char} {v : TValue}
    (h : literalValue text = some v) : v ≠ .TNumber .nan := by
  have hz : lua_Number.ofInt 0 ≠ .nan := fun h => lua_Number.noConfusion h
  have hdec : ∀ cs, (parseDecBody (.ofInt 0) (.ofInt 0) false cs).1 ≠ .nan :=
    fun cs => parseDecBody_ne_nan cs _ _ _ hz fraction_zero
  have hneg : ∀ cs,
      ((parseDecBody (.ofInt 0) (.ofInt 0) false cs).1).mul (.ofInt (-1)) ≠ .nan := by
    intro cs
    rw [ofInt_minus_one]
    exact mul_finite_ne_nan (hdec cs) true 4503599627370496 (-52) (by decide)
  have hhex : ∀ cs, (parseHexBody (.ofInt 0) cs).1 ≠ .nan :=
    fun cs => parseHexBody_ne_nan cs _ hz
  unfold literalValue at h
  cases hp : parseLiteral text with
  | none => rw [hp] at h; cases h
  | some p =>
    rw [hp] at h
    simp only [Option.map_some', Option.some.injEq] at h
    subst h
    intro hv
    unfold parseLiteral at hp
    revert hp
    repeat' split
    all_goals intro hp
    all_goals first
      | exact Option.noConfusion hp
      | (simp only [Option.some.injEq] at hp
         rw [← hp] at hv
         first
           | exact TValue.noConfusion hv
           | exact hdec _ (TValue.TNumber.inj hv)
           | exact hneg _ (TValue.TNumber.inj hv)
           | exact hhex _ (TValue.TNumber.inj hv))

theorem parseLiteral_canonical {text : List Char} {x : lua_Number}
    (h : literalValue text = some (.TNumber x)) : x.Canonical := by
  have hz : (lua_Number.ofInt 0).Canonical := ofInt_canonical 0
  unfold literalValue at h
  cases hp : parseLiteral text with
  | none => rw [hp] at h; cases h
  | some p =>
    rw [hp] at h
    simp only [Option.map_some', Option.some.injEq] at h
    unfold parseLiteral at hp
    revert hp
    repeat' split
    all_goals intro hp
    all_goals first
      | exact Option.noConfusion hp
      | (simp only [Option.some.injEq] at hp
         rw [← hp] at h
         first
           | exact TValue.noConfusion h
           | (rw [← TValue.TNumber.inj h]
              first
                | exact mul_canonical _ _
                | exact parseDecBody_canonical _ _ _ _ hz
                | exact parseHexBody_canonical _ _ hz))

theorem parseLiteral_ordinary {text : List Char} {v : TValue}
    (h : literalValue text = some v) : v.Ordinary := by
  intro x hx
  subst hx
  exact ⟨fun e => parseLiteral_ne_nan h (e ▸ rfl), parseLiteral_canonical h⟩

theorem bitLength_mul_pow {m : Nat} (hm : m ≠ 0) (k : Nat) :
    bitLength (m * 2 ^ k) = bitLength m + k := by
  obtain ⟨h1, h2⟩ := bitLength_spec m
  have hb : bitLength m ≠ 0 := by
    intro h0
    rw [h0] at h1
    simp at h1
    exact hm h1
  apply isBitLength_unique (bitLength_spec (m * 2 ^ k))
  constructor
  · rw [pow_add]
    exact Nat.mul_lt_mul_of_pos_right h1 (Nat.two_pow_pos k)
  · intro _
    have e1 : bitLength m + k - 1 = bitLength m - 1 + k := by omega
    rw [e1, pow_add]
    exact Nat.mul_le_mul_right _ (h2 hb)

theorem roundHalfEven_exact (m k s : Nat) (hsk : s ≤ k) :
    roundHalfEven (m * 2 ^ k) s = m * 2 ^ (k - s) := by
  have e1 : m * 2 ^ k = m * 2 ^ (k - s) * 2 ^ s := by
    rw [Nat.mul_assoc, ← pow_add]
    congr 2
    omega
  have hmod : m * 2 ^ k % 2 ^ s = 0 := by
    rw [e1]
    exact Nat.mul_mod_left _ _
  have hdiv : m * 2 ^ k / 2 ^ s = m * 2 ^ (k - s) := by
    rw [e1]
    exact Nat.mul_div_cancel _ (Nat.two_pow_pos s)
  unfold roundHalfEven
  rw [hmod, hdiv, if_pos (Nat.two_pow_pos _)]

theorem roundHalfEven_scale (m k s : Nat) (hs : 0 < s) :
    roundHalfEven (m * 2 ^ k) (s + k) = roundHalfEven m s := by
  have hs1 : s - 1 + 1 = s := Nat.sub_add_cancel hs
  have hk := Nat.two_pow_pos k
  have hdiv : m * 2 ^ k / 2 ^ (s + k) = m / 2 ^ s := by
    rw [pow_add]
    exact Nat.mul_div_mul_right _ _ hk
  have hmod : m * 2 ^ k % 2 ^ (s + k) = m % 2 ^ s * 2 ^ k := by
    rw [pow_add]
    exact Nat.mul_mod_mul_right _ _ _
  have hhalf : 2 ^ (s + k - 1) = 2 ^ (s - 1) * 2 ^ k := by
    rw [← pow_add]
    congr 1
    omega
  unfold roundHalfEven
  rw [hdiv, hmod, hhalf]
  have c1 : m % 2 ^ s * 2 ^ k < 2 ^ (s - 1) * 2 ^ k ↔ m % 2 ^ s < 2 ^ (s - 1) :=
    Nat.mul_lt_mul_right hk
  have c2 : 2 ^ (s - 1) * 2 ^ k < m % 2 ^ s * 2 ^ k ↔ 2 ^ (s - 1) < m % 2 ^ s :=
    Nat.mul_lt_mul_right hk
  simp only [c1, c2]

theorem round_scale ( neg : Bool) (m k : Nat) (e : Int) :
    lua_Number.round neg (m * 2 ^ k) e = lua_Number.round neg m (e + k) := by
  by_cases hm : m = 0
  · subst hm
    unfold lua_Number.round
    simp [roundMant_zero]
  · have hE : roundExp (m * 2 ^ k) e = roundExp m (e + k) := by
      unfold roundExp
      rw [bitLength_mul_pow hm k]
      push_cast
      congr 1
      omega
    have hM : roundMant (m * 2 ^ k) e = roundMant m (e + k) := by
      unfold roundMant
      rw [hE]
      by_cases h1 : roundExp m (e + k) ≤ e
      · rw [if_pos h1, if_pos (by omega)]
        have e1 : (e + k - roundExp m (e + k)).toNat = k + (e - roundExp m (e + k)).toNat := by
          omega
        rw [e1, pow_add, Nat.mul_assoc]
      · rw [if_neg h1]
        by_cases h2 : roundExp m (e + k) ≤ e + k
        · rw [if_pos h2]
          have e2 : (e + k - roundExp m (e + k)).toNat
              = k - (roundExp m (e + k) - e).toNat := by omega
          rw [e2]
          exact roundHalfEven_exact m k _ (by omega)
        · rw [if_neg h2]
          have e3 : (roundExp m (e + k) - e).toNat
              = (roundExp m (e + k) - (e + k)).toNat + k := by omega
          rw [e3]
          exact roundHalfEven_scale m k _ (by omega)
    unfold lua_Number.round
    rw [hE, hM]

theorem ofInt_natCast (n : Nat) : lua_Number.ofInt (n : Int) = lua_Number.round false n 0 := by
  unfold lua_Number.ofInt
  have h1 : decide ((n : Int) < 0) = false := by simp
  rw [h1, Int.natAbs_ofNat]

theorem ofInt_repr (n : Nat) (h : n < 2 ^ 53) :
    ∃ k : Nat, lua_Number.ofInt (n : Int) = .finite false (n * 2 ^ k) (-(k : Int)) ∧
      (n ≠ 0 → k = 53 - bitLength n) := by
  rw [ofInt_natCast]
  by_cases h0 : n = 0
  · subst h0
    exact ⟨0, by decide, fun h => absurd rfl h⟩
  · have hb : bitLength n ≤ 53 := bitLength_le h
    have hlt := lt_pow_bitLength n
    have hE : roundExp n 0 = -((53 - bitLength n : Nat) : Int) := by
      unfold roundExp
      omega
    have hM : roundMant n 0 = n * 2 ^ (53 - bitLength n) := by
      unfold roundMant
      rw [hE, if_pos (by omega)]
      congr 2
      omega
    have hpos : 0 < n * 2 ^ (53 - bitLength n) :=
      Nat.mul_pos (Nat.pos_of_ne_zero h0) (Nat.two_pow_pos _)
    have hlt53 : n * 2 ^ (53 - bitLength n) < 2 ^ 53 := by
      calc n * 2 ^ (53 - bitLength n) < 2 ^ bitLength n * 2 ^ (53 - bitLength n) :=
            Nat.mul_lt_mul_of_pos_right hlt (Nat.two_pow_pos _)
        _ = 2 ^ 53 := by
            rw [← pow_add]
            congr 1
            omega
    refine ⟨53 - bitLength n, ?_, fun _ => rfl⟩
    unfold lua_Number.round
    rw [hM, hE, if_neg (by omega), if_neg (by omega), if_neg (by omega)]

theorem ofInt_mul (a b : Nat) (ha : a < 2 ^ 53) (hb : b < 2 ^ 53) :
    (lua_Number.ofInt (a : Int)).mul (lua_Number.ofInt (b : Int))
      = lua_Number.ofInt ((a * b : Nat) : Int) := by
  obtain ⟨ka, ea, -⟩ := ofInt_repr a ha
  obtain ⟨kb, eb, -⟩ := ofInt_repr b hb
  rw [ea, eb, ofInt_natCast]
  simp only [lua_Number.mul]
  have e1 : a * 2 ^ ka * (b * 2 ^ kb) = a * b * 2 ^ (ka + kb) := by
    rw [pow_add]
    ring
  rw [e1, round_scale]
  congr 1
  push_cast
  omega

theorem ofInt_add (a b : Nat) (ha : a < 2 ^ 53) (hb : b < 2 ^ 53) :
    (lua_Number.ofInt (a : Int)).add (lua_Number.ofInt (b : Int))
      = lua_Number.ofInt ((a + b : Nat) : Int) := by
  obtain ⟨ka, ea, -⟩ := ofInt_repr a ha
  obtain ⟨kb, eb, -⟩ := ofInt_repr b hb
  rw [ea, eb, ofInt_natCast]
  simp only [lua_Number.add]
  have hmin : min (-(ka : Int)) (-(kb : Int)) = -((max ka kb : Nat) : Int) := by
    omega
  have ta : (-(ka : Int) - -((max ka kb : Nat) : Int)).toNat = max ka kb - ka := by omega
  have tb : (-(kb : Int) - -((max ka kb : Nat) : Int)).toNat = max ka kb - kb := by omega
  have pa : a * 2 ^ ka * 2 ^ (max ka kb - ka) = a * 2 ^ max ka kb := by
    rw [Nat.mul_assoc, ← pow_add]
    congr 2
    omega
  have pb : b * 2 ^ kb * 2 ^ (max ka kb - kb) = b * 2 ^ max ka kb := by
    rw [Nat.mul_assoc, ← pow_add]
    congr 2
    omega
  rw [hmin, ta, tb, pa, pb]
  have hs : (if false = true then (-1 : Int) else 1) * ((a * 2 ^ max ka kb : Nat) : Int)
      + (if false = true then (-1 : Int) else 1) * ((b * 2 ^ max ka kb : Nat) : Int)
      = (((a + b) * 2 ^ max ka kb : Nat) : Int) := by
    push_cast
    simp
    ring
  rw [hs]
  by_cases h0 : a + b = 0
  · have ha0 : a = 0 := by omega
    have hb0 : b = 0 := by omega
    subst ha0 hb0
    simp
    decide
  · have hne : (((a + b) * 2 ^ max ka kb : Nat) : Int) ≠ 0 := by
      have : 0 < (a + b) * 2 ^ max ka kb :=
        Nat.mul_pos (Nat.pos_of_ne_zero h0) (Nat.two_pow_pos _)
      omega
    have hnn : decide ((((a + b) * 2 ^ max ka kb : Nat) : Int) < 0) = false := by
      simp
      omega
    rw [if_neg hne, hnn, Int.natAbs_ofNat, round_scale]
    congr 1
    omega

theorem ofInt_value_inj (a b : Nat) (ha : a < 2 ^ 53) (hb : b < 2 ^ 53)
    (h : (lua_Number.ofInt (a : Int)).value = (lua_Number.ofInt (b : Int)).value) : a = b := by
  obtain ⟨ka, ea, hka⟩ := ofInt_repr a ha
  obtain ⟨kb, eb, hkb⟩ := ofInt_repr b hb
  rw [ea, eb] at h
  simp only [lua_Number.value] at h
  have hpa := Nat.two_pow_pos ka
  have hpb := Nat.two_pow_pos kb
  by_cases ha0 : a = 0
  · by_cases hb0 : b = 0
    · rw [ha0, hb0]
    · exfalso
      have hne : b * 2 ^ kb ≠ 0 := Nat.mul_ne_zero hb0 (by omega)
      rw [ha0] at h
      simp only [Nat.zero_mul, if_true, if_neg hne, lua_Number.finite.injEq] at h
      exact hne h.2.1.symm
  · have hnea : a * 2 ^ ka ≠ 0 := Nat.mul_ne_zero ha0 (by omega)
    by_cases hb0 : b = 0
    · exfalso
      rw [hb0] at h
      simp only [Nat.zero_mul, if_true, if_neg hnea, lua_Number.finite.injEq] at h
      exact hnea h.2.1
    · have hneb : b * 2 ^ kb ≠ 0 := Nat.mul_ne_zero hb0 (by omega)
      simp only [if_neg hnea, if_neg hneb, lua_Number.finite.injEq] at h
      obtain ⟨-, hm, hk⟩ := h
      have hkk : ka = kb := by omega
      rw [hkk] at hm
      exact Nat.eq_of_mul_eq_mul_right hpb hm

theorem digitsValue_ge : ∀ (ds : List Char) (out : Int), 0 ≤ out →
    (∀ d ∈ ds, isdigit d = true) → out ≤ digitsValue out ds := by
  intro ds
  induction ds with
  | nil => intro out _ _; exact Int.le_refl _
  | cons d ds ih =>
    intro out h hds
    have hd : d.isDigit = true := hds d (List.mem_cons_self _ _)
    simp only [Char.isDigit, Bool.and_eq_true, decide_eq_true_eq] at hd
    have h48 : 48 ≤ d.toNat := hd.1
    have h0 : ('0' : Char).toNat = 48 := rfl
    unfold digitsValue
    have := ih (out * 10 + ((d.toNat : Int) - ('0'.toNat : Int))) (by rw [h0]; omega)
      (fun e he => hds e (List.mem_cons_of_mem _ he))
    rw [h0] at this ⊢
    omega

theorem parseDecBody_digits : ∀ (ds : List Char) (v : Nat) (frac : lua_Number)
    (rest : List Char), (∀ d ∈ ds, isdigit d = true) →
    (∀ c t, rest = c :: t → isdigit c = false ∧ c ≠ '.') →
    digitsValue (v : Int) ds < 2 ^ 53 →
    parseDecBody (.ofInt (v : Int)) frac false (ds ++ rest)
      = (.ofInt (digitsValue (v : Int) ds), rest) := by
  intro ds
  induction ds with
  | nil =>
    intro v frac rest _ hrest _
    cases rest with
    | nil => rfl
    | cons c t =>
      obtain ⟨h1, h2⟩ := hrest c t rfl
      simp [parseDecBody, digitsValue, h1, h2]
  | cons d ds ih =>
    intro v frac rest hds hrest hv
    have hdd := hds d (List.mem_cons_self _ _)
    have hd : d.isDigit = true := hdd
    simp only [Char.isDigit, Bool.and_eq_true, decide_eq_true_eq] at hd
    have h48 : 48 ≤ d.toNat := hd.1
    have h57 : d.toNat ≤ 57 := hd.2
    have h0 : ('0' : Char).toNat = 48 := rfl
    have hcast : (v : Int) * 10 + ((d.toNat : Int) - ('0'.toNat : Int))
        = ((v * 10 + (d.toNat - 48) : Nat) : Int) := by
      rw [h0]
      omega
    have hdig : ((d.toNat : Int) - ('0'.toNat : Int)) = ((d.toNat - 48 : Nat) : Int) := by
      rw [h0]
      omega
    unfold digitsValue at hv ⊢
    rw [hcast] at hv ⊢
    have hge := digitsValue_ge ds ((v * 10 + (d.toNat - 48) : Nat) : Int) (by omega)
      (fun e he => hds e (List.mem_cons_of_mem _ he))
    have hb : v * 10 + (d.toNat - 48) < 2 ^ 53 := by
      have h53 : ((2 : Int) ^ 53) = ((2 ^ 53 : Nat) : Int) := by norm_num
      omega
    have hstep : ((lua_Number.ofInt (v : Int)).mul (.ofInt 10)).add
        (.ofInt ((d.toNat : Int) - ('0'.toNat : Int)))
        = .ofInt ((v * 10 + (d.toNat - 48) : Nat) : Int) := by
      have h1 := ofInt_mul v 10 (by omega) (by decide)
      have h2 := ofInt_add (v * 10) (d.toNat - 48) (by omega) (by omega)
      rw [hdig]
      rw [show lua_Number.ofInt 10 = lua_Number.ofInt ((10 : Nat) : Int) from rfl, h1, h2]
    rw [List.cons_append]
    unfold parseDecBody
    simp only [hdd, if_true, Bool.false_eq_true, if_false]
    rw [hstep]
    exact ih _ frac rest (fun e he => hds e (List.mem_cons_of_mem _ he)) hrest hv

theorem tolower_of_digit {c : Char} (hc : isdigit c = true) : tolower c = c := by
  unfold tolower Char.toLower
  have hd : c.isDigit = true := hc
  simp only [Char.isDigit, Bool.and_eq_true, decide_eq_true_eq] at hd
  have h57 : c.toNat ≤ 57 := hd.2
  have : ¬(c.toNat ≥ 65 ∧ c.toNat ≤ 90) := by omega
  simp only [this, if_false]

theorem digit_not_quote_sign {c : Char} (hc : isdigit c = true) :
    c ≠ squote ∧ c ≠ dquote ∧ c ≠ '-' ∧ c ≠ '+' := by
  refine ⟨?_, ?_, ?_, ?_⟩ <;>
  · intro h
    rw [h] at hc
    revert hc
    decide

theorem literalValue_decimal (d : Char) (ds rest : List Char)
    (hds : ∀ c ∈ d :: ds, isdigit c = true)
    (hrest : ∀ c t, rest = c :: t → isdigit c = false ∧ c ≠ '.')
    (hhex : ∀ t, d :: ds ++ rest ≠ '0' :: 'x' :: t)
    (hv : digitsValue 0 (d :: ds) < 2 ^ 53) :
    literalValue (d :: ds ++ rest) = some (.TNumber (.ofInt (digitsValue 0 (d :: ds)))) := by
  have hd := hds d (List.mem_cons_self _ _)
  obtain ⟨q1, q2, q3, q4⟩ := digit_not_quote_sign hd
  have hbody := parseDecBody_digits (d :: ds) 0 (.ofInt 0) rest hds hrest hv
  simp only [Nat.cast_zero] at hbody
  unfold literalValue parseLiteral
  rw [List.cons_append]
  simp only [tolower_of_digit hd, q1, q2, q3, q4, hd, Bool.or_false, Bool.false_or, decide_False,
    Bool.or_self, Bool.true_or, if_true, if_false]
  simp only [Bool.false_eq_true, if_false]
  split
  · rename_i cs1 heq
    exact absurd (by rw [List.cons_append, heq]) (hhex cs1)
  · rw [← List.cons_append, hbody]
    rfl

theorem hexDigit_cases {c : Char} (hc : isxdigit c = true) :
    (if c.toNat ≤ '9'.toNat && '0'.toNat ≤ c.toNat then (c.toNat : Int) - ('0'.toNat : Int)
      else ((tolower c).toNat : Int) - ('a'.toNat : Int) + 10) = (hexDigitValue c : Int) ∧
    hexDigitValue c < 16 := by
  have hof : c = Char.ofNat c.toNat := (Char.ofNat_toNat c).symm
  have hr : (48 ≤ c.toNat ∧ c.toNat ≤ 57) ∨ (97 ≤ c.toNat ∧ c.toNat ≤ 102)
      ∨ (65 ≤ c.toNat ∧ c.toNat ≤ 70) := by
    simp only [isxdigit, Char.isDigit, Bool.or_eq_true, Bool.and_eq_true,
      decide_eq_true_eq] at hc
    rcases hc with h | h | h
    · exact Or.inl ⟨h.1, h.2⟩
    · exact Or.inr (Or.inl ⟨h.1, h.2⟩)
    · exact Or.inr (Or.inr ⟨h.1, h.2⟩)
  generalize c.toNat = n at hof hr
  subst hof
  rcases hr with ⟨h1, h2⟩ | ⟨h1, h2⟩ | ⟨h1, h2⟩ <;> interval_cases n <;> decide

theorem parseHexBody_digits : ∀ (hs : List Char) (v : Nat) (rest : List Char),
    (∀ d ∈ hs, isxdigit d = true) → (∀ c t, rest = c :: t → isxdigit c = false) →
    hexValue v hs < 2 ^ 53 →
    parseHexBody (.ofInt (v : Int)) (hs ++ rest) = (.ofInt ((hexValue v hs : Nat) : Int), rest) := by
  intro hs
  induction hs with
  | nil =>
    intro v rest _ hrest _
    cases rest with
    | nil => rfl
    | cons c t => simp [parseHexBody, hexValue, hrest c t rfl]
  | cons d hs ih =>
    intro v rest hds hrest hv
    have hdd := hds d (List.mem_cons_self _ _)
    obtain ⟨hval, h16⟩ := hexDigit_cases hdd
    have hge : ∀ (l : List Char) (w : Nat), w ≤ hexValue w l := by
      intro l
      induction l with
      | nil => intro w; exact Nat.le_refl _
      | cons x xs ihx =>
        intro w
        unfold hexValue
        have := ihx (w * 16 + hexDigitValue x)
        omega
    unfold hexValue at hv ⊢
    have hb : v * 16 + hexDigitValue d < 2 ^ 53 := Nat.lt_of_le_of_lt (hge hs _) hv
    have hstep : ∀ x : Int, x = (hexDigitValue d : Int) →
        ((lua_Number.ofInt (v : Int)).mul (.ofInt 16)).add (.ofInt x)
          = .ofInt ((v * 16 + hexDigitValue d : Nat) : Int) := by
      intro x hx
      have h1 := ofInt_mul v 16 (by omega) (by decide)
      have h2 := ofInt_add (v * 16) (hexDigitValue d) (by omega) (by omega)
      rw [hx, show lua_Number.ofInt 16 = lua_Number.ofInt ((16 : Nat) : Int) from rfl, h1, h2]
    rw [List.cons_append]
    unfold parseHexBody
    simp only [hdd, if_true]
    split
    · rename_i hcond
      rw [if_pos hcond] at hval
      rw [hstep _ hval]
      exact ih _ rest (fun e he => hds e (List.mem_cons_of_mem _ he)) hrest hv
    · rename_i hcond
      rw [if_neg hcond] at hval
      rw [hstep _ hval]
      exact ih _ rest (fun e he => hds e (List.mem_cons_of_mem _ he)) hrest hv

theorem literalValue_hex (hs rest : List Char) (hds : ∀ d ∈ hs, isxdigit d = true)
    (hrest : ∀ c t, rest = c :: t → isxdigit c = false) (hv : hexValue 0 hs < 2 ^ 53) :
    literalValue ('0' :: 'x' :: (hs ++ rest))
      = some (.TNumber (.ofInt ((hexValue 0 hs : Nat) : Int))) := by
  have hbody := parseHexBody_digits hs 0 rest hds hrest hv
  simp only [Nat.cast_zero] at hbody
  unfold literalValue parseLiteral
  have t0 : tolower '0' = '0' := by decide
  have q1 : ('0' : Char) ≠ squote := by decide
  have q2 : ('0' : Char) ≠ dquote := by decide
  have q3 : ('0' : Char) ≠ '-' := by decide
  have q4 : ('0' : Char) ≠ '+' := by decide
  have hd : isdigit '0' = true := by decide
  simp only [t0, q1, q2, q3, q4, hd, Bool.or_false, Bool.false_or, decide_False,
    Bool.or_self, Bool.true_or, if_true, if_false, hbody]
  rfl

/-! ## Lemmas on the constant pool -/

theorem canonical_scaled_eq {na nb : Bool} {ma mb : Nat} {ea eb : Int}
    (ca : (lua_Number.finite na ma ea).Canonical) (cb : (lua_Number.finite nb mb eb).Canonical)
    (ha : ma ≠ 0) (hb : mb ≠ 0)
    (h : ma * 2 ^ (ea - min ea eb).toNat = mb * 2 ^ (eb - min ea eb).toNat) :
    ma = mb ∧ ea = eb := by
  rcases ca with ⟨h0, -⟩ | ⟨-, ha53, hae, -, han⟩
  · exact absurd h0 ha
  rcases cb with ⟨h0, -⟩ | ⟨-, hb53, hbe, -, hbn⟩
  · exact absurd h0 hb
  have hpow : ∀ k : Nat, 1 ≤ k → 2 ≤ 2 ^ k := by
    intro k hk
    calc 2 = 2 ^ 1 := rfl
      _ ≤ 2 ^ k := Nat.pow_le_pow_right (by decide) hk
  rcases Int.lt_trichotomy ea eb with hlt | heq | hgt
  · exfalso
    have e1 : (ea - min ea eb).toNat = 0 := by omega
    have hk : 1 ≤ (eb - min ea eb).toNat := by omega
    rw [e1, pow_zero, Nat.mul_one] at h
    have h2 := hpow _ hk
    have hbig : 2 ^ 52 ≤ mb := by
      rcases hbn with hn | hn
      · exact hn
      · omega
    have : mb * 2 ≤ mb * 2 ^ (eb - min ea eb).toNat := Nat.mul_le_mul_left _ h2
    omega
  · have e1 : (ea - min ea eb).toNat = 0 := by omega
    have e2 : (eb - min ea eb).toNat = 0 := by omega
    rw [e1, e2, pow_zero, Nat.mul_one, Nat.mul_one] at h
    exact ⟨h, heq⟩
  · exfalso
    have e1 : (eb - min ea eb).toNat = 0 := by omega
    have hk : 1 ≤ (ea - min ea eb).toNat := by omega
    rw [e1, pow_zero, Nat.mul_one] at h
    have h2 := hpow _ hk
    have hbig : 2 ^ 52 ≤ ma := by
      rcases han with hn | hn
      · exact hn
      · omega
    have : ma * 2 ≤ ma * 2 ^ (ea - min ea eb).toNat := Nat.mul_le_mul_left _ h2
    omega

theorem number_eq_iff_value {a b : lua_Number} (ha : a ≠ .nan) (hb : b ≠ .nan)
    (ca : a.Canonical) (cb : b.Canonical) : a.eq b = true ↔ a.value = b.value := by
  cases a with
  | nan => exact absurd rfl ha
  | inf na =>
    cases b with
    | nan => exact absurd rfl hb
    | inf nb => simp [lua_Number.eq, lua_Number.value]
    | finite nb mb eb =>
      simp only [lua_Number.eq, lua_Number.value]
      split <;> simp
  | finite na ma ea =>
    cases b with
    | nan => exact absurd rfl hb
    | inf nb =>
      simp only [lua_Number.eq, lua_Number.value]
      split <;> simp
    | finite nb mb eb =>
      simp only [lua_Number.eq, lua_Number.value]
      by_cases h1 : ma = 0 <;> by_cases h2 : mb = 0
      · simp [h1, h2]
      · have hpos : 0 < mb * 2 ^ (eb - min ea eb).toNat :=
          Nat.mul_pos (Nat.pos_of_ne_zero h2) (Nat.two_pow_pos _)
        have hne : ¬ 0 = mb * 2 ^ (eb - min ea eb).toNat := by omega
        have h3 : ¬ 0 = mb := fun h => h2 h.symm
        simp [h1, h2, h3, hne]
      · have hpos : 0 < ma * 2 ^ (ea - min ea eb).toNat :=
          Nat.mul_pos (Nat.pos_of_ne_zero h1) (Nat.two_pow_pos _)
        have hne : ¬ ma * 2 ^ (ea - min ea eb).toNat = 0 := by omega
        simp [h1, h2, hne]
      · simp only [h1, h2, decide_False, Bool.and_self, Bool.false_or, Bool.and_eq_true,
          decide_eq_true_eq, if_false, lua_Number.finite.injEq]
        constructor
        · rintro ⟨hn, hs⟩
          obtain ⟨hm, he⟩ := canonical_scaled_eq ca cb h1 h2 hs
          exact ⟨hn, hm, he⟩
        · rintro ⟨hn, hm, he⟩
          exact ⟨hn, by rw [hm, he]⟩

theorem eq_iff_value {v w : TValue} (hv : v.Ordinary) (hw : w.Ordinary) :
    v.eq w = true ↔ v.value = w.value := by
  cases v <;> cases w
  all_goals try simp [TValue.eq, TValue.value]
  rename_i a b
  exact number_eq_iff_value (hv a rfl).1 (hw b rfl).1 (hv a rfl).2 (hw b rfl).2

theorem findConstant_eq (v : TValue) (l : List TValue) (i : Nat)
    (hl : ∀ c ∈ l, c.Ordinary) (hv : v.Ordinary) :
    findConstant v l i
      = if v.value ∈ l.map TValue.value then some (i + (l.map TValue.value).indexOf v.value)
        else none := by
  induction l generalizing i with
  | nil => simp [findConstant]
  | cons c cs ih =>
    have hc := hl c (List.mem_cons_self _ _)
    have ih' := fun i => ih i (fun d hd => hl d (List.mem_cons_of_mem _ hd))
    have hiff := eq_iff_value hc hv
    unfold findConstant
    by_cases h : c.value = v.value
    · have he : c.eq v = true := hiff.2 h
      rw [if_pos he, List.map_cons, h, if_pos (List.mem_cons_self _ _), List.indexOf_cons_self]
      rfl
    · have he : ¬ c.eq v = true := fun e => h (hiff.1 e)
      have h' : ¬ v.value = c.value := fun e => h e.symm
      rw [if_neg he, ih' (i + 1), List.map_cons, List.indexOf_cons_ne _ h]
      simp only [List.mem_cons, h', false_or]
      split
      · congr 1
        omega
      · rfl

theorem addConstant_pool (l : List TValue) (v : TValue)
    (hl : ∀ c ∈ l, c.Ordinary) (hv : v.Ordinary) :
    (addConstant l v).1 = if v.value ∈ l.map TValue.value then l else l ++ [v] := by
  unfold addConstant
  rw [findConstant_eq v l 0 hl hv]
  by_cases h : v.value ∈ l.map TValue.value <;> simp [h]

theorem addConstant_index (l : List TValue) (v : TValue)
    (hl : ∀ c ∈ l, c.Ordinary) (hv : v.Ordinary) :
    (addConstant l v).2 = ((addConstant l v).1.map TValue.value).indexOf v.value := by
  unfold addConstant
  rw [findConstant_eq v l 0 hl hv]
  by_cases h : v.value ∈ l.map TValue.value
  · simp [h]
  · simp only [h, if_false, List.map_append, List.map_cons, List.map_nil]
    rw [List.indexOf_append_of_not_mem h]
    simp

theorem parseConstant_some {a a1 : Assembler} {text bend : List Char} {id : Nat}
    (h : parseConstant a text = (some (bend, id), a1)) :
    ∃ v, literalValue text = some v ∧ a1.constants_ = (addConstant a.constants_ v).1 ∧
      id = (addConstant a.constants_ v).2 := by
  unfold parseConstant at h
  unfold literalValue
  cases hl : parseLiteral text with
  | none => simp [hl] at h
  | some p =>
    obtain ⟨tval, b⟩ := p
    simp only [hl] at h
    cases ht : constTrailing a.parseStatus_ b with
    | none => simp [ht] at h
    | some b1 =>
      simp only [ht, Prod.mk.injEq, Option.some.injEq] at h
      obtain ⟨⟨_, hid⟩, ha⟩ := h
      refine ⟨tval, rfl, ?_, hid.symm⟩
      rw [← ha]

theorem addConstant_ordinary (l : List TValue) (v : TValue)
    (hl : ∀ c ∈ l, c.Ordinary) (hv : v.Ordinary) :
    ∀ c ∈ (addConstant l v).1, c.Ordinary := by
  rw [addConstant_pool l v hl hv]
  split
  · exact hl
  · intro c hc
    rcases List.mem_append.1 hc with h | h
    · exact hl c h
    · rw [List.mem_singleton.1 h]
      exact hv

theorem addConstant_nodup {l : List TValue} (v : TValue)
    (hl : ∀ c ∈ l, c.Ordinary) (hv : v.Ordinary)
    (h : (l.map TValue.value).Nodup) : ((addConstant l v).1.map TValue.value).Nodup := by
  rw [addConstant_pool l v hl hv]
  by_cases hm : v.value ∈ l.map TValue.value
  · simpa [hm] using h
  · simp only [hm, if_false, List.map_append, List.map_cons, List.map_nil]
    exact List.Nodup.append h (List.nodup_singleton _) (by simpa using hm)

theorem addConstant_mem (l : List TValue) (v : TValue)
    (hl : ∀ c ∈ l, c.Ordinary) (hv : v.Ordinary) (p : TValue) :
    p ∈ (addConstant l v).1.map TValue.value ↔ p ∈ l.map TValue.value ∨ p = v.value := by
  rw [addConstant_pool l v hl hv]
  by_cases hm : v.value ∈ l.map TValue.value
  · simp only [hm, if_true]
    constructor
    · exact Or.inl
    · rintro (h | h)
      · exact h
      · exact h ▸ hm
  · simp [hm]

theorem addConstant_ext (l : List TValue) (v : TValue) :
    ∃ ext, (addConstant l v).1 = l ++ ext := by
  unfold addConstant
  split
  · exact ⟨[], by simp⟩
  · exact ⟨[v], rfl⟩

theorem parseConstantSeq_spec : ∀ (texts : List (List Char)) (a a' : Assembler) (ids : List Nat),
    parseConstantSeq a texts = some (ids, a') →
    (∀ c ∈ a.constants_, c.Ordinary) → (a.constants_.map TValue.value).Nodup →
    ∃ vals : List TValue, texts.map literalValue = vals.map some ∧
      (∀ c ∈ a'.constants_, c.Ordinary) ∧ (a'.constants_.map TValue.value).Nodup ∧
      (∀ p, p ∈ a'.constants_.map TValue.value ↔
        p ∈ a.constants_.map TValue.value ∨ p ∈ vals.map TValue.value) ∧
      ids = vals.map (fun v => (a'.constants_.map TValue.value).indexOf v.value) ∧
      ∃ ext, a'.constants_ = a.constants_ ++ ext := by
  intro texts
  induction texts with
  | nil =>
    intro a a' ids h ho hn
    simp only [parseConstantSeq, Option.some.injEq, Prod.mk.injEq] at h
    obtain ⟨h1, h2⟩ := h
    subst h1 h2
    exact ⟨[], rfl, ho, hn, by simp, rfl, [], by simp⟩
  | cons t ts ih =>
    intro a a' ids h ho hn
    unfold parseConstantSeq at h
    cases hp : parseConstant a t with
    | mk r a1 =>
      cases r with
      | none => simp [hp] at h
      | some q =>
        obtain ⟨bend, id⟩ := q
        simp only [hp] at h
        cases hs : parseConstantSeq a1 ts with
        | none => simp [hs] at h
        | some q2 =>
          obtain ⟨ids2, a2⟩ := q2
          simp only [hs, Option.some.injEq, Prod.mk.injEq] at h
          obtain ⟨h1, h2⟩ := h
          subst h1 h2
          obtain ⟨v, hv, hc, hid⟩ := parseConstant_some hp
          have hvo : v.Ordinary := parseLiteral_ordinary hv
          have ho1 : ∀ c ∈ a1.constants_, c.Ordinary :=
            hc ▸ addConstant_ordinary _ v ho hvo
          have hn1 : (a1.constants_.map TValue.value).Nodup :=
            hc ▸ addConstant_nodup v ho hvo hn
          obtain ⟨vals, hvals, ho2, hn2, hmem, hids, ext, hext⟩ := ih a1 a2 ids2 hs ho1 hn1
          have hv1 : v.value ∈ a1.constants_.map TValue.value := by
            rw [hc]; exact (addConstant_mem _ _ ho hvo _).2 (Or.inr rfl)
          refine ⟨v :: vals, ?_, ho2, hn2, ?_, ?_, ?_⟩
          · simp [hv, hvals]
          · intro w
            rw [hmem w, hc, addConstant_mem _ _ ho hvo]
            simp only [List.map_cons, List.mem_cons]
            tauto
          · simp only [List.map_cons, List.cons.injEq]
            refine ⟨?_, hids⟩
            have e1 : id = (a1.constants_.map TValue.value).indexOf v.value := by
              rw [hid, addConstant_index _ _ ho hvo, ← hc]
            rw [e1, hext, List.map_append, List.indexOf_append_of_mem hv1]
          · obtain ⟨ext1, hext1⟩ := addConstant_ext a.constants_ v
            exact ⟨ext1 ++ ext, by rw [hext, hc, hext1, List.append_assoc]⟩

theorem value_type (v : TValue) : v.value.type = v.type := by
  cases v <;> rfl

theorem pair_eq_iff (v w : TValue) : v.pair = w.pair ↔ v.value = w.value := by
  unfold TValue.pair
  constructor
  · intro h
    exact (Prod.mk.inj h).2
  · intro h
    rw [← value_type v, ← value_type w, h]

theorem dedup_pair_length (vals : List TValue) :
    (vals.map TValue.pair).dedup.length = (vals.map TValue.value).dedup.length := by
  have hinj : Function.Injective (fun x : TValue => (x.type, x)) := by
    intro x y h
    exact (Prod.mk.inj h).2
  have hmap : vals.map TValue.pair = (vals.map TValue.value).map (fun x => (x.type, x)) := by
    rw [List.map_map]
    apply List.map_congr_left
    intro v _
    simp only [Function.comp, TValue.pair, value_type]
  rw [hmap, List.dedup_map_of_injective hinj, List.length_map]

/-- C1. Constant-pool deduplication: from an empty pool, for every sequence of
literals accepted by `parseConstant`, every literal has a value, which for a
number is a `double` in canonical form and not a NaN; two literals receive the
same pool index exactly when their pairs of type tag and value are equal, the
value of a number being its value as a `double` (the two zeros are one value);
and the final pool has as many entries as there are distinct pairs in the
sequence. On these values `operator==` is the equality of the pairs. The value
of a literal is fixed independently of the parser for the integers below
`2 ^ 53`: a run of decimal digits, and `0x` followed by a run of hexadecimal
digits, have the `double` of the integer they write, and two such integers have
the same pair only when they are equal. The fraction loop, the sign and the
other kinds of literal are fixed at six literals: `0.3` is read as
`5404319552844596 * 2 ^ -54` (the loop adds `0.1 * 3`), `-2.5` as -2.5, `-0` as
the negative zero, `False` as the boolean false, `nil` as nil and a quoted
string with the escape of a line feed as the string with the line feed. -/
theorem C1_constant_pool_dedup (a a' : Assembler) (texts : List (List Char)) (ids : List Nat)
    (hempty : a.constants_ = []) (hrun : parseConstantSeq a texts = some (ids, a')) :
    texts.map literalValue = (texts.filterMap literalValue).map some ∧
    (∀ v ∈ texts.filterMap literalValue, ∀ x, v = .TNumber x → x ≠ .nan ∧ x.Canonical) ∧
    ids.length = texts.length ∧
    (∀ i j, i < texts.length → j < texts.length →
      (ids[i]? = ids[j]? ↔
        ((texts.filterMap literalValue).map TValue.pair)[i]?
          = ((texts.filterMap literalValue).map TValue.pair)[j]?)) ∧
    a'.constants_.length = ((texts.filterMap literalValue).map TValue.pair).dedup.length ∧
    (∀ v ∈ texts.filterMap literalValue, ∀ w ∈ texts.filterMap literalValue,
      (v.eq w = true ↔ v.pair = w.pair)) ∧
    (∀ (d : Char) (ds rest : List Char), (∀ c ∈ d :: ds, isdigit c = true) →
      (∀ c t, rest = c :: t → isdigit c = false ∧ c ≠ '.') →
      (∀ t, d :: ds ++ rest ≠ '0' :: 'x' :: t) → digitsValue 0 (d :: ds) < 2 ^ 53 →
      literalValue (d :: ds ++ rest)
        = some (.TNumber (.ofInt (digitsValue 0 (d :: ds))))) ∧
    (∀ (hs rest : List Char), (∀ d ∈ hs, isxdigit d = true) →
      (∀ c t, rest = c :: t → isxdigit c = false) → hexValue 0 hs < 2 ^ 53 →
      literalValue ('0' :: 'x' :: (hs ++ rest))
        = some (.TNumber (.ofInt ((hexValue 0 hs : Nat) : Int)))) ∧
    (∀ m n : Nat, m < 2 ^ 53 → n < 2 ^ 53 →
      ((TValue.TNumber (.ofInt (m : Int))).pair = (TValue.TNumber (.ofInt (n : Int))).pair
        ↔ m = n)) ∧
    literalValue "0.3".toList = some (.TNumber (.finite false 5404319552844596 (-54))) ∧
    literalValue "-2.5".toList = some (.TNumber (.finite true 5629499534213120 (-51))) ∧
    literalValue "-0".toList = some (.TNumber (.finite true 0 0)) ∧
    literalValue "False".toList = some (.TBool false) ∧
    literalValue "nil".toList = some .TNil ∧
    literalValue [dquote, 'a', backslash, 'n', 'b', dquote]
      = some (.TString (String.mk ['a', Char.ofNat 10, 'b'])) := by
  obtain ⟨vals, hvals, -, hn, hmem, hids, -⟩ :=
    parseConstantSeq_spec texts a a' ids hrun (by simp [hempty]) (by simp [hempty])
  have hfm : texts.filterMap literalValue = vals := by
    have h1 : texts.filterMap literalValue = (texts.map literalValue).filterMap id := by
      rw [List.filterMap_map]; rfl
    rw [h1, hvals, List.filterMap_map]
    exact List.filterMap_some vals
  have hlen : vals.length = texts.length := by
    have := congrArg List.length hvals
    simpa using this.symm
  have hord : ∀ v ∈ vals, v.Ordinary := by
    intro v hv
    obtain ⟨i, hi, hget⟩ := List.getElem_of_mem hv
    have h2 : (texts.map literalValue)[i]? = some (some v) := by
      rw [hvals, List.getElem?_map, List.getElem?_eq_getElem hi, hget]
      rfl
    rw [List.getElem?_map] at h2
    cases ht : texts[i]? with
    | none => rw [ht] at h2; cases h2
    | some t =>
      rw [ht] at h2
      simp only [Option.map_some', Option.some.injEq] at h2
      exact parseLiteral_ordinary h2
  rw [hfm]
  refine ⟨hvals, hord, by rw [hids, List.length_map, hlen], ?_, ?_,
    fun v hv w hw => (eq_iff_value (hord v hv) (hord w hw)).trans (pair_eq_iff v w).symm,
    literalValue_decimal, literalValue_hex, ?_, by decide, by decide, by decide, by decide,
    by decide, by decide⟩
  · intro i j hi hj
    have hi' : i < vals.length := hlen ▸ hi
    have hj' : j < vals.length := hlen ▸ hj
    have mi : vals[i].value ∈ a'.constants_.map TValue.value :=
      (hmem _).2 (Or.inr (List.mem_map_of_mem _ (List.getElem_mem _)))
    have mj : vals[j].value ∈ a'.constants_.map TValue.value :=
      (hmem _).2 (Or.inr (List.mem_map_of_mem _ (List.getElem_mem _)))
    rw [hids, List.getElem?_map, List.getElem?_map, List.getElem?_map, List.getElem?_map,
      List.getElem?_eq_getElem hi', List.getElem?_eq_getElem hj']
    simp only [Option.map_some', Option.some.injEq]
    rw [pair_eq_iff]
    exact List.indexOf_inj mi mj
  · rw [dedup_pair_length]
    have hp : (a'.constants_.map TValue.value).Perm (vals.map TValue.value).dedup := by
      rw [List.perm_ext_iff_of_nodup hn (List.nodup_dedup _)]
      intro v
      rw [hmem v, hempty, List.mem_dedup]
      simp
    have := hp.length_eq
    simpa using this
  · intro m n hm hn2
    rw [pair_eq_iff]
    constructor
    · intro h
      exact ofInt_value_inj m n hm hn2 (TValue.TNumber.inj h)
    · intro h
      rw [h]

/-- C1 at concrete inputs, inside a constant segment: the number 1 written
twice takes one pool entry, the number 1 and the boolean true take two; the
literals `9007199254740992` and `9007199254740993` are the same `double` and
share an entry; `0` and `-0` are equal numbers and share an entry, which keeps
the zero read first. -/
theorem C1_constant_pool_dedup_witness :
    (parseConstantSeq { Assembler.new none none with parseStatus_ := .PARSE_CONST }
        ["1".toList, "1".toList]).map (fun r => (r.1, r.2.constants_))
      = some ([0, 0], [.TNumber (.ofInt 1)]) ∧
    (parseConstantSeq { Assembler.new none none with parseStatus_ := .PARSE_CONST }
        ["1".toList, "true".toList]).map (fun r => (r.1, r.2.constants_))
      = some ([0, 1], [.TNumber (.ofInt 1), .TBool true]) ∧
    (parseConstantSeq { Assembler.new none none with parseStatus_ := .PARSE_CONST }
        ["9007199254740992".toList, "9007199254740993".toList, "0.3".toList]).map
        (fun r => (r.1, r.2.constants_))
      = some ([0, 0, 1], [.TNumber (.finite false 4503599627370496 1),
          .TNumber (.finite false 5404319552844596 (-54))]) ∧
    (parseConstantSeq { Assembler.new none none with parseStatus_ := .PARSE_CONST }
        ["-0".toList, "0".toList]).map (fun r => (r.1, r.2.constants_))
      = some ([0, 0], [.TNumber (.finite true 0 0)]) ∧
    ([TValue.TNumber (.ofInt 1), .TBool true] : List TValue).length
      = ((["1".toList, "true".toList].filterMap literalValue).map TValue.pair).dedup.length :=
  ⟨by decide, by decide, by decide, by decide,
    (C1_constant_pool_dedup { Assembler.new none none with parseStatus_ := .PARSE_CONST }
      { Assembler.new none none with
          parseStatus_ := .PARSE_CONST, constants_ := [.TNumber (.ofInt 1), .TBool true] }
      ["1".toList, "true".toList] [0, 1] rfl rfl).2.2.2.2.1⟩


theorem appendLocations_eq (pre acc : String) (rest : List (String × Int)) :
    pre ++ String.intercalate.go acc ", " (rest.map Prod.fst) = appendLocations (pre ++ acc) rest := by
  induction rest generalizing acc with
  | nil => simp [String.intercalate.go, appendLocations]
  | cons e es ih =>
    obtain ⟨n, i⟩ := e
    simp only [List.map_cons, String.intercalate.go, appendLocations]
    rw [ih]
    simp [String.append_assoc]

/-- C3. `finalizeFunction` fails exactly when the pending location-patch list
is not empty; it then returns the message "undeclared locations: " followed by
the pending label names joined by ", " in queue order, and leaves the whole
state (function table and accumulators) as it was. -/
theorem C3_finalize_fails_on_pending (a : Assembler) :
    ((finalizeFunction a).1.success = false ↔ a.neededLocations_ ≠ []) ∧
    (a.neededLocations_ ≠ [] →
      (finalizeFunction a).1.error_msg
          = "undeclared locations: " ++ ", ".intercalate (a.neededLocations_.map Prod.fst) ∧
      (finalizeFunction a).2 = a) := by
  unfold finalizeFunction
  cases h : a.neededLocations_ with
  | nil => simp
  | cons e es =>
    obtain ⟨n, i⟩ := e
    simp only [ne_eq, reduceCtorEq, not_false_eq_true, true_and, forall_const, and_true,
      List.map_cons, String.intercalate]
    exact (appendLocations_eq "undeclared locations: " n es).symm


/-! ## Scenarios -/

/-- C5. Assembling the six-line source of the scenario succeeds; the function
table then holds exactly one function, `main`, with constant pool
`[String "hi"]`, the two instructions LOADK (A = 0, Bx = 0) and RETURN (A = 0,
B = 1), no upvalue descriptor and no used subroutine, and the writer receives a
proto count of 0 for it. -/
theorem C5_scenario_hello :
    (assemble LConfig.lua53 1 (Assembler.onSource sourceHello)).map
        (fun r => (r.1, r.2.functions_)) =
      some (⟨true, ""⟩,
        [("main",
          { name := "main", instructions := [1, 8388646], upvalues := [], usedSubroutines := [],
            lineinfos := [], neededSubroutines := [], constants := [.TString "hi"],
            maxstacksize := 2, params := 0, vararg := 0 })]) ∧
    (luaP_opnames.get? (GET_OPCODE 1), GETARG_A 1, GETARG_Bx 1) = (some "loadk", 0, 0) ∧
    (luaP_opnames.get? (GET_OPCODE 8388646), GETARG_A 8388646, GETARG_B 8388646)
      = (some "return", 0, 1) ∧
    (assemble LConfig.lua53 1 (Assembler.onSource sourceHello)).map
        (fun r => r.2.wbuffer_.map (fun w => w.written.drop 12)) =
      some (some [.u8 5, .bytes "main", .i32 0, .i32 0, .u8 0, .u8 0, .u8 2,
        .i32 2, .words [1, 8388646],
        .i32 1, .u8 4, .u8 3, .bytes "hi",
        .i32 0,
        .i32 0,
        .i32 0, .i32 0, .i32 0]) := by
  decide

/-- C8. The extra-argument word does not carry the operand: on
`setlist %0 1 600` (third operand above `MAXARG_C`) and on `loadkx %0 const 5`
(pool index 0) `parseCode` appends two words, the second with opcode EXTRAARG,
and in both cases its Ax field is 46, the opcode number of EXTRAARG, instead of
600 and 0. -/
theorem C8_extra_arg_word_loses_operand :
    (parseCode Assembler.inCode "setlist %0 1 600".toList).map
        (fun r => (r.1, r.2.instructions_.map (fun w => (GET_OPCODE w, GETARG_Ax w)))) =
      some (⟨true, ""⟩, [(43, 131072), (OP_EXTRAARG, 46)]) ∧
    (parseCode Assembler.inCode "loadkx %0 const 5".toList).map
        (fun r => (r.1, r.2.constants_,
          r.2.instructions_.map (fun w => (GET_OPCODE w, GETARG_Ax w)))) =
      some (⟨true, ""⟩, [.TNumber (.ofInt 5)], [(2, 0), (OP_EXTRAARG, 46)]) ∧
    GETARG_Ax extraArgWord = 46 := by
  decide

/-- C10. The label table survives `finalizeFunction`: the function leaves
`locations_` as it was, and in the source where `first` declares `L` at index 1
and the later function `main` jumps to `L` without declaring it, the jump of
`main` is resolved against that index (sBx = 1 - 0 - 1 = 0, nothing queued) and
the assembly succeeds. -/
theorem C10_label_table_survives_finalize :
    (∀ a : Assembler, (finalizeFunction a).2.locations_ = a.locations_) ∧
    (assembleLines (sourceStaleLabel.take 10) 0 (Assembler.onSource sourceStaleLabel)).map
        (fun r => (r.1, r.2.funcname_, r.2.locations_)) =
      some (⟨true, ""⟩, "main", [("L", 1)]) ∧
    (assembleLines (sourceStaleLabel.take 10) 0 (Assembler.onSource sourceStaleLabel)).map
        (fun r => (r.2.neededLocations_, r.2.instructions_.map GETARG_sBx)) =
      some ([], [0]) ∧
    (assemble LConfig.lua53 1 (Assembler.onSource sourceStaleLabel)).map (fun r => r.1) =
      some ⟨true, ""⟩ := by
  refine ⟨?_, by decide, by decide, by decide⟩
  intro a
  unfold finalizeFunction
  cases a.neededLocations_ with
  | nil => rfl
  | cons e es => rfl

/-- C6, as written in the spec: the line `jmp $skip` is rejected by
`parseCode`, since the first operand slot of JMP takes an embedded literal. -/
theorem C6_jmp_single_operand_rejected :
    (parseCode Assembler.inCode "jmp $skip".toList).map (fun r => r.1) =
      some ⟨false, "invalid operand(s)"⟩ := by
  decide

/-- C9, as written in the spec: when `main` and `other` both name the declared
subroutine `s`, the assembly fails on the closure line of `other`. -/
theorem C9_shared_subroutine_rejected :
    (assemble LConfig.lua53 3 (Assembler.onSource sourceShared)).map (fun r => r.1) =
      some ⟨false, "error parsing line 13: invalid operand(s)"⟩ := by
  decide


theorem wwrite_wrote {a : Assembler} {w : WriteBuffer} (c : WriteCall) (h : a.wbuffer_ = some w) :
    Wrote a (wwrite a c).2 [c] := by
  refine ⟨w, h, ?_⟩
  simp [wwrite, h]

theorem wwriteBytes_wrote {a : Assembler} {w : WriteBuffer} (c : WriteCall)
    (h : a.wbuffer_ = some w) : Wrote a (wwriteBytes a c).2 [c] := by
  refine ⟨w, h, ?_⟩
  simp [wwriteBytes, h]

theorem wrote_refl {a : Assembler} {w : WriteBuffer} (h : a.wbuffer_ = some w) : Wrote a a [] := by
  refine ⟨w, h, ?_⟩
  cases a
  simp_all

theorem wrote_trans {a b c : Assembler} {l1 l2 : List WriteCall} (h1 : Wrote a b l1)
    (h2 : Wrote b c l2) : Wrote a c (l1 ++ l2) := by
  obtain ⟨w, hw, hb⟩ := h1
  obtain ⟨w2, hw2, hc⟩ := h2
  refine ⟨w, hw, ?_⟩
  subst hb
  simp only [Option.some.injEq] at hw2
  subst hw2
  rw [hc]
  simp [List.append_assoc]

theorem wrote_wbuffer {a b : Assembler} {l : List WriteCall} (h : Wrote a b l) :
    ∃ w, b.wbuffer_ = some w := by
  obtain ⟨w, _, hb⟩ := h
  exact ⟨_, by rw [hb]⟩

theorem wprefix_wwrite {a : Assembler} {w : WriteBuffer} (c : WriteCall) (h : a.wbuffer_ = some w) :
    WPrefix a (wwrite a c) [c] :=
  ⟨[c], wwrite_wrote c h, List.prefix_refl _, fun _ => rfl⟩

theorem wprefix_wwriteBytesAll {a : Assembler} {w : WriteBuffer} (c : WriteCall) (len : Nat)
    (msg : String) (h : a.wbuffer_ = some w) : WPrefix a (wwriteBytesAll a c len msg) [c] := by
  refine ⟨[c], ?_, List.prefix_refl _, fun _ => rfl⟩
  unfold wwriteBytesAll
  split <;> exact wwriteBytes_wrote c h

theorem wprefix_bind {a : Assembler} {r : BoolRes × Assembler}
    {k : Assembler → BoolRes × Assembler} (l1 l2 : List WriteCall) (h1 : WPrefix a r l1)
    (h2 : ∀ a1, Wrote a a1 l1 → WPrefix a1 (k a1) l2) : WPrefix a (andThen r k) (l1 ++ l2) := by
  obtain ⟨calls, hw, hp, hs⟩ := h1
  unfold andThen
  by_cases hr : r.1.success = true
  · simp only [hr, if_true]
    have hc := hs hr
    subst hc
    obtain ⟨calls2, hw2, hp2, hs2⟩ := h2 r.2 hw
    exact ⟨calls ++ calls2, wrote_trans hw hw2, (List.prefix_append_right_inj calls).2 hp2,
      fun h => by rw [hs2 h]⟩
  · simp only [hr]
    refine ⟨calls, hw, hp.trans (List.prefix_append l1 l2), fun h => absurd h hr⟩

theorem wprefix_writeString {a : Assembler} {w : WriteBuffer} (s : String) (h : a.wbuffer_ = some w) :
    WPrefix a (writeString a s) (stringCalls s) := by
  unfold writeString stringCalls
  by_cases hl : s.length < 0xFE
  · simp only [hl, if_true]
    exact wprefix_bind _ _ (wprefix_wwrite _ h) fun a1 h1 =>
      let ⟨_, hw1⟩ := wrote_wbuffer h1
      wprefix_wwriteBytesAll _ _ _ hw1
  · simp only [hl, if_false]
    refine wprefix_bind [_, _] _ ?_ fun a1 h1 =>
      let ⟨_, hw1⟩ := wrote_wbuffer h1
      wprefix_wwriteBytesAll _ _ _ hw1
    exact wprefix_bind [_] [_] (wprefix_wwrite _ h) fun a1 h1 =>
      let ⟨_, hw1⟩ := wrote_wbuffer h1
      wprefix_wwrite _ hw1

theorem wprefix_writeFunctionHead {a : Assembler} {w : WriteBuffer} (f : ParsedFunction)
    (h : a.wbuffer_ = some w) : WPrefix a (writeFunctionHead f a) (headCalls f) := by
  unfold writeFunctionHead headCalls
  refine wprefix_bind _ _ (wprefix_writeString _ h) fun a1 h1 => ?_
  obtain ⟨_, hw1⟩ := wrote_wbuffer h1
  refine wprefix_bind [_] [_, _, _, _] (wprefix_wwrite _ hw1) fun a2 h2 => ?_
  obtain ⟨_, hw2⟩ := wrote_wbuffer h2
  refine wprefix_bind [_] [_, _, _] (wprefix_wwrite _ hw2) fun a3 h3 => ?_
  obtain ⟨_, hw3⟩ := wrote_wbuffer h3
  refine wprefix_bind [_] [_, _] (wprefix_wwrite _ hw3) fun a4 h4 => ?_
  obtain ⟨_, hw4⟩ := wrote_wbuffer h4
  refine wprefix_bind [_] [_] (wprefix_wwrite _ hw4) fun a5 h5 => ?_
  obtain ⟨_, hw5⟩ := wrote_wbuffer h5
  exact wprefix_wwrite _ hw5


theorem resolveSubroutines_missing (functions : List (String × ParsedFunction)) :
    ∀ (used : List String) (i : Nat) (protos : List String) (f : ParsedFunction),
      (∃ p ∈ used, mapFind functions p = none) →
      ∃ pre p post protos1 f1, used = pre ++ p :: post ∧
        (∀ q ∈ pre, mapFind functions q ≠ none) ∧ mapFind functions p = none ∧
        resolveSubroutines functions used i protos f = (some p, protos1, f1) := by
  intro used
  induction used with
  | nil => intro i protos f h; simp at h
  | cons u us ih =>
    intro i protos f h
    cases hu : mapFind functions u with
    | none =>
      exact ⟨[], u, us, protos, f, rfl, by simp, hu, by simp [resolveSubroutines, hu]⟩
    | some g =>
      have h' : ∃ p ∈ us, mapFind functions p = none := by
        obtain ⟨p, hp, hn⟩ := h
        rcases List.mem_cons.1 hp with rfl | hp'
        · rw [hu] at hn; cases hn
        · exact ⟨p, hp', hn⟩
      obtain ⟨pre, p, post, protos1, f1, he, hpre, hp, hr⟩ :=
        ih (i + 1) (protos ++ [u]) _ h'
      refine ⟨u :: pre, p, post, protos1, f1, by rw [he]; rfl, ?_, hp, ?_⟩
      · intro q hq
        rcases List.mem_cons.1 hq with rfl | hq'
        · rw [hu]; simp
        · exact hpre q hq'
      · simp only [resolveSubroutines, hu]
        exact hr

/-- C7. When a function being written names, in its used-subroutine list, a
subroutine that is absent from the function table, `writeFunction` returns a
failure, and the calls it has issued to the byte writer are a prefix of the
calls that precede the resolution (the encoded name, two zero integers, the
three size bytes): neither the proto count nor anything of a proto has been
sent. When those first calls were all accepted, the message is
"no such function: " followed by the first absent name of the list. -/
theorem C7_missing_subroutine (fuel : Nat) (key : String) (a : Assembler) (f : ParsedFunction)
    (w : WriteBuffer) (hkey : mapFind a.functions_ key = some f) (hw : a.wbuffer_ = some w)
    (hmiss : ∃ p ∈ f.usedSubroutines, mapFind a.functions_ p = none) :
    ∃ res a1 w1 calls, writeFunction (fuel + 1) key a = some (res, a1) ∧
      res.success = false ∧ a1.wbuffer_ = some w1 ∧ w1.written = w.written ++ calls ∧
      calls <+: headCalls f ∧
      ((writeFunctionHead f a).1.success = true →
        calls = headCalls f ∧
        ∃ pre p post, f.usedSubroutines = pre ++ p :: post ∧
          (∀ q ∈ pre, mapFind a.functions_ q ≠ none) ∧ mapFind a.functions_ p = none ∧
          res.error_msg = "no such function: " ++ p) := by
  obtain ⟨calls, hwr, hpre, hall⟩ := wprefix_writeFunctionHead f hw
  obtain ⟨w0, hw0, ha1⟩ := hwr
  have hw0' : w0 = w := by rw [hw] at hw0; exact (Option.some.inj hw0).symm
  subst hw0'
  have hfun : (writeFunctionHead f a).2.functions_ = a.functions_ := by rw [ha1]
  have hwb : (writeFunctionHead f a).2.wbuffer_
      = some { w0 with written := w0.written ++ calls } := by rw [ha1]
  simp only [writeFunction, hkey, andThenSome]
  by_cases hs : (writeFunctionHead f a).1.success = true
  · obtain ⟨pre, p, post, protos1, f1, he, hp1, hp2, hr⟩ :=
      resolveSubroutines_missing a.functions_ f.usedSubroutines 0 [] f hmiss
    simp only [hs, if_true, hfun, hr]
    exact ⟨_, _, _, calls, rfl, rfl, hwb, rfl, hpre,
      fun _ => ⟨hall hs, pre, p, post, he, hp1, hp2, rfl⟩⟩
  · simp only [hs]
    refine ⟨_, _, _, calls, rfl, ?_, hwb, rfl, hpre, fun h => absurd h (by simp)⟩
    simpa using hs


/-- C7 at a concrete input: `main` names the subroutine `ghost`, which the
table does not hold; the writer has received the name and the five header
values of `main` and nothing else. -/
theorem C7_missing_subroutine_witness :
    (writeFunction 1 "main" stateGhost).map
        (fun r => (r.1, r.2.wbuffer_.map (fun w => w.written))) =
      some (⟨false, "no such function: ghost"⟩,
        some [.u8 5, .bytes "main", .i32 0, .i32 0, .u8 0, .u8 0, .u8 2]) ∧
    ∃ res a1 w1 calls, writeFunction (0 + 1) "main" stateGhost = some (res, a1) ∧
      res.success = false ∧ a1.wbuffer_ = some w1 ∧
      w1.written = WriteBuffer.accepting.written ++ calls ∧
      calls <+: headCalls functionGhost ∧
      ((writeFunctionHead functionGhost stateGhost).1.success = true →
        calls = headCalls functionGhost ∧
        ∃ pre p post, functionGhost.usedSubroutines = pre ++ p :: post ∧
          (∀ q ∈ pre, mapFind stateGhost.functions_ q ≠ none) ∧
          mapFind stateGhost.functions_ p = none ∧
          res.error_msg = "no such function: " ++ p) :=
  ⟨by decide,
    C7_missing_subroutine 0 "main" stateGhost functionGhost WriteBuffer.accepting
      (by decide) rfl ⟨"ghost", by decide, by decide⟩⟩


theorem MASK0_Bx : MASK0 SIZE_Bx POS_Bx = 2 ^ 14 - 1 := by decide
theorem MASK1_Bx : MASK1 SIZE_Bx POS_Bx = (2 ^ 18 - 1) <<< 14 := by decide
theorem MASK1_Bx0 : MASK1 SIZE_Bx 0 = 2 ^ 18 - 1 := by decide

theorem getarg_setarg_Bx (i u : Nat) :
    getarg (setarg i u POS_Bx SIZE_Bx) POS_Bx SIZE_Bx = u % 2 ^ 18 := by
  unfold getarg setarg
  rw [MASK0_Bx, MASK1_Bx, MASK1_Bx0]
  have hpos : POS_Bx = 14 := rfl
  rw [hpos]
  apply Nat.eq_of_testBit_eq
  intro j
  simp only [Nat.testBit_and, Nat.testBit_or, Nat.testBit_shiftRight, Nat.testBit_mod_two_pow,
    Nat.testBit_shiftLeft, Nat.testBit_two_pow_sub_one]
  by_cases h : j < 18
  · have h1 : ¬ (14 + j < 14) := by omega
    have h2 : 14 + j < 32 := by omega
    have h3 : 14 + j ≥ 14 := by omega
    have h4 : 14 + j - 14 = j := by omega
    simp [h, h1, h2, h3, h4]
  · simp [h]

theorem GETARG_Bx_SETARG_Bx (i : Instruction) (v : Int) :
    GETARG_Bx (SETARG_Bx i v) = toUInt v % 2 ^ 18 :=
  getarg_setarg_Bx i (toUInt v)

theorem GETARG_sBx_SETARG_sBx (i : Instruction) (b : Int) (h1 : -131071 ≤ b) (h2 : b ≤ 131072) :
    GETARG_sBx (SETARG_sBx i b) = b := by
  unfold GETARG_sBx SETARG_sBx
  rw [GETARG_Bx_SETARG_Bx]
  have hm : MAXARG_sBx = 131071 := by decide
  rw [hm]
  unfold toUInt
  omega


theorem resolveLocations_eq (label : String) (n : Nat) (needed : List (String × Int))
    (ins : List Instruction) :
    resolveLocations label n needed ins
      = patchLoop label (fun idx i => SETARG_sBx i (sizeArith ((n : Int) - idx - 1))) needed ins := by
  induction needed generalizing ins with
  | nil => rfl
  | cons e es ih =>
    obtain ⟨name, idx⟩ := e
    simp only [resolveLocations, patchLoop, ih]

theorem patchAt_length (ins : List Instruction) (idx : Int) (f : Instruction → Instruction) :
    (patchAt ins idx f).length = ins.length := by
  unfold patchAt
  split
  · rfl
  · split <;> simp

theorem patchAt_get_ne (ins : List Instruction) (idx : Int) (f : Instruction → Instruction)
    (q : Nat) (h : idx ≠ (q : Int)) : (patchAt ins idx f)[q]? = ins[q]? := by
  unfold patchAt
  split
  · rfl
  · split
    · rfl
    · have : idx.toNat ≠ q := by omega
      simp [List.getElem?_set, this]

theorem patchAt_get_eq (ins : List Instruction) (f : Instruction → Instruction) (q : Nat) :
    (patchAt ins (q : Int) f)[q]? = (ins[q]?).map f := by
  unfold patchAt
  have h0 : ¬ ((q : Int) < 0) := by omega
  simp only [h0, if_false, Int.toNat_ofNat, List.get?_eq_getElem?]
  cases h : ins[q]? with
  | none => simp [h]
  | some x =>
    have hq : q < ins.length := by
      by_contra hc
      rw [List.getElem?_eq_none (by omega)] at h
      cases h
    simp [List.getElem?_set, hq]

theorem patchLoop_fst (label : String) (g : Int → Instruction → Instruction) :
    ∀ (needed : List (String × Int)) (ins : List Instruction),
      (patchLoop label g needed ins).1 = needed.filter (fun e => decide (e.1 ≠ label)) := by
  intro needed
  induction needed with
  | nil => intro ins; rfl
  | cons e es ih =>
    intro ins
    obtain ⟨name, idx⟩ := e
    by_cases h : name = label
    · simp [patchLoop, h, ih]
    · simp [patchLoop, h, ih]

theorem patchLoop_length (label : String) (g : Int → Instruction → Instruction) :
    ∀ (needed : List (String × Int)) (ins : List Instruction),
      (patchLoop label g needed ins).2.length = ins.length := by
  intro needed
  induction needed with
  | nil => intro ins; rfl
  | cons e es ih =>
    intro ins
    obtain ⟨name, idx⟩ := e
    by_cases h : name = label
    · simp [patchLoop, h, ih, patchAt_length]
    · simp [patchLoop, h, ih]

theorem patchLoop_untouched (label : String) (g : Int → Instruction → Instruction) (q : Nat) :
    ∀ (needed : List (String × Int)) (ins : List Instruction),
      (∀ e ∈ needed, e.1 = label → e.2 ≠ (q : Int)) →
      (patchLoop label g needed ins).2[q]? = ins[q]? := by
  intro needed
  induction needed with
  | nil => intro ins _; rfl
  | cons e es ih =>
    intro ins h
    obtain ⟨name, idx⟩ := e
    have hes : ∀ e ∈ es, e.1 = label → e.2 ≠ (q : Int) :=
      fun e he => h e (List.mem_cons_of_mem _ he)
    by_cases hn : name = label
    · have hne : idx ≠ (q : Int) := h (name, idx) (List.mem_cons_self _ _) hn
      simp only [patchLoop, hn, if_true]
      rw [ih _ hes, patchAt_get_ne _ _ _ _ hne]
    · simp only [patchLoop, hn, if_false]
      exact ih _ hes

theorem patchLoop_patched (label : String) (g : Int → Instruction → Instruction) (q : Nat) :
    ∀ (needed : List (String × Int)) (ins : List Instruction),
      (label, (q : Int)) ∈ needed → (needed.map Prod.snd).Nodup →
      (patchLoop label g needed ins).2[q]? = (ins[q]?).map (g q) := by
  intro needed
  induction needed with
  | nil => intro ins h; simp at h
  | cons e es ih =>
    intro ins hmem hnd
    obtain ⟨name, idx⟩ := e
    simp only [List.map_cons, List.nodup_cons] at hnd
    obtain ⟨hidx, hnd'⟩ := hnd
    rcases List.mem_cons.1 hmem with heq | hmem'
    · simp only [Prod.mk.injEq] at heq
      obtain ⟨h1, h2⟩ := heq
      subst h1 h2
      simp only [patchLoop, if_true]
      rw [patchLoop_untouched, patchAt_get_eq]
      intro e he _ hc
      exact hidx (List.mem_map.2 ⟨e, he, hc⟩)
    · have hne : idx ≠ (q : Int) := by
        intro hc
        exact hidx (List.mem_map.2 ⟨(label, (q : Int)), hmem', hc.symm⟩)
      by_cases hn : name = label
      · simp only [patchLoop, hn, if_true]
        rw [ih _ hmem' hnd', patchAt_get_ne _ _ _ _ hne]
      · simp only [patchLoop, hn, if_false]
        exact ih _ hmem' hnd'


theorem nodup_filter_snd (label : String) (needed : List (String × Int))
    (h : (needed.map Prod.snd).Nodup) :
    ((needed.filter (fun e => decide (e.1 ≠ label))).map Prod.snd).Nodup :=
  List.Nodup.sublist (List.Sublist.map _ (List.filter_sublist _)) h

theorem isLabelChar_ne {c d : Char} (hc : isLabelChar c = true) (hd : isLabelChar d = false) :
    c ≠ d := by
  intro h
  rw [h, hd] at hc
  cases hc

theorem isLabelChar_not_blank {c : Char} (hc : isLabelChar c = true) : isblank c = false := by
  cases hb : isblank c with
  | false => rfl
  | true =>
    exfalso
    simp only [isblank, Bool.or_eq_true, decide_eq_true_eq] at hb
    rcases hb with h | h <;> exact isLabelChar_ne hc (by decide) h

theorem dropWhile_blank_label (name : List Char) (hchars : ∀ c ∈ name, isLabelChar c = true) :
    name.dropWhile isblank = name := by
  cases name with
  | nil => rfl
  | cons c cs =>
    have := isLabelChar_not_blank (hchars c (List.mem_cons_self _ _))
    simp [List.dropWhile, this]

theorem dropWhile_comment_label (name : List Char) (hchars : ∀ c ∈ name, isLabelChar c = true) :
    name.dropWhile (fun c => decide (c ≠ ';')) = [] := by
  rw [List.dropWhile_eq_nil_iff]
  intro c hc
  simpa using isLabelChar_ne (hchars c hc) (by decide)

theorem parseLabel_label (name : List Char) (hne : name ≠ [])
    (hchars : ∀ c ∈ name, isLabelChar c = true) :
    parseLabel name = some (String.mk name, []) := by
  unfold parseLabel
  rw [dropWhile_blank_label name hchars]
  cases name with
  | nil => exact absurd rfl hne
  | cons c cs =>
    have h1 : c ≠ ';' := isLabelChar_ne (hchars c (List.mem_cons_self _ _)) (by decide)
    have h2 : (c :: cs).takeWhile isLabelChar = c :: cs := List.takeWhile_eq_self_iff.2 hchars
    have h3 : (c :: cs).dropWhile isLabelChar = [] := List.dropWhile_eq_nil_iff.2 hchars
    simp only [h1, if_false, h2, h3, reduceCtorEq]

theorem parseOperand_proto_conflict (a : Assembler) (op : Operand) (name : List Char) (u : Int)
    (hne : name ≠ []) (hchars : ∀ c ∈ name, isLabelChar c = true)
    (hconst : constKeyword name = false)
    (hu : mapFind a.usedSubroutines_ (String.mk name) = some u) (hid : u ≠ a.funcid_) :
    parseOperand a op (' ' :: name) LIMIT_PROTO = (none, op, a) := by
  unfold parseOperand
  have hd : (' ' :: name).dropWhile isblank = name := by
    rw [show (' ' :: name).dropWhile isblank = name.dropWhile isblank from rfl]
    exact dropWhile_blank_label name hchars
  rw [hd]
  cases name with
  | nil => exact absurd rfl hne
  | cons c cs =>
    have hc := hchars c (List.mem_cons_self _ _)
    have h1 : c ≠ ';' := isLabelChar_ne hc (by decide)
    have h2 : c ≠ '%' := isLabelChar_ne hc (by decide)
    have h3 : c ≠ '@' := isLabelChar_ne hc (by decide)
    have h4 : c ≠ '$' := isLabelChar_ne hc (by decide)
    have h5 : hasLimit LIMIT_PROTO LIMIT_PROTO = true := by decide
    simp only [h1, h2, h3, h4, if_false, hconst, h5, if_true, Bool.false_eq_true]
    unfold parseOperandProto
    rw [parseLabel_label (c :: cs) hne hchars]
    simp only [hu, hid, ne_eq, not_false_eq_true, if_true]

/-- C9, amended. A subroutine is bound to the first function that names it:
when the global usage map binds the name to a function id other than the
current one, the line `closure %0 <name>` is rejected by `parseCode` with
"invalid operand(s)" and the state is left as it was. -/
theorem C9_subroutine_bound_to_one_function (a : Assembler) (name : List Char) (u : Int)
    (hne : name ≠ []) (hchars : ∀ c ∈ name, isLabelChar c = true)
    (hconst : constKeyword name = false)
    (hu : mapFind a.usedSubroutines_ (String.mk name) = some u) (hid : u ≠ a.funcid_) :
    parseCode a ("closure %0 ".toList ++ name) = some (⟨false, "invalid operand(s)"⟩, a) := by
  have hl : parseLabel ("closure %0 ".toList ++ name)
      = some ("closure", ' ' :: '%' :: '0' :: ' ' :: name) := rfl
  have hc : get_line_comment_from_asm_line_code ("closure %0 ".toList ++ name)
      = name.dropWhile (fun c => decide (c ≠ ';')) := rfl
  have ho : parseOperand a Operand.uninit (' ' :: '%' :: '0' :: ' ' :: name) LIMIT_STACKIDX
      = (some (' ' :: name), ⟨.STACKIDX, 0⟩, a) := rfl
  have hop : findOpcode (String.mk (lower "closure".toList)) luaP_opnames 0 = some 44 := rfl
  have hinfo : (opinfo.getD 44 []).take (opcount.getD 44 0)
      = [⟨.OPP_A, LIMIT_STACKIDX⟩, ⟨.OPP_Bx, LIMIT_PROTO⟩] := rfl
  unfold parseCode
  simp only [hl, hc, dropWhile_comment_label name hchars]
  have hn : get_linenumber_from_asm_line_comment [] = some (-1) := rfl
  simp only [hn]
  have hneg : ¬ ((-1 : Int) ≥ 0) := by decide
  simp only [withLineinfo, hneg, if_false]
  unfold parseInstruction
  simp only [hop, hinfo, parseOperands, ho,
    parseOperand_proto_conflict a Operand.uninit name u hne hchars hconst hu hid]
  rfl

/-- C9, amended, at a concrete input: in the source where `main` and `other`
both name `s`, the state in which the closure line of `other` is read binds
`s` to the function id of `main`, and the line is rejected. -/
theorem C9_subroutine_bound_to_one_function_witness :
    (assembleLines (sourceShared.take 12) 0 (Assembler.onSource sourceShared)).map
        (fun r => (r.1, r.2.funcid_, r.2.usedSubroutines_)) =
      some (⟨true, ""⟩, 2, [("s", 1)]) ∧
    parseCode (stateOf (assembleLines (sourceShared.take 12) 0 (Assembler.onSource sourceShared)))
        ("closure %0 ".toList ++ "s".toList) =
      some (⟨false, "invalid operand(s)"⟩,
        stateOf (assembleLines (sourceShared.take 12) 0 (Assembler.onSource sourceShared))) :=
  ⟨by decide,
    C9_subroutine_bound_to_one_function
      (stateOf (assembleLines (sourceShared.take 12) 0 (Assembler.onSource sourceShared)))
      "s".toList 1 (by decide) (by decide) (by decide) (by decide) (by decide)⟩


theorem operandFrame_refl (a : Assembler) (limit : Nat) : OperandFrame a a limit :=
  ⟨rfl, rfl, Or.inl rfl⟩

theorem parseConstant_frame (a : Assembler) (start : List Char) (limit : Nat) :
    OperandFrame a (parseConstant a start).2 limit := by
  unfold parseConstant
  split
  · exact operandFrame_refl a limit
  · split
    · exact operandFrame_refl a limit
    · exact ⟨rfl, rfl, Or.inl rfl⟩

theorem parseOperandConst_frame (a : Assembler) (op : Operand) (bend : List Char) (limit : Nat) :
    OperandFrame a (parseOperandConst a op bend limit).2.2 limit := by
  unfold parseOperandConst
  split
  · exact operandFrame_refl a limit
  · split
    · exact operandFrame_refl a limit
    · split
      · exact operandFrame_refl a limit
      · rename_i c cs heq hc
        have h := parseConstant_frame a (c :: cs) limit
        split
        · rename_i heq; rw [heq] at h; exact h
        · rename_i heq; rw [heq] at h
          split <;> exact h

theorem parseOperandProto_frame (a : Assembler) (op : Operand) (start : List Char) (limit : Nat) :
    OperandFrame a (parseOperandProto a op start).2.2 limit := by
  unfold parseOperandProto
  split
  · exact operandFrame_refl a limit
  · split
    · split
      · exact operandFrame_refl a limit
      · exact ⟨rfl, rfl, Or.inl rfl⟩
    · exact ⟨rfl, rfl, Or.inl rfl⟩

theorem parseOperandEmbed_frame (a : Assembler) (op : Operand) (start : List Char) (limit : Nat) :
    OperandFrame a (parseOperandEmbed a op start limit).2.2 limit := by
  unfold parseOperandEmbed
  repeat' split
  all_goals exact operandFrame_refl a limit

theorem parseOperand_frame (a : Assembler) (op : Operand) (start : List Char) (limit : Nat) :
    OperandFrame a (parseOperand a op start limit).2.2 limit := by
  unfold parseOperand
  split
  · exact operandFrame_refl a limit
  · split
    · exact operandFrame_refl a limit
    · split
      · repeat' split
        all_goals exact operandFrame_refl a limit
      · split
        · repeat' split
          all_goals exact operandFrame_refl a limit
        · split
          · split
            · exact operandFrame_refl a limit
            · rename_i hlim
              have hl : hasLimit limit LIMIT_LOCATION = true := by
                simp only [Bool.or_eq_true, Bool.not_eq_true', decide_eq_true_eq, not_or] at hlim
                simpa using hlim.1
              split
              · exact operandFrame_refl a limit
              · split
                · exact ⟨rfl, rfl, Or.inr ⟨hl, _, rfl⟩⟩
                · exact operandFrame_refl a limit
          · split
            · exact parseOperandConst_frame a op _ limit
            · split
              · exact parseOperandProto_frame a op _ limit
              · exact parseOperandEmbed_frame a op _ limit


theorem step_refl (a : Assembler) : Step a a :=
  ⟨Nat.le_refl _, fun _ h => h, fun _ _ h _ => h, fun _ _ h => ⟨rfl, h⟩⟩

theorem step_trans {a b c : Assembler} (h1 : Step a b) (h2 : Step b c) : Step a c := by
  obtain ⟨l1, m1, p1, s1⟩ := h1
  obtain ⟨l2, m2, p2, s2⟩ := h2
  refine ⟨Nat.le_trans l1 l2, fun L h => m1 L (m2 L h), fun L idx h hn => p2 L idx (p1 L idx h (m2 L hn)) hn, ?_⟩
  intro p hp hno
  obtain ⟨e1, n1⟩ := s1 p hp hno
  obtain ⟨e2, n2⟩ := s2 p (Nat.lt_of_lt_of_le hp l1) n1
  exact ⟨e2.trans e1, n2⟩

theorem mapFind_mapAssign_self {α : Type} (m : List (String × α)) (k : String) (v : α) :
    mapFind (mapAssign m k v) k = some v := by
  induction m with
  | nil => simp [mapAssign, mapFind]
  | cons e es ih =>
    obtain ⟨k1, v1⟩ := e
    by_cases h : k1 = k
    · simp [mapAssign, mapFind, h]
    · simp [mapAssign, mapFind, h, ih]

theorem mapFind_mapAssign_ne {α : Type} (m : List (String × α)) (k k2 : String) (v : α)
    (h : k ≠ k2) : mapFind (mapAssign m k v) k2 = mapFind m k2 := by
  induction m with
  | nil => simp [mapAssign, mapFind, h]
  | cons e es ih =>
    obtain ⟨k1, v1⟩ := e
    by_cases h1 : k1 = k
    · subst h1
      simp [mapAssign, mapFind, h]
    · by_cases h2 : k1 = k2
      · subst h2
        simp [mapAssign, mapFind, h1]
      · simp [mapAssign, mapFind, h1, h2, ih]

theorem parseOperands_frame : ∀ (infos : List OpInfo) (a : Assembler) (v : CodeVars)
    (bend : List Char),
    (parseOperands infos a v bend).2.instructions_ = a.instructions_ ∧
    (parseOperands infos a v bend).2.locations_ = a.locations_ ∧
    ∃ news, (parseOperands infos a v bend).2.neededLocations_ = a.neededLocations_ ++ news ∧
      news.length ≤ (infos.filter (fun i => hasLimit i.limit LIMIT_LOCATION)).length ∧
      ∀ e ∈ news, e.2 = toInt a.instructions_.length := by
  intro infos
  induction infos with
  | nil =>
    intro a v bend
    exact ⟨rfl, rfl, [], by simp [parseOperands], by simp, by simp⟩
  | cons info infos ih =>
    intro a v bend
    have hf := parseOperand_frame a Operand.uninit bend info.limit
    unfold parseOperands
    cases h : parseOperand a Operand.uninit bend info.limit with
    | mk r rest =>
      obtain ⟨op, a1⟩ := rest
      rw [h] at hf
      obtain ⟨hi, hl, hn⟩ := hf
      simp only at hi hl hn
      have hone : ∃ news, a1.neededLocations_ = a.neededLocations_ ++ news ∧
          news.length ≤ (if hasLimit info.limit LIMIT_LOCATION then 1 else 0) ∧
          ∀ e ∈ news, e.2 = toInt a.instructions_.length := by
        rcases hn with hn | ⟨hlim, label, hn⟩
        · exact ⟨[], by simp [hn], by simp, by simp⟩
        · exact ⟨[(label, _)], hn, by simp [hlim], by simp⟩
      obtain ⟨n1, hn1, hlen1, he1⟩ := hone
      cases r with
      | none =>
        refine ⟨hi, hl, n1, hn1, ?_, he1⟩
        simp only [List.filter_cons]
        split
        all_goals simp_all
        all_goals omega
      | some bend1 =>
        simp only
        obtain ⟨hi2, hl2, n2, hn2, hlen2, he2⟩ :=
          ih a1 (storeOperand info.position op.value_ v) bend1
        refine ⟨hi2.trans hi, hl2.trans hl, n1 ++ n2, ?_, ?_, ?_⟩
        · rw [hn2, hn1, List.append_assoc]
        · simp only [List.filter_cons, List.length_append]
          split
          all_goals simp_all
          all_goals omega
        · intro e he
          rcases List.mem_append.1 he with h1 | h2
          · exact he1 e h1
          · rw [he2 e h2, hi]

theorem opinfo_location_slots (opcode : Nat) :
    (((opinfo.getD opcode []).take (opcount.getD opcode 0)).filter
      (fun i => hasLimit i.limit LIMIT_LOCATION)).length ≤ 1 := by
  by_cases h : opcode < 47
  · revert opcode
    decide
  · have : opinfo.getD opcode [] = [] := by
      apply List.getD_eq_default
      have : opinfo.length = 47 := by decide
      omega
    rw [this]
    simp


theorem toInt_small (x : Int) (h0 : 0 ≤ x) (h1 : x < 2 ^ 31) : toInt x = x := by
  unfold toInt IntKind.wrap IntKind.int
  simp only [if_true]
  norm_num at h1 ⊢
  omega

theorem pushInstruction_eq (l : List Instruction) (v : CodeVars) :
    ∃ ext, pushInstruction l v = l ++ ext ∧ 0 < ext.length := by
  unfold pushInstruction
  split
  · exact ⟨[v.ins, extraArgWord], by simp, by simp⟩
  · exact ⟨[v.ins], rfl, by simp⟩

theorem parseInstruction_shape {a a1 : Assembler} {res : BoolRes} {name : String}
    {bend : List Char} (h : parseInstruction a name bend = (res, a1))
    (hs : res.success = true) :
    a1.locations_ = a.locations_ ∧
    (∃ ext, a1.instructions_ = a.instructions_ ++ ext ∧ 0 < ext.length) ∧
    ∃ news, a1.neededLocations_ = a.neededLocations_ ++ news ∧ news.length ≤ 1 ∧
      ∀ e ∈ news, e.2 = toInt a.instructions_.length := by
  unfold parseInstruction at h
  cases hop : findOpcode (String.mk (lower name.toList)) luaP_opnames 0 with
  | none =>
    simp only [hop, Prod.mk.injEq] at h
    rw [← h.1] at hs
    cases hs
  | some opcode =>
    simp only [hop] at h
    obtain ⟨hi, hl, news, hn, hlen, he⟩ :=
      parseOperands_frame ((opinfo.getD opcode []).take (opcount.getD opcode 0)) a
        ⟨SET_OPCODE 0 opcode, 0, false⟩ bend
    have hslots := opinfo_location_slots opcode
    cases hpo : parseOperands ((opinfo.getD opcode []).take (opcount.getD opcode 0)) a
        ⟨SET_OPCODE 0 opcode, 0, false⟩ bend with
    | mk r a2 =>
      rw [hpo] at hi hl hn
      simp only at hi hl hn
      rw [hpo] at h
      cases r with
      | none =>
        simp only [Prod.mk.injEq] at h
        rw [← h.1] at hs
        cases hs
      | some q =>
        obtain ⟨v, bend1⟩ := q
        simp only at h
        by_cases ht : trailingText bend1 = true
        · simp only [ht, if_true, Prod.mk.injEq] at h
          rw [← h.1] at hs
          cases hs
        · simp only [ht, Prod.mk.injEq] at h
          obtain ⟨-, rfl⟩ := h
          obtain ⟨ext, hext, hpos⟩ := pushInstruction_eq a2.instructions_ v
          refine ⟨hl, ⟨ext, ?_, hpos⟩, news, hn, Nat.le_trans hlen hslots, he⟩
          simp only
          rw [hext, hi]

theorem pendingOk_of_fields {a b : Assembler} (h : PendingOk a)
    (hi : b.instructions_ = a.instructions_) (hn : b.neededLocations_ = a.neededLocations_) :
    PendingOk b := by
  unfold PendingOk at *
  rw [hi, hn]
  exact h

theorem step_of_fields {a b c : Assembler} (h : Step b c)
    (hi : b.instructions_ = a.instructions_) (hn : b.neededLocations_ = a.neededLocations_)
    (hl : b.locations_ = a.locations_) : Step a c := by
  unfold Step at *
  rw [hi, hn, hl] at h
  exact h

theorem parseInstruction_step {a a1 : Assembler} {res : BoolRes} {name : String}
    {bend : List Char} (h : parseInstruction a name bend = (res, a1))
    (hs : res.success = true) (hok : PendingOk a) (hlen : a1.instructions_.length < 2 ^ 31) :
    PendingOk a1 ∧ Step a a1 := by
  obtain ⟨hl, ⟨ext, hext, hpos⟩, news, hn, hn1, he⟩ := parseInstruction_shape h hs
  obtain ⟨hrange, hnd⟩ := hok
  have hlen' : a1.instructions_.length = a.instructions_.length + ext.length := by
    rw [hext, List.length_append]
  have hti : toInt a.instructions_.length = a.instructions_.length :=
    toInt_small _ (by omega) (by omega)
  refine ⟨⟨?_, ?_⟩, ?_, ?_, ?_, ?_⟩
  · intro e hmem
    rw [hn] at hmem
    rcases List.mem_append.1 hmem with h1 | h2
    · have := hrange e h1
      omega
    · rw [he e h2, hti]
      omega
  · rw [hn, List.map_append, List.nodup_append]
    refine ⟨hnd, ?_, ?_⟩
    · match news, hn1 with
      | [], _ => simp
      | [e], _ => simp
    · intro x hx1 hx2
      obtain ⟨e1, hm1, rfl⟩ := List.mem_map.1 hx1
      obtain ⟨e2, hm2, h2⟩ := List.mem_map.1 hx2
      have := hrange e1 hm1
      rw [he e2 hm2, hti] at h2
      omega
  · omega
  · intro label hnone
    rw [← hl]
    exact hnone
  · intro label idx hmem _
    rw [hn]
    exact List.mem_append_left _ hmem
  · intro p hp hno
    refine ⟨?_, ?_⟩
    · rw [hext, List.getElem?_append_left hp]
    · intro e hmem
      rw [hn] at hmem
      rcases List.mem_append.1 hmem with h1 | h2
      · exact hno e h1
      · rw [he e h2, hti]
        omega

theorem declareLabel_step (a : Assembler) (name : String) (hok : PendingOk a) :
    PendingOk (declareLabel a name) ∧ Step a (declareLabel a name) := by
  obtain ⟨hrange, hnd⟩ := hok
  have hn : (declareLabel a name).neededLocations_
      = a.neededLocations_.filter (fun e => decide (e.1 ≠ name)) := by
    simp only [declareLabel, resolveLocations_eq, patchLoop_fst]
  have hlen : (declareLabel a name).instructions_.length = a.instructions_.length := by
    simp only [declareLabel, resolveLocations_eq, patchLoop_length]
  have hloc : (declareLabel a name).locations_
      = mapAssign a.locations_ name (toInt a.instructions_.length) := rfl
  refine ⟨⟨?_, ?_⟩, ?_, ?_, ?_, ?_⟩
  · intro e hmem
    rw [hn] at hmem
    rw [hlen]
    exact hrange e (List.mem_filter.1 hmem).1
  · rw [hn]
    exact nodup_filter_snd name _ hnd
  · omega
  · intro label hnone
    rw [hloc] at hnone
    by_cases hl : name = label
    · subst hl
      rw [mapFind_mapAssign_self] at hnone
      cases hnone
    · rwa [mapFind_mapAssign_ne _ _ _ _ hl] at hnone
  · intro label idx hmem hnone
    rw [hloc] at hnone
    rw [hn, List.mem_filter]
    refine ⟨hmem, ?_⟩
    have hl : label ≠ name := by
      intro hc
      subst hc
      rw [mapFind_mapAssign_self] at hnone
      cases hnone
    simpa using hl
  · intro p hp hno
    refine ⟨?_, ?_⟩
    · simp only [declareLabel, resolveLocations_eq]
      exact patchLoop_untouched _ _ p _ _ (fun e he _ => hno e he)
    · intro e hmem
      rw [hn] at hmem
      exact hno e (List.mem_filter.1 hmem).1


theorem withLineinfo_fields (a : Assembler) (ln : Int) :
    (withLineinfo a ln).instructions_ = a.instructions_ ∧
    (withLineinfo a ln).neededLocations_ = a.neededLocations_ ∧
    (withLineinfo a ln).locations_ = a.locations_ := by
  unfold withLineinfo
  split <;> exact ⟨rfl, rfl, rfl⟩

theorem parseCode_cases {a a1 : Assembler} {res : BoolRes} {line : List Char}
    (h : parseCode a line = some (res, a1)) (hs : res.success = true) :
    ∃ (ln : Int) (name : String),
      a1 = declareLabel (withLineinfo a ln) name ∨
      ∃ bend, parseInstruction (withLineinfo a ln) name bend = (res, a1) := by
  unfold parseCode at h
  cases hl : parseLabel line with
  | none =>
    simp only [hl, Option.some.injEq, Prod.mk.injEq] at h
    rw [← h.1] at hs
    cases hs
  | some q =>
    obtain ⟨name, bend⟩ := q
    simp only [hl] at h
    cases hn : get_linenumber_from_asm_line_comment (get_line_comment_from_asm_line_code line) with
    | none => simp [hn] at h
    | some ln =>
      simp only [hn] at h
      refine ⟨ln, name, ?_⟩
      split at h
      · simp only [Option.some.injEq, Prod.mk.injEq] at h
        exact Or.inl h.2.symm
      · simp only [Option.some.injEq] at h
        exact Or.inr ⟨bend, h⟩

theorem parseCode_step {a a1 : Assembler} {res : BoolRes} {line : List Char}
    (h : parseCode a line = some (res, a1)) (hs : res.success = true) (hok : PendingOk a)
    (hlen : a1.instructions_.length < 2 ^ 31) : PendingOk a1 ∧ Step a a1 := by
  obtain ⟨ln, name, hcase⟩ := parseCode_cases h hs
  obtain ⟨f1, f2, f3⟩ := withLineinfo_fields a ln
  have hok0 : PendingOk (withLineinfo a ln) := pendingOk_of_fields hok f1 f2
  rcases hcase with rfl | ⟨bend, hi⟩
  · obtain ⟨p, s⟩ := declareLabel_step (withLineinfo a ln) name hok0
    exact ⟨p, step_of_fields s f1 f2 f3⟩
  · obtain ⟨p, s⟩ := parseInstruction_step hi hs hok0 hlen
    exact ⟨p, step_of_fields s f1 f2 f3⟩

theorem parseCode_length {a a1 : Assembler} {res : BoolRes} {line : List Char}
    (h : parseCode a line = some (res, a1)) (hs : res.success = true) :
    a.instructions_.length ≤ a1.instructions_.length := by
  obtain ⟨ln, name, hcase⟩ := parseCode_cases h hs
  obtain ⟨f1, -, -⟩ := withLineinfo_fields a ln
  rcases hcase with rfl | ⟨bend, hi⟩
  · have : (declareLabel (withLineinfo a ln) name).instructions_.length
        = (withLineinfo a ln).instructions_.length := by
      simp only [declareLabel, resolveLocations_eq, patchLoop_length]
    rw [this, f1]
  · obtain ⟨-, ⟨ext, hext, -⟩, -⟩ := parseInstruction_shape hi hs
    rw [hext, f1, List.length_append]
    omega

theorem parseCodeLines_length : ∀ (lines : List (List Char)) (a a1 : Assembler) (res : BoolRes),
    parseCodeLines a lines = some (res, a1) → res.success = true →
    a.instructions_.length ≤ a1.instructions_.length := by
  intro lines
  induction lines with
  | nil =>
    intro a a1 res h _
    simp only [parseCodeLines, Option.some.injEq, Prod.mk.injEq] at h
    rw [h.2]
  | cons l ls ih =>
    intro a a1 res h hs
    unfold parseCodeLines at h
    cases hp : parseCode a l with
    | none => simp [hp] at h
    | some q =>
      obtain ⟨r1, b⟩ := q
      simp only [hp] at h
      by_cases hr : r1.success = true
      · simp only [hr, if_true] at h
        exact Nat.le_trans (parseCode_length hp hr) (ih b a1 res h hs)
      · have hf : r1.success = false := by simpa using hr
        simp only [hf, Bool.false_eq_true, if_false, Option.some.injEq, Prod.mk.injEq] at h
        rw [← h.1] at hs
        exact absurd hs hr

theorem parseCodeLines_step : ∀ (lines : List (List Char)) (a a1 : Assembler) (res : BoolRes),
    parseCodeLines a lines = some (res, a1) → res.success = true → PendingOk a →
    a1.instructions_.length < 2 ^ 31 → PendingOk a1 ∧ Step a a1 := by
  intro lines
  induction lines with
  | nil =>
    intro a a1 res h _ hok _
    simp only [parseCodeLines, Option.some.injEq, Prod.mk.injEq] at h
    rw [← h.2]
    exact ⟨hok, step_refl a⟩
  | cons l ls ih =>
    intro a a1 res h hs hok hlen
    unfold parseCodeLines at h
    cases hp : parseCode a l with
    | none => simp [hp] at h
    | some q =>
      obtain ⟨r1, b⟩ := q
      simp only [hp] at h
      by_cases hr : r1.success = true
      · simp only [hr, if_true] at h
        have hb : b.instructions_.length < 2 ^ 31 :=
          Nat.lt_of_le_of_lt (parseCodeLines_length ls b a1 res h hs) hlen
        obtain ⟨p1, s1⟩ := parseCode_step hp hr hok hb
        obtain ⟨p2, s2⟩ := ih b a1 res h hs p1 hlen
        exact ⟨p2, step_trans s1 s2⟩
      · have hf : r1.success = false := by simpa using hr
        simp only [hf, Bool.false_eq_true, if_false, Option.some.injEq, Prod.mk.injEq] at h
        rw [← h.1] at hs
        exact absurd hs hr


theorem parseCode_labelLine (a : Assembler) {line : List Char} {label : String}
    (h : LabelLine line label) :
    ∃ ln, parseCode a line = some (⟨true, ""⟩, declareLabel (withLineinfo a ln) label) := by
  obtain ⟨rest, ln, hl, hn⟩ := h
  exact ⟨ln, by simp only [parseCode, hl, hn]⟩

theorem parseOperand_location (a : Assembler) (op : Operand) (start cs bend : List Char)
    (label : String) (hd : start.dropWhile isblank = '$' :: cs)
    (hl : parseLabel cs = some (label, bend)) :
    parseOperand a op start LIMIT_LOCATION =
      match mapFind a.locations_ label with
      | none =>
        (some bend, ⟨.LOCATION, -1⟩,
          { a with neededLocations_ :=
              a.neededLocations_ ++ [(label, toInt a.instructions_.length)] })
      | some target =>
        (some bend,
          ⟨.LOCATION, toInt (sizeArith (target - (a.instructions_.length : Int) - 1))⟩, a) := by
  have hcs : cs ≠ [] := by
    intro hc
    rw [hc] at hl
    simp [parseLabel] at hl
  have h1 : ¬ ('$' = ';') := by decide
  have h2 : ¬ ('$' = '%') := by decide
  have h3 : ¬ ('$' = '@') := by decide
  have h4 : hasLimit LIMIT_LOCATION LIMIT_LOCATION = true := by decide
  simp only [parseOperand, hd, h1, h2, h3, h4, hcs, if_false, if_true, hl, Bool.not_true,
    Bool.false_or, decide_False, Bool.false_eq_true]


theorem parseCode_jumpLine {a : Assembler} {line : List Char} {label : String}
    (h : JumpLine a line label) :
    ∃ (a1 : Assembler) (ins : Instruction) (ext : List Instruction),
      parseCode a line = some (⟨true, ""⟩, a1) ∧ a1.locations_ = a.locations_ ∧
      (mapFind a.locations_ label = none →
        a1.neededLocations_ = a.neededLocations_ ++ [(label, toInt a.instructions_.length)] ∧
        a1.instructions_ = a.instructions_ ++ SETARG_sBx ins (-1) :: ext) ∧
      (∀ t, mapFind a.locations_ label = some t →
        a1.neededLocations_ = a.neededLocations_ ∧
        a1.instructions_ = a.instructions_ ++
          SETARG_sBx ins (toInt (sizeArith (t - (a.instructions_.length : Int) - 1))) :: ext) := by
  obtain ⟨mn, rest, ln, opcode, first, rest1, op, a0, cs, bend, hl, hcolon, hn, hop, hrow,
    hfirst, hdrop, hlab, htrail⟩ := h
  obtain ⟨f1, f2, f3⟩ := withLineinfo_fields a ln
  have hslots := opinfo_location_slots opcode
  rw [hrow] at hslots
  have hnl : hasLimit first.limit LIMIT_LOCATION = false := by
    cases hb : hasLimit first.limit LIMIT_LOCATION with
    | false => rfl
    | true =>
      have h4 : hasLimit LIMIT_LOCATION LIMIT_LOCATION = true := by decide
      simp [List.filter_cons, hb, h4] at hslots
  have hfr := parseOperand_frame (withLineinfo a ln) Operand.uninit rest first.limit
  rw [hfirst] at hfr
  obtain ⟨g1, g2, g3⟩ := hfr
  simp only at g1 g2 g3
  have g3' : a0.neededLocations_ = (withLineinfo a ln).neededLocations_ := by
    rcases g3 with g | ⟨g, -⟩
    · exact g
    · rw [hnl] at g; cases g
  have hsecond := parseOperand_location a0 Operand.uninit rest1 cs bend label hdrop hlab
  have hpc : parseCode a line = some (parseInstruction (withLineinfo a ln) mn rest) := by
    simp only [parseCode, hl, hn]
    split
    · simp at hcolon
    · rfl
  rw [hpc]
  simp only [parseInstruction, hop, hrow, parseOperands, hfirst, hsecond]
  have hpush : ∀ (l : List Instruction) (v1 : CodeVars) (value : Int),
      pushInstruction l (storeOperand OpPos.OPP_sBx value v1)
        = l ++ SETARG_sBx v1.ins value :: (if v1.useExtended then [extraArgWord] else []) := by
    intro l v1 value
    unfold pushInstruction storeOperand
    by_cases hu : v1.useExtended = true
    · simp [hu]
    · simp [hu]
  cases hm : mapFind a.locations_ label with
  | none =>
    have hm0 : mapFind a0.locations_ label = none := by rw [g2, f3]; exact hm
    simp only [hm0, htrail, Bool.false_eq_true, if_false, hpush]
    refine ⟨_, (storeOperand first.position op.value_ ⟨SET_OPCODE 0 opcode, 0, false⟩).ins,
      (if (storeOperand first.position op.value_ ⟨SET_OPCODE 0 opcode, 0, false⟩).useExtended
        then [extraArgWord] else []), rfl, ?_, ?_, ?_⟩
    · simp only [g2, f3]
    · intro _
      simp only [g3', f2, g1, f1, and_self]
    · intro t ht
      cases ht
  | some t =>
    have hm0 : mapFind a0.locations_ label = some t := by rw [g2, f3]; exact hm
    simp only [hm0, htrail, Bool.false_eq_true, if_false, hpush]
    refine ⟨_, (storeOperand first.position op.value_ ⟨SET_OPCODE 0 opcode, 0, false⟩).ins,
      (if (storeOperand first.position op.value_ ⟨SET_OPCODE 0 opcode, 0, false⟩).useExtended
        then [extraArgWord] else []), rfl, ?_, ?_, ?_⟩
    · simp only [g2, f3]
    · intro ht
      cases ht
    · intro t1 ht
      cases ht
      simp only [g3', f2, g1, f1, and_self]


theorem toInt_sizeArith (y : Int) (h0 : -2 ^ 31 ≤ y) (h1 : y < 2 ^ 31) :
    toInt (sizeArith y) = y := by
  unfold toInt IntKind.wrap IntKind.int sizeArith
  simp only [if_true]
  norm_num at h0 h1 ⊢
  omega

theorem getElem?_append_cons_length {α : Type} (l : List α) (x : α) (ext : List α) :
    (l ++ x :: ext)[l.length]? = some x := by
  rw [List.getElem?_append_right (Nat.le_refl _)]
  simp

theorem jump_backward_core {a a1 a2 : Assembler} {line : List Char} {label : String} {t : Int}
    {post : List (List Char)} {r1 r2 : BoolRes}
    (hok : PendingOk a) (hj : JumpLine a line label) (ht : mapFind a.locations_ label = some t)
    (h1 : parseCode a line = some (r1, a1)) (h2 : parseCodeLines a1 post = some (r2, a2))
    (hs2 : r2.success = true) (hlen : a2.instructions_.length < 2 ^ 31)
    (hlo : -131071 ≤ t - (a.instructions_.length : Int) - 1)
    (hhi : t - (a.instructions_.length : Int) - 1 ≤ 131072) :
    r1.success = true ∧
    (a2.instructions_[a.instructions_.length]?).map GETARG_sBx
      = some (t - (a.instructions_.length : Int) - 1) := by
  obtain ⟨b, ins, ext, hpc, -, -, hsome⟩ := parseCode_jumpLine hj
  rw [hpc] at h1
  simp only [Option.some.injEq, Prod.mk.injEq] at h1
  obtain ⟨rfl, rfl⟩ := h1
  obtain ⟨hn1, hi1⟩ := hsome t ht
  have hb : b.instructions_.length < 2 ^ 31 :=
    Nat.lt_of_le_of_lt (parseCodeLines_length post b a2 r2 h2 hs2) hlen
  obtain ⟨hok1, -⟩ := parseCode_step hpc rfl hok hb
  obtain ⟨-, -, -, -, hsettled⟩ := parseCodeLines_step post b a2 r2 h2 hs2 hok1 hlen
  have hp : a.instructions_.length < b.instructions_.length := by
    rw [hi1, List.length_append, List.length_cons]
    omega
  have hno : ∀ e ∈ b.neededLocations_, e.2 ≠ (a.instructions_.length : Int) := by
    intro e he
    rw [hn1] at he
    have := hok.1 e he
    omega
  obtain ⟨heq, -⟩ := hsettled _ hp hno
  refine ⟨rfl, ?_⟩
  rw [heq, hi1, getElem?_append_cons_length]
  simp only [Option.map_some', Option.some.injEq]
  rw [toInt_sizeArith _ (by omega) (by omega)]
  exact GETARG_sBx_SETARG_sBx _ _ hlo hhi

theorem jump_forward_core {a a1 a2 a3 a4 : Assembler} {line lline : List Char} {label : String}
    {mid post : List (List Char)} {r1 r2 r3 r4 : BoolRes}
    (hok : PendingOk a) (hj : JumpLine a line label)
    (h1 : parseCode a line = some (r1, a1)) (h2 : parseCodeLines a1 mid = some (r2, a2))
    (hs2 : r2.success = true) (hfresh : mapFind a2.locations_ label = none)
    (hl : LabelLine lline label) (h3 : parseCode a2 lline = some (r3, a3))
    (h4 : parseCodeLines a3 post = some (r4, a4)) (hs4 : r4.success = true)
    (hlen : a4.instructions_.length < 2 ^ 31)
    (hhi : (a2.instructions_.length : Int) - (a.instructions_.length : Int) - 1 ≤ 131072) :
    r1.success = true ∧ r3.success = true ∧
    mapFind a3.locations_ label = some (a2.instructions_.length : Int) ∧
    (a4.instructions_[a.instructions_.length]?).map GETARG_sBx
      = some ((a2.instructions_.length : Int) - (a.instructions_.length : Int) - 1) := by
  obtain ⟨b, ins, ext, hpc, hloc, hnone, -⟩ := parseCode_jumpLine hj
  rw [hpc] at h1
  simp only [Option.some.injEq, Prod.mk.injEq] at h1
  obtain ⟨rfl, rfl⟩ := h1
  obtain ⟨ln, hlc⟩ := parseCode_labelLine a2 hl
  rw [hlc] at h3
  simp only [Option.some.injEq, Prod.mk.injEq] at h3
  obtain ⟨rfl, rfl⟩ := h3
  obtain ⟨f1, f2, f3⟩ := withLineinfo_fields a2 ln
  -- lengths
  have l34 := parseCodeLines_length post _ a4 r4 h4 hs4
  have hl3 : (declareLabel (withLineinfo a2 ln) label).instructions_.length
      = a2.instructions_.length := by
    simp only [declareLabel, resolveLocations_eq, patchLoop_length, f1]
  have hlen2 : a2.instructions_.length < 2 ^ 31 := by omega
  have l12 := parseCodeLines_length mid b a2 r2 h2 hs2
  have hlenb : b.instructions_.length < 2 ^ 31 := by omega
  -- the jump line
  obtain ⟨hok1, -⟩ := parseCode_step hpc rfl hok hlenb
  obtain ⟨hok2, -, hmono, hstay, -⟩ := parseCodeLines_step mid b a2 r2 h2 hs2 hok1 hlen2
  have hfresh0 : mapFind a.locations_ label = none := by
    rw [← hloc]; exact hmono label hfresh
  obtain ⟨hn1, hi1⟩ := hnone hfresh0
  have hti : toInt (a.instructions_.length : Int) = (a.instructions_.length : Int) :=
    toInt_small _ (by omega) (by
      have : a.instructions_.length ≤ b.instructions_.length := by
        rw [hi1, List.length_append]; omega
      omega)
  have hp1 : a.instructions_.length < b.instructions_.length := by
    rw [hi1, List.length_append, List.length_cons]
    omega
  have hmem2 : (label, (a.instructions_.length : Int)) ∈ a2.neededLocations_ := by
    apply hstay _ _ _ hfresh
    rw [hn1, hti]
    simp
  -- the declaration
  have hok2' : PendingOk (withLineinfo a2 ln) := pendingOk_of_fields hok2 f1 f2
  obtain ⟨hok3, -⟩ := declareLabel_step (withLineinfo a2 ln) label hok2'
  have hp2 : a.instructions_.length < a2.instructions_.length := by omega
  have hpatched : (declareLabel (withLineinfo a2 ln) label).instructions_[a.instructions_.length]?
      = (a2.instructions_[a.instructions_.length]?).map (fun i =>
          SETARG_sBx i (sizeArith ((a2.instructions_.length : Int)
            - (a.instructions_.length : Int) - 1))) := by
    simp only [declareLabel, resolveLocations_eq, f1, f2]
    exact patchLoop_patched _ _ _ _ _ hmem2 hok2.2
  have hnone3 : ∀ e ∈ (declareLabel (withLineinfo a2 ln) label).neededLocations_,
      e.2 ≠ (a.instructions_.length : Int) := by
    intro e he hc
    have hn3 : (declareLabel (withLineinfo a2 ln) label).neededLocations_
        = a2.neededLocations_.filter (fun e => decide (e.1 ≠ label)) := by
      simp only [declareLabel, resolveLocations_eq, patchLoop_fst, f2]
    rw [hn3, List.mem_filter] at he
    obtain ⟨he1, he2⟩ := he
    have hinj := List.inj_on_of_nodup_map hok2.2 he1 hmem2 hc
    rw [hinj] at he2
    simp at he2
  obtain ⟨-, -, -, -, hsettled⟩ := parseCodeLines_step post _ a4 r4 h4 hs4 hok3 hlen
  obtain ⟨heq, -⟩ := hsettled _ (by rw [hl3]; exact hp2) hnone3
  refine ⟨rfl, rfl, ?_, ?_⟩
  · have : (declareLabel (withLineinfo a2 ln) label).locations_
        = mapAssign (withLineinfo a2 ln).locations_ label
            (toInt ((withLineinfo a2 ln).instructions_.length : Int)) := rfl
    rw [this, mapFind_mapAssign_self, f1, toInt_small _ (by omega) (by omega)]
  · rw [heq, hpatched, List.getElem?_eq_getElem hp2]
    simp only [Option.map_some', Option.some.injEq]
    have hs : sizeArith ((a2.instructions_.length : Int) - (a.instructions_.length : Int) - 1)
        = (a2.instructions_.length : Int) - (a.instructions_.length : Int) - 1 := by
      unfold sizeArith
      norm_num
      omega
    rw [hs]
    exact GETARG_sBx_SETARG_sBx _ _ (by omega) hhi


/-- C2, as stated: with the label `a` declared before and again after the
instruction `jmp 0 $a` at index 0, both declarations are processed, the second
records target index 1, and the sBx field of the instruction is -1 (resolved
against the first declaration), not 1 - 0 - 1. -/
theorem C2_redeclared_label_counterexample :
    (parseCodeLines Assembler.inCode ["a:".toList, "jmp 0 $a".toList, "a:".toList]).map
        (fun r => (r.1, r.2.locations_, r.2.instructions_.map GETARG_sBx)) =
      some (⟨true, ""⟩, [("a", 1)], [-1]) ∧
    (-1 : Int) ≠ 1 - 0 - 1 := by
  decide

/-- C2, amended. Jump resolution: for every instruction line whose jump
operand is `$L`, read at instruction index `p` in a state whose pending patches
are in order, the line is accepted, and
* if the label table then holds `t` for `L` (the last declaration of `L` read
  so far recorded `t`), the sBx field of instruction `p` decodes to `t - p - 1`
  after any further accepted code lines;
* if `L` is not in the label table up to a later declaration line `L:`, that
  declaration records the instruction count `t` at which it is read, and after
  it and any further accepted code lines the sBx field of instruction `p`
  decodes to `t - p - 1`
(the instruction count staying below `2 ^ 31` and the delta fitting sBx). -/
theorem C2_jump_resolution (a a1 : Assembler) (line : List Char) (label : String) (r1 : BoolRes)
    (hok : PendingOk a) (hj : JumpLine a line label) (h1 : parseCode a line = some (r1, a1)) :
    r1.success = true ∧
    (∀ (t : Int) (post : List (List Char)) (a2 : Assembler) (r2 : BoolRes),
      mapFind a.locations_ label = some t →
      parseCodeLines a1 post = some (r2, a2) → r2.success = true →
      a2.instructions_.length < 2 ^ 31 →
      -131071 ≤ t - (a.instructions_.length : Int) - 1 →
      t - (a.instructions_.length : Int) - 1 ≤ 131072 →
      (a2.instructions_[a.instructions_.length]?).map GETARG_sBx
        = some (t - (a.instructions_.length : Int) - 1)) ∧
    (∀ (mid post : List (List Char)) (lline : List Char) (a2 a3 a4 : Assembler)
      (r2 r3 r4 : BoolRes),
      parseCodeLines a1 mid = some (r2, a2) → r2.success = true →
      mapFind a2.locations_ label = none →
      LabelLine lline label → parseCode a2 lline = some (r3, a3) →
      parseCodeLines a3 post = some (r4, a4) → r4.success = true →
      a4.instructions_.length < 2 ^ 31 →
      (a2.instructions_.length : Int) - (a.instructions_.length : Int) - 1 ≤ 131072 →
      r3.success = true ∧
      mapFind a3.locations_ label = some (a2.instructions_.length : Int) ∧
      (a4.instructions_[a.instructions_.length]?).map GETARG_sBx
        = some ((a2.instructions_.length : Int) - (a.instructions_.length : Int) - 1)) := by
  refine ⟨?_, ?_, ?_⟩
  · obtain ⟨b, ins, ext, hpc, -⟩ := parseCode_jumpLine hj
    rw [hpc] at h1
    simp only [Option.some.injEq, Prod.mk.injEq] at h1
    rw [← h1.1]
  · intro t post a2 r2 ht h2 hs2 hlen hlo hhi
    exact (jump_backward_core hok hj ht h1 h2 hs2 hlen hlo hhi).2
  · intro mid post lline a2 a3 a4 r2 r3 r4 h2 hs2 hfresh hl h3 h4 hs4 hlen hhi
    exact (jump_forward_core hok hj h1 h2 hs2 hfresh hl h3 h4 hs4 hlen hhi).2

theorem pendingOk_inCode : PendingOk Assembler.inCode :=
  ⟨fun e he => by simp [Assembler.inCode, Assembler.new] at he,
    by simp [Assembler.inCode, Assembler.new]⟩

theorem jumpLine_jmp (a : Assembler) (label : List Char) (hne : label ≠ [])
    (hchars : ∀ c ∈ label, isLabelChar c = true) :
    JumpLine a ("jmp 0 $".toList ++ label) (String.mk label) :=
  ⟨"jmp", " 0 $".toList ++ label, -1, 30, ⟨.OPP_A, LIMIT_EMBED⟩, ' ' :: '$' :: label,
    ⟨.EMBEDDED, 0⟩, withLineinfo a (-1), label, [], rfl, by simp,
    by
      rw [show get_line_comment_from_asm_line_code ("jmp 0 $".toList ++ label)
        = label.dropWhile (fun c => decide (c ≠ ';')) from rfl,
        dropWhile_comment_label label hchars]
      rfl,
    rfl, rfl, rfl, rfl, parseLabel_label label hne hchars, rfl⟩

theorem labelLine_colon (label : List Char) (hne : label ≠ [])
    (hchars : ∀ c ∈ label, isLabelChar c = true) :
    LabelLine (label ++ [':']) (String.mk label) := by
  refine ⟨[], -1, ?_, ?_⟩
  · unfold parseLabel
    have hd : (label ++ [':']).dropWhile isblank = label ++ [':'] := by
      cases label with
      | nil => exact absurd rfl hne
      | cons c cs =>
        have := isLabelChar_not_blank (hchars c (List.mem_cons_self _ _))
        simp [List.dropWhile, this]
    rw [hd]
    cases label with
    | nil => exact absurd rfl hne
    | cons c cs =>
      have h1 : c ≠ ';' := isLabelChar_ne (hchars c (List.mem_cons_self _ _)) (by decide)
      have h2 : (c :: cs ++ [':']).takeWhile isLabelChar = c :: cs := by
        rw [List.takeWhile_append_of_pos hchars]
        simp [List.takeWhile, show isLabelChar ':' = false by decide]
      have h3 : (c :: cs ++ [':']).dropWhile isLabelChar = [':'] := by
        rw [List.dropWhile_append_of_pos hchars]
        simp [List.dropWhile, show isLabelChar ':' = false by decide]
      simp only [List.cons_append] at h2 h3 ⊢
      simp only [h1, if_false, h2, h3, reduceCtorEq]
  · have hc : get_line_comment_from_asm_line_code (label ++ [':']) = [] := by
      unfold get_line_comment_from_asm_line_code
      rw [List.dropWhile_eq_nil_iff]
      intro c hc
      have hmem := List.mem_of_mem_drop hc
      rcases List.mem_append.1 hmem with h | h
      · simpa using isLabelChar_ne (hchars c h) (by decide)
      · simp only [List.mem_singleton] at h
        subst h
        decide
    rw [hc]
    rfl


/-- C2, amended, at concrete inputs. Forward: `jmp 0 $L` at index 0, one more
instruction, then `L:` at instruction count 2 gives sBx = 2 - 0 - 1. Backward:
`L:` at instruction count 0, one instruction, then `jmp 0 $L` at index 1 gives
sBx = 0 - 1 - 1. -/
theorem C2_jump_resolution_witness :
    ((stateOf (parseCodeLines Assembler.inCode
        ["jmp 0 $L".toList, "move %0 %1".toList, "L:".toList])).instructions_[0]?).map
      GETARG_sBx = some (2 - 0 - 1) ∧
    ((stateOf (parseCodeLines Assembler.inCode
        ["L:".toList, "move %0 %1".toList, "jmp 0 $L".toList])).instructions_[1]?).map
      GETARG_sBx = some (0 - 1 - 1) :=
  ⟨((C2_jump_resolution Assembler.inCode
        (stateOf (parseCode Assembler.inCode "jmp 0 $L".toList)) "jmp 0 $L".toList "L"
        ⟨true, ""⟩ (by decide) (jumpLine_jmp _ "L".toList (by decide) (by decide)) rfl).2.2
      ["move %0 %1".toList] [] "L:".toList
      (stateOf (parseCodeLines Assembler.inCode ["jmp 0 $L".toList, "move %0 %1".toList]))
      (stateOf (parseCodeLines Assembler.inCode
        ["jmp 0 $L".toList, "move %0 %1".toList, "L:".toList]))
      (stateOf (parseCodeLines Assembler.inCode
        ["jmp 0 $L".toList, "move %0 %1".toList, "L:".toList]))
      ⟨true, ""⟩ ⟨true, ""⟩ ⟨true, ""⟩ rfl rfl rfl
      (labelLine_colon "L".toList (by decide) (by decide)) rfl rfl rfl
      (by decide) (by decide)).2.2,
    (C2_jump_resolution
        (stateOf (parseCodeLines Assembler.inCode ["L:".toList, "move %0 %1".toList]))
        (stateOf (parseCodeLines Assembler.inCode
          ["L:".toList, "move %0 %1".toList, "jmp 0 $L".toList]))
        "jmp 0 $L".toList "L" ⟨true, ""⟩ (by decide)
        (jumpLine_jmp _ "L".toList (by decide) (by decide)) rfl).2.1
      0 []
      (stateOf (parseCodeLines Assembler.inCode
        ["L:".toList, "move %0 %1".toList, "jmp 0 $L".toList]))
      ⟨true, ""⟩ rfl rfl rfl (by decide) (by decide) (by decide)⟩

/-- C6, amended. The line `jmp 0 $skip` (JMP takes the A operand before the
jump location) followed later by the label line `skip:`, `skip` not being in
the label table before that line, is accepted by `parseCode`, and afterwards
the sBx field of the JMP instruction equals the index of the instruction
following `skip:` minus the index of the JMP minus 1 (the instruction count
staying below `2 ^ 31` and the delta fitting sBx). -/
theorem C6_jmp_skip_resolution (a a1 a2 a3 a4 : Assembler) (mid post : List (List Char))
    (r1 r2 r3 r4 : BoolRes) (hok : PendingOk a)
    (h1 : parseCode a "jmp 0 $skip".toList = some (r1, a1))
    (h2 : parseCodeLines a1 mid = some (r2, a2)) (hs2 : r2.success = true)
    (hfresh : mapFind a2.locations_ "skip" = none)
    (h3 : parseCode a2 "skip:".toList = some (r3, a3))
    (h4 : parseCodeLines a3 post = some (r4, a4)) (hs4 : r4.success = true)
    (hlen : a4.instructions_.length < 2 ^ 31)
    (hhi : (a2.instructions_.length : Int) - (a.instructions_.length : Int) - 1 ≤ 131072) :
    r1.success = true ∧ r3.success = true ∧
    a3.instructions_.length = a2.instructions_.length ∧
    (a4.instructions_[a.instructions_.length]?).map GETARG_sBx
      = some ((a2.instructions_.length : Int) - (a.instructions_.length : Int) - 1) := by
  have hj : JumpLine a "jmp 0 $skip".toList "skip" :=
    jumpLine_jmp a "skip".toList (by decide) (by decide)
  have hl : LabelLine "skip:".toList "skip" :=
    labelLine_colon "skip".toList (by decide) (by decide)
  obtain ⟨c1, c3, -, c4⟩ := jump_forward_core hok hj h1 h2 hs2 hfresh hl h3 h4 hs4 hlen hhi
  refine ⟨c1, c3, ?_, c4⟩
  obtain ⟨ln, hlc⟩ := parseCode_labelLine a2 hl
  rw [hlc] at h3
  simp only [Option.some.injEq, Prod.mk.injEq] at h3
  rw [← h3.2]
  simp only [declareLabel, resolveLocations_eq, patchLoop_length, (withLineinfo_fields a2 ln).1]

/-- C6, amended, at a concrete input: `jmp 0 $skip`, one more instruction,
`skip:`, then the instruction that follows it (index 2): sBx = 2 - 0 - 1. -/
theorem C6_jmp_skip_resolution_witness :
    (parseCodeLines Assembler.inCode
        ["jmp 0 $skip".toList, "move %0 %1".toList, "skip:".toList, "return %0 1".toList]).map
        (fun r => (r.1, r.2.instructions_.map GET_OPCODE)) =
      some (⟨true, ""⟩, [30, 0, 38]) ∧
    ((stateOf (parseCodeLines Assembler.inCode
        ["jmp 0 $skip".toList, "move %0 %1".toList, "skip:".toList,
          "return %0 1".toList])).instructions_[0]?).map GETARG_sBx = some (2 - 0 - 1) :=
  ⟨by decide,
    (C6_jmp_skip_resolution Assembler.inCode
      (stateOf (parseCode Assembler.inCode "jmp 0 $skip".toList))
      (stateOf (parseCodeLines Assembler.inCode ["jmp 0 $skip".toList, "move %0 %1".toList]))
      (stateOf (parseCodeLines Assembler.inCode
        ["jmp 0 $skip".toList, "move %0 %1".toList, "skip:".toList]))
      (stateOf (parseCodeLines Assembler.inCode
        ["jmp 0 $skip".toList, "move %0 %1".toList, "skip:".toList, "return %0 1".toList]))
      ["move %0 %1".toList] ["return %0 1".toList] ⟨true, ""⟩ ⟨true, ""⟩ ⟨true, ""⟩ ⟨true, ""⟩
      (by decide) rfl rfl rfl rfl rfl rfl rfl (by decide) (by decide)).2.2.2⟩


theorem finalizeFunction_pending {a : Assembler} (h : (finalizeFunction a).1.success = true) :
    (finalizeFunction a).2.instructions_ = [] ∧ (finalizeFunction a).2.neededLocations_ = [] := by
  unfold finalizeFunction at h ⊢
  cases hn : a.neededLocations_ with
  | nil => exact ⟨rfl, rfl⟩
  | cons e es =>
    obtain ⟨n, i⟩ := e
    simp [hn] at h

theorem directiveFuncArgs_fields (a : Assembler) (args : List Char) :
    (directiveFuncArgs a args).2.instructions_ = a.instructions_ ∧
    (directiveFuncArgs a args).2.neededLocations_ = a.neededLocations_ := by
  unfold directiveFuncArgs
  repeat' split
  all_goals exact ⟨rfl, rfl⟩

theorem pendingOk_of_nil {a : Assembler} (hn : a.neededLocations_ = []) : PendingOk a := by
  unfold PendingOk
  rw [hn]
  simp

theorem directiveFunc_pending {a : Assembler} (args : List Char) (hok : PendingOk a)
    (hs : (directiveFunc a args).1.success = true) :
    PendingOk (directiveFunc a args).2 ∧
    (directiveFunc a args).2.instructions_.length ≤ a.instructions_.length := by
  unfold directiveFunc at hs ⊢
  split
  · rename_i h
    simp [h] at hs
  · split
    · obtain ⟨f1, f2⟩ := directiveFuncArgs_fields a args
      exact ⟨pendingOk_of_fields hok f1 f2, by rw [f1]⟩
    · split
      · rename_i hfin
        obtain ⟨g1, g2⟩ := finalizeFunction_pending hfin
        obtain ⟨f1, f2⟩ := directiveFuncArgs_fields (finalizeFunction a).2 args
        refine ⟨pendingOk_of_nil (by rw [f2, g2]), ?_⟩
        rw [f1, g1]
        simp
      · rename_i h1 h2 hfin
        simp only [h1, h2, hfin, if_false] at hs
        exact absurd hs hfin

theorem directiveDispatch_pending {a : Assembler} (name args : List Char) (hok : PendingOk a)
    (hs : (directiveDispatch a name args).1.success = true) :
    PendingOk (directiveDispatch a name args).2 ∧
    (directiveDispatch a name args).2.instructions_.length ≤ a.instructions_.length := by
  unfold directiveDispatch at hs ⊢
  split
  · repeat' split
    all_goals exact ⟨pendingOk_of_fields hok rfl rfl, Nat.le_refl _⟩
  · split
    · exact directiveFunc_pending args hok (by simpa [*] using hs)
    · repeat' split
      all_goals exact ⟨pendingOk_of_fields hok rfl rfl, Nat.le_refl _⟩


theorem directiveNamed_pending {a a1 : Assembler} {res : BoolRes} {line name args : List Char}
    (h : directiveNamed a line name args = some (res, a1)) (hs : res.success = true)
    (hok : PendingOk a) :
    PendingOk a1 ∧ a1.instructions_.length ≤ a.instructions_.length := by
  unfold directiveNamed at h
  split at h
  · simp only [Option.some.injEq, Prod.mk.injEq] at h
    rw [← h.1] at hs
    cases hs
  · split at h
    · cases h
    · simp only [Option.some.injEq] at h
      have h1 : (directiveDispatch a name args).1 = res := by rw [h]
      have h2 : (directiveDispatch a name args).2 = a1 := by rw [h]
      rw [← h2]
      exact directiveDispatch_pending name args hok (by rw [h1]; exact hs)

theorem parseDirective_pending {a a1 : Assembler} {res : BoolRes} {line : List Char}
    (h : parseDirective a line = some (res, a1)) (hs : res.success = true)
    (hok : PendingOk a) :
    PendingOk a1 ∧ a1.instructions_.length ≤ a.instructions_.length := by
  unfold parseDirective at h
  split at h
  · exact directiveNamed_pending h hs hok
  · split at h
    · exact directiveNamed_pending h hs hok
    · split at h
      · split at h
        · cases h
        · exact directiveNamed_pending h hs hok
      · simp only [Option.some.injEq, Prod.mk.injEq] at h
        rw [← h.1] at hs
        cases hs

theorem pushInstruction_length (l : List Instruction) (v : CodeVars) :
    (pushInstruction l v).length ≤ l.length + 2 := by
  unfold pushInstruction
  split <;> simp

theorem parseInstruction_length (a : Assembler) (name : String) (bend : List Char) :
    (parseInstruction a name bend).2.instructions_.length ≤ a.instructions_.length + 2 := by
  unfold parseInstruction
  split
  · simp
  · rename_i opcode _
    obtain ⟨hi, -, -⟩ :=
      parseOperands_frame ((opinfo.getD opcode []).take (opcount.getD opcode 0)) a
        ⟨SET_OPCODE 0 opcode, 0, false⟩ bend
    split
    · rename_i a1 heq
      rw [heq] at hi
      simp only at hi
      rw [hi]
      omega
    · rename_i v bend1 a1 heq
      rw [heq] at hi
      simp only at hi
      split
      · rw [hi]
        omega
      · simp only
        rw [← hi]
        exact pushInstruction_length _ _

theorem parseCode_length_le {a a1 : Assembler} {res : BoolRes} {line : List Char}
    (h : parseCode a line = some (res, a1)) (hs : res.success = true) :
    a1.instructions_.length ≤ a.instructions_.length + 2 := by
  obtain ⟨ln, name, hcase⟩ := parseCode_cases h hs
  obtain ⟨f1, -, -⟩ := withLineinfo_fields a ln
  rcases hcase with rfl | ⟨bend, hi⟩
  · have : (declareLabel (withLineinfo a ln) name).instructions_.length
        = (withLineinfo a ln).instructions_.length := by
      simp only [declareLabel, resolveLocations_eq, patchLoop_length]
    rw [this, f1]
    omega
  · have := parseInstruction_length (withLineinfo a ln) name bend
    rw [hi, f1] at this
    exact this

theorem parseLine_pending {a a1 : Assembler} {res : BoolRes} {line : List Char}
    (h : parseLine a line = some (res, a1)) (hs : res.success = true) (hok : PendingOk a)
    (hlen : a.instructions_.length + 2 < 2 ^ 31) :
    PendingOk a1 ∧ a1.instructions_.length ≤ a.instructions_.length + 2 := by
  unfold parseLine at h
  split at h
  · obtain ⟨p, l⟩ := parseDirective_pending h hs hok
    exact ⟨p, by omega⟩
  · split at h
    · have hf := parseConstant_frame a line 0
      split at h
      · simp only [Option.some.injEq, Prod.mk.injEq] at h
        rw [← h.1] at hs
        cases hs
      · rename_i a2 heq
        simp only [Option.some.injEq, Prod.mk.injEq] at h
        rw [heq] at hf
        obtain ⟨g1, -, g3⟩ := hf
        simp only at g1 g3
        have g3' : a2.neededLocations_ = a.neededLocations_ := by
          rcases g3 with g | ⟨g, -⟩
          · exact g
          · exact absurd g (by decide)
        rw [← h.2]
        exact ⟨pendingOk_of_fields hok g1 g3', by rw [g1]; omega⟩
    · have l2 := parseCode_length_le h hs
      exact ⟨(parseCode_step h hs hok (by omega)).1, l2⟩
    · simp only [Option.some.injEq] at h
      have h1 : (parseUpvalue a line).1 = res := by rw [h]
      have h2 : (parseUpvalue a line).2 = a1 := by rw [h]
      have hu : (parseUpvalue a line).2.instructions_ = a.instructions_ ∧
          (parseUpvalue a line).2.neededLocations_ = a.neededLocations_ := by
        unfold parseUpvalue
        repeat' split
        all_goals exact ⟨rfl, rfl⟩
      rw [← h2]
      exact ⟨pendingOk_of_fields hok hu.1 hu.2, by rw [hu.1]; omega⟩
    · simp only [Option.some.injEq, Prod.mk.injEq] at h
      rw [← h.1] at hs
      cases hs

/-- The pending location patches are in order in every state the read loop of
`assemble` reaches, as long as the lines read could not bring the instruction
count to `2 ^ 31`. -/
theorem assembleLines_pendingOk : ∀ (lines : List String) (linen : Nat) (a a1 : Assembler)
    (res : BoolRes), assembleLines lines linen a = some (res, a1) → res.success = true →
    PendingOk a → a.instructions_.length + 2 * lines.length < 2 ^ 31 →
    PendingOk a1 ∧ a1.instructions_.length ≤ a.instructions_.length + 2 * lines.length := by
  intro lines
  induction lines with
  | nil =>
    intro linen a a1 res h _ hok _
    simp only [assembleLines, Option.some.injEq, Prod.mk.injEq] at h
    rw [← h.2]
    exact ⟨pendingOk_of_fields hok rfl rfl, Nat.le_refl _⟩
  | cons l ls ih =>
    intro linen a a1 res h hs hok hlen
    simp only [List.length_cons] at hlen ⊢
    unfold assembleLines at h
    split at h
    · obtain ⟨p, q⟩ := ih _ a a1 res h hs hok (by omega)
      exact ⟨p, by omega⟩
    · split at h
      · obtain ⟨p, q⟩ := ih _ a a1 res h hs hok (by omega)
        exact ⟨p, by omega⟩
      · split at h
        · cases h
        · rename_i r1 b heq
          by_cases hr : r1.success = true
          · simp only [hr, if_true] at h
            obtain ⟨p1, q1⟩ := parseLine_pending heq hr hok (by omega)
            obtain ⟨p2, q2⟩ := ih _ b a1 res h hs p1 (by omega)
            exact ⟨p2, by omega⟩
          · have hf : r1.success = false := by simpa using hr
            simp only [hf, Bool.false_eq_true, if_false, Option.some.injEq, Prod.mk.injEq] at h
            rw [← h.1] at hs
            cases hs


/-- The hypothesis `PendingOk` of the statements on jump resolution holds in
every state the read loop reaches from a new assembler, for sources of fewer
than `2 ^ 30` lines. -/
theorem assembleLines_new_pendingOk (lines : List String) (rbuffer : Option (List String))
    (wbuffer : Option WriteBuffer) (a1 : Assembler) (res : BoolRes)
    (h : assembleLines lines 0 (Assembler.new rbuffer wbuffer) = some (res, a1))
    (hs : res.success = true) (hl : lines.length < 2 ^ 30) : PendingOk a1 :=
  (assembleLines_pendingOk lines 0 _ a1 res h hs
    (pendingOk_of_nil rfl) (by
      have : (Assembler.new rbuffer wbuffer).instructions_.length = 0 := rfl
      omega)).1


theorem protoFrame_refl (a : Assembler) (limit : Nat) : ProtoFrame a a limit :=
  ⟨rfl, rfl, Or.inl ⟨rfl, rfl, rfl⟩⟩

theorem parseConstant_protoFrame (a : Assembler) (start : List Char) (limit : Nat) :
    ProtoFrame a (parseConstant a start).2 limit := by
  unfold parseConstant
  split
  · exact protoFrame_refl a limit
  · split
    · exact protoFrame_refl a limit
    · exact ⟨rfl, rfl, Or.inl ⟨rfl, rfl, rfl⟩⟩

theorem parseOperandConst_protoFrame (a : Assembler) (op : Operand) (bend : List Char)
    (limit : Nat) : ProtoFrame a (parseOperandConst a op bend limit).2.2 limit := by
  unfold parseOperandConst
  split
  · exact protoFrame_refl a limit
  · split
    · exact protoFrame_refl a limit
    · split
      · exact protoFrame_refl a limit
      · rename_i c cs heq hc
        have h := parseConstant_protoFrame a (c :: cs) limit
        split
        · rename_i heq; rw [heq] at h; exact h
        · rename_i heq; rw [heq] at h
          split <;> exact h

theorem parseOperandProto_protoFrame (a : Assembler) (op : Operand) (start : List Char)
    (limit : Nat) (hl : hasLimit limit LIMIT_PROTO = true) :
    ProtoFrame a (parseOperandProto a op start).2.2 limit := by
  unfold parseOperandProto
  split
  · exact protoFrame_refl a limit
  · split
    · split
      · exact protoFrame_refl a limit
      · exact ⟨rfl, rfl, Or.inr ⟨hl, _, rfl, Or.inl ⟨rfl, rfl⟩⟩⟩
    · rename_i hnone
      exact ⟨rfl, rfl, Or.inr ⟨hl, _, rfl, Or.inr ⟨hnone, rfl, rfl⟩⟩⟩

theorem parseOperandEmbed_protoFrame (a : Assembler) (op : Operand) (start : List Char)
    (limit : Nat) : ProtoFrame a (parseOperandEmbed a op start limit).2.2 limit := by
  unfold parseOperandEmbed
  repeat' split
  all_goals exact protoFrame_refl a limit

theorem parseOperand_protoFrame (a : Assembler) (op : Operand) (start : List Char)
    (limit : Nat) : ProtoFrame a (parseOperand a op start limit).2.2 limit := by
  unfold parseOperand
  split
  · exact protoFrame_refl a limit
  · split
    · exact protoFrame_refl a limit
    · split
      · repeat' split
        all_goals exact protoFrame_refl a limit
      · split
        · repeat' split
          all_goals exact protoFrame_refl a limit
        · split
          · split
            · exact protoFrame_refl a limit
            · split
              · exact protoFrame_refl a limit
              · split
                · exact ⟨rfl, rfl, Or.inl ⟨rfl, rfl, rfl⟩⟩
                · exact protoFrame_refl a limit
          · split
            · exact parseOperandConst_protoFrame a op _ limit
            · split
              · rename_i hl
                exact parseOperandProto_protoFrame a op _ limit hl
              · exact parseOperandEmbed_protoFrame a op _ limit


theorem usedOk_protoFrame (a a1 : Assembler) (limit : Nat) (h : ProtoFrame a a1 limit)
    (hu : UsedOk a) : UsedOk a1 := by
  obtain ⟨-, -, h⟩ := h
  obtain ⟨hnd, hb⟩ := hu
  rcases h with ⟨-, h2, h3⟩ | ⟨-, label, -, h⟩
  · exact ⟨by rw [h2]; exact hnd, by rw [h2, h3]; exact hb⟩
  · rcases h with ⟨h2, h3⟩ | ⟨hnone, h2, h3⟩
    · exact ⟨by rw [h2]; exact hnd, by rw [h2, h3]; exact hb⟩
    · constructor
      · rw [h2]
        refine List.Nodup.append hnd (List.nodup_singleton _) ?_
        intro x hx hx2
        rw [List.mem_singleton] at hx2
        subst hx2
        exact hb x hx hnone
      · intro n hn
        rw [h3]
        rw [h2] at hn
        by_cases hl : n = label
        · subst hl
          rw [mapFind_mapAssign_self]
          simp
        · rw [mapFind_mapAssign_ne _ _ _ _ (fun h => hl h.symm)]
          rcases List.mem_append.1 hn with h1 | h1
          · exact hb n h1
          · simp at h1
            exact absurd h1 hl

theorem parseOperands_protoFrame : ∀ (infos : List OpInfo) (a : Assembler) (v : CodeVars)
    (bend : List Char),
    (parseOperands infos a v bend).2.instructions_ = a.instructions_ ∧
    (parseOperands infos a v bend).2.functions_ = a.functions_ ∧
    (UsedOk a → UsedOk (parseOperands infos a v bend).2) ∧
    ∃ news, (parseOperands infos a v bend).2.neededSubroutines_
        = a.neededSubroutines_ ++ news ∧
      news.length ≤ (infos.filter (fun i => hasLimit i.limit LIMIT_PROTO)).length ∧
      ∀ e ∈ news, e.2 = toInt a.instructions_.length := by
  intro infos
  induction infos with
  | nil =>
    intro a v bend
    exact ⟨rfl, rfl, fun h => h, [], by simp [parseOperands], by simp, by simp⟩
  | cons info infos ih =>
    intro a v bend
    have hf := parseOperand_protoFrame a Operand.uninit bend info.limit
    unfold parseOperands
    cases h : parseOperand a Operand.uninit bend info.limit with
    | mk r rest =>
      obtain ⟨op, a1⟩ := rest
      rw [h] at hf
      simp only at hf
      have hu := usedOk_protoFrame a a1 info.limit hf
      obtain ⟨hi, hl, hn⟩ := hf
      have hone : ∃ news, a1.neededSubroutines_ = a.neededSubroutines_ ++ news ∧
          news.length ≤ (if hasLimit info.limit LIMIT_PROTO then 1 else 0) ∧
          ∀ e ∈ news, e.2 = toInt a.instructions_.length := by
        rcases hn with ⟨hn, -, -⟩ | ⟨hlim, label, hn, -⟩
        · exact ⟨[], by simp [hn], by simp, by simp⟩
        · exact ⟨[(label, _)], hn, by simp [hlim], by simp⟩
      obtain ⟨n1, hn1, hlen1, he1⟩ := hone
      cases r with
      | none =>
        refine ⟨hi, hl, hu, n1, hn1, ?_, he1⟩
        simp only [List.filter_cons]
        split
        all_goals simp_all
        all_goals omega
      | some bend1 =>
        simp only
        obtain ⟨hi2, hl2, hu2, n2, hn2, hlen2, he2⟩ :=
          ih a1 (storeOperand info.position op.value_ v) bend1
        refine ⟨hi2.trans hi, hl2.trans hl, fun h => hu2 (hu h), n1 ++ n2, ?_, ?_, ?_⟩
        · rw [hn2, hn1, List.append_assoc]
        · simp only [List.filter_cons, List.length_append]
          split
          all_goals simp_all
          all_goals omega
        · intro e he
          rcases List.mem_append.1 he with h1 | h2
          · exact he1 e h1
          · rw [he2 e h2, hi]

theorem opinfo_proto_slots (opcode : Nat) :
    (((opinfo.getD opcode []).take (opcount.getD opcode 0)).filter
      (fun i => hasLimit i.limit LIMIT_PROTO)).length ≤ 1 := by
  by_cases h : opcode < 47
  · revert opcode
    decide
  · have : opinfo.getD opcode [] = [] := by
      apply List.getD_eq_default
      have : opinfo.length = 47 := by decide
      omega
    rw [this]; simp


theorem subsOk_of_fields {a b : Assembler} (h : SubsOk a)
    (hi : b.instructions_ = a.instructions_)
    (hn : b.neededSubroutines_ = a.neededSubroutines_)
    (hf : b.f_usedSubroutines_ = a.f_usedSubroutines_)
    (hu : b.usedSubroutines_ = a.usedSubroutines_) : SubsOk b := by
  unfold SubsOk at *
  rw [hi, hn, hf, hu]
  exact h

theorem withLineinfo_subs (a : Assembler) (ln : Int) :
    (withLineinfo a ln).instructions_ = a.instructions_ ∧
    (withLineinfo a ln).neededSubroutines_ = a.neededSubroutines_ ∧
    (withLineinfo a ln).f_usedSubroutines_ = a.f_usedSubroutines_ ∧
    (withLineinfo a ln).usedSubroutines_ = a.usedSubroutines_ ∧
    (withLineinfo a ln).functions_ = a.functions_ := by
  unfold withLineinfo
  split <;> exact ⟨rfl, rfl, rfl, rfl, rfl⟩

theorem declareLabel_subs (a : Assembler) (name : String) (hok : SubsOk a) :
    SubsOk (declareLabel a name) ∧ (declareLabel a name).functions_ = a.functions_ := by
  have hlen : (declareLabel a name).instructions_.length = a.instructions_.length := by
    simp only [declareLabel, resolveLocations_eq, patchLoop_length]
  refine ⟨?_, rfl⟩
  obtain ⟨h1, h2, h3, h4⟩ := hok
  refine ⟨?_, h2, h3, h4⟩
  intro e he
  rw [hlen]
  exact h1 e he

theorem parseInstruction_subs {a a1 : Assembler} {res : BoolRes} {name : String}
    {bend : List Char} (h : parseInstruction a name bend = (res, a1))
    (hs : res.success = true) (hok : SubsOk a) (hlen : a.instructions_.length < 2 ^ 31) :
    SubsOk a1 ∧ a1.functions_ = a.functions_ := by
  unfold parseInstruction at h
  cases hop : findOpcode (String.mk (lower name.toList)) luaP_opnames 0 with
  | none =>
    simp only [hop, Prod.mk.injEq] at h
    rw [← h.1] at hs
    cases hs
  | some opcode =>
    simp only [hop] at h
    obtain ⟨hi, hfn, hu, news, hn, hnl, he⟩ :=
      parseOperands_protoFrame ((opinfo.getD opcode []).take (opcount.getD opcode 0)) a
        ⟨SET_OPCODE 0 opcode, 0, false⟩ bend
    have hslots := opinfo_proto_slots opcode
    cases hpo : parseOperands ((opinfo.getD opcode []).take (opcount.getD opcode 0)) a
        ⟨SET_OPCODE 0 opcode, 0, false⟩ bend with
    | mk r a2 =>
      rw [hpo] at hi hfn hu hn
      simp only at hi hfn hu hn
      rw [hpo] at h
      cases r with
      | none =>
        simp only [Prod.mk.injEq] at h
        rw [← h.1] at hs
        cases hs
      | some q =>
        obtain ⟨v, bend1⟩ := q
        simp only at h
        by_cases ht : trailingText bend1 = true
        · simp only [ht, if_true, Prod.mk.injEq] at h
          rw [← h.1] at hs
          cases hs
        · simp only [ht, Prod.mk.injEq] at h
          obtain ⟨-, rfl⟩ := h
          obtain ⟨ext, hext, hpos⟩ := pushInstruction_eq a2.instructions_ v
          obtain ⟨h1, h2, h3, h4⟩ := hok
          have hused := hu ⟨h3, h4⟩
          have htoInt : toInt (a.instructions_.length : Int) = (a.instructions_.length : Int) :=
            toInt_small _ (by omega) (by exact_mod_cast hlen)
          refine ⟨⟨?_, ?_, hused.1, hused.2⟩, hfn⟩
          · intro e hmem
            simp only at hmem ⊢
            rw [hext, hi, List.length_append]
            rw [hn] at hmem
            rcases List.mem_append.1 hmem with hm | hm
            · have := h1 e hm
              constructor
              · exact this.1
              · push_cast
                omega
            · rw [he e hm, htoInt]
              constructor
              · omega
              · push_cast
                omega
          · simp only
            rw [hn, List.map_append]
            have hnews : news.length ≤ 1 := Nat.le_trans hnl hslots
            refine List.Nodup.append h2 ?_ ?_
            · match news, hnews with
              | [], _ => simp
              | [_], _ => simp
            · intro x hx hx2
              obtain ⟨e, hem, rfl⟩ := List.mem_map.1 hx
              obtain ⟨e2, hem2, heq⟩ := List.mem_map.1 hx2
              have := h1 e hem
              rw [← heq, he e2 hem2, htoInt] at this
              omega

theorem parseCode_subs {a a1 : Assembler} {res : BoolRes} {line : List Char}
    (h : parseCode a line = some (res, a1)) (hs : res.success = true) (hok : SubsOk a)
    (hlen : a.instructions_.length < 2 ^ 31) :
    SubsOk a1 ∧ a1.functions_ = a.functions_ := by
  obtain ⟨ln, name, hcase⟩ := parseCode_cases h hs
  obtain ⟨f1, f2, f3, f4, f5⟩ := withLineinfo_subs a ln
  have hok0 : SubsOk (withLineinfo a ln) := subsOk_of_fields hok f1 f2 f3 f4
  rcases hcase with rfl | ⟨bend, hi⟩
  · obtain ⟨h1, h2⟩ := declareLabel_subs (withLineinfo a ln) name hok0
    exact ⟨h1, h2.trans f5⟩
  · obtain ⟨h1, h2⟩ := parseInstruction_subs hi hs hok0 (by rw [f1]; exact hlen)
    exact ⟨h1, h2.trans f5⟩


theorem mem_mapAssign {α : Type} (m : List (String × α)) (k : String) (v : α)
    (e : String × α) (h : e ∈ mapAssign m k v) : e ∈ m ∨ e = (k, v) := by
  induction m with
  | nil =>
    simp only [mapAssign, List.mem_singleton] at h
    exact Or.inr h
  | cons x xs ih =>
    obtain ⟨k1, v1⟩ := x
    unfold mapAssign at h
    split at h
    · rcases List.mem_cons.1 h with h1 | h1
      · exact Or.inr h1
      · exact Or.inl (List.mem_cons_of_mem _ h1)
    · rcases List.mem_cons.1 h with h1 | h1
      · exact Or.inl (by rw [h1]; exact List.mem_cons_self _ _)
      · rcases ih h1 with h2 | h2
        · exact Or.inl (List.mem_cons_of_mem _ h2)
        · exact Or.inr h2

theorem mapFind_mem {α : Type} (m : List (String × α)) (k : String) (v : α)
    (h : mapFind m k = some v) : (k, v) ∈ m := by
  induction m with
  | nil => simp [mapFind] at h
  | cons x xs ih =>
    obtain ⟨k1, v1⟩ := x
    unfold mapFind at h
    split at h
    · rename_i hk
      simp only [Option.some.injEq] at h
      rw [hk, h]
      exact List.mem_cons_self _ _
    · exact List.mem_cons_of_mem _ (ih h)

theorem subsOk_of_nil {a : Assembler} (hn : a.neededSubroutines_ = [])
    (hf : a.f_usedSubroutines_ = []) : SubsOk a := by
  unfold SubsOk
  rw [hn, hf]
  simp

theorem finalizeFunction_subs {a : Assembler} (h : (finalizeFunction a).1.success = true)
    (hok : SubsOk a) (ht : TableOk a.functions_) :
    SubsOk (finalizeFunction a).2 ∧ TableOk (finalizeFunction a).2.functions_ := by
  unfold finalizeFunction at h ⊢
  cases hn : a.neededLocations_ with
  | nil =>
    refine ⟨subsOk_of_nil rfl rfl, ?_⟩
    intro e he
    rcases mem_mapAssign _ _ _ e he with h1 | h1
    · exact ht e h1
    · rw [h1]
      exact ⟨hok.2.1, hok.2.2.1⟩
  | cons e es =>
    obtain ⟨n, i⟩ := e
    simp [hn] at h

theorem directiveFuncArgs_subs (a : Assembler) (args : List Char) :
    (directiveFuncArgs a args).2.instructions_ = a.instructions_ ∧
    (directiveFuncArgs a args).2.neededSubroutines_ = a.neededSubroutines_ ∧
    (directiveFuncArgs a args).2.f_usedSubroutines_ = a.f_usedSubroutines_ ∧
    (directiveFuncArgs a args).2.usedSubroutines_ = a.usedSubroutines_ ∧
    (directiveFuncArgs a args).2.functions_ = a.functions_ := by
  unfold directiveFuncArgs
  repeat' split
  all_goals exact ⟨rfl, rfl, rfl, rfl, rfl⟩

theorem directiveFunc_subs {a : Assembler} (args : List Char) (hok : SubsOk a)
    (ht : TableOk a.functions_) (hs : (directiveFunc a args).1.success = true) :
    SubsOk (directiveFunc a args).2 ∧ TableOk (directiveFunc a args).2.functions_ := by
  unfold directiveFunc at hs ⊢
  split
  · rename_i h
    simp [h] at hs
  · split
    · obtain ⟨f1, f2, f3, f4, f5⟩ := directiveFuncArgs_subs a args
      exact ⟨subsOk_of_fields hok f1 f2 f3 f4, by rw [f5]; exact ht⟩
    · split
      · rename_i hfin
        obtain ⟨g1, g2⟩ := finalizeFunction_subs hfin hok ht
        obtain ⟨f1, f2, f3, f4, f5⟩ := directiveFuncArgs_subs (finalizeFunction a).2 args
        exact ⟨subsOk_of_fields g1 f1 f2 f3 f4, by rw [f5]; exact g2⟩
      · rename_i h1 h2 hfin
        simp only [h1, h2, hfin, if_false] at hs
        exact absurd hs hfin

theorem directiveDispatch_subs {a : Assembler} (name args : List Char) (hok : SubsOk a)
    (ht : TableOk a.functions_) (hs : (directiveDispatch a name args).1.success = true) :
    SubsOk (directiveDispatch a name args).2 ∧
    TableOk (directiveDispatch a name args).2.functions_ := by
  unfold directiveDispatch at hs ⊢
  split
  · repeat' split
    all_goals exact ⟨subsOk_of_fields hok rfl rfl rfl rfl, ht⟩
  · split
    · exact directiveFunc_subs args hok ht (by simpa [*] using hs)
    · repeat' split
      all_goals exact ⟨subsOk_of_fields hok rfl rfl rfl rfl, ht⟩

theorem directiveNamed_subs {a a1 : Assembler} {res : BoolRes} {line name args : List Char}
    (h : directiveNamed a line name args = some (res, a1)) (hs : res.success = true)
    (hok : SubsOk a) (ht : TableOk a.functions_) : SubsOk a1 ∧ TableOk a1.functions_ := by
  unfold directiveNamed at h
  split at h
  · simp only [Option.some.injEq, Prod.mk.injEq] at h
    rw [← h.1] at hs
    cases hs
  · split at h
    · cases h
    · simp only [Option.some.injEq] at h
      have h1 : (directiveDispatch a name args).1 = res := by rw [h]
      have h2 : (directiveDispatch a name args).2 = a1 := by rw [h]
      rw [← h2]
      exact directiveDispatch_subs name args hok ht (by rw [h1]; exact hs)

theorem parseDirective_subs {a a1 : Assembler} {res : BoolRes} {line : List Char}
    (h : parseDirective a line = some (res, a1)) (hs : res.success = true)
    (hok : SubsOk a) (ht : TableOk a.functions_) : SubsOk a1 ∧ TableOk a1.functions_ := by
  unfold parseDirective at h
  split at h
  · exact directiveNamed_subs h hs hok ht
  · split at h
    · exact directiveNamed_subs h hs hok ht
    · split at h
      · split at h
        · cases h
        · exact directiveNamed_subs h hs hok ht
      · simp only [Option.some.injEq, Prod.mk.injEq] at h
        rw [← h.1] at hs
        cases hs

theorem parseLine_subs {a a1 : Assembler} {res : BoolRes} {line : List Char}
    (h : parseLine a line = some (res, a1)) (hs : res.success = true) (hok : SubsOk a)
    (ht : TableOk a.functions_) (hlen : a.instructions_.length < 2 ^ 31) :
    SubsOk a1 ∧ TableOk a1.functions_ := by
  unfold parseLine at h
  split at h
  · exact parseDirective_subs h hs hok ht
  · split at h
    · have hf := parseConstant_protoFrame a line 0
      split at h
      · simp only [Option.some.injEq, Prod.mk.injEq] at h
        rw [← h.1] at hs
        cases hs
      · rename_i a2 heq
        simp only [Option.some.injEq, Prod.mk.injEq] at h
        rw [heq] at hf
        obtain ⟨g1, g2, g3⟩ := hf
        simp only at g1 g2 g3
        rw [← h.2]
        rcases g3 with ⟨g3, g4, g5⟩ | ⟨g, -⟩
        · exact ⟨subsOk_of_fields hok g1 g3 g4 g5, by rw [g2]; exact ht⟩
        · exact absurd g (by decide)
    · obtain ⟨p, q⟩ := parseCode_subs h hs hok hlen
      exact ⟨p, by rw [q]; exact ht⟩
    · simp only [Option.some.injEq] at h
      have h2 : (parseUpvalue a line).2 = a1 := by rw [h]
      have hu : (parseUpvalue a line).2.instructions_ = a.instructions_ ∧
          (parseUpvalue a line).2.neededSubroutines_ = a.neededSubroutines_ ∧
          (parseUpvalue a line).2.f_usedSubroutines_ = a.f_usedSubroutines_ ∧
          (parseUpvalue a line).2.usedSubroutines_ = a.usedSubroutines_ ∧
          (parseUpvalue a line).2.functions_ = a.functions_ := by
        unfold parseUpvalue
        repeat' split
        all_goals exact ⟨rfl, rfl, rfl, rfl, rfl⟩
      rw [← h2]
      exact ⟨subsOk_of_fields hok hu.1 hu.2.1 hu.2.2.1 hu.2.2.2.1, by rw [hu.2.2.2.2]; exact ht⟩
    · simp only [Option.some.injEq, Prod.mk.injEq] at h
      rw [← h.1] at hs
      cases hs


/-- The subroutine bookkeeping is in order in every state the read loop of
`assemble` reaches, as long as the lines read could not bring the instruction
count to `2 ^ 31`. -/
theorem assembleLines_subs : ∀ (lines : List String) (linen : Nat) (a a1 : Assembler)
    (res : BoolRes), assembleLines lines linen a = some (res, a1) → res.success = true →
    PendingOk a → SubsOk a → TableOk a.functions_ →
    a.instructions_.length + 2 * lines.length < 2 ^ 31 →
    SubsOk a1 ∧ TableOk a1.functions_ := by
  intro lines
  induction lines with
  | nil =>
    intro linen a a1 res h _ _ hok ht _
    simp only [assembleLines, Option.some.injEq, Prod.mk.injEq] at h
    rw [← h.2]
    exact ⟨subsOk_of_fields hok rfl rfl rfl rfl, ht⟩
  | cons l ls ih =>
    intro linen a a1 res h hs hp hok ht hlen
    simp only [List.length_cons] at hlen
    unfold assembleLines at h
    split at h
    · exact ih _ a a1 res h hs hp hok ht (by omega)
    · split at h
      · exact ih _ a a1 res h hs hp hok ht (by omega)
      · split at h
        · cases h
        · rename_i r1 b heq
          by_cases hr : r1.success = true
          · simp only [hr, if_true] at h
            obtain ⟨p1, q1⟩ := parseLine_pending heq hr hp (by omega)
            obtain ⟨s1, t1⟩ := parseLine_subs heq hr hok ht (by omega)
            exact ih _ b a1 res h hs p1 s1 t1 (by omega)
          · have hf : r1.success = false := by simpa using hr
            simp only [hf, Bool.false_eq_true, if_false, Option.some.injEq, Prod.mk.injEq] at h
            rw [← h.1] at hs
            cases hs

/-- Every record of the function table that `assemble` hands to the writer,
after the read loop from a new assembler and the finalization of the last
function, has at most one pending subroutine patch per instruction and a
used-subroutine list without repetition, for sources of fewer than `2 ^ 30`
lines. -/
theorem assembleLines_new_tableOk (lines : List String) (rbuffer : Option (List String))
    (wbuffer : Option WriteBuffer) (a1 a2 : Assembler) (res r2 : BoolRes)
    (h : assembleLines lines 0 (Assembler.new rbuffer wbuffer) = some (res, a1))
    (hs : res.success = true) (hl : lines.length < 2 ^ 30)
    (hfin : (if a1.instructions_ = [] then ((⟨true, ""⟩ : BoolRes), a1)
      else finalizeFunction a1) = (r2, a2))
    (hs2 : r2.success = true) (key : String) (f : ParsedFunction)
    (hkey : mapFind a2.functions_ key = some f) :
    (f.neededSubroutines.map Prod.snd).Nodup ∧ f.usedSubroutines.Nodup := by
  have hnew : (Assembler.new rbuffer wbuffer).instructions_.length = 0 := rfl
  obtain ⟨s1, t1⟩ := assembleLines_subs lines 0 _ a1 res h hs (pendingOk_of_nil rfl)
    (subsOk_of_nil rfl rfl) (by intro e he; cases he) (by omega)
  have t2 : TableOk a2.functions_ := by
    split at hfin
    · simp only [Prod.mk.injEq] at hfin
      rw [← hfin.2]
      exact t1
    · have e1 : (finalizeFunction a1).1 = r2 := by rw [hfin]
      have e2 : (finalizeFunction a1).2 = a2 := by rw [hfin]
      rw [← e2]
      exact (finalizeFunction_subs (by rw [e1]; exact hs2) s1 t1).2
  exact t2 (key, f) (mapFind_mem _ _ _ hkey)


/-- The `.func` directive leaves every per-function accumulator empty when it
succeeds from a state that holds at least one instruction. -/
theorem directiveFunc_fresh (a : Assembler) (args : List Char)
    (hi : a.instructions_ ≠ []) (hs : (directiveFunc a args).1.success = true) :
    (directiveFunc a args).2.instructions_ = [] ∧
    (directiveFunc a args).2.constants_ = [] ∧
    (directiveFunc a args).2.upvalues_ = [] ∧
    (directiveFunc a args).2.f_usedSubroutines_ = [] ∧
    (directiveFunc a args).2.neededSubroutines_ = [] := by
  unfold directiveFunc at hs ⊢
  split
  · rename_i h
    simp [h] at hs
  · split
    · have hfin : (finalizeFunction a).1.success = true := by assumption
      have hfields : (finalizeFunction a).2.instructions_ = [] ∧
          (finalizeFunction a).2.constants_ = [] ∧ (finalizeFunction a).2.upvalues_ = [] ∧
          (finalizeFunction a).2.f_usedSubroutines_ = [] ∧
          (finalizeFunction a).2.neededSubroutines_ = [] := by
        unfold finalizeFunction at hfin ⊢
        cases hn : a.neededLocations_ with
        | nil => exact ⟨rfl, rfl, rfl, rfl, rfl⟩
        | cons e es =>
          obtain ⟨n, i⟩ := e
          simp [hn] at hfin
      have hargs : (directiveFuncArgs (finalizeFunction a).2 args).2.instructions_
            = (finalizeFunction a).2.instructions_ ∧
          (directiveFuncArgs (finalizeFunction a).2 args).2.constants_
            = (finalizeFunction a).2.constants_ ∧
          (directiveFuncArgs (finalizeFunction a).2 args).2.upvalues_
            = (finalizeFunction a).2.upvalues_ ∧
          (directiveFuncArgs (finalizeFunction a).2 args).2.f_usedSubroutines_
            = (finalizeFunction a).2.f_usedSubroutines_ ∧
          (directiveFuncArgs (finalizeFunction a).2 args).2.neededSubroutines_
            = (finalizeFunction a).2.neededSubroutines_ := by
        unfold directiveFuncArgs
        repeat' split
        all_goals exact ⟨rfl, rfl, rfl, rfl, rfl⟩
      obtain ⟨g1, g2, g3, g4, g5⟩ := hfields
      obtain ⟨f1, f2, f3, f4, f5⟩ := hargs
      exact ⟨f1.trans g1, f2.trans g2, f3.trans g3, f4.trans g4, f5.trans g5⟩
    · rename_i h1 hfin
      simp only [h1, hi, hfin, if_false] at hs
      exact absurd hs hfin

/-- C11. The accumulators are not fresh after every `.func`: the function
`first` of `sourceNoCode` declares the constant `"x"` and one upvalue
descriptor but no instruction; the directive `.func main 2 0 0` then succeeds,
`first` is not stored in the function table, and its constant and its upvalue
descriptor are still in the accumulators of `main`. With the code of `main`
added, the record of `main` holds the pool `"x"`, `"y"` and the descriptor of
`first`, and its `loadk` refers to the pool index 1. -/
theorem C11_accumulators_survive_func :
    (assembleLines sourceNoCode 0 (Assembler.onSource sourceNoCode)).map
        (fun r => (r.1, r.2.funcname_, r.2.constants_, r.2.upvalues_,
          r.2.functions_.map Prod.fst)) =
      some (⟨true, ""⟩, "main", [.TString "x"], [⟨1, 0, ""⟩], []) ∧
    (assembleLines sourceNoCodeMain 0 (Assembler.onSource sourceNoCodeMain)).map
        (fun r => (r.1, (finalizeFunction r.2).2.functions_.map
          (fun e => (e.1, e.2.constants)))) =
      some (⟨true, ""⟩, [("main", [.TString "x", .TString "y"])]) ∧
    (assembleLines sourceNoCodeMain 0 (Assembler.onSource sourceNoCodeMain)).map
        (fun r => (finalizeFunction r.2).2.functions_.map
          (fun e => (e.2.upvalues, e.2.instructions.map GETARG_Bx))) =
      some [([⟨1, 0, ""⟩], [1, 512])] := by
  refine ⟨by decide, by decide, by decide⟩

/-- C13. A comment that follows a directive name directly changes the
directive: in every state the line `.end_code;x` is accepted and changes
nothing (the name read is `end_cod`, which no branch handles), while the line
`.end_code` read inside a code segment ends the segment. In the run of
`sourceEndCodeComment` the segment of `main` is therefore still open when
`.func other 2 0 0` is read, and that line is rejected. -/
theorem C13_comment_after_name_changes_directive :
    (∀ a : Assembler, parseDirective a ".end_code;x".toList = some (⟨true, ""⟩, a)) ∧
    (∀ a : Assembler, a.parseStatus_ = .PARSE_CODE →
      (parseDirective a ".end_code".toList).map (fun r => (r.1, r.2.parseStatus_)) =
        some (⟨true, ""⟩, .PARSE_FUNC)) ∧
    (assembleLines sourceEndCodeComment 0 (Assembler.onSource sourceEndCodeComment)).map
        (fun r => (r.1, r.2.parseStatus_)) =
      some (⟨false, "error parsing line 6: func declaration cannot be inside a code or const segment"⟩,
        .PARSE_CODE) ∧
    (assembleLines [".upvalues 0", ".func main 2 0 0", ".begin_code", "return %0 1",
        ".end_code", ".func other 2 0 0"] 0 (Assembler.onSource [])).map
        (fun r => (r.1, r.2.parseStatus_)) = some (⟨true, ""⟩, .PARSE_FUNC) := by
  refine ⟨fun a => rfl, ?_, by decide, by decide⟩
  intro a h
  have : parseDirective a ".end_code".toList = some (directiveDispatch a "end_code".toList []) := rfl
  rw [this]
  simp [directiveDispatch, lower, tolower, h]


theorem directiveFuncArgs_status (a : Assembler) (args : List Char)
    (hs : (directiveFuncArgs a args).1.success = false) :
    (directiveFuncArgs a args).2.parseStatus_ = a.parseStatus_ := by
  unfold directiveFuncArgs at hs ⊢
  repeat' split
  all_goals first | rfl | (simp_all)

theorem finalizeFunction_status (a : Assembler) :
    (finalizeFunction a).2.parseStatus_ = a.parseStatus_ := by
  unfold finalizeFunction
  split <;> rfl

theorem directiveFunc_status (a : Assembler) (args : List Char)
    (hs : (directiveFunc a args).1.success = false) :
    (directiveFunc a args).2.parseStatus_ = a.parseStatus_ := by
  unfold directiveFunc at hs ⊢
  split
  · rfl
  · split
    · rename_i h1 h2
      simp only [h1, h2, if_true, if_false] at hs
      exact directiveFuncArgs_status a args hs
    · split
      · rename_i h1 h2 h3
        simp only [h1, h2, h3, if_true, if_false] at hs
        rw [directiveFuncArgs_status _ args hs, finalizeFunction_status]
      · exact finalizeFunction_status a

theorem directiveDispatch_status (a : Assembler) (name args : List Char)
    (hs : (directiveDispatch a name args).1.success = false) :
    (directiveDispatch a name args).2.parseStatus_ = a.parseStatus_ := by
  unfold directiveDispatch at hs ⊢
  split
  · repeat' split
    all_goals rfl
  · split
    · exact directiveFunc_status a args (by simpa [*] using hs)
    · repeat' split
      all_goals first | rfl | (simp_all)

theorem parseDirective_status {a a1 : Assembler} {res : BoolRes} {line : List Char}
    (h : parseDirective a line = some (res, a1)) (hs : res.success = false) :
    a1.parseStatus_ = a.parseStatus_ := by
  have named : ∀ name args, directiveNamed a line name args = some (res, a1) →
      a1.parseStatus_ = a.parseStatus_ := by
    intro name args h
    unfold directiveNamed at h
    split at h
    · simp only [Option.some.injEq, Prod.mk.injEq] at h
      rw [← h.2]
    · split at h
      · cases h
      · simp only [Option.some.injEq] at h
        have h1 : (directiveDispatch a name args).1 = res := by rw [h]
        have h2 : (directiveDispatch a name args).2 = a1 := by rw [h]
        rw [← h2]
        exact directiveDispatch_status a name args (by rw [h1]; exact hs)
  unfold parseDirective at h
  split at h
  · exact named _ _ h
  · split at h
    · exact named _ _ h
    · split at h
      · split at h
        · cases h
        · exact named _ _ h
      · simp only [Option.some.injEq, Prod.mk.injEq] at h
        rw [← h.2]


theorem segmentRule_begin_const : SegmentRule "begin_const" .PARSE_FUNC .PARSE_CONST := by
  intro a spelling args h
  by_cases hst : a.parseStatus_ = .PARSE_FUNC <;> simp +decide [directiveDispatch, h, hst]

theorem segmentRule_end_const : SegmentRule "end_const" .PARSE_CONST .PARSE_FUNC := by
  intro a spelling args h
  by_cases hst : a.parseStatus_ = .PARSE_CONST <;> simp +decide [directiveDispatch, h, hst]

theorem segmentRule_begin_code : SegmentRule "begin_code" .PARSE_FUNC .PARSE_CODE := by
  intro a spelling args h
  by_cases hst : a.parseStatus_ = .PARSE_FUNC <;> simp +decide [directiveDispatch, h, hst]

theorem segmentRule_end_code : SegmentRule "end_code" .PARSE_CODE .PARSE_FUNC := by
  intro a spelling args h
  by_cases hst : a.parseStatus_ = .PARSE_CODE <;> simp +decide [directiveDispatch, h, hst]

theorem segmentRule_begin_upvalue : SegmentRule "begin_upvalue" .PARSE_FUNC .PARSE_UPVALUE := by
  intro a spelling args h
  by_cases hst : a.parseStatus_ = .PARSE_FUNC <;> simp +decide [directiveDispatch, h, hst]

theorem segmentRule_end_upvalue : SegmentRule "end_upvalue" .PARSE_UPVALUE .PARSE_FUNC := by
  intro a spelling args h
  by_cases hst : a.parseStatus_ = .PARSE_UPVALUE <;> simp +decide [directiveDispatch, h, hst]

theorem directiveDispatch_func_rejected (a : Assembler) (spelling args : List Char)
    (h : lower spelling = "func".toList)
    (hst : a.parseStatus_ = .PARSE_CODE ∨ a.parseStatus_ = .PARSE_CONST ∨
      a.parseStatus_ = .PARSE_UPVALUE) :
    (directiveDispatch a spelling args).1 =
      ⟨false, "func declaration cannot be inside a code or const segment"⟩ ∧
    (directiveDispatch a spelling args).2 = a := by
  rcases hst with hst | hst | hst <;> simp +decide [directiveDispatch, directiveFunc, h, hst]


/-- C12. Segment state machine: `.begin_const`, `.begin_code` and
`.begin_upvalue` succeed exactly when the parse state is Func and then set it
to Const, Code and Upvalue; `.end_const`, `.end_code` and `.end_upvalue`
succeed exactly when the state is Const, Code and Upvalue and then set it to
Func; `.func` is rejected, with the state left as it was, whenever the state is
Code, Const or Upvalue; the directive lines reach the dispatch with the name
they spell; and every directive line that is rejected leaves the parse state
unchanged. -/
theorem C12_segment_state_machine :
    (SegmentRule "begin_const" .PARSE_FUNC .PARSE_CONST ∧
      SegmentRule "begin_code" .PARSE_FUNC .PARSE_CODE ∧
      SegmentRule "begin_upvalue" .PARSE_FUNC .PARSE_UPVALUE) ∧
    (SegmentRule "end_const" .PARSE_CONST .PARSE_FUNC ∧
      SegmentRule "end_code" .PARSE_CODE .PARSE_FUNC ∧
      SegmentRule "end_upvalue" .PARSE_UPVALUE .PARSE_FUNC) ∧
    (∀ (a : Assembler) (spelling args : List Char), lower spelling = "func".toList →
      a.parseStatus_ = .PARSE_CODE ∨ a.parseStatus_ = .PARSE_CONST ∨
        a.parseStatus_ = .PARSE_UPVALUE →
      (directiveDispatch a spelling args).1.success = false ∧
      (directiveDispatch a spelling args).2 = a) ∧
    (∀ a : Assembler,
      parseDirective a ".begin_const".toList
        = some (directiveDispatch a "begin_const".toList []) ∧
      parseDirective a ".begin_code".toList
        = some (directiveDispatch a "begin_code".toList []) ∧
      parseDirective a ".begin_upvalue".toList
        = some (directiveDispatch a "begin_upvalue".toList []) ∧
      parseDirective a ".end_const".toList
        = some (directiveDispatch a "end_const".toList []) ∧
      parseDirective a ".end_code".toList
        = some (directiveDispatch a "end_code".toList []) ∧
      parseDirective a ".end_upvalue".toList
        = some (directiveDispatch a "end_upvalue".toList []) ∧
      parseDirective a ".func main 2 0 0".toList
        = some (directiveDispatch a "func".toList " main 2 0 0".toList)) ∧
    (∀ (a a1 : Assembler) (res : BoolRes) (line : List Char),
      parseDirective a line = some (res, a1) → res.success = false →
      a1.parseStatus_ = a.parseStatus_) := by
  refine ⟨⟨segmentRule_begin_const, segmentRule_begin_code, segmentRule_begin_upvalue⟩,
    ⟨segmentRule_end_const, segmentRule_end_code, segmentRule_end_upvalue⟩, ?_, ?_, ?_⟩
  · intro a spelling args h hst
    obtain ⟨h1, h2⟩ := directiveDispatch_func_rejected a spelling args h hst
    exact ⟨by rw [h1], h2⟩
  · intro a
    exact ⟨rfl, rfl, rfl, rfl, rfl, rfl, rfl⟩
  · intro a a1 res line h hs
    exact parseDirective_status h hs

/-- C12 at concrete inputs: inside a code segment `.end_code` is accepted and
leaves the state Func, while `.begin_const`, `.end_const` and `.func` are
rejected and leave the state Code. -/
theorem C12_segment_state_machine_witness :
    (parseDirective Assembler.inCode ".end_code".toList).map
        (fun r => (r.1.success, r.2.parseStatus_)) = some (true, .PARSE_FUNC) ∧
    ((directiveDispatch Assembler.inCode "end_code".toList []).1.success = true ↔
      Assembler.inCode.parseStatus_ = .PARSE_CODE) ∧
    (parseDirective Assembler.inCode ".begin_const".toList).map
        (fun r => (r.1.success, r.2.parseStatus_)) = some (false, .PARSE_CODE) ∧
    (parseDirective Assembler.inCode ".end_const".toList).map
        (fun r => (r.1.success, r.2.parseStatus_)) = some (false, .PARSE_CODE) ∧
    (directiveDispatch Assembler.inCode "func".toList " main 2 0 0".toList).1.success = false ∧
    (directiveDispatch Assembler.inCode "func".toList " main 2 0 0".toList).2
      = Assembler.inCode :=
  ⟨by decide,
    (C12_segment_state_machine.2.1.2.1 Assembler.inCode "end_code".toList [] (by decide)).1,
    by decide, by decide,
    C12_segment_state_machine.2.2.1 Assembler.inCode "func".toList " main 2 0 0".toList
      (by decide) (Or.inl rfl)⟩


theorem keepsHeader_refl (a : Assembler) : KeepsHeader a a :=
  ⟨rfl, rfl, rfl, rfl, rfl, rfl, rfl, rfl⟩

theorem keepsHeader_trans {a b c : Assembler} (h1 : KeepsHeader a b) (h2 : KeepsHeader b c) :
    KeepsHeader a c := by
  obtain ⟨a1, a2, a3, a4, a5, a6, a7, a8⟩ := h1
  obtain ⟨b1, b2, b3, b4, b5, b6, b7, b8⟩ := h2
  exact ⟨b1.trans a1, b2.trans a2, b3.trans a3, b4.trans a4, b5.trans a5, b6.trans a6,
    b7.trans a7, b8.trans a8⟩

theorem parseConstant_keepsHeader (a : Assembler) (start : List Char) :
    KeepsHeader a (parseConstant a start).2 := by
  unfold parseConstant
  split
  · exact keepsHeader_refl a
  · split
    · exact keepsHeader_refl a
    · exact ⟨rfl, rfl, rfl, rfl, rfl, rfl, rfl, rfl⟩

theorem parseOperandConst_keepsHeader (a : Assembler) (op : Operand) (bend : List Char)
    (limit : Nat) : KeepsHeader a (parseOperandConst a op bend limit).2.2 := by
  unfold parseOperandConst
  split
  · exact keepsHeader_refl a
  · split
    · exact keepsHeader_refl a
    · split
      · exact keepsHeader_refl a
      · rename_i c cs heq hc
        have h := parseConstant_keepsHeader a (c :: cs)
        split
        · rename_i heq; rw [heq] at h; exact h
        · rename_i heq; rw [heq] at h
          split <;> exact h

theorem parseOperandProto_keepsHeader (a : Assembler) (op : Operand) (start : List Char) :
    KeepsHeader a (parseOperandProto a op start).2.2 := by
  unfold parseOperandProto
  repeat' split
  all_goals exact ⟨rfl, rfl, rfl, rfl, rfl, rfl, rfl, rfl⟩

theorem parseOperandEmbed_keepsHeader (a : Assembler) (op : Operand) (start : List Char)
    (limit : Nat) : KeepsHeader a (parseOperandEmbed a op start limit).2.2 := by
  unfold parseOperandEmbed
  repeat' split
  all_goals exact keepsHeader_refl a

theorem parseOperand_keepsHeader (a : Assembler) (op : Operand) (start : List Char)
    (limit : Nat) : KeepsHeader a (parseOperand a op start limit).2.2 := by
  unfold parseOperand
  split
  · exact keepsHeader_refl a
  · split
    · exact keepsHeader_refl a
    · split
      · repeat' split
        all_goals exact keepsHeader_refl a
      · split
        · repeat' split
          all_goals exact keepsHeader_refl a
        · split
          · split
            · exact keepsHeader_refl a
            · split
              · exact keepsHeader_refl a
              · split
                · exact ⟨rfl, rfl, rfl, rfl, rfl, rfl, rfl, rfl⟩
                · exact keepsHeader_refl a
          · split
            · exact parseOperandConst_keepsHeader a op _ limit
            · split
              · exact parseOperandProto_keepsHeader a op _
              · exact parseOperandEmbed_keepsHeader a op _ limit

theorem parseOperands_keepsHeader : ∀ (infos : List OpInfo) (a : Assembler) (v : CodeVars)
    (bend : List Char), KeepsHeader a (parseOperands infos a v bend).2 := by
  intro infos
  induction infos with
  | nil =>
    intro a v bend
    exact keepsHeader_refl a
  | cons info infos ih =>
    intro a v bend
    have hf := parseOperand_keepsHeader a Operand.uninit bend info.limit
    unfold parseOperands
    cases h : parseOperand a Operand.uninit bend info.limit with
    | mk r rest =>
      obtain ⟨op, a1⟩ := rest
      rw [h] at hf
      cases r with
      | none => exact hf
      | some bend1 =>
        exact keepsHeader_trans hf (ih a1 (storeOperand info.position op.value_ v) bend1)

theorem parseInstruction_keepsHeader (a : Assembler) (name : String) (bend : List Char) :
    KeepsHeader a (parseInstruction a name bend).2 := by
  unfold parseInstruction
  split
  · exact keepsHeader_refl a
  · rename_i opcode _
    have hf := parseOperands_keepsHeader ((opinfo.getD opcode []).take (opcount.getD opcode 0)) a
      ⟨SET_OPCODE 0 opcode, 0, false⟩ bend
    split
    · rename_i a1 heq
      rw [heq] at hf
      exact hf
    · rename_i v bend1 a1 heq
      rw [heq] at hf
      split
      · exact hf
      · exact keepsHeader_trans hf ⟨rfl, rfl, rfl, rfl, rfl, rfl, rfl, rfl⟩

theorem withLineinfo_keepsHeader (a : Assembler) (ln : Int) :
    KeepsHeader a (withLineinfo a ln) := by
  unfold withLineinfo
  split
  · exact ⟨rfl, rfl, rfl, rfl, rfl, rfl, rfl, rfl⟩
  · exact keepsHeader_refl a

theorem parseCode_keepsHeader {a a1 : Assembler} {res : BoolRes} {line : List Char}
    (h : parseCode a line = some (res, a1)) : KeepsHeader a a1 := by
  unfold parseCode at h
  split at h
  · simp only [Option.some.injEq, Prod.mk.injEq] at h
    rw [← h.2]
    exact keepsHeader_refl a
  · split at h
    · cases h
    · rename_i ln _
      split at h
      · simp only [Option.some.injEq, Prod.mk.injEq] at h
        rw [← h.2]
        exact keepsHeader_trans (withLineinfo_keepsHeader a ln)
          ⟨rfl, rfl, rfl, rfl, rfl, rfl, rfl, rfl⟩
      · simp only [Option.some.injEq] at h
        have e := congrArg Prod.snd h
        simp only at e
        rw [← e]
        exact keepsHeader_trans (withLineinfo_keepsHeader a ln)
          (parseInstruction_keepsHeader _ _ _)

theorem parseUpvalue_keepsHeader (a : Assembler) (line : List Char) :
    KeepsHeader a (parseUpvalue a line).2 := by
  unfold parseUpvalue
  repeat' split
  all_goals exact ⟨rfl, rfl, rfl, rfl, rfl, rfl, rfl, rfl⟩


theorem varargOk_of_keeps {a a1 : Assembler} (hok : VarargOk a) (hk : KeepsHeader a a1)
    (hi : a.parseStatus_ ≠ .PARSE_NONE ∨ a1.instructions_ = a.instructions_) : VarargOk a1 := by
  obtain ⟨k1, k2, k3, -⟩ := hk
  obtain ⟨h1, h2, h3⟩ := hok
  refine ⟨?_, ?_, ?_⟩
  · intro hn
    rw [k1] at hn
    rcases hi with hi | hi
    · exact absurd hn hi
    · rw [hi]
      exact h1 hn
  · intro hn
    rw [k1] at hn
    rw [k2]
    exact h2 hn
  · rw [k3]
    exact h3

theorem finalizeFunction_vararg {a : Assembler} (hok : VarargOk a)
    (hi : a.instructions_ ≠ []) :
    TableVararg (finalizeFunction a).2.functions_ ∧ VarargOk (finalizeFunction a).2 := by
  obtain ⟨h1, h2, h3⟩ := hok
  have hst : a.parseStatus_ ≠ .PARSE_NONE := fun hn => hi (h1 hn)
  have hv := h2 hst
  have ht : TableVararg (finalizeFunction a).2.functions_ := by
    unfold finalizeFunction
    split
    · exact h3
    · intro e he
      rcases mem_mapAssign _ _ _ e he with h | h
      · exact h3 e h
      · rw [h]
        simp only
        omega
  refine ⟨ht, ?_, ?_, ht⟩
  · intro hn
    rw [finalizeFunction_status] at hn
    exact absurd hn hst
  · intro _
    unfold finalizeFunction
    split <;> exact hv

theorem directiveFuncArgs_vararg (a : Assembler) (args : List Char)
    (ht : TableVararg a.functions_) :
    TableVararg (directiveFuncArgs a args).2.functions_ ∧
    ((directiveFuncArgs a args).1.success = true → VarargOk (directiveFuncArgs a args).2) := by
  unfold directiveFuncArgs
  split
  · exact ⟨ht, fun h => by cases h⟩
  · split
    · exact ⟨ht, fun h => by cases h⟩
    · split
      · exact ⟨ht, fun h => by cases h⟩
      · split
        · exact ⟨ht, fun h => by cases h⟩
        · split
          · exact ⟨ht, fun h => by cases h⟩
          · rename_i vararg _ _ hv
            refine ⟨ht, fun _ => ⟨?_, ?_, ht⟩⟩
            · intro hn
              cases hn
            · intro _
              simp only
              omega

theorem directiveFunc_vararg (a : Assembler) (args : List Char) (hok : VarargOk a) :
    TableVararg (directiveFunc a args).2.functions_ ∧
    ((directiveFunc a args).1.success = true → VarargOk (directiveFunc a args).2) := by
  unfold directiveFunc
  split
  · exact ⟨hok.2.2, fun h => by cases h⟩
  · split
    · exact directiveFuncArgs_vararg a args hok.2.2
    · rename_i hi
      split
      · exact directiveFuncArgs_vararg _ args (finalizeFunction_vararg hok hi).1
      · rename_i hfin
        exact ⟨(finalizeFunction_vararg hok hi).1, fun h => absurd h hfin⟩

theorem directiveDispatch_vararg (a : Assembler) (name args : List Char) (hok : VarargOk a) :
    TableVararg (directiveDispatch a name args).2.functions_ ∧
    ((directiveDispatch a name args).1.success = true →
      VarargOk (directiveDispatch a name args).2) := by
  have moved : ∀ s : ParseStatus, a.parseStatus_ ≠ .PARSE_NONE → s ≠ .PARSE_NONE →
      VarargOk { a with parseStatus_ := s } := by
    intro s h1 h2
    exact ⟨fun hn => absurd hn h2, fun _ => hok.2.1 h1, hok.2.2⟩
  unfold directiveDispatch
  split
  · split
    · exact ⟨hok.2.2, fun h => by cases h⟩
    · split
      · exact ⟨hok.2.2, fun h => by cases h⟩
      · exact ⟨hok.2.2, fun _ => ⟨hok.1, hok.2.1, hok.2.2⟩⟩
  · split
    · exact directiveFunc_vararg a args hok
    · repeat' split
      all_goals first
        | exact ⟨hok.2.2, fun h => Bool.noConfusion h⟩
        | exact ⟨hok.2.2, fun _ => hok⟩
        | exact ⟨hok.2.2, fun _ => moved _ (by simp_all) (by decide)⟩


theorem parseDirective_vararg {a a1 : Assembler} {res : BoolRes} {line : List Char}
    (h : parseDirective a line = some (res, a1)) (hok : VarargOk a) :
    TableVararg a1.functions_ ∧ (res.success = true → VarargOk a1) := by
  have named : ∀ name args, directiveNamed a line name args = some (res, a1) →
      TableVararg a1.functions_ ∧ (res.success = true → VarargOk a1) := by
    intro name args h
    unfold directiveNamed at h
    split at h
    · simp only [Option.some.injEq, Prod.mk.injEq] at h
      rw [← h.2, ← h.1]
      exact ⟨hok.2.2, fun hs => Bool.noConfusion hs⟩
    · split at h
      · cases h
      · simp only [Option.some.injEq] at h
        have h1 : (directiveDispatch a name args).1 = res := by rw [h]
        have h2 : (directiveDispatch a name args).2 = a1 := by rw [h]
        rw [← h2, ← h1]
        exact directiveDispatch_vararg a name args hok
  unfold parseDirective at h
  split at h
  · exact named _ _ h
  · split at h
    · exact named _ _ h
    · split at h
      · split at h
        · cases h
        · exact named _ _ h
      · simp only [Option.some.injEq, Prod.mk.injEq] at h
        rw [← h.2, ← h.1]
        exact ⟨hok.2.2, fun hs => Bool.noConfusion hs⟩

theorem parseLine_vararg {a a1 : Assembler} {res : BoolRes} {line : List Char}
    (h : parseLine a line = some (res, a1)) (hok : VarargOk a) :
    TableVararg a1.functions_ ∧ (res.success = true → VarargOk a1) := by
  have keeps : a.parseStatus_ ≠ .PARSE_NONE → KeepsHeader a a1 →
      TableVararg a1.functions_ ∧ (res.success = true → VarargOk a1) := by
    intro hst hk
    have := varargOk_of_keeps hok hk (Or.inl hst)
    exact ⟨this.2.2, fun _ => this⟩
  unfold parseLine at h
  split at h
  · exact parseDirective_vararg h hok
  · split at h
    · rename_i hst
      have hk := parseConstant_keepsHeader a line
      split at h
      · rename_i a2 heq
        simp only [Option.some.injEq, Prod.mk.injEq] at h
        rw [heq] at hk
        obtain ⟨-, h2⟩ := h
        subst h2
        exact keeps (by rw [hst]; decide) hk
      · rename_i a2 heq
        simp only [Option.some.injEq, Prod.mk.injEq] at h
        rw [heq] at hk
        obtain ⟨-, h2⟩ := h
        subst h2
        exact keeps (by rw [hst]; decide) hk
    · rename_i hst
      exact keeps (by rw [hst]; decide) (parseCode_keepsHeader h)
    · rename_i hst
      simp only [Option.some.injEq] at h
      have h2 : (parseUpvalue a line).2 = a1 := by rw [h]
      rw [← h2]
      have hk := parseUpvalue_keepsHeader a line
      have := varargOk_of_keeps hok hk (Or.inl (by rw [hst]; decide))
      exact ⟨this.2.2, fun _ => this⟩
    · simp only [Option.some.injEq, Prod.mk.injEq] at h
      rw [← h.2, ← h.1]
      exact ⟨hok.2.2, fun hs => Bool.noConfusion hs⟩

/-- The function table holds only records of vararg mode at most 2 in every
state the read loop of `assemble` returns, whether it stopped at a failing line
or reached the end of the input. -/
theorem assembleLines_vararg : ∀ (lines : List String) (linen : Nat) (a a1 : Assembler)
    (res : BoolRes), assembleLines lines linen a = some (res, a1) → VarargOk a →
    TableVararg a1.functions_ ∧ (res.success = true → VarargOk a1) := by
  intro lines
  induction lines with
  | nil =>
    intro linen a a1 res h hok
    simp only [assembleLines, Option.some.injEq, Prod.mk.injEq] at h
    rw [← h.2]
    exact ⟨hok.2.2, fun _ => ⟨hok.1, hok.2.1, hok.2.2⟩⟩
  | cons l ls ih =>
    intro linen a a1 res h hok
    unfold assembleLines at h
    split at h
    · exact ih _ a a1 res h hok
    · split at h
      · exact ih _ a a1 res h hok
      · split at h
        · cases h
        · rename_i r1 b heq
          obtain ⟨t1, v1⟩ := parseLine_vararg heq hok
          by_cases hr : r1.success = true
          · simp only [hr, if_true] at h
            exact ih _ b a1 res h (v1 hr)
          · have hf : r1.success = false := by simpa using hr
            simp only [hf, Bool.false_eq_true, if_false, Option.some.injEq, Prod.mk.injEq] at h
            rw [← h.2, ← h.1]
            exact ⟨t1, fun hs => Bool.noConfusion hs⟩


theorem onlyWriter_refl (a : Assembler) : OnlyWriter a a := rfl

theorem onlyWriter_trans {a b c : Assembler} (h1 : OnlyWriter a b) (h2 : OnlyWriter b c) :
    OnlyWriter a c := by
  unfold OnlyWriter at *
  rw [h2, h1]

theorem onlyWriter_functions {a b : Assembler} (h : OnlyWriter a b) :
    b.functions_ = a.functions_ := by
  unfold OnlyWriter at h
  rw [h]

theorem wwrite_onlyWriter (a : Assembler) (c : WriteCall) : OnlyWriter a (wwrite a c).2 := by
  unfold wwrite
  split <;> rfl

theorem wwriteBytes_onlyWriter (a : Assembler) (c : WriteCall) :
    OnlyWriter a (wwriteBytes a c).2 := by
  unfold wwriteBytes
  split <;> rfl

theorem wwriteBytesAll_onlyWriter (a : Assembler) (c : WriteCall) (len : Nat) (msg : String) :
    OnlyWriter a (wwriteBytesAll a c len msg).2 := by
  unfold wwriteBytesAll
  split <;> exact wwriteBytes_onlyWriter a c

theorem writeAssert_onlyWriter {a : Assembler} {r : BoolRes × Assembler} (msg : String)
    (h : OnlyWriter a r.2) : OnlyWriter a (writeAssert r msg).2 := by
  unfold writeAssert
  split <;> exact h

theorem andThen_onlyWriter {a : Assembler} {r : BoolRes × Assembler}
    {k : Assembler → BoolRes × Assembler} (h : OnlyWriter a r.2)
    (hk : ∀ b, OnlyWriter b (k b).2) : OnlyWriter a (andThen r k).2 := by
  unfold andThen
  split
  · exact onlyWriter_trans h (hk _)
  · exact h

theorem writeString_onlyWriter (a : Assembler) (s : String) :
    OnlyWriter a (writeString a s).2 := by
  unfold writeString
  refine andThen_onlyWriter ?_ (fun b => wwriteBytesAll_onlyWriter b _ _ _)
  split
  · exact wwrite_onlyWriter a _
  · exact andThen_onlyWriter (wwrite_onlyWriter a _) (fun b => wwrite_onlyWriter b _)

theorem writeHeader_onlyWriter (cfg : LConfig) (a : Assembler) :
    OnlyWriter a (writeHeader cfg a).2 := by
  unfold writeHeader
  refine andThen_onlyWriter (wwriteBytesAll_onlyWriter a _ _ _) (fun b => ?_)
  refine andThen_onlyWriter (writeAssert_onlyWriter _ (wwrite_onlyWriter b _)) (fun b => ?_)
  refine andThen_onlyWriter (writeAssert_onlyWriter _ (wwrite_onlyWriter b _)) (fun b => ?_)
  refine andThen_onlyWriter (wwriteBytesAll_onlyWriter b _ _ _) (fun b => ?_)
  refine andThen_onlyWriter (writeAssert_onlyWriter _ (wwrite_onlyWriter b _)) (fun b => ?_)
  refine andThen_onlyWriter (writeAssert_onlyWriter _ (wwrite_onlyWriter b _)) (fun b => ?_)
  refine andThen_onlyWriter (writeAssert_onlyWriter _ (wwrite_onlyWriter b _)) (fun b => ?_)
  refine andThen_onlyWriter (writeAssert_onlyWriter _ (wwrite_onlyWriter b _)) (fun b => ?_)
  refine andThen_onlyWriter (writeAssert_onlyWriter _ (wwrite_onlyWriter b _)) (fun b => ?_)
  refine andThen_onlyWriter (writeAssert_onlyWriter _ (wwrite_onlyWriter b _)) (fun b => ?_)
  exact writeAssert_onlyWriter _ (wwrite_onlyWriter b _)

theorem writeFunctionHead_onlyWriter (f : ParsedFunction) (a : Assembler) :
    OnlyWriter a (writeFunctionHead f a).2 := by
  unfold writeFunctionHead
  refine andThen_onlyWriter (writeString_onlyWriter a _) (fun b => ?_)
  refine andThen_onlyWriter (wwrite_onlyWriter b _) (fun b => ?_)
  refine andThen_onlyWriter (wwrite_onlyWriter b _) (fun b => ?_)
  refine andThen_onlyWriter (wwrite_onlyWriter b _) (fun b => ?_)
  refine andThen_onlyWriter (wwrite_onlyWriter b _) (fun b => ?_)
  exact wwrite_onlyWriter b _

theorem writeConstantValue_onlyWriter (a : Assembler) (c : TValue) :
    OnlyWriter a (writeConstantValue a c).2 := by
  unfold writeConstantValue
  split
  · exact writeString_onlyWriter a _
  · exact wwrite_onlyWriter a _
  · exact wwrite_onlyWriter a _
  · exact onlyWriter_refl a

theorem writeConstants_onlyWriter : ∀ (cs : List TValue) (a : Assembler),
    OnlyWriter a (writeConstants cs a).2 := by
  intro cs
  induction cs with
  | nil => intro a; exact onlyWriter_refl a
  | cons c cs ih =>
    intro a
    unfold writeConstants
    refine andThen_onlyWriter (wwrite_onlyWriter a _) (fun b => ?_)
    exact andThen_onlyWriter (writeConstantValue_onlyWriter b c) (fun b => ih b)

theorem writeUpvalues_onlyWriter : ∀ (us : List Upvalue) (a : Assembler),
    OnlyWriter a (writeUpvalues us a).2 := by
  intro us
  induction us with
  | nil => intro a; exact onlyWriter_refl a
  | cons u us ih =>
    intro a
    unfold writeUpvalues
    refine andThen_onlyWriter (wwrite_onlyWriter a _) (fun b => ?_)
    exact andThen_onlyWriter (wwrite_onlyWriter b _) (fun b => ih b)

theorem writeFunctionBody_onlyWriter (f : ParsedFunction) (a : Assembler) :
    OnlyWriter a (writeFunctionBody f a).2 := by
  unfold writeFunctionBody
  refine andThen_onlyWriter (wwrite_onlyWriter a _) (fun b => ?_)
  refine andThen_onlyWriter (wwriteBytesAll_onlyWriter b _ _ _) (fun b => ?_)
  refine andThen_onlyWriter (wwrite_onlyWriter b _) (fun b => ?_)
  refine andThen_onlyWriter (writeConstants_onlyWriter _ b) (fun b => ?_)
  refine andThen_onlyWriter (wwrite_onlyWriter b _) (fun b => ?_)
  exact writeUpvalues_onlyWriter _ b

theorem writeFunctionTail_onlyWriter (f : ParsedFunction) (a : Assembler) :
    OnlyWriter a (writeFunctionTail f a).2 := by
  unfold writeFunctionTail
  refine andThen_onlyWriter (wwrite_onlyWriter a _) (fun b => ?_)
  refine andThen_onlyWriter ?_ (fun b => ?_)
  · split
    · exact onlyWriter_trans (wwriteBytes_onlyWriter b _) (wwrite_onlyWriter _ _)
    · exact wwrite_onlyWriter b _
  · exact andThen_onlyWriter (wwrite_onlyWriter b _) (fun b => onlyWriter_refl b)


theorem andThenSome_inv (P : Assembler → Prop) {r : Option (BoolRes × Assembler)}
    {k : Assembler → Option (BoolRes × Assembler)} {res : BoolRes} {a1 : Assembler}
    (h : andThenSome r k = some (res, a1))
    (hr : ∀ res0 b, r = some (res0, b) → P b)
    (hk : ∀ b res1 b1, P b → k b = some (res1, b1) → P b1) : P a1 := by
  unfold andThenSome at h
  split at h
  · cases h
  · rename_i res0 b
    split at h
    · exact hk b res a1 (hr res0 b rfl) h
    · simp only [Option.some.injEq, Prod.mk.injEq] at h
      rw [← h.2]
      exact hr res0 b rfl

theorem resolveSubroutines_vararg (functions : List (String × ParsedFunction)) :
    ∀ (names : List String) (i : Nat) (protos : List String) (f : ParsedFunction),
      (resolveSubroutines functions names i protos f).2.2.vararg = f.vararg := by
  intro names
  induction names with
  | nil => intro i protos f; rfl
  | cons n ns ih =>
    intro i protos f
    unfold resolveSubroutines
    split
    · rfl
    · rw [ih]

theorem tableVararg_mapAssign {functions : List (String × ParsedFunction)} {key : String}
    {f : ParsedFunction} (ht : TableVararg functions) (hf : f.vararg ≤ 2) :
    TableVararg (mapAssign functions key f) := by
  intro e he
  rcases mem_mapAssign _ _ _ e he with h | h
  · exact ht e h
  · rw [h]
    exact hf

theorem writeProtos_inv (P : Assembler → Prop)
    (write : String → Assembler → Option (BoolRes × Assembler))
    (hw : ∀ p b res b1, P b → write p b = some (res, b1) → P b1) :
    ∀ (protos : List String) (a a1 : Assembler) (res : BoolRes),
      P a → writeProtos write protos a = some (res, a1) → P a1 := by
  intro protos
  induction protos with
  | nil =>
    intro a a1 res hp h
    simp only [writeProtos, Option.some.injEq, Prod.mk.injEq] at h
    rw [← h.2]
    exact hp
  | cons p ps ih =>
    intro a a1 res hp h
    unfold writeProtos at h
    exact andThenSome_inv P h (fun res0 b hb => hw p a res0 b hp hb)
      (fun b res1 b1 hb hk => ih b b1 res1 hb hk)

/-- The writer stores only records of vararg mode at most 2 in a table that
holds only such records. -/
theorem writeFunction_vararg : ∀ (fuel : Nat) (key : String) (a a1 : Assembler) (res : BoolRes),
    TableVararg a.functions_ → writeFunction fuel key a = some (res, a1) →
    TableVararg a1.functions_ := by
  intro fuel
  induction fuel with
  | zero =>
    intro key a a1 res _ h
    simp [writeFunction] at h
  | succ fuel ih =>
    intro key a a1 res ht h
    unfold writeFunction at h
    split at h
    · cases h
    · rename_i f hkey
      have hf : f.vararg ≤ 2 := ht (key, f) (mapFind_mem _ _ _ hkey)
      refine andThenSome_inv (fun b => TableVararg b.functions_) h ?_ ?_
      · intro res0 b hb
        simp only [Option.some.injEq] at hb
        have : b = (writeFunctionHead f a).2 := by rw [hb]
        rw [this, onlyWriter_functions (writeFunctionHead_onlyWriter f a)]
        exact ht
      · intro b res1 b1 hb hk
        have hres := resolveSubroutines_vararg b.functions_ f.usedSubroutines 0 [] f
        split at hk
        · rename_i pName _ f1 heq
          simp only [Option.some.injEq, Prod.mk.injEq] at hk
          rw [← hk.2]
          rw [heq] at hres
          exact tableVararg_mapAssign hb (by rw [hres]; exact hf)
        · rename_i protos f1 heq
          rw [heq] at hres
          have hb1 : TableVararg (mapAssign b.functions_ key f1) :=
            tableVararg_mapAssign hb (by rw [hres]; exact hf)
          refine andThenSome_inv (fun b => TableVararg b.functions_) hk ?_ ?_
          · intro res0 c hc
            simp only [Option.some.injEq] at hc
            have : c = (writeFunctionBody f1
                { b with functions_ := mapAssign b.functions_ key f1 }).2 := by rw [hc]
            rw [this, onlyWriter_functions (writeFunctionBody_onlyWriter f1 _)]
            exact hb1
          · intro c res2 c1 hc hk2
            refine andThenSome_inv (fun b => TableVararg b.functions_) hk2 ?_ ?_
            · intro res0 d hd
              simp only [Option.some.injEq] at hd
              have : d = (wwrite c (.i32 (toInt protos.length))).2 := by rw [hd]
              rw [this, onlyWriter_functions (wwrite_onlyWriter c _)]
              exact hc
            · intro d res3 d1 hd hk3
              refine andThenSome_inv (fun b => TableVararg b.functions_) hk3 ?_ ?_
              · intro res0 e he
                exact writeProtos_inv (fun b => TableVararg b.functions_) (writeFunction fuel)
                  (fun p b res b1 hp hw => ih p b b1 res hp hw) protos d e res0 hd he
              · intro e res4 e1 he hk4
                simp only [Option.some.injEq] at hk4
                have : e1 = (writeFunctionTail f1 e).2 := by rw [hk4]
                rw [this, onlyWriter_functions (writeFunctionTail_onlyWriter f1 e)]
                exact he


theorem andThenSome_cases {r : Option (BoolRes × Assembler)}
    {k : Assembler → Option (BoolRes × Assembler)} {res : BoolRes} {a1 : Assembler}
    (h : andThenSome r k = some (res, a1)) :
    ∃ res0 b, r = some (res0, b) ∧
      ((res0.success = false ∧ res = res0 ∧ a1 = b) ∨
        (res0.success = true ∧ k b = some (res, a1))) := by
  unfold andThenSome at h
  split at h
  · cases h
  · rename_i res0 b
    refine ⟨res0, b, rfl, ?_⟩
    split at h
    · rename_i hs
      exact Or.inr ⟨hs, h⟩
    · rename_i hs
      simp only [Option.some.injEq, Prod.mk.injEq] at h
      exact Or.inl ⟨by simpa using hs, h.1.symm, h.2.symm⟩

theorem assembleEnd_vararg {cfg : LConfig} {fuel : Nat} {a a1 : Assembler} {res : BoolRes}
    (h : assembleEnd cfg fuel a = some (res, a1)) (hok : VarargOk a) :
    TableVararg a1.functions_ := by
  unfold assembleEnd at h
  have hfin : ∀ res0 b,
      some (if a.instructions_ = [] then ((⟨true, ""⟩ : BoolRes), a) else finalizeFunction a)
        = some (res0, b) → TableVararg b.functions_ := by
    intro res0 b hb
    simp only [Option.some.injEq] at hb
    split at hb
    · simp only [Prod.mk.injEq] at hb
      rw [← hb.2]
      exact hok.2.2
    · rename_i hi
      have : b = (finalizeFunction a).2 := by rw [hb]
      rw [this]
      exact (finalizeFunction_vararg hok hi).1
  refine andThenSome_inv (fun b => TableVararg b.functions_) h hfin ?_
  intro b res1 b1 hb hk
  split at hk
  · simp only [Option.some.injEq, Prod.mk.injEq] at hk
    rw [← hk.2]
    exact hb
  · refine andThenSome_inv (fun b => TableVararg b.functions_) hk ?_ ?_
    · intro res0 c hc
      simp only [Option.some.injEq] at hc
      have : c = (writeHeader cfg b).2 := by rw [hc]
      rw [this, onlyWriter_functions (writeHeader_onlyWriter cfg b)]
      exact hb
    · intro c res2 c1 hc hk2
      refine andThenSome_inv (fun b => TableVararg b.functions_) hk2 ?_ ?_
      · intro res0 d hd
        simp only [Option.some.injEq] at hd
        have : d = (writeAssert (wwrite c (.u8 (c.nUpvalues_ % 256)))
            "failed to write num upvalues").2 := by rw [hd]
        rw [this, onlyWriter_functions (writeAssert_onlyWriter _ (wwrite_onlyWriter c _))]
        exact hc
      · intro d res3 d1 hd hk3
        split at hk3
        · simp only [Option.some.injEq, Prod.mk.injEq] at hk3
          rw [← hk3.2]
          exact hd
        · exact writeFunction_vararg fuel "main" d d1 res3 hd hk3

theorem directiveFunc_vararg_rejected (b : Assembler) (args c1 c2 c3 c4 : List Char)
    (name : String) (m p v : Int) (h0 : parseLabel args = some (name, c1))
    (h1 : parseInt .uint c1 = some (m, c2)) (h2 : parseInt .uint c2 = some (p, c3))
    (h3 : parseInt .uint c3 = some (v, c4)) (hv : v > 2)
    (hst : b.parseStatus_ = .PARSE_FUNC ∨ b.parseStatus_ = .PARSE_NONE)
    (hfin : b.instructions_ = [] ∨ b.neededLocations_ = []) :
    (directiveFunc b args).1 = ⟨false, "vararg cannot be greater than 2"⟩ := by
  have hargs : ∀ x : Assembler,
      (directiveFuncArgs x args).1 = ⟨false, "vararg cannot be greater than 2"⟩ := by
    intro x
    simp only [directiveFuncArgs, h0, h1, h2, h3, hv, if_true]
  have hnot : ¬(b.parseStatus_ ≠ .PARSE_FUNC ∧ b.parseStatus_ ≠ .PARSE_NONE) := by
    rcases hst with h | h <;> simp [h]
  unfold directiveFunc
  simp only [hnot, if_false]
  by_cases hi : b.instructions_ = []
  · simp only [hi, if_true]
    exact hargs b
  · have hn : b.neededLocations_ = [] := by
      rcases hfin with h | h
      · exact absurd h hi
      · exact h
    have hsucc : (finalizeFunction b).1.success = true := by
      simp [finalizeFunction, hn]
    simp only [hi, if_false, hsucc, if_true]
    exact hargs _

/-- C14, as stated, fails: a `.func` directive whose fourth argument is 3 is
rejected with another message when it is read inside a code segment, and when
the function before it has instructions and an undeclared label. -/
theorem C14_func_rejected_with_other_message :
    (parseDirective Assembler.inCode ".func main 2 0 3".toList).map (fun r => r.1)
      = some ⟨false, "func declaration cannot be inside a code or const segment"⟩ ∧
    ((Assembler.afterRead sourcePendingAtEnd).parseStatus_,
      (Assembler.afterRead sourcePendingAtEnd).instructions_.length,
      (Assembler.afterRead sourcePendingAtEnd).neededLocations_)
      = (.PARSE_FUNC, 1, [("L", 0)]) ∧
    (parseDirective (Assembler.afterRead sourcePendingAtEnd) ".func next 2 0 3".toList).map
        (fun r => r.1)
      = some ⟨false, "undeclared locations: L"⟩ := by
  refine ⟨?_, ?_, ?_⟩ <;> decide

/-- C14, amended. Vararg restriction: in every run of `assemble` from an
assembler that has read nothing yet (no function declared, no instruction,
empty table), whatever the values of its other members, whether the run
succeeds or stops at a failing line, every record of the function table has a
vararg mode of 0, 1 or 2; and a `.func` directive whose fourth argument parses
to a value greater than 2, read in the state Func or None with no pending label
of the previous function, fails with `vararg cannot be greater than 2`. -/
theorem C14_vararg_restricted (cfg : LConfig) (fuel : Nat) (a a1 : Assembler) (res : BoolRes)
    (hstate : a.parseStatus_ = .PARSE_NONE) (hins : a.instructions_ = [])
    (htab : a.functions_ = []) (h : assemble cfg fuel a = some (res, a1)) :
    (∀ e ∈ a1.functions_, e.2.vararg = 0 ∨ e.2.vararg = 1 ∨ e.2.vararg = 2) ∧
    (∀ (b : Assembler) (args c1 c2 c3 c4 : List Char) (name : String) (m p v : Int),
      parseLabel args = some (name, c1) → parseInt .uint c1 = some (m, c2) →
      parseInt .uint c2 = some (p, c3) → parseInt .uint c3 = some (v, c4) → v > 2 →
      b.parseStatus_ = .PARSE_FUNC ∨ b.parseStatus_ = .PARSE_NONE →
      b.instructions_ = [] ∨ b.neededLocations_ = [] →
      (directiveFunc b args).1 = ⟨false, "vararg cannot be greater than 2"⟩) := by
  have hok : VarargOk a :=
    ⟨fun _ => hins, fun hn => absurd hstate hn, by rw [htab]; intro e he; cases he⟩
  have ht : TableVararg a1.functions_ := by
    unfold assemble at h
    split at h
    · simp only [Option.some.injEq, Prod.mk.injEq] at h
      rw [← h.2]
      exact hok.2.2
    · split at h
      · simp only [Option.some.injEq, Prod.mk.injEq] at h
        rw [← h.2]
        exact hok.2.2
      · obtain ⟨res0, b, hb, hcase⟩ := andThenSome_cases h
        obtain ⟨t1, v1⟩ := assembleLines_vararg _ 0 a b res0 hb hok
        rcases hcase with ⟨-, -, rfl⟩ | ⟨hs, hk⟩
        · exact t1
        · exact assembleEnd_vararg hk (v1 hs)
  refine ⟨?_, ?_⟩
  · intro e he
    have := ht e he
    omega
  · intro b args c1 c2 c3 c4 name m p v h0 h1 h2 h3 hv hst hfin
    exact directiveFunc_vararg_rejected b args c1 c2 c3 c4 name m p v h0 h1 h2 h3 hv hst hfin


/-- C14 at concrete inputs: the run of `assemble` on `sourceHello` succeeds and
leaves a table whose only record, `main`, has vararg mode 0; the directive
`.func main 2 0 3` is rejected in a new assembler. -/
theorem C14_vararg_restricted_witness :
    assemble LConfig.lua53 2 (Assembler.onSource sourceHello)
      = some (⟨true, ""⟩, stateHelloEnd) ∧
    stateHelloEnd.functions_.map (fun e => (e.1, e.2.vararg)) = [("main", 0)] ∧
    (∀ e ∈ stateHelloEnd.functions_, e.2.vararg = 0 ∨ e.2.vararg = 1 ∨ e.2.vararg = 2) ∧
    (directiveFunc (Assembler.new none none) " main 2 0 3".toList).1
      = ⟨false, "vararg cannot be greater than 2"⟩ :=
  ⟨rfl, by decide,
    (C14_vararg_restricted LConfig.lua53 2 (Assembler.onSource sourceHello) stateHelloEnd
      ⟨true, ""⟩ rfl rfl rfl rfl).1,
    (C14_vararg_restricted LConfig.lua53 2 (Assembler.onSource sourceHello) stateHelloEnd
      ⟨true, ""⟩ rfl rfl rfl rfl).2 (Assembler.new none none) " main 2 0 3".toList
      " 2 0 3".toList " 0 3".toList " 3".toList [] "main" 2 0 3
      (by decide) (by decide) (by decide) (by decide) (by decide) (Or.inr rfl) (Or.inl rfl)⟩


theorem lor_eq_zero (p q : Nat) : p ||| q = 0 ↔ p = 0 ∧ q = 0 := by
  constructor
  · intro h
    have hb : ∀ i, (p.testBit i || q.testBit i) = false := by
      intro i
      rw [← Nat.testBit_or, h, Nat.zero_testBit]
    constructor
    · apply Nat.eq_of_testBit_eq
      intro i
      have := hb i
      rw [Nat.zero_testBit]
      cases hp : p.testBit i <;> simp_all
    · apply Nat.eq_of_testBit_eq
      intro i
      have := hb i
      rw [Nat.zero_testBit]
      cases hq : q.testBit i <;> simp_all
  · rintro ⟨rfl, rfl⟩
    rfl

theorem hasLimit_or (limit x y : Nat) :
    hasLimit limit (x ||| y) = (hasLimit limit x || hasLimit limit y) := by
  unfold hasLimit
  rw [Nat.and_or_distrib_left]
  rw [Bool.eq_iff_iff]
  simp only [bne_iff_ne, Bool.or_eq_true, ne_eq, lor_eq_zero]
  tauto

theorem isdigit_ne {c d : Char} (hc : isdigit c = true) (hd : isdigit d = false) : c ≠ d := by
  intro h
  rw [h, hd] at hc
  cases hc

theorem parseOperand_embed (a : Assembler) (op : Operand) (c : Char) (cs : List Char)
    (limit : Nat) (hb : isblank c = false)
    (hc : c ≠ ';' ∧ c ≠ '%' ∧ c ≠ '@' ∧ c ≠ '$' ∧ c ≠ 'c')
    (hp : hasLimit limit LIMIT_PROTO = false) :
    parseOperand a op (c :: cs) limit = parseOperandEmbed a op (c :: cs) limit := by
  obtain ⟨h1, h2, h3, h4, h5⟩ := hc
  unfold parseOperand
  simp [List.dropWhile, hb, h1, h2, h3, h4, constKeyword, h5, hp]


theorem isdigit_not_blank {c : Char} (hc : isdigit c = true) : isblank c = false := by
  cases hb : isblank c with
  | false => rfl
  | true =>
    exfalso
    simp only [isblank, Bool.or_eq_true, decide_eq_true_eq] at hb
    rcases hb with h | h <;> exact isdigit_ne hc (by decide) h

theorem parseInt_digit (k : IntKind) (c : Char) (cs : List Char) (hc : isdigit c = true) :
    parseInt k (c :: cs) = some (parseDigits k 0 ((c :: cs).takeWhile isdigit),
      (c :: cs).dropWhile isdigit) := by
  have h1 : c ≠ ';' := isdigit_ne hc (by decide)
  have h2 : c ≠ '-' := isdigit_ne hc (by decide)
  have h3 : c ≠ '+' := isdigit_ne hc (by decide)
  unfold parseInt
  simp [List.dropWhile, isdigit_not_blank hc, h1, h2, h3, List.takeWhile, hc]

theorem parseInt_minus_digit (c : Char) (cs : List Char) (hc : isdigit c = true) :
    parseInt .int ('-' :: c :: cs) =
      some (IntKind.int.wrap (parseDigits .int 0 ((c :: cs).takeWhile isdigit) * -1),
        (c :: cs).dropWhile isdigit) := by
  have h3 : c ≠ '+' := isdigit_ne hc (by decide)
  have hb : isblank '-' = false := by decide
  unfold parseInt
  simp [List.dropWhile, hb, h3, List.takeWhile, hc, IntKind.int]

theorem parseOperand_bare_rejected (a : Assembler) (op : Operand) (start : List Char)
    (limit : Nat) (hp : hasLimit limit LIMIT_PROTO = false)
    (he : hasLimit limit LIMIT_EMBED = false) (hk : hasLimit limit LIMIT_CONSTANT = false)
    (hbare : ∀ c cs, start.dropWhile isblank = c :: cs → c ≠ '%' ∧ c ≠ '@' ∧ c ≠ '$') :
    parseOperand a op start limit = (none, op, a) := by
  have hek : hasLimit limit (LIMIT_EMBED ||| LIMIT_CONSTANT) = false := by
    rw [hasLimit_or, he, hk]
    rfl
  unfold parseOperand
  split
  · rfl
  · rename_i c cs heq
    obtain ⟨h1, h2, h3⟩ := hbare c cs heq
    simp only [h1, h2, h3, if_false]
    split
    · rfl
    · split
      · simp [parseOperandConst, hk]
      · simp [hp, parseOperandEmbed, hek]


theorem parseOperandEmbed_int (a : Assembler) (op : Operand) (c : Char) (cs : List Char)
    (limit : Nat) (hek : hasLimit limit LIMIT_EMBED = true ∨ hasLimit limit LIMIT_CONSTANT = true)
    (ht : tolower c ≠ 't' ∧ tolower c ≠ 'f') :
    parseOperandEmbed a op (c :: cs) limit =
      match parseInt .int (c :: cs) with
      | none => (none, op, a)
      | some (val, bend) => (some bend, ⟨.EMBEDDED, val⟩, a) := by
  have hl : hasLimit limit (LIMIT_EMBED ||| LIMIT_CONSTANT) = true := by
    rw [hasLimit_or]
    rcases hek with h | h <;> simp [h]
  cases h : parseInt IntKind.int (c :: cs) with
  | none => simp [parseOperandEmbed, hl, ht.1, ht.2, h]
  | some p => simp [parseOperandEmbed, hl, ht.1, ht.2, h]

theorem tolower_digit {c : Char} (hc : isdigit c = true) :
    tolower c ≠ 't' ∧ tolower c ≠ 'f' := by
  have h : tolower c = c := by
    unfold tolower Char.toLower
    have hd : c.isDigit = true := hc
    simp only [Char.isDigit, Bool.and_eq_true, decide_eq_true_eq] at hd
    have h57 : c.toNat ≤ 57 := hd.2
    have : ¬(c.toNat ≥ 65 ∧ c.toNat ≤ 90) := by omega
    simp only [this, if_false]
  rw [h]
  exact ⟨isdigit_ne hc (by decide), isdigit_ne hc (by decide)⟩

theorem parseOperand_bare_digits (a : Assembler) (op : Operand) (c : Char) (cs : List Char)
    (limit : Nat) (hp : hasLimit limit LIMIT_PROTO = false)
    (hek : hasLimit limit LIMIT_EMBED = true ∨ hasLimit limit LIMIT_CONSTANT = true)
    (hc : isdigit c = true) :
    parseOperand a op (c :: cs) limit =
      (some ((c :: cs).dropWhile isdigit),
        ⟨.EMBEDDED, parseDigits .int 0 ((c :: cs).takeWhile isdigit)⟩, a) := by
  rw [parseOperand_embed a op c cs limit (isdigit_not_blank hc)
    ⟨isdigit_ne hc (by decide), isdigit_ne hc (by decide), isdigit_ne hc (by decide),
      isdigit_ne hc (by decide), isdigit_ne hc (by decide)⟩ hp,
    parseOperandEmbed_int a op c cs limit hek (tolower_digit hc), parseInt_digit _ c cs hc]

theorem parseOperand_bare_minus (a : Assembler) (op : Operand) (c : Char) (cs : List Char)
    (limit : Nat) (hp : hasLimit limit LIMIT_PROTO = false)
    (hek : hasLimit limit LIMIT_EMBED = true ∨ hasLimit limit LIMIT_CONSTANT = true)
    (hc : isdigit c = true) :
    parseOperand a op ('-' :: c :: cs) limit =
      (some ((c :: cs).dropWhile isdigit),
        ⟨.EMBEDDED, IntKind.int.wrap (parseDigits .int 0 ((c :: cs).takeWhile isdigit) * -1)⟩,
        a) := by
  rw [parseOperand_embed a op '-' (c :: cs) limit (by decide) (by decide) hp,
    parseOperandEmbed_int a op '-' (c :: cs) limit hek (by decide), parseInt_minus_digit c cs hc]

theorem parseOperand_bare_bool (a : Assembler) (op : Operand) (rest : List Char)
    (limit : Nat) (hp : hasLimit limit LIMIT_PROTO = false)
    (hek : hasLimit limit LIMIT_EMBED = true ∨ hasLimit limit LIMIT_CONSTANT = true)
    (hrest : ∀ d ds, rest = d :: ds → isalpha d = false) :
    parseOperand a op ("true".toList ++ rest) limit = (some rest, ⟨.EMBEDDED, 1⟩, a) ∧
    parseOperand a op ("false".toList ++ rest) limit = (some rest, ⟨.EMBEDDED, 0⟩, a) := by
  have hl : hasLimit limit (LIMIT_EMBED ||| LIMIT_CONSTANT) = true := by
    rw [hasLimit_or]
    rcases hek with h | h <;> simp [h]
  have htake : rest.takeWhile isalpha = [] ∧ rest.dropWhile isalpha = rest := by
    cases rest with
    | nil => exact ⟨rfl, rfl⟩
    | cons d ds =>
      have := hrest d ds rfl
      simp [List.takeWhile, List.dropWhile, this]
  have ha : ∀ x : Char, x ∈ "truefals".toList → isalpha x = true := by decide
  constructor
  · show parseOperand a op ('t' :: ('r' :: 'u' :: 'e' :: rest)) limit = _
    rw [parseOperand_embed a op 't' _ limit (by decide) (by decide) hp]
    unfold parseOperandEmbed
    have e1 : ('t' :: 'r' :: 'u' :: 'e' :: rest).takeWhile isalpha = "true".toList := by
      simp [List.takeWhile, ha, htake.1]
    have e2 : ('t' :: 'r' :: 'u' :: 'e' :: rest).dropWhile isalpha = rest := by
      simp [List.dropWhile, ha, htake.2]
    simp only [hl, e1, e2]
    simp +decide
  · show parseOperand a op ('f' :: ('a' :: 'l' :: 's' :: 'e' :: rest)) limit = _
    rw [parseOperand_embed a op 'f' _ limit (by decide) (by decide) hp]
    unfold parseOperandEmbed
    have e1 : ('f' :: 'a' :: 'l' :: 's' :: 'e' :: rest).takeWhile isalpha = "false".toList := by
      simp [List.takeWhile, ha, htake.1]
    have e2 : ('f' :: 'a' :: 'l' :: 's' :: 'e' :: rest).dropWhile isalpha = rest := by
      simp [List.dropWhile, ha, htake.2]
    simp only [hl, e1, e2]
    simp +decide


/-- C15, as stated, fails: the mask of the second slot of LOADK is the constant
bit alone (no embedded bit, no prototype bit), and `parseOperand` accepts the
bare integer `7`, the bare `-7` and the bare `true` there; the lines
`loadk %0 7` and `add %0 1 2` are accepted by `parseCode`, with Bx = 7, and
B = 1 and C = 2. -/
theorem C15_bare_literal_in_constant_slot :
    hasLimit LIMIT_CONSTANT LIMIT_EMBED = false ∧
    hasLimit LIMIT_CONSTANT LIMIT_PROTO = false ∧
    ((opinfo.getD 1 []).map (fun i => i.limit) = [LIMIT_STACKIDX, LIMIT_CONSTANT]) ∧
    parseOperand Assembler.inCode Operand.uninit "7".toList LIMIT_CONSTANT
      = (some [], ⟨.EMBEDDED, 7⟩, Assembler.inCode) ∧
    parseOperand Assembler.inCode Operand.uninit "-7".toList LIMIT_CONST_STACK
      = (some [], ⟨.EMBEDDED, -7⟩, Assembler.inCode) ∧
    parseOperand Assembler.inCode Operand.uninit "true".toList LIMIT_CONSTANT
      = (some [], ⟨.EMBEDDED, 1⟩, Assembler.inCode) ∧
    (parseCode Assembler.inCode "loadk %0 7".toList).map
        (fun r => (r.1, r.2.instructions_.map GETARG_Bx)) = some (⟨true, ""⟩, [7]) ∧
    (parseCode Assembler.inCode "add %0 1 2".toList).map
        (fun r => (r.1, r.2.instructions_.map GETARG_B, r.2.instructions_.map GETARG_C))
      = some (⟨true, ""⟩, [1], [2]) := by
  refine ⟨by decide, by decide, by decide, rfl, rfl, rfl, by decide, by decide⟩

/-- C15, amended. Bare-literal gating, for a slot that is not a
prototype-reference slot: when the mask has neither the embedded bit nor the
constant bit, `parseOperand` fails, changing nothing, on every text that does
not start with one of the sigils `%`, `@`, `$` (so on every bare signed
decimal integer and on a bare `true` or `false`); when the mask has the
embedded bit or the constant bit, a bare decimal integer, with or without a
minus sign, and a bare `true` or `false` are accepted as embedded values. -/
theorem C15_bare_literal_gating (a : Assembler) (op : Operand) (limit : Nat)
    (hp : hasLimit limit LIMIT_PROTO = false) :
    (hasLimit limit LIMIT_EMBED = false → hasLimit limit LIMIT_CONSTANT = false →
      ∀ start : List Char,
        (∀ c cs, start.dropWhile isblank = c :: cs → c ≠ '%' ∧ c ≠ '@' ∧ c ≠ '$') →
        parseOperand a op start limit = (none, op, a)) ∧
    (hasLimit limit LIMIT_EMBED = true ∨ hasLimit limit LIMIT_CONSTANT = true →
      (∀ (c : Char) (cs : List Char), isdigit c = true →
        parseOperand a op (c :: cs) limit =
          (some ((c :: cs).dropWhile isdigit),
            ⟨.EMBEDDED, parseDigits .int 0 ((c :: cs).takeWhile isdigit)⟩, a) ∧
        parseOperand a op ('-' :: c :: cs) limit =
          (some ((c :: cs).dropWhile isdigit),
            ⟨.EMBEDDED,
              IntKind.int.wrap (parseDigits .int 0 ((c :: cs).takeWhile isdigit) * -1)⟩, a)) ∧
      (∀ rest : List Char, (∀ d ds, rest = d :: ds → isalpha d = false) →
        parseOperand a op ("true".toList ++ rest) limit = (some rest, ⟨.EMBEDDED, 1⟩, a) ∧
        parseOperand a op ("false".toList ++ rest) limit = (some rest, ⟨.EMBEDDED, 0⟩, a))) := by
  refine ⟨?_, ?_⟩
  · intro he hk start hbare
    exact parseOperand_bare_rejected a op start limit hp he hk hbare
  · intro hek
    refine ⟨?_, ?_⟩
    · intro c cs hc
      exact ⟨parseOperand_bare_digits a op c cs limit hp hek hc,
        parseOperand_bare_minus a op c cs limit hp hek hc⟩
    · intro rest hrest
      exact parseOperand_bare_bool a op rest limit hp hek hrest

/-- C15, amended, at concrete inputs: `42` is refused in a stack-index slot
and accepted in a constant slot; `move %0 1` is rejected by `parseCode`. -/
theorem C15_bare_literal_gating_witness :
    hasLimit LIMIT_STACKIDX LIMIT_PROTO = false ∧
    parseOperand Assembler.inCode Operand.uninit "42".toList LIMIT_STACKIDX
      = (none, Operand.uninit, Assembler.inCode) ∧
    parseOperand Assembler.inCode Operand.uninit "42 ".toList LIMIT_CONSTANT
      = (some [' '], ⟨.EMBEDDED, 42⟩, Assembler.inCode) ∧
    (parseCode Assembler.inCode "move %0 1".toList).map (fun r => r.1)
      = some ⟨false, "invalid operand(s)"⟩ :=
  ⟨by decide,
    (C15_bare_literal_gating Assembler.inCode Operand.uninit LIMIT_STACKIDX (by decide)).1
      (by decide) (by decide) "42".toList (by
        intro c cs h
        have h1 : c = '4' := by
          have e : "42".toList.dropWhile isblank = ['4', '2'] := by decide
          rw [e] at h
          exact (List.cons.inj h).1.symm
        subst h1
        decide),
    ((C15_bare_literal_gating Assembler.inCode Operand.uninit LIMIT_CONSTANT (by decide)).2
      (Or.inr (by decide))).1 '4' ['2', ' '] (by decide) |>.1,
    by decide⟩


set_option maxRecDepth 8000 in
theorem rkask_small : ∀ id : Fin 256, RKASK id.val = id.val + 256 ∧ id.val &&& BITRK = 0 := by
  decide

theorem dropWhile_blank_append (sep lit : List Char) (hsep : ∀ c ∈ sep, isblank c = true)
    (hlit : ∀ c cs, lit = c :: cs → isblank c = false) :
    (sep ++ lit).dropWhile isblank = lit := by
  induction sep with
  | nil =>
    cases lit with
    | nil => rfl
    | cons c cs => simp [List.dropWhile, hlit c cs rfl]
  | cons s ss ih =>
    have hs : isblank s = true := hsep s (List.mem_cons_self _ _)
    simp only [List.cons_append, List.dropWhile, hs]
    exact ih (fun c hc => hsep c (List.mem_cons_of_mem _ hc))

theorem parseLiteral_head {lit : List Char} {r : TValue × List Char}
    (h : parseLiteral lit = some r) :
    ∃ c cs, lit = c :: cs ∧ isblank c = false ∧ c ≠ ';' := by
  cases lit with
  | nil => simp [parseLiteral] at h
  | cons c cs =>
    refine ⟨c, cs, rfl, ?_, ?_⟩
    · cases hb : isblank c with
      | false => rfl
      | true =>
        exfalso
        simp only [isblank, Bool.or_eq_true, decide_eq_true_eq] at hb
        rcases hb with hb | hb
        · subst hb
          have : parseLiteral (' ' :: cs) = none := rfl
          rw [this] at h
          cases h
        · subst hb
          have : parseLiteral ('\t' :: cs) = none := rfl
          rw [this] at h
          cases h
    · intro hc
      subst hc
      have : parseLiteral (';' :: cs) = none := rfl
      rw [this] at h
      cases h

theorem parseConstant_head {a a1 : Assembler} {lit rest : List Char} {id : Nat}
    (h : parseConstant a lit = (some (rest, id), a1)) :
    ∃ c cs, lit = c :: cs ∧ isblank c = false ∧ c ≠ ';' := by
  unfold parseConstant at h
  split at h
  · simp at h
  · rename_i tval bend heq
    exact parseLiteral_head heq

theorem constKeyword_const (s : Char) (tail : List Char) (hs : isblank s = true) :
    constKeyword ("const".toList ++ s :: tail) = true ∧
    ("const".toList ++ s :: tail).dropWhile isalpha = s :: tail := by
  have ha : isalpha s = false := by
    simp only [isblank, Bool.or_eq_true, decide_eq_true_eq] at hs
    rcases hs with h | h <;> subst h <;> decide
  have hl : ∀ x : Char, x ∈ "const".toList → isalpha x = true := by decide
  have e1 : ("const".toList ++ s :: tail).takeWhile isalpha = "const".toList := by
    show ('c' :: 'o' :: 'n' :: 's' :: 't' :: s :: tail).takeWhile isalpha = _
    simp [List.takeWhile, hl, ha]
  have e2 : ("const".toList ++ s :: tail).dropWhile isalpha = s :: tail := by
    show ('c' :: 'o' :: 'n' :: 's' :: 't' :: s :: tail).dropWhile isalpha = _
    simp [List.dropWhile, hl, ha]
  refine ⟨?_, e2⟩
  show constKeyword ('c' :: ('o' :: 'n' :: 's' :: 't' :: s :: tail)) = true
  unfold constKeyword
  simp only
  have e1' : ('c' :: 'o' :: 'n' :: 's' :: 't' :: s :: tail).takeWhile isalpha
      = "const".toList := e1
  have e2' : ('c' :: 'o' :: 'n' :: 's' :: 't' :: s :: tail).dropWhile isalpha = s :: tail := e2
  rw [e1', e2']
  simp +decide [strncmpEq]

theorem parseOperand_const (a a1 : Assembler) (op : Operand) (limit : Nat)
    (s : Char) (sep lit rest : List Char) (id : Nat)
    (hk : hasLimit limit LIMIT_CONSTANT = true)
    (hs : isblank s = true) (hsep : ∀ c ∈ sep, isblank c = true)
    (hlit : parseConstant a lit = (some (rest, id), a1)) :
    parseOperand a op ("const".toList ++ s :: (sep ++ lit)) limit =
      (some rest,
        ⟨.CONSTANT, if hasLimit limit LIMIT_STACKIDX then toInt (RKASK id) else toInt id⟩,
        a1) := by
  obtain ⟨c, cs, hc, hcb, hcs⟩ := parseConstant_head hlit
  obtain ⟨k1, k2⟩ := constKeyword_const s (sep ++ lit) hs
  have hdrop : (s :: (sep ++ lit)).dropWhile isblank = lit := by
    simp only [List.dropWhile, hs]
    exact dropWhile_blank_append sep lit hsep (fun c0 cs0 h0 => by
      rw [hc] at h0
      rw [← (List.cons.inj h0).1]
      exact hcb)
  have hstart : ("const".toList ++ s :: (sep ++ lit)).dropWhile isblank
      = 'c' :: ('o' :: 'n' :: 's' :: 't' :: s :: (sep ++ lit)) := rfl
  unfold parseOperand
  rw [hstart]
  simp only
  have k1' : constKeyword ('c' :: 'o' :: 'n' :: 's' :: 't' :: s :: (sep ++ lit)) = true := k1
  have k2' : ('c' :: 'o' :: 'n' :: 's' :: 't' :: s :: (sep ++ lit)).dropWhile isalpha
      = s :: (sep ++ lit) := k2
  have n1 : ('c' : Char) ≠ ';' := by decide
  have n2 : ('c' : Char) ≠ '%' := by decide
  have n3 : ('c' : Char) ≠ '@' := by decide
  have n4 : ('c' : Char) ≠ '$' := by decide
  simp only [n1, n2, n3, n4, if_false, k1', if_true, k2']
  unfold parseOperandConst
  simp only [hk, Bool.not_true, Bool.false_eq_true, if_false, hdrop]
  subst hc
  simp only [hcs, if_false, hlit]
  split <;> rfl


theorem parseDigits_nonneg (k : IntKind) (hk : k.is_signed = false) :
    ∀ (ds : List Char) (out : Int), 0 ≤ out → 0 ≤ parseDigits k out ds := by
  intro ds
  induction ds with
  | nil => intro out h; exact h
  | cons d ds ih =>
    intro out _
    unfold parseDigits
    apply ih
    unfold IntKind.wrap
    simp only [hk, Bool.false_eq_true, if_false]
    exact Int.emod_nonneg _ (by positivity)

theorem parseInt_unsigned_nonneg {k : IntKind} (hk : k.is_signed = false) {start bend : List Char}
    {N : Int} (h : parseInt k start = some (N, bend)) : 0 ≤ N := by
  unfold parseInt at h
  simp only [hk, Bool.false_and, Bool.false_eq_true, if_false] at h
  repeat' split at h
  all_goals first
    | exact Option.noConfusion h
    | (simp only [Option.some.injEq, Prod.mk.injEq] at h
       rw [← h.1]
       exact parseDigits_nonneg k hk _ 0 (le_refl 0))

theorem parseOperand_stack {a a1 : Assembler} {op op1 : Operand} {cs bend : List Char}
    {limit : Nat} (h : parseOperand a op ('%' :: cs) limit = (some bend, op1, a1)) :
    ∃ N, parseInt .size_t cs = some (N, bend) ∧ 0 ≤ N ∧ op1 = ⟨.STACKIDX, toInt N⟩ ∧
      a1 = a := by
  have hstart : ('%' :: cs).dropWhile isblank = '%' :: cs := rfl
  unfold parseOperand at h
  rw [hstart] at h
  have n1 : ('%' : Char) ≠ ';' := by decide
  simp only [n1, if_false, if_true] at h
  split at h
  · simp at h
  · split at h
    · simp at h
    · rename_i val bend1 heq
      split at h
      · simp at h
      · simp only [Prod.mk.injEq, Option.some.injEq] at h
        obtain ⟨h1, h2, h3⟩ := h
        subst h1
        exact ⟨val, heq, parseInt_unsigned_nonneg rfl heq, h2.symm, h3.symm⟩


/-- C16. Constant flag: for an operand `const <literal>` (the keyword, at
least one blank, the literal) whose literal `parseConstant` places at the pool
index `id`, in a slot whose mask has the constant bit, `parseOperand` returns
the value `id | BITRK` when the mask also has the stack-index bit and the value
`id` when it has not; for `id < 256` these are `id + 256` and `id`. A `%N`
operand that is accepted has the value `N`, whose flag bit is not set when
`N < 256`. -/
theorem C16_constant_flag (a a1 : Assembler) (op : Operand) (limit : Nat)
    (s : Char) (sep lit rest : List Char) (id : Nat)
    (hk : hasLimit limit LIMIT_CONSTANT = true)
    (hs : isblank s = true) (hsep : ∀ c ∈ sep, isblank c = true)
    (hlit : parseConstant a lit = (some (rest, id), a1)) :
    (hasLimit limit LIMIT_STACKIDX = true →
      parseOperand a op ("const".toList ++ s :: (sep ++ lit)) limit =
        (some rest, ⟨.CONSTANT, toInt ((id ||| BITRK : Nat) : Int)⟩, a1)) ∧
    (hasLimit limit LIMIT_STACKIDX = false →
      parseOperand a op ("const".toList ++ s :: (sep ++ lit)) limit =
        (some rest, ⟨.CONSTANT, toInt (id : Int)⟩, a1)) ∧
    (id < 256 → toInt ((id ||| BITRK : Nat) : Int) = (id : Int) + 256 ∧
      toInt (id : Int) = (id : Int)) ∧
    (∀ (cs bend : List Char) (op1 : Operand) (a2 : Assembler),
      parseOperand a op ('%' :: cs) limit = (some bend, op1, a2) →
      ∃ N : Int, parseInt .size_t cs = some (N, bend) ∧ 0 ≤ N ∧ op1.type_ = .STACKIDX ∧
        (N < 256 → op1.value_ = N ∧ op1.value_.toNat &&& BITRK = 0)) := by
  have hmain := parseOperand_const a a1 op limit s sep lit rest id hk hs hsep hlit
  refine ⟨?_, ?_, ?_, ?_⟩
  · intro hst
    rw [hmain]
    simp only [hst, if_true]
    rfl
  · intro hst
    rw [hmain]
    simp only [hst, Bool.false_eq_true, if_false]
  · intro hid
    have h1 := (rkask_small ⟨id, hid⟩).1
    simp only [RKASK] at h1
    constructor
    · rw [h1, toInt_small _ (by omega) (by push_cast; omega)]
      push_cast
      rfl
    · exact toInt_small _ (by omega) (by omega)
  · intro cs bend op1 a2 h
    obtain ⟨N, hN, h0, hop, -⟩ := parseOperand_stack h
    refine ⟨N, hN, h0, by rw [hop], ?_⟩
    intro hlt
    have hv : op1.value_ = N := by
      rw [hop]
      exact toInt_small N h0 (by omega)
    refine ⟨hv, ?_⟩
    rw [hv]
    have hn : N.toNat < 256 := by omega
    exact (rkask_small ⟨N.toNat, hn⟩).2

/-- C16 at concrete inputs: with an empty pool, `const "hi"` has the value 256
in a slot for a constant or a stack index and the value 0 in a slot for a
constant only; `%5` has the value 5. -/
theorem C16_constant_flag_witness :
    parseOperand Assembler.inCode Operand.uninit
        ("const".toList ++ ' ' :: ([] ++ [dquote, 'h', 'i', dquote])) LIMIT_CONST_STACK =
      (some [], ⟨.CONSTANT, toInt ((0 ||| BITRK : Nat) : Int)⟩,
        { Assembler.inCode with constants_ := [.TString "hi"] }) ∧
    toInt ((0 ||| BITRK : Nat) : Int) = 256 ∧
    parseOperand Assembler.inCode Operand.uninit
        ("const".toList ++ ' ' :: ([] ++ [dquote, 'h', 'i', dquote])) LIMIT_CONSTANT =
      (some [], ⟨.CONSTANT, toInt ((0 : Nat) : Int)⟩,
        { Assembler.inCode with constants_ := [.TString "hi"] }) ∧
    parseOperand Assembler.inCode Operand.uninit "%5".toList LIMIT_CONST_STACK
      = (some [], ⟨.STACKIDX, 5⟩, Assembler.inCode) :=
  ⟨(C16_constant_flag Assembler.inCode { Assembler.inCode with constants_ := [.TString "hi"] }
      Operand.uninit LIMIT_CONST_STACK ' ' [] [dquote, 'h', 'i', dquote] [] 0
      (by decide) (by decide) (by intro c hc; cases hc) rfl).1 (by decide),
    by decide,
    (C16_constant_flag Assembler.inCode { Assembler.inCode with constants_ := [.TString "hi"] }
      Operand.uninit LIMIT_CONSTANT ' ' [] [dquote, 'h', 'i', dquote] [] 0
      (by decide) (by decide) (by intro c hc; cases hc) rfl).2.1 (by decide),
    rfl⟩


theorem parseConstant_atomic (a : Assembler) (start : List Char) :
    (parseConstant a start).1 = none → (parseConstant a start).2 = a := by
  unfold parseConstant
  repeat' split
  all_goals first
    | (intro _; rfl)
    | (intro h; exact Option.noConfusion h)

theorem parseOperandConst_atomic (a : Assembler) (op : Operand) (bend : List Char)
    (limit : Nat) :
    (parseOperandConst a op bend limit).1 = none →
      (parseOperandConst a op bend limit).2.2 = a := by
  unfold parseOperandConst
  split
  · intro _; rfl
  · split
    · intro _; rfl
    · split
      · intro _; rfl
      · rename_i c cs heq hc
        have hat := parseConstant_atomic a (c :: cs)
        split
        · rename_i a1 heq2
          rw [heq2] at hat
          intro _
          exact hat rfl
        · split
          · intro h; exact Option.noConfusion h
          · intro h; exact Option.noConfusion h

theorem parseOperandProto_atomic (a : Assembler) (op : Operand) (start : List Char) :
    (parseOperandProto a op start).1 = none → (parseOperandProto a op start).2.2 = a := by
  unfold parseOperandProto
  repeat' split
  all_goals first
    | (intro _; rfl)
    | (intro h; exact Option.noConfusion h)

theorem parseOperandEmbed_atomic (a : Assembler) (op : Operand) (start : List Char)
    (limit : Nat) : (parseOperandEmbed a op start limit).2.2 = a := by
  unfold parseOperandEmbed
  repeat' split
  all_goals rfl

theorem parseOperand_atomic (a : Assembler) (op : Operand) (start : List Char) (limit : Nat) :
    (parseOperand a op start limit).1 = none → (parseOperand a op start limit).2.2 = a := by
  unfold parseOperand
  split
  · intro _; rfl
  · split
    · intro _; rfl
    · split
      · repeat' split
        all_goals (intro _; rfl)
      · split
        · repeat' split
          all_goals (intro _; rfl)
        · split
          · repeat' split
            all_goals first
              | (intro _; rfl)
              | (intro h; exact Option.noConfusion h)
          · split
            · exact parseOperandConst_atomic a op _ limit
            · split
              · exact parseOperandProto_atomic a op _
              · intro _
                exact parseOperandEmbed_atomic a op _ limit

/-- C17. Operand parsing is atomic on failure: whenever `parseOperand` returns
`nullptr`, the assembler state after the call is the state before it; in
particular the constant pool, the pending location patches, the pending
subroutine patches, the used-subroutine list of the function and the global
subroutine-usage map are as they were. -/
theorem C17_operand_failure_atomic (a : Assembler) (op : Operand) (start : List Char)
    (limit : Nat) (h : (parseOperand a op start limit).1 = none) :
    (parseOperand a op start limit).2.2 = a ∧
    (parseOperand a op start limit).2.2.constants_ = a.constants_ ∧
    (parseOperand a op start limit).2.2.neededLocations_ = a.neededLocations_ ∧
    (parseOperand a op start limit).2.2.neededSubroutines_ = a.neededSubroutines_ ∧
    (parseOperand a op start limit).2.2.f_usedSubroutines_ = a.f_usedSubroutines_ ∧
    (parseOperand a op start limit).2.2.usedSubroutines_ = a.usedSubroutines_ := by
  have e := parseOperand_atomic a op start limit h
  rw [e]
  exact ⟨rfl, rfl, rfl, rfl, rfl, rfl⟩

/-- C17 at concrete inputs: in a state that already holds a constant and a
bound subroutine name, a constant operand with an unterminated string and a
prototype reference to a subroutine bound to another function both fail and
leave the state as it was. -/
theorem C17_operand_failure_atomic_witness :
    (parseOperand { Assembler.inCode with constants_ := [.TString "k"] } Operand.uninit
        ("const ".toList ++ [dquote, 'h', 'i']) LIMIT_CONSTANT).1 = none ∧
    (parseOperand { Assembler.inCode with constants_ := [.TString "k"] } Operand.uninit
        ("const ".toList ++ [dquote, 'h', 'i']) LIMIT_CONSTANT).2.2
      = { Assembler.inCode with constants_ := [.TString "k"] } ∧
    (parseOperand { Assembler.inCode with usedSubroutines_ := [("s", 7)] } Operand.uninit
        "s".toList LIMIT_PROTO).1 = none ∧
    (parseOperand { Assembler.inCode with usedSubroutines_ := [("s", 7)] } Operand.uninit
        "s".toList LIMIT_PROTO).2.2.usedSubroutines_ = [("s", 7)] :=
  ⟨by decide,
    (C17_operand_failure_atomic { Assembler.inCode with constants_ := [.TString "k"] }
      Operand.uninit ("const ".toList ++ [dquote, 'h', 'i']) LIMIT_CONSTANT (by decide)).1,
    by decide,
    (C17_operand_failure_atomic { Assembler.inCode with usedSubroutines_ := [("s", 7)] }
      Operand.uninit "s".toList LIMIT_PROTO (by decide)).2.2.2.2.2⟩


theorem wprefix_writeAssert {a : Assembler} {r : BoolRes × Assembler} {l : List WriteCall}
    (msg : String) (h : WPrefix a r l) : WPrefix a (writeAssert r msg) l := by
  obtain ⟨calls, hw, hp, hs⟩ := h
  unfold writeAssert
  split
  · rename_i hr
    exact ⟨calls, hw, hp, fun _ => hs hr⟩
  · exact ⟨calls, hw, hp, fun h => Bool.noConfusion h⟩

theorem wprefix_writeHeader {a : Assembler} {w : WriteBuffer} (cfg : LConfig)
    (h : a.wbuffer_ = some w) : WPrefix a (writeHeader cfg a) (headerCalls cfg) := by
  unfold writeHeader headerCalls
  refine wprefix_bind [_] [_, _, _, _, _, _, _, _, _, _] (wprefix_wwriteBytesAll _ _ _ h)
    fun a1 h1 => ?_
  obtain ⟨_, hw1⟩ := wrote_wbuffer h1
  refine wprefix_bind [_] [_, _, _, _, _, _, _, _, _]
    (wprefix_writeAssert _ (wprefix_wwrite _ hw1)) fun a2 h2 => ?_
  obtain ⟨_, hw2⟩ := wrote_wbuffer h2
  refine wprefix_bind [_] [_, _, _, _, _, _, _, _]
    (wprefix_writeAssert _ (wprefix_wwrite _ hw2)) fun a3 h3 => ?_
  obtain ⟨_, hw3⟩ := wrote_wbuffer h3
  refine wprefix_bind [_] [_, _, _, _, _, _, _] (wprefix_wwriteBytesAll _ _ _ hw3)
    fun a4 h4 => ?_
  obtain ⟨_, hw4⟩ := wrote_wbuffer h4
  refine wprefix_bind [_] [_, _, _, _, _, _]
    (wprefix_writeAssert _ (wprefix_wwrite _ hw4)) fun a5 h5 => ?_
  obtain ⟨_, hw5⟩ := wrote_wbuffer h5
  refine wprefix_bind [_] [_, _, _, _, _]
    (wprefix_writeAssert _ (wprefix_wwrite _ hw5)) fun a6 h6 => ?_
  obtain ⟨_, hw6⟩ := wrote_wbuffer h6
  refine wprefix_bind [_] [_, _, _, _]
    (wprefix_writeAssert _ (wprefix_wwrite _ hw6)) fun a7 h7 => ?_
  obtain ⟨_, hw7⟩ := wrote_wbuffer h7
  refine wprefix_bind [_] [_, _, _]
    (wprefix_writeAssert _ (wprefix_wwrite _ hw7)) fun a8 h8 => ?_
  obtain ⟨_, hw8⟩ := wrote_wbuffer h8
  refine wprefix_bind [_] [_, _]
    (wprefix_writeAssert _ (wprefix_wwrite _ hw8)) fun a9 h9 => ?_
  obtain ⟨_, hw9⟩ := wrote_wbuffer h9
  refine wprefix_bind [_] [_]
    (wprefix_writeAssert _ (wprefix_wwrite _ hw9)) fun a10 h10 => ?_
  obtain ⟨_, hw10⟩ := wrote_wbuffer h10
  exact wprefix_writeAssert _ (wprefix_wwrite _ hw10)

theorem finalizeFunction_keeps (a : Assembler) :
    (finalizeFunction a).2.wbuffer_ = a.wbuffer_ ∧
    (finalizeFunction a).2.bUpvalues_ = a.bUpvalues_ ∧
    (finalizeFunction a).2.nUpvalues_ = a.nUpvalues_ := by
  unfold finalizeFunction
  split <;> exact ⟨rfl, rfl, rfl⟩

theorem directiveFuncArgs_wbuffer (a : Assembler) (args : List Char) :
    (directiveFuncArgs a args).2.wbuffer_ = a.wbuffer_ := by
  unfold directiveFuncArgs
  repeat' split
  all_goals rfl

theorem directiveDispatch_wbuffer (a : Assembler) (name args : List Char) :
    (directiveDispatch a name args).2.wbuffer_ = a.wbuffer_ := by
  unfold directiveDispatch
  split
  · repeat' split
    all_goals rfl
  · split
    · unfold directiveFunc
      split
      · rfl
      · split
        · exact directiveFuncArgs_wbuffer a args
        · split
          · rw [directiveFuncArgs_wbuffer, (finalizeFunction_keeps a).1]
          · exact (finalizeFunction_keeps a).1
    · repeat' split
      all_goals rfl

theorem parseDirective_wbuffer {a a1 : Assembler} {res : BoolRes} {line : List Char}
    (h : parseDirective a line = some (res, a1)) : a1.wbuffer_ = a.wbuffer_ := by
  have named : ∀ name args, directiveNamed a line name args = some (res, a1) →
      a1.wbuffer_ = a.wbuffer_ := by
    intro name args h
    unfold directiveNamed at h
    split at h
    · simp only [Option.some.injEq, Prod.mk.injEq] at h
      rw [← h.2]
    · split at h
      · cases h
      · simp only [Option.some.injEq] at h
        have h2 : (directiveDispatch a name args).2 = a1 := by rw [h]
        rw [← h2]
        exact directiveDispatch_wbuffer a name args
  unfold parseDirective at h
  split at h
  · exact named _ _ h
  · split at h
    · exact named _ _ h
    · split at h
      · split at h
        · cases h
        · exact named _ _ h
      · simp only [Option.some.injEq, Prod.mk.injEq] at h
        rw [← h.2]

theorem parseLine_wbuffer {a a1 : Assembler} {res : BoolRes} {line : List Char}
    (h : parseLine a line = some (res, a1)) : a1.wbuffer_ = a.wbuffer_ := by
  unfold parseLine at h
  split at h
  · exact parseDirective_wbuffer h
  · split at h
    · have hk := parseConstant_keepsHeader a line
      split at h
      · rename_i a2 heq
        simp only [Option.some.injEq, Prod.mk.injEq] at h
        rw [heq] at hk
        rw [← h.2]
        exact hk.2.2.2.1
      · rename_i a2 heq
        simp only [Option.some.injEq, Prod.mk.injEq] at h
        rw [heq] at hk
        rw [← h.2]
        exact hk.2.2.2.1
    · exact (parseCode_keepsHeader h).2.2.2.1
    · simp only [Option.some.injEq] at h
      have h2 : (parseUpvalue a line).2 = a1 := by rw [h]
      rw [← h2]
      exact (parseUpvalue_keepsHeader a line).2.2.2.1
    · simp only [Option.some.injEq, Prod.mk.injEq] at h
      rw [← h.2]

/-- The read loop of `assemble` does not touch the writer. -/
theorem assembleLines_wbuffer : ∀ (lines : List String) (linen : Nat) (a a1 : Assembler)
    (res : BoolRes), assembleLines lines linen a = some (res, a1) →
    a1.wbuffer_ = a.wbuffer_ := by
  intro lines
  induction lines with
  | nil =>
    intro linen a a1 res h
    simp only [assembleLines, Option.some.injEq, Prod.mk.injEq] at h
    rw [← h.2]
  | cons l ls ih =>
    intro linen a a1 res h
    unfold assembleLines at h
    split at h
    · exact ih _ a a1 res h
    · split at h
      · exact ih _ a a1 res h
      · split at h
        · cases h
        · rename_i r1 b heq
          have hb := parseLine_wbuffer heq
          by_cases hr : r1.success = true
          · simp only [hr, if_true] at h
            rw [ih _ b a1 res h, hb]
          · have hf : r1.success = false := by simpa using hr
            simp only [hf, Bool.false_eq_true, if_false, Option.some.injEq, Prod.mk.injEq] at h
            rw [← h.2]
            exact hb


/-- C18, as stated, fails: on `sourceNoMain`, with a writer that accepts every
call, `assemble` fails with `no main function` after it has sent the eleven
header calls and the upvalue-count byte to the writer. -/
theorem C18_header_written_before_main_lookup :
    (assemble LConfig.lua53 2 (Assembler.onSource sourceNoMain)).map
        (fun r => (r.1, r.2.wbuffer_.map (fun w => w.written))) =
      some (⟨false, "no main function"⟩,
        some (headerCalls LConfig.lua53 ++ [WriteCall.u8 0])) ∧
    (headerCalls LConfig.lua53 ++ [WriteCall.u8 0]).length = 12 := by
  constructor <;> decide

theorem andThenSome_pair (p : BoolRes × Assembler)
    (k : Assembler → Option (BoolRes × Assembler)) :
    andThenSome (some p) k = if p.1.success then k p.2 else some p := by
  obtain ⟨res, a⟩ := p
  rfl

/-- C18, amended. Missing entry function: when every line has been parsed, the
last function (if one is open) is finalized, `.upvalues` was declared and the
function table then has no entry `main`, `assemble` fails; the calls it has
issued to the byte writer are a prefix of the header calls followed by the
upvalue-count byte, and nothing of a function record; when the writer accepted
all of these, they have all been issued and the message is
`no main function`. -/
theorem C18_missing_main (cfg : LConfig) (fuel : Nat) (a a1 : Assembler) (lines : List String)
    (w : WriteBuffer) (r1 : BoolRes)
    (hr : a.rbuffer_ = some lines) (hw : a.wbuffer_ = some w)
    (hlines : assembleLines lines 0 a = some (r1, a1)) (hs1 : r1.success = true)
    (hfin : a1.instructions_ = [] ∨ (finalizeFunction a1).1.success = true)
    (hup : a1.bUpvalues_ = true)
    (hmain : mapFind (if a1.instructions_ = [] then a1
      else (finalizeFunction a1).2).functions_ "main" = none) :
    ∃ res a2 w2 calls, assemble cfg fuel a = some (res, a2) ∧ res.success = false ∧
      a2.wbuffer_ = some w2 ∧ w2.written = w.written ++ calls ∧
      calls <+: headerCalls cfg ++ [.u8 (a1.nUpvalues_ % 256)] ∧
      ((writeHeader cfg (if a1.instructions_ = [] then a1
          else (finalizeFunction a1).2)).1.success = true →
        (wwrite (writeHeader cfg (if a1.instructions_ = [] then a1
          else (finalizeFunction a1).2)).2 (.u8 (a1.nUpvalues_ % 256))).1.success = true →
        calls = headerCalls cfg ++ [.u8 (a1.nUpvalues_ % 256)] ∧
        res.error_msg = "no main function") := by
  have hw1 : a1.wbuffer_ = some w := by
    rw [assembleLines_wbuffer lines 0 a a1 r1 hlines, hw]
  generalize hb : (if a1.instructions_ = [] then a1 else (finalizeFunction a1).2) = b at hmain ⊢
  have hstep : (if a1.instructions_ = [] then ((⟨true, ""⟩ : BoolRes), a1)
      else finalizeFunction a1).1.success = true ∧
      (if a1.instructions_ = [] then ((⟨true, ""⟩ : BoolRes), a1)
        else finalizeFunction a1).2 = b := by
    by_cases hi : a1.instructions_ = []
    · rw [if_pos hi] at hb ⊢
      exact ⟨rfl, hb⟩
    · rw [if_neg hi] at hb ⊢
      rcases hfin with h | h
      · exact absurd h hi
      · exact ⟨h, hb⟩
  have hbk : b.wbuffer_ = some w ∧ b.bUpvalues_ = true ∧ b.nUpvalues_ = a1.nUpvalues_ := by
    by_cases hi : a1.instructions_ = []
    · rw [if_pos hi] at hb
      rw [← hb]
      exact ⟨hw1, hup, rfl⟩
    · rw [if_neg hi] at hb
      rw [← hb]
      obtain ⟨k1, k2, k3⟩ := finalizeFunction_keeps a1
      exact ⟨by rw [k1, hw1], by rw [k2, hup], k3⟩
  obtain ⟨hbw, hbu, hbn⟩ := hbk
  obtain ⟨calls, hwr, hpre, hall⟩ := wprefix_writeHeader cfg hbw
  obtain ⟨w0, hw0, hh⟩ := id hwr
  have hw0' : w0 = w := by rw [hbw] at hw0; exact (Option.some.inj hw0).symm
  subst hw0'
  have hhb : (writeHeader cfg b).2.wbuffer_
      = some { w0 with written := w0.written ++ calls } := by rw [hh]
  simp only [assemble, hr, hw, hlines]
  rw [andThenSome_pair, if_pos hs1]
  simp only [assembleEnd]
  rw [andThenSome_pair, if_pos hstep.1, hstep.2]
  simp only [hbu, Bool.not_true, Bool.false_eq_true, if_false]
  rw [andThenSome_pair]
  by_cases hs : (writeHeader cfg b).1.success = true
  · have hcalls := hall hs
    have hn : (writeHeader cfg b).2.nUpvalues_ = a1.nUpvalues_ := by rw [hh]; exact hbn
    have hfn : (writeHeader cfg b).2.functions_ = b.functions_ := by rw [hh]
    obtain ⟨w3, hw3, h3⟩ := wwrite_wrote (.u8 (a1.nUpvalues_ % 256)) hhb
    rw [hhb] at hw3
    simp only [Option.some.injEq] at hw3
    subst hw3
    rw [if_pos hs, hn, andThenSome_pair]
    have hwa : (writeAssert (wwrite (writeHeader cfg b).2 (.u8 (a1.nUpvalues_ % 256)))
        "failed to write num upvalues").2
        = (wwrite (writeHeader cfg b).2 (.u8 (a1.nUpvalues_ % 256))).2 := by
      unfold writeAssert
      split <;> rfl
    have hwf : (wwrite (writeHeader cfg b).2 (.u8 (a1.nUpvalues_ % 256))).2.functions_
        = b.functions_ := by
      rw [h3]
      exact hfn
    have hww : (wwrite (writeHeader cfg b).2 (.u8 (a1.nUpvalues_ % 256))).2.wbuffer_
        = some { w0 with written := w0.written ++ (calls ++ [.u8 (a1.nUpvalues_ % 256)]) } := by
      rw [h3]
      simp [List.append_assoc]
    by_cases hs2 : (wwrite (writeHeader cfg b).2 (.u8 (a1.nUpvalues_ % 256))).1.success = true
    · have hsa : (writeAssert (wwrite (writeHeader cfg b).2 (.u8 (a1.nUpvalues_ % 256)))
          "failed to write num upvalues").1.success = true := by
        unfold writeAssert
        rw [if_pos hs2]
      have hm : mapFind (writeAssert (wwrite (writeHeader cfg b).2
          (.u8 (a1.nUpvalues_ % 256))) "failed to write num upvalues").2.functions_ "main"
          = none := by
        rw [hwa, hwf]
        exact hmain
      rw [if_pos hsa]
      simp only [hm]
      refine ⟨⟨false, "no main function"⟩,
        (writeAssert (wwrite (writeHeader cfg b).2 (.u8 (a1.nUpvalues_ % 256)))
          "failed to write num upvalues").2,
        { w0 with written := w0.written ++ (calls ++ [.u8 (a1.nUpvalues_ % 256)]) },
        calls ++ [.u8 (a1.nUpvalues_ % 256)], rfl, rfl,
        by rw [hwa]; exact hww, rfl, by rw [hcalls], fun _ _ => ⟨by rw [hcalls], rfl⟩⟩
    · have hsa : ¬(writeAssert (wwrite (writeHeader cfg b).2 (.u8 (a1.nUpvalues_ % 256)))
          "failed to write num upvalues").1.success = true := by
        unfold writeAssert
        rw [if_neg hs2]
        simp
      rw [if_neg hsa]
      refine ⟨(writeAssert (wwrite (writeHeader cfg b).2 (.u8 (a1.nUpvalues_ % 256)))
          "failed to write num upvalues").1,
        (writeAssert (wwrite (writeHeader cfg b).2 (.u8 (a1.nUpvalues_ % 256)))
          "failed to write num upvalues").2,
        { w0 with written := w0.written ++ (calls ++ [.u8 (a1.nUpvalues_ % 256)]) },
        calls ++ [.u8 (a1.nUpvalues_ % 256)], rfl, by simpa using hsa,
        by rw [hwa]; exact hww, rfl, by rw [hcalls], fun _ h => absurd h hs2⟩
  · rw [if_neg hs]
    refine ⟨(writeHeader cfg b).1, (writeHeader cfg b).2,
      { w0 with written := w0.written ++ calls }, calls, rfl, by simpa using hs, hhb, rfl,
      hpre.trans (List.prefix_append _ _), fun h => absurd h hs⟩


/-- C18, amended, at a concrete input: the read loop accepts every line of
`sourceNoMain`, the function `helper` is finalized, no entry `main` exists, and
`assemble` fails after the header calls and the upvalue-count byte. -/
theorem C18_missing_main_witness :
    assembleLines sourceNoMain 0 (Assembler.onSource sourceNoMain)
      = some (⟨true, ""⟩, stateNoMainRead) ∧
    (finalizeFunction stateNoMainRead).2.functions_.map Prod.fst = ["helper"] ∧
    ∃ res a2 w2 calls, assemble LConfig.lua53 2 (Assembler.onSource sourceNoMain)
        = some (res, a2) ∧ res.success = false ∧
      a2.wbuffer_ = some w2 ∧ w2.written = WriteBuffer.accepting.written ++ calls ∧
      calls <+: headerCalls LConfig.lua53 ++ [.u8 (stateNoMainRead.nUpvalues_ % 256)] ∧
      ((writeHeader LConfig.lua53 (if stateNoMainRead.instructions_ = [] then stateNoMainRead
          else (finalizeFunction stateNoMainRead).2)).1.success = true →
        (wwrite (writeHeader LConfig.lua53 (if stateNoMainRead.instructions_ = []
          then stateNoMainRead else (finalizeFunction stateNoMainRead).2)).2
            (.u8 (stateNoMainRead.nUpvalues_ % 256))).1.success = true →
        calls = headerCalls LConfig.lua53 ++ [.u8 (stateNoMainRead.nUpvalues_ % 256)] ∧
        res.error_msg = "no main function") :=
  ⟨rfl, by decide,
    C18_missing_main LConfig.lua53 2 (Assembler.onSource sourceNoMain) stateNoMainRead
      sourceNoMain WriteBuffer.accepting ⟨true, ""⟩ rfl rfl rfl rfl
      (Or.inr (by decide)) (by decide) (by decide)⟩


/-- A failure of the read loop of `assemble` is the failure of `parseLine` on
one physical line, reported with the number of that line. -/
theorem assembleLines_failure : ∀ (lines : List String) (linen : Nat) (a a1 : Assembler)
    (res : BoolRes), assembleLines lines linen a = some (res, a1) → res.success = false →
    linen + lines.length < 2 ^ 32 →
    ∃ (index : Nat) (l : String) (b b1 : Assembler) (r : BoolRes),
      lines[index]? = some l ∧ linesAccepted (lines.take index) a = some b ∧
      parseLine b (trim l.toList) = some (r, b1) ∧ r.success = false ∧
      res.error_msg = "error parsing line " ++ toString (linen + index + 1) ++ ": "
        ++ r.error_msg := by
  intro lines
  induction lines with
  | nil =>
    intro linen a a1 res h hs _
    simp only [assembleLines, Option.some.injEq, Prod.mk.injEq] at h
    rw [← h.1] at hs
    cases hs
  | cons l ls ih =>
    intro linen a a1 res h hs hlen
    simp only [List.length_cons] at hlen
    have hmod : (linen + 1) % 2 ^ 32 = linen + 1 := Nat.mod_eq_of_lt (by omega)
    have skip : ∀ b0, assembleLines ls (linen + 1) b0 = some (res, a1) →
        (∀ rest, linesAccepted (l :: rest) a = linesAccepted rest b0) →
        ∃ (index : Nat) (l1 : String) (b b1 : Assembler) (r : BoolRes),
          (l :: ls)[index]? = some l1 ∧ linesAccepted ((l :: ls).take index) a = some b ∧
          parseLine b (trim l1.toList) = some (r, b1) ∧ r.success = false ∧
          res.error_msg = "error parsing line " ++ toString (linen + index + 1) ++ ": "
            ++ r.error_msg := by
      intro b0 h2 hstep
      obtain ⟨i, l1, b, b1, r, e1, e2, e3, e4, e5⟩ := ih (linen + 1) b0 a1 res h2 hs (by omega)
      refine ⟨i + 1, l1, b, b1, r, ?_, ?_, e3, e4, ?_⟩
      · simpa using e1
      · rw [List.take_succ_cons, hstep]
        exact e2
      · rw [e5]
        have : linen + 1 + i + 1 = linen + (i + 1) + 1 := by omega
        rw [this]
    unfold assembleLines at h
    split at h
    · rename_i htrim
      rw [hmod] at h
      exact skip a h (fun rest => by simp only [linesAccepted, htrim])
    · rename_i c cs htrim
      split at h
      · rename_i hc
        rw [hmod] at h
        exact skip a h (fun rest => by simp only [linesAccepted, htrim, hc, if_true])
      · rename_i hc
        split at h
        · cases h
        · rename_i r1 b0 heq
          by_cases hr : r1.success = true
          · simp only [hr, if_true] at h
            rw [hmod] at h
            exact skip b0 h
              (fun rest => by simp only [linesAccepted, htrim, hc, if_false, heq, hr, if_true])
          · have hf : r1.success = false := by simpa using hr
            simp only [hf, Bool.false_eq_true, if_false, Option.some.injEq, Prod.mk.injEq] at h
            refine ⟨0, l, a, b0, r1, by simp, rfl, ?_, hf, ?_⟩
            · rw [htrim]
              exact heq
            · rw [← h.1, hmod]


/-- C19, as stated, fails: the only function of `sourcePendingAtEnd` jumps to
the undeclared label `L`; the read loop accepts every line, the finalization at
the end of the input fails, and `assemble` returns its message as it is,
without the words `error parsing line` and without a line number. -/
theorem C19_end_of_input_failure_has_no_line :
    (assemble LConfig.lua53 2 (Assembler.onSource sourcePendingAtEnd)).map (fun r => r.1)
      = some ⟨false, "undeclared locations: L"⟩ ∧
    "error parsing line ".toList.isPrefixOf "undeclared locations: L".toList = false ∧
    (assemble LConfig.lua53 2
        (Assembler.onSource (sourcePendingAtEnd ++ [".func other 2 0 0"]))).map (fun r => r.1)
      = some ⟨false, "error parsing line 8: undeclared locations: L"⟩ := by
  refine ⟨by decide, by decide, by decide⟩

/-- C19, amended. Error reporting, for a source of fewer than `2 ^ 32` lines:
when the read loop of `assemble` stops at a rejected line, the run returns the
message `error parsing line <k>: <message of parseLine>`, where `k` is the
1-based number of that physical line (blank and comment-only lines counted) and
the message is the one `parseLine` gave for that line in the state left by the
lines before it; when every line is accepted and the finalization of the last
function at the end of the input fails, the run returns the message of
`finalizeFunction`, `undeclared locations: ...`, with no line number. -/
theorem C19_error_reporting (cfg : LConfig) (fuel : Nat) (a a2 : Assembler)
    (lines : List String) (w : WriteBuffer) (res : BoolRes)
    (hr : a.rbuffer_ = some lines) (hw : a.wbuffer_ = some w) (hlen : lines.length < 2 ^ 32)
    (h : assemble cfg fuel a = some (res, a2)) :
    (∀ (r1 : BoolRes) (a1 : Assembler), assembleLines lines 0 a = some (r1, a1) →
      r1.success = false →
      res = r1 ∧
      ∃ (index : Nat) (l : String) (b b1 : Assembler) (r : BoolRes),
        lines[index]? = some l ∧ linesAccepted (lines.take index) a = some b ∧
        parseLine b (trim l.toList) = some (r, b1) ∧ r.success = false ∧
        res.error_msg = "error parsing line " ++ toString (index + 1) ++ ": " ++ r.error_msg) ∧
    (∀ (r1 : BoolRes) (a1 : Assembler), assembleLines lines 0 a = some (r1, a1) →
      r1.success = true → a1.instructions_ ≠ [] → (finalizeFunction a1).1.success = false →
      res = (finalizeFunction a1).1 ∧
      ∃ first idx rest, a1.neededLocations_ = (first, idx) :: rest ∧
        res.error_msg = appendLocations ("undeclared locations: " ++ first) rest) := by
  simp only [assemble, hr, hw] at h
  refine ⟨?_, ?_⟩
  · intro r1 a1 hl hf
    rw [hl, andThenSome_pair] at h
    simp only [hf, Bool.false_eq_true, if_false, Option.some.injEq, Prod.mk.injEq] at h
    obtain ⟨i, l, b, b1, r, e1, e2, e3, e4, e5⟩ :=
      assembleLines_failure lines 0 a a1 r1 hl hf (by omega)
    refine ⟨h.1.symm, i, l, b, b1, r, e1, e2, e3, e4, ?_⟩
    rw [← h.1, e5, Nat.zero_add]
  · intro r1 a1 hl hs hi hfin
    rw [hl, andThenSome_pair, if_pos hs] at h
    simp only [assembleEnd] at h
    rw [andThenSome_pair, if_neg hi] at h
    have hnot : ¬(finalizeFunction a1).1.success = true := by simp [hfin]
    rw [if_neg hnot] at h
    simp only [Option.some.injEq] at h
    have hres : res = (finalizeFunction a1).1 := by rw [h]
    refine ⟨hres, ?_⟩
    rw [hres]
    unfold finalizeFunction at hfin ⊢
    cases hn : a1.neededLocations_ with
    | nil => simp [hn] at hfin
    | cons e es =>
      obtain ⟨first, idx⟩ := e
      exact ⟨first, idx, es, rfl, rfl⟩

/-- C19, amended, at concrete inputs: the run on `sourceEndCodeComment` stops
at its sixth line, whose `parseLine` message it reports with the number 6; the
run on `sourcePendingAtEnd` reports the message of the final
`finalizeFunction`. -/
theorem C19_error_reporting_witness :
    assemble LConfig.lua53 2 (Assembler.onSource sourceEndCodeComment)
      = some (⟨false, "error parsing line 6: func declaration cannot be inside a code or const segment"⟩,
          Assembler.afterAssemble sourceEndCodeComment) ∧
    (∃ (index : Nat) (l : String) (b b1 : Assembler) (r : BoolRes),
      sourceEndCodeComment[index]? = some l ∧
      linesAccepted (sourceEndCodeComment.take index)
        (Assembler.onSource sourceEndCodeComment) = some b ∧
      parseLine b (trim l.toList) = some (r, b1) ∧ r.success = false ∧
      "error parsing line 6: func declaration cannot be inside a code or const segment"
        = "error parsing line " ++ toString (index + 1) ++ ": " ++ r.error_msg) ∧
    assemble LConfig.lua53 2 (Assembler.onSource sourcePendingAtEnd)
      = some (⟨false, "undeclared locations: L"⟩,
          Assembler.afterAssemble sourcePendingAtEnd) ∧
    (⟨false, "undeclared locations: L"⟩ : BoolRes)
      = (finalizeFunction (Assembler.afterRead sourcePendingAtEnd)).1 :=
  ⟨rfl,
    ((C19_error_reporting LConfig.lua53 2 (Assembler.onSource sourceEndCodeComment)
      (Assembler.afterAssemble sourceEndCodeComment) sourceEndCodeComment
      WriteBuffer.accepting
      ⟨false, "error parsing line 6: func declaration cannot be inside a code or const segment"⟩
      rfl rfl (by decide) rfl).1
      ⟨false, "error parsing line 6: func declaration cannot be inside a code or const segment"⟩
      (Assembler.afterRead sourceEndCodeComment) rfl rfl).2,
    rfl,
    ((C19_error_reporting LConfig.lua53 2 (Assembler.onSource sourcePendingAtEnd)
      (Assembler.afterAssemble sourcePendingAtEnd) sourcePendingAtEnd WriteBuffer.accepting
      ⟨false, "undeclared locations: L"⟩ rfl rfl (by decide) rfl).2
      ⟨true, ""⟩ (Assembler.afterRead sourcePendingAtEnd) rfl rfl (by decide) (by decide)).1⟩


/-- C20. The result of the `writeBytes` call for the raw line-info entries is
not looked at: on `sourceLineInfo`, whose function `main` has the line-info
table `[7]`, with a writer that returns the count 0 for that call (4 bytes were
to be written), `assemble` still sends the two calls that follow it and
returns success. With a writer that returns a short count for the instruction
words, the run stops at that call and fails. -/
theorem C20_lineinfo_short_write_ignored :
    WriteBuffer.shortOnInts.count [] (.ints [7]) = 0 ∧
    (assemble LConfig.lua53 2
        (Assembler.new (some sourceLineInfo) (some WriteBuffer.shortOnInts))).map
        (fun r => (r.1, r.2.wbuffer_.map (fun w => w.written.drop 24))) =
      some (⟨true, ""⟩, some [.i32 1, .ints [7], .i32 0, .i32 0]) ∧
    (assemble LConfig.lua53 2
        (Assembler.new (some sourceLineInfo) (some WriteBuffer.shortOnWords))).map
        (fun r => (r.1, r.2.wbuffer_.map (fun w => w.written.drop 19))) =
      some (⟨false, "failed to write instructions"⟩, some [.i32 1, .words [8388646]]) := by
  refine ⟨by decide, by decide, by decide⟩


theorem ready_wrote {a b : Assembler} {l : List WriteCall} (hr : Ready a) (h : Wrote a b l) :
    Ready b := by
  obtain ⟨w, hw, hn⟩ := hr
  obtain ⟨w1, hw1, hb⟩ := h
  rw [hw] at hw1
  simp only [Option.some.injEq] at hw1
  subst hw1
  exact ⟨{ w with written := w.written ++ l }, by rw [hb], hn⟩

theorem emits_wwrite {a : Assembler} (c : WriteCall) (hr : Ready a) :
    Emits a (wwrite a c) [c] := by
  obtain ⟨w, hw, hn⟩ := hr
  refine ⟨?_, wwrite_wrote c hw⟩
  simp only [wwrite, hw]
  exact hn.1 _ _

theorem emits_bytes {a : Assembler} (s : String) (msg : String) (hr : Ready a) :
    Emits a (wwriteBytesAll a (.bytes s) s.length msg) [.bytes s] := by
  obtain ⟨w, hw, hn⟩ := hr
  have hc : (wwriteBytes a (.bytes s)).1 = s.length := by
    simp only [wwriteBytes, hw]
    exact hn.2.1 _ _
  unfold wwriteBytesAll
  simp only [hc, ne_eq, not_true_eq_false, if_false]
  exact ⟨rfl, wwriteBytes_wrote _ hw⟩

theorem emits_words {a : Assembler} (ws : List Instruction) (msg : String) (hr : Ready a) :
    Emits a (wwriteBytesAll a (.words ws) (ws.length * 4) msg) [.words ws] := by
  obtain ⟨w, hw, hn⟩ := hr
  have hc : (wwriteBytes a (.words ws)).1 = ws.length * 4 := by
    simp only [wwriteBytes, hw]
    exact hn.2.2.1 _ _
  unfold wwriteBytesAll
  simp only [hc, ne_eq, not_true_eq_false, if_false]
  exact ⟨rfl, wwriteBytes_wrote _ hw⟩

theorem emits_bind {a : Assembler} {r : BoolRes × Assembler}
    {k : Assembler → BoolRes × Assembler} (l1 l2 : List WriteCall) (h1 : Emits a r l1)
    (h2 : ∀ a1, Wrote a a1 l1 → Emits a1 (k a1) l2) : Emits a (andThen r k) (l1 ++ l2) := by
  obtain ⟨hs, hw⟩ := h1
  obtain ⟨hs2, hw2⟩ := h2 r.2 hw
  unfold andThen
  rw [if_pos hs]
  exact ⟨hs2, wrote_trans hw hw2⟩

theorem emits_nil {a : Assembler} (hr : Ready a) (res : BoolRes) (hs : res.success = true) :
    Emits a (res, a) [] := by
  obtain ⟨w, hw, -⟩ := hr
  exact ⟨hs, wrote_refl hw⟩

theorem emits_writeString {a : Assembler} (s : String) (hr : Ready a) :
    Emits a (writeString a s) (stringCalls s) := by
  unfold writeString stringCalls
  by_cases hl : s.length < 0xFE
  · simp only [hl, if_true]
    exact emits_bind [_] [_] (emits_wwrite _ hr) fun a1 h1 => emits_bytes _ _ (ready_wrote hr h1)
  · simp only [hl, if_false]
    refine emits_bind [_, _] [_] ?_ fun a1 h1 => emits_bytes _ _ (ready_wrote hr h1)
    exact emits_bind [_] [_] (emits_wwrite _ hr) fun a1 h1 => emits_wwrite _ (ready_wrote hr h1)

/-- C21. String encoding: with a writer that never fails, `writeString`
succeeds and issues, for a string of fewer than 254 bytes, the single byte
`n + 1` followed by the `n` bytes of the string, and otherwise the byte `0xFF`,
the value `n + 1` as a `size_t`, and the `n` bytes; nothing else changes in the
assembler. The first byte is therefore never 0 and is `0xFF` exactly in the
long form, and the bytes of the string are the last thing issued (no
terminator). -/
theorem C21_string_encoding (a : Assembler) (w : WriteBuffer) (s : String)
    (hw : a.wbuffer_ = some w) (hn : w.NonFailing) :
    (writeString a s).1.success = true ∧
    (s.length < 254 →
      (writeString a s).2 = { a with wbuffer_ := some { w with
        written := w.written ++ [.u8 (s.length + 1), .bytes s] } } ∧
      s.length + 1 ≠ 0 ∧ s.length + 1 ≠ 0xFF ∧ s.length + 1 < 256) ∧
    (¬s.length < 254 →
      (writeString a s).2 = { a with wbuffer_ := some { w with
        written := w.written ++ [.u8 0xFF, .size (s.length + 1), .bytes s] } }) := by
  obtain ⟨hs, w1, hw1, hst⟩ := emits_writeString s ⟨w, hw, hn⟩
  rw [hw] at hw1
  simp only [Option.some.injEq] at hw1
  subst hw1
  refine ⟨hs, ?_, ?_⟩
  · intro hl
    have hc : stringCalls s = [.u8 (s.length + 1), .bytes s] := by
      unfold stringCalls
      have : s.length < 0xFE := hl
      have hm : (s.length + 1) % 256 = s.length + 1 := Nat.mod_eq_of_lt (by omega)
      simp only [this, if_true, hm]
      rfl
    rw [hst, hc]
    exact ⟨rfl, by omega, by omega, by omega⟩
  · intro hl
    have hc : stringCalls s = [.u8 0xFF, .size (s.length + 1), .bytes s] := by
      unfold stringCalls
      have : ¬s.length < 0xFE := hl
      simp only [this, if_false]
      rfl
    rw [hst, hc]


theorem nonFailing_accepting : WriteBuffer.accepting.NonFailing :=
  ⟨fun _ _ => rfl, fun _ _ => rfl, fun _ _ => rfl, fun _ _ => rfl⟩

/-- C21 at a concrete input: the string `hi` is written as the byte 3 followed
by its two bytes. -/
theorem C21_string_encoding_witness :
    (writeString (Assembler.onSource []) "hi").1.success = true ∧
    (writeString (Assembler.onSource []) "hi").2 =
      { Assembler.onSource [] with wbuffer_ := some { WriteBuffer.accepting with
        written := WriteBuffer.accepting.written ++ [.u8 ("hi".length + 1), .bytes "hi"] } } ∧
    "hi".length + 1 = 3 :=
  ⟨(C21_string_encoding (Assembler.onSource []) WriteBuffer.accepting "hi" rfl
      nonFailing_accepting).1,
    ((C21_string_encoding (Assembler.onSource []) WriteBuffer.accepting "hi" rfl
      nonFailing_accepting).2.1 (by decide)).1,
    by decide⟩


theorem emits_writeFunctionHead {a : Assembler} (f : ParsedFunction) (hr : Ready a) :
    Emits a (writeFunctionHead f a)
      (stringCalls f.name ++ [.i32 0, .i32 0, .u8 f.params, .u8 f.vararg, .u8 f.maxstacksize]) := by
  unfold writeFunctionHead
  refine emits_bind _ _ (emits_writeString _ hr) fun a1 h1 => ?_
  have r1 := ready_wrote hr h1
  refine emits_bind [_] [_, _, _, _] (emits_wwrite _ r1) fun a2 h2 => ?_
  have r2 := ready_wrote r1 h2
  refine emits_bind [_] [_, _, _] (emits_wwrite _ r2) fun a3 h3 => ?_
  have r3 := ready_wrote r2 h3
  refine emits_bind [_] [_, _] (emits_wwrite _ r3) fun a4 h4 => ?_
  have r4 := ready_wrote r3 h4
  refine emits_bind [_] [_] (emits_wwrite _ r4) fun a5 h5 => ?_
  exact emits_wwrite _ (ready_wrote r4 h5)

theorem emits_writeConstantValue {a : Assembler} (c : TValue) (hr : Ready a) :
    Emits a (writeConstantValue a c) (constantCalls c).tail := by
  cases c with
  | TNil => exact emits_nil hr _ rfl
  | TBool b => exact emits_wwrite _ hr
  | TNumber n => exact emits_wwrite _ hr
  | TString s => exact emits_writeString s hr

theorem emits_writeConstants : ∀ (cs : List TValue) (a : Assembler), Ready a →
    Emits a (writeConstants cs a) (cs.map constantCalls).flatten := by
  intro cs
  induction cs with
  | nil =>
    intro a hr
    exact emits_nil hr _ rfl
  | cons c cs ih =>
    intro a hr
    unfold writeConstants
    simp only [List.map_cons, List.flatten_cons]
    have hc : constantCalls c = [.u8 (c.type % 256)] ++ (constantCalls c).tail := by
      cases c <;> rfl
    rw [hc, List.append_assoc]
    refine emits_bind [_] _ (emits_wwrite _ hr) fun a1 h1 => ?_
    have r1 := ready_wrote hr h1
    have htail : ([WriteCall.u8 (c.type % 256)] ++ (constantCalls c).tail).tail
        = (constantCalls c).tail := rfl
    exact emits_bind _ _ (emits_writeConstantValue c r1) fun a2 h2 => ih a2 (ready_wrote r1 h2)

theorem emits_writeUpvalues : ∀ (us : List Upvalue) (a : Assembler), Ready a →
    Emits a (writeUpvalues us a) (us.map upvalueCalls).flatten := by
  intro us
  induction us with
  | nil =>
    intro a hr
    exact emits_nil hr _ rfl
  | cons u us ih =>
    intro a hr
    unfold writeUpvalues
    simp only [List.map_cons, List.flatten_cons, upvalueCalls]
    refine emits_bind [_] (_ :: _) (emits_wwrite _ hr) fun a1 h1 => ?_
    have r1 := ready_wrote hr h1
    exact emits_bind [_] _ (emits_wwrite _ r1) fun a2 h2 => ih a2 (ready_wrote r1 h2)

theorem emits_writeFunctionBody {a : Assembler} (f : ParsedFunction) (hr : Ready a) :
    Emits a (writeFunctionBody f a)
      ([.i32 (toInt f.instructions.length), .words f.instructions] ++
        ([.i32 (toInt f.constants.length)] ++
          ((f.constants.map constantCalls).flatten ++
            ([.i32 (toInt f.upvalues.length)] ++ (f.upvalues.map upvalueCalls).flatten)))) := by
  unfold writeFunctionBody
  refine emits_bind [_] (_ :: _) (emits_wwrite _ hr) fun a1 h1 => ?_
  have r1 := ready_wrote hr h1
  refine emits_bind [_] _ (emits_words _ _ r1) fun a2 h2 => ?_
  have r2 := ready_wrote r1 h2
  refine emits_bind [_] _ (emits_wwrite _ r2) fun a3 h3 => ?_
  have r3 := ready_wrote r2 h3
  refine emits_bind _ _ (emits_writeConstants _ a3 r3) fun a4 h4 => ?_
  have r4 := ready_wrote r3 h4
  exact emits_bind [_] _ (emits_wwrite _ r4) fun a5 h5 =>
    emits_writeUpvalues _ a5 (ready_wrote r4 h5)

theorem andThen_of_success {r : BoolRes × Assembler} {k : Assembler → BoolRes × Assembler}
    (h : (andThen r k).1.success = true) : r.1.success = true ∧ andThen r k = k r.2 := by
  unfold andThen at h ⊢
  split
  · rename_i hs
    exact ⟨hs, rfl⟩
  · rename_i hs
    simp only [hs, if_false] at h
    exact absurd h hs

theorem emits_writeFunctionTail {a : Assembler} (f : ParsedFunction) (hr : Ready a) :
    Emits a (writeFunctionTail f a)
      ([.i32 (toInt f.lineinfos.length)] ++
        ((if f.lineinfos.length > 0 then [.ints f.lineinfos] else []) ++ [.i32 0, .i32 0])) ∧
    (writeFunctionTail f a).1 = ⟨true, ""⟩ := by
  have hemit : Emits a (writeFunctionTail f a)
      ([.i32 (toInt f.lineinfos.length)] ++
        ((if f.lineinfos.length > 0 then [.ints f.lineinfos] else []) ++ [.i32 0, .i32 0])) := by
    unfold writeFunctionTail
    refine emits_bind [_] _ (emits_wwrite _ hr) fun a1 h1 => ?_
    have r1 := ready_wrote hr h1
    obtain ⟨w1, hw1, -⟩ := id r1
    have hmid : Emits a1 (wwrite (if f.lineinfos.length > 0
          then (wwriteBytes a1 (.ints f.lineinfos)).2 else a1) (.i32 0))
        ((if f.lineinfos.length > 0 then [.ints f.lineinfos] else []) ++ [.i32 0]) := by
      by_cases hl : f.lineinfos.length > 0
      · simp only [hl, if_true]
        have hwb := wwriteBytes_wrote (.ints f.lineinfos) hw1
        obtain ⟨hs, hw2⟩ := emits_wwrite (.i32 0) (ready_wrote r1 hwb)
        exact ⟨hs, wrote_trans hwb hw2⟩
      · simp only [hl, if_false, List.nil_append]
        exact emits_wwrite _ r1
    have hl : (if f.lineinfos.length > 0 then [WriteCall.ints f.lineinfos] else [])
        ++ [WriteCall.i32 0, WriteCall.i32 0]
        = ((if f.lineinfos.length > 0 then [WriteCall.ints f.lineinfos] else [])
          ++ [WriteCall.i32 0]) ++ ([WriteCall.i32 0] ++ []) := by simp
    rw [hl]
    refine emits_bind _ _ hmid fun a2 h2 => ?_
    have r2 := ready_wrote r1 h2
    exact emits_bind [_] [] (emits_wwrite _ r2) fun a3 h3 =>
      emits_nil (ready_wrote r2 h3) _ rfl
  refine ⟨hemit, ?_⟩
  have hs := hemit.1
  unfold writeFunctionTail at hs ⊢
  obtain ⟨-, e1⟩ := andThen_of_success hs
  rw [e1] at hs ⊢
  obtain ⟨-, e2⟩ := andThen_of_success hs
  rw [e2] at hs ⊢
  obtain ⟨-, e3⟩ := andThen_of_success hs
  rw [e3]


/-- C22. Function record layout: for a function of the table that names no
subroutine, with a writer that never fails, `writeFunction` succeeds and issues
exactly the calls `recordCalls`, in order: the encoded name; two zero 4-byte
integers; the `params`, `vararg` and `maxstacksize` bytes; the 4-byte
instruction count and the instruction words; the 4-byte constant count and, per
constant in pool order, the type-tag byte followed by nothing (nil), the
boolean, the number or the string encoding; the 4-byte upvalue count and, per
upvalue in order, its `instack` byte and its `idx` byte; the 4-byte proto count
0; the 4-byte line-info count and the line-info entries; two zero 4-byte
counts. -/
theorem C22_function_record_layout (fuel : Nat) (key : String) (a : Assembler)
    (f : ParsedFunction) (w : WriteBuffer) (hkey : mapFind a.functions_ key = some f)
    (hw : a.wbuffer_ = some w) (hn : w.NonFailing) (hsub : f.usedSubroutines = []) :
    ∃ a1, writeFunction (fuel + 1) key a = some (⟨true, ""⟩, a1) ∧
      a1.wbuffer_ = some { w with written := w.written ++ recordCalls f } := by
  have hr : Ready a := ⟨w, hw, hn⟩
  obtain ⟨hs1, hw1⟩ := emits_writeFunctionHead f hr
  have r1 := ready_wrote hr hw1
  have hres : ∀ fs, resolveSubroutines fs f.usedSubroutines 0 [] f = (none, [], f) := by
    intro fs
    rw [hsub]
    rfl
  simp only [writeFunction, hkey]
  rw [andThenSome_pair, if_pos hs1]
  simp only [hres]
  generalize hb : ({ (writeFunctionHead f a).2 with
    functions_ := mapAssign (writeFunctionHead f a).2.functions_ key f } : Assembler) = b
  have hbw : b.wbuffer_ = (writeFunctionHead f a).2.wbuffer_ := by rw [← hb]
  have rb : Ready b := by
    obtain ⟨w1, h1, n1⟩ := r1
    exact ⟨w1, by rw [hbw, h1], n1⟩
  obtain ⟨hs2, hw2⟩ := emits_writeFunctionBody f rb
  have r2 := ready_wrote rb hw2
  rw [andThenSome_pair, if_pos hs2]
  obtain ⟨hs3, hw3⟩ := emits_wwrite (.i32 (toInt (([] : List String).length : Int))) r2
  have r3 := ready_wrote r2 hw3
  rw [andThenSome_pair, if_pos hs3]
  simp only [writeProtos]
  rw [andThenSome_pair, if_pos rfl]
  obtain ⟨⟨hs4, hw4⟩, hres4⟩ := emits_writeFunctionTail f r3
  refine ⟨(writeFunctionTail f (wwrite (writeFunctionBody f b).2
    (.i32 (toInt (([] : List String).length : Int)))).2).2, ?_, ?_⟩
  · rw [← hres4]
  · obtain ⟨w0, e0, h0⟩ := hw1
    rw [hw] at e0
    simp only [Option.some.injEq] at e0
    subst e0
    have hb0 : b.wbuffer_ = some { w with written := w.written ++
        (stringCalls f.name ++
          [.i32 0, .i32 0, .u8 f.params, .u8 f.vararg, .u8 f.maxstacksize]) } := by
      rw [hbw, h0]
    obtain ⟨wb, eb, h2⟩ := wrote_trans (wrote_trans hw2 hw3) hw4
    rw [hb0] at eb
    simp only [Option.some.injEq] at eb
    subst eb
    rw [h2]
    simp only [recordCalls, List.append_assoc, List.length_nil, Nat.cast_zero]
    rfl


/-- C22 at a concrete input: the record of `main` of `sourceSample`, written
with an accepting writer. -/
theorem C22_function_record_layout_witness :
    mapFind (finalizeFunction (Assembler.afterRead sourceSample)).2.functions_ "main"
      = some functionSample ∧
    recordCalls functionSample =
      [.u8 5, .bytes "main", .i32 0, .i32 0, .u8 0, .u8 0, .u8 2,
       .i32 1, .words [8388646],
       .i32 4, .u8 0, .u8 1, .boolean true, .u8 3, .number (.ofInt 5),
       .u8 4, .u8 3, .bytes "hi",
       .i32 1, .u8 1, .u8 0,
       .i32 0,
       .i32 1, .ints [7],
       .i32 0, .i32 0] ∧
    ∃ a1, writeFunction (0 + 1) "main" (finalizeFunction (Assembler.afterRead sourceSample)).2
        = some (⟨true, ""⟩, a1) ∧
      a1.wbuffer_ = some { WriteBuffer.accepting with
        written := WriteBuffer.accepting.written ++ recordCalls functionSample } :=
  ⟨by decide, by decide,
    C22_function_record_layout 0 "main" (finalizeFunction (Assembler.afterRead sourceSample)).2
      functionSample WriteBuffer.accepting (by decide) rfl nonFailing_accepting rfl⟩


theorem parseConstant_lineinfos (a : Assembler) (start : List Char) :
    (parseConstant a start).2.lineinfos_ = a.lineinfos_ := by
  unfold parseConstant
  repeat' split
  all_goals rfl

theorem parseOperandConst_lineinfos (a : Assembler) (op : Operand) (bend : List Char)
    (limit : Nat) : (parseOperandConst a op bend limit).2.2.lineinfos_ = a.lineinfos_ := by
  unfold parseOperandConst
  split
  · rfl
  · split
    · rfl
    · split
      · rfl
      · rename_i c cs heq hc
        have h := parseConstant_lineinfos a (c :: cs)
        split
        · rename_i heq; rw [heq] at h; exact h
        · rename_i heq; rw [heq] at h
          split <;> exact h

theorem parseOperand_lineinfos (a : Assembler) (op : Operand) (start : List Char)
    (limit : Nat) : (parseOperand a op start limit).2.2.lineinfos_ = a.lineinfos_ := by
  unfold parseOperand
  split
  · rfl
  · split
    · rfl
    · split
      · repeat' split
        all_goals rfl
      · split
        · repeat' split
          all_goals rfl
        · split
          · repeat' split
            all_goals rfl
          · split
            · exact parseOperandConst_lineinfos a op _ limit
            · split
              · unfold parseOperandProto
                repeat' split
                all_goals rfl
              · unfold parseOperandEmbed
                repeat' split
                all_goals rfl

theorem parseOperands_lineinfos : ∀ (infos : List OpInfo) (a : Assembler) (v : CodeVars)
    (bend : List Char), (parseOperands infos a v bend).2.lineinfos_ = a.lineinfos_ := by
  intro infos
  induction infos with
  | nil => intro a v bend; rfl
  | cons info infos ih =>
    intro a v bend
    have hf := parseOperand_lineinfos a Operand.uninit bend info.limit
    unfold parseOperands
    cases h : parseOperand a Operand.uninit bend info.limit with
    | mk r rest =>
      obtain ⟨op, a1⟩ := rest
      rw [h] at hf
      cases r with
      | none => exact hf
      | some bend1 =>
        exact (ih a1 (storeOperand info.position op.value_ v) bend1).trans hf

theorem parseInstruction_lineinfos (a : Assembler) (name : String) (bend : List Char) :
    (parseInstruction a name bend).2.lineinfos_ = a.lineinfos_ := by
  unfold parseInstruction
  split
  · rfl
  · rename_i opcode _
    have hf := parseOperands_lineinfos ((opinfo.getD opcode []).take (opcount.getD opcode 0)) a
      ⟨SET_OPCODE 0 opcode, 0, false⟩ bend
    split
    · rename_i a1 heq
      rw [heq] at hf
      exact hf
    · rename_i v bend1 a1 heq
      rw [heq] at hf
      split
      · exact hf
      · exact hf

theorem withLineinfo_lineinfos (a : Assembler) (ln : Int) :
    (withLineinfo a ln).lineinfos_ = a.lineinfos_ ++ (if ln ≥ 0 then [ln] else []) := by
  unfold withLineinfo
  split <;> simp

/-- A code line that `parseCode` accepts adds to the line-info sequence the
value of its marker when that value is not negative, and nothing otherwise,
whether the line is an instruction or a label. -/
theorem parseCode_lineinfos {a a1 : Assembler} {res : BoolRes} {line : List Char}
    (h : parseCode a line = some (res, a1)) (hs : res.success = true) :
    ∃ ln, lineMarker line = some ln ∧
      a1.lineinfos_ = a.lineinfos_ ++ (if ln ≥ 0 then [ln] else []) := by
  unfold parseCode at h
  split at h
  · simp only [Option.some.injEq, Prod.mk.injEq] at h
    rw [← h.1] at hs
    cases hs
  · split at h
    · cases h
    · rename_i ln hln
      refine ⟨ln, hln, ?_⟩
      split at h
      · simp only [Option.some.injEq, Prod.mk.injEq] at h
        rw [← h.2]
        exact withLineinfo_lineinfos a ln
      · simp only [Option.some.injEq] at h
        have e := congrArg Prod.snd h
        simp only at e
        rw [← e, parseInstruction_lineinfos]
        exact withLineinfo_lineinfos a ln

theorem parseCodeLines_lineinfos : ∀ (lines : List (List Char)) (a a1 : Assembler)
    (res : BoolRes), parseCodeLines a lines = some (res, a1) → res.success = true →
    a1.lineinfos_ = a.lineinfos_ ++ markerEntries lines := by
  intro lines
  induction lines with
  | nil =>
    intro a a1 res h _
    simp only [parseCodeLines, Option.some.injEq, Prod.mk.injEq] at h
    rw [← h.2]
    simp [markerEntries]
  | cons l ls ih =>
    intro a a1 res h hs
    unfold parseCodeLines at h
    split at h
    · cases h
    · rename_i r1 b heq
      by_cases hr : r1.success = true
      · simp only [hr, if_true] at h
        obtain ⟨ln, hm, hl⟩ := parseCode_lineinfos heq hr
        rw [ih b a1 res h hs, hl, List.append_assoc]
        congr 1
        simp only [markerEntries, List.filterMap_cons, hm]
        split <;> rfl
      · have hf : r1.success = false := by simpa using hr
        simp only [hf, Bool.false_eq_true, if_false, Option.some.injEq, Prod.mk.injEq] at h
        rw [← h.1] at hs
        exact absurd hs hr


/-- C23, as stated, fails: a label line that carries a marker contributes an
entry. Inside a code segment the line `L: ;L5;` is accepted, appends no
instruction, and leaves the line-info sequence `[5]`. -/
theorem C23_label_line_marker_recorded :
    isLabelLine "L: ;L5;".toList = true ∧
    (parseCode Assembler.inCode "L: ;L5;".toList).map
        (fun r => (r.1, r.2.instructions_, r.2.lineinfos_)) = some (⟨true, ""⟩, [], [5]) := by
  constructor <;> decide

theorem takeWhile_run {p : Char → Bool} (ds : List Char) (x : Char) (t : List Char)
    (hds : ∀ d ∈ ds, p d = true) (hx : p x = false) :
    (ds ++ x :: t).takeWhile p = ds ∧ (ds ++ x :: t).dropWhile p = x :: t := by
  induction ds with
  | nil => simp [List.takeWhile, List.dropWhile, hx]
  | cons d ds ih =>
    have hd := hds d (List.mem_cons_self _ _)
    obtain ⟨i1, i2⟩ := ih (fun e he => hds e (List.mem_cons_of_mem _ he))
    constructor
    · rw [List.cons_append, List.takeWhile_cons, hd, if_pos rfl, i1]
    · rw [List.cons_append, List.dropWhile_cons, hd, if_pos rfl, i2]

theorem digitsValue_nonneg : ∀ (ds : List Char) (out : Int), 0 ≤ out →
    (∀ d ∈ ds, isdigit d = true) → 0 ≤ digitsValue out ds := by
  intro ds
  induction ds with
  | nil => intro out h _; exact h
  | cons d ds ih =>
    intro out h hds
    unfold digitsValue
    apply ih _ _ (fun e he => hds e (List.mem_cons_of_mem _ he))
    have hd : d.isDigit = true := hds d (List.mem_cons_self _ _)
    simp only [Char.isDigit, Bool.and_eq_true, decide_eq_true_eq] at hd
    have h48 : 48 ≤ d.toNat := hd.1
    have h0 : ('0' : Char).toNat = 48 := rfl
    rw [h0]
    omega

theorem marker_of_shape {c ds t : List Char} (h : MarkerShape c ds t) :
    get_linenumber_from_asm_line_comment c = stoi ds := by
  obtain ⟨hc, hne, hds⟩ := h
  obtain ⟨e1, e2⟩ := takeWhile_run ds ';' t hds (by decide)
  cases ds with
  | nil => exact absurd rfl hne
  | cons d ds0 =>
    subst hc
    simp only [List.cons_append] at e1 e2 ⊢
    unfold get_linenumber_from_asm_line_comment
    simp only [e1, e2, decide_True, Bool.and_self, if_true, List.length_cons,
      Nat.le_add_left]

theorem marker_cases (c : List Char) :
    (∃ ds t, MarkerShape c ds t ∧ get_linenumber_from_asm_line_comment c = stoi ds) ∨
    ((¬∃ ds t, MarkerShape c ds t) ∧ get_linenumber_from_asm_line_comment c = some (-1)) := by
  by_cases hex : ∃ ds t, MarkerShape c ds t
  · obtain ⟨ds, t, h⟩ := hex
    exact Or.inl ⟨ds, t, h, marker_of_shape h⟩
  · refine Or.inr ⟨hex, ?_⟩
    unfold get_linenumber_from_asm_line_comment
    split
    · rename_i c0 c1 c2 rest
      split
      · rename_i hc
        simp only [Bool.and_eq_true, decide_eq_true_eq] at hc
        obtain ⟨h0, h1⟩ := hc
        split
        · rfl
        · rename_i t0 t1 hdrop
          split
          · rename_i ht
            simp only [Bool.and_eq_true, decide_eq_true_eq] at ht
            exfalso
            apply hex
            refine ⟨(c2 :: rest).takeWhile isdigit, t1, ?_, ?_, ?_⟩
            · rw [h0, h1, ← ht.1, ← hdrop, List.takeWhile_append_dropWhile]
            · intro hnil
              rw [hnil] at ht
              simp at ht
            · intro d hd
              exact (List.mem_takeWhile_imp hd)
          · rfl
      · rfl
    · rfl


/-- C24, as stated, fails: the comment `;L99999999999;` is not a marker whose
value fits a 32-bit `int`, and the function does not return -1 for it:
`std::stoi` throws and no value is returned. -/
theorem C24_marker_overflow_throws :
    get_linenumber_from_asm_line_comment ";L99999999999;".toList = none ∧
    digitsValue 0 "99999999999".toList = 99999999999 := by
  constructor <;> decide

/-- C24, amended. Line-number marker recognition: the function returns `n`,
with `n ≥ 0`, exactly when the comment consists of `;L`, a non-empty run of
decimal digits of value `n`, with `n` at most `2147483647`, then `;`, then any
further text; it returns -1 for every comment that does not have that shape;
and for a comment of that shape whose digits exceed `2147483647` it returns
nothing (`std::stoi` throws). -/
theorem C24_marker_recognition (c : List Char) :
    (∀ n : Int, 0 ≤ n →
      (get_linenumber_from_asm_line_comment c = some n ↔
        ∃ ds t, MarkerShape c ds t ∧ digitsValue 0 ds = n ∧ n ≤ 2147483647)) ∧
    ((¬∃ ds t, MarkerShape c ds t) → get_linenumber_from_asm_line_comment c = some (-1)) ∧
    (∀ ds t, MarkerShape c ds t → 2147483647 < digitsValue 0 ds →
      get_linenumber_from_asm_line_comment c = none) := by
  refine ⟨?_, ?_, ?_⟩
  · intro n hn
    constructor
    · intro h
      rcases marker_cases c with ⟨ds, t, hsh, he⟩ | ⟨-, he⟩
      · rw [he] at h
        unfold stoi at h
        split at h
        · rename_i hle
          simp only [Option.some.injEq] at h
          exact ⟨ds, t, hsh, h, by rw [← h]; exact hle⟩
        · cases h
      · rw [he] at h
        simp only [Option.some.injEq] at h
        omega
    · rintro ⟨ds, t, hsh, hv, hle⟩
      rw [marker_of_shape hsh]
      unfold stoi
      rw [hv, if_pos hle]
  · intro hno
    rcases marker_cases c with ⟨ds, t, hsh, -⟩ | ⟨-, he⟩
    · exact absurd ⟨ds, t, hsh⟩ hno
    · exact he
  · intro ds t hsh hbig
    rw [marker_of_shape hsh]
    unfold stoi
    rw [if_neg (by omega)]


/-- C24, amended, at concrete inputs: `;L12;x` is a marker of value 12 and `;x`
is not a marker. -/
theorem C24_marker_recognition_witness :
    get_linenumber_from_asm_line_comment ";L12;x".toList = some 12 ∧
    get_linenumber_from_asm_line_comment ";x".toList = some (-1) :=
  ⟨((C24_marker_recognition ";L12;x".toList).1 12 (by decide)).2
      ⟨"12".toList, "x".toList, ⟨rfl, by decide, by decide⟩, by decide, by decide⟩,
    by decide⟩


/-- C25, as stated, fails: the name of the line `.foo!` is `foo`, none of the
known names, and the line is rejected because of the character that follows
the name. -/
theorem C25_illegal_character_rejected :
    parseDirective Assembler.inCode ".foo!".toList =
      some (⟨false, "could not parse directive: illegal character '!'"⟩, Assembler.inCode) ∧
    lower "foo".toList ∉ knownDirectives := by
  constructor
  · rfl
  · decide

theorem directiveDispatch_unknown (a : Assembler) (name args : List Char)
    (hname : lower name ∉ knownDirectives) :
    directiveDispatch a name args = (⟨true, ""⟩, a) := by
  simp only [knownDirectives, List.mem_cons, List.mem_singleton, not_or, List.not_mem_nil,
    or_false] at hname
  obtain ⟨h1, h2, h3, h4, h5, h6, h7, h8⟩ := hname
  unfold directiveDispatch
  rw [if_neg h1, if_neg h2, if_neg h3, if_neg h4, if_neg h5, if_neg h6, if_neg h7, if_neg h8]

theorem isblank_not_label {b : Char} (hb : isblank b = true) : isLabelChar b = false := by
  simp only [isblank, Bool.or_eq_true, decide_eq_true_eq] at hb
  rcases hb with h | h <;> subst h <;> decide

/-- C25, amended. Unrecognised directives are silent no-ops: for every state
and every line made of `.`, a non-empty run of letters, digits and `_` that is
none of the known names whatever its case, and then either the end of the line
or a blank followed by any text (whose line-number marker, if it has one, can
be read), `parseDirective` returns success and leaves the whole state
unchanged. -/
theorem C25_unknown_directive_noop (a : Assembler) (name rest : List Char)
    (hne : name ≠ []) (hchars : ∀ c ∈ name, isLabelChar c = true)
    (hrest : rest = [] ∨ ∃ b t, rest = b :: t ∧ isblank b = true)
    (hname : lower name ∉ knownDirectives)
    (hmarker : lineMarker ('.' :: (name ++ rest)) ≠ none) :
    parseDirective a ('.' :: (name ++ rest)) = some (⟨true, ""⟩, a) := by
  have hnamed : ∀ args, directiveNamed a ('.' :: (name ++ rest)) name args
      = some (⟨true, ""⟩, a) := by
    intro args
    unfold directiveNamed
    rw [if_neg hne]
    cases hm : lineMarker ('.' :: (name ++ rest)) with
    | none => exact absurd hm hmarker
    | some ln =>
      unfold lineMarker at hm
      simp only [hm, directiveDispatch_unknown a name args hname]
  have hdrop1 : ('.' :: (name ++ rest)).drop 1 = name ++ rest := rfl
  unfold parseDirective
  rw [hdrop1]
  rcases hrest with hr | ⟨b, t, hr, hb⟩
  · subst hr
    have e1 : (name ++ []).dropWhile isLabelChar = [] := by
      rw [List.append_nil]
      exact List.dropWhile_eq_nil_iff.2 hchars
    have e2 : (name ++ []).takeWhile isLabelChar = name := by
      rw [List.append_nil]
      exact List.takeWhile_eq_self_iff.2 hchars
    simp only [e1, e2]
    exact hnamed []
  · subst hr
    obtain ⟨e1, e2⟩ := takeWhile_run name b t hchars (isblank_not_label hb)
    simp only [e1, e2, hb, if_true]
    exact hnamed (b :: t)

/-- C25, amended, at concrete inputs: `.Section data` and `.align` are
accepted in a code segment and change nothing. -/
theorem C25_unknown_directive_noop_witness :
    parseDirective Assembler.inCode ('.' :: ("Section".toList ++ " data".toList))
      = some (⟨true, ""⟩, Assembler.inCode) ∧
    parseDirective Assembler.inCode ('.' :: ("align".toList ++ []))
      = some (⟨true, ""⟩, Assembler.inCode) :=
  ⟨C25_unknown_directive_noop Assembler.inCode "Section".toList " data".toList
      (by decide) (by decide) (Or.inr ⟨' ', "data".toList, rfl, rfl⟩) (by decide) (by decide),
    C25_unknown_directive_noop Assembler.inCode "align".toList []
      (by decide) (by decide) (Or.inl rfl) (by decide) (by decide)⟩


theorem constKeyword_prefix (p : List Char) (hp : p ∈ constPrefixes) (x : Char)
    (t : List Char) (hx : isalpha x = false) :
    ∃ ps, p = 'c' :: ps ∧ constKeyword ('c' :: (ps ++ x :: t)) = true ∧
      ('c' :: (ps ++ x :: t)).dropWhile isalpha = x :: t := by
  have hl : ∀ y : Char, y ∈ "const".toList → isalpha y = true := by decide
  simp only [constPrefixes, List.mem_cons, List.mem_singleton, List.not_mem_nil, or_false] at hp
  rcases hp with h | h | h | h | h
  all_goals
    subst h
    refine ⟨_, rfl, ?_, ?_⟩
    · unfold constKeyword
      simp +decide [List.takeWhile, List.dropWhile, hl, hx, strncmpEq]
    · simp +decide [List.dropWhile, hl, hx]

theorem parseOperand_keyword (a : Assembler) (op : Operand) (limit : Nat) (p : List Char)
    (hp : p ∈ constPrefixes) (x : Char) (t : List Char) (hx : isalpha x = false) :
    parseOperand a op (p ++ x :: t) limit = parseOperandConst a op (x :: t) limit := by
  obtain ⟨ps, hps, hk, hd⟩ := constKeyword_prefix p hp x t hx
  subst hps
  have hstart : ('c' :: ps ++ x :: t).dropWhile isblank = 'c' :: (ps ++ x :: t) := rfl
  unfold parseOperand
  rw [hstart]
  have n1 : ('c' : Char) ≠ ';' := by decide
  have n2 : ('c' : Char) ≠ '%' := by decide
  have n3 : ('c' : Char) ≠ '@' := by decide
  have n4 : ('c' : Char) ≠ '$' := by decide
  simp only [n1, n2, n3, n4, if_false, hk, if_true, hd]

theorem isblank_not_alpha {b : Char} (hb : isblank b = true) : isalpha b = false := by
  simp only [isblank, Bool.or_eq_true, decide_eq_true_eq] at hb
  rcases hb with h | h <;> subst h <;> decide

/-- C26. Constant keyword prefix matching: an operand written as a non-empty
prefix of `const` (`c`, `co`, `con`, `cons`), a blank and any text is parsed by
`parseOperand`, in every state and for every mask, exactly as `const`, the same
blank and the same text: same returned cursor, same operand, same state. And
an identifier whose leading alphabetic run is such a prefix (or `const`) and is
followed by a further character that is not a letter, such as `c1`, is read as
the constant keyword: in a slot without the constant bit, a prototype-reference
slot included, it is rejected and is not taken as a subroutine name. -/
theorem C26_const_prefix_matching (a : Assembler) (op : Operand) (limit : Nat)
    (p : List Char) (hp : p ∈ constPrefixes) :
    (∀ (b : Char) (l : List Char), isblank b = true →
      parseOperand a op (p ++ b :: l) limit
        = parseOperand a op ("const".toList ++ b :: l) limit) ∧
    (∀ (x : Char) (t : List Char), isalpha x = false →
      hasLimit limit LIMIT_CONSTANT = false →
      parseOperand a op (p ++ x :: t) limit = (none, op, a)) := by
  refine ⟨?_, ?_⟩
  · intro b l hb
    rw [parseOperand_keyword a op limit p hp b l (isblank_not_alpha hb),
      parseOperand_keyword a op limit "const".toList (by decide) b l (isblank_not_alpha hb)]
  · intro x t hx hk
    rw [parseOperand_keyword a op limit p hp x t hx]
    unfold parseOperandConst
    simp [hk]

/-- C26 at concrete inputs: `co 5` in a constant slot gives the operand and the
pool of `const 5`, and `c1` is refused in the prototype slot of CLOSURE, so
that the line `closure %0 c1` is rejected. -/
theorem C26_const_prefix_matching_witness :
    parseOperand Assembler.inCode Operand.uninit ("co".toList ++ ' ' :: "5".toList)
        LIMIT_CONSTANT
      = parseOperand Assembler.inCode Operand.uninit ("const".toList ++ ' ' :: "5".toList)
        LIMIT_CONSTANT ∧
    (parseOperand Assembler.inCode Operand.uninit ("co".toList ++ ' ' :: "5".toList)
        LIMIT_CONSTANT).2.2.constants_ = [.TNumber (.ofInt 5)] ∧
    parseOperand Assembler.inCode Operand.uninit ("c".toList ++ '1' :: []) LIMIT_PROTO
      = (none, Operand.uninit, Assembler.inCode) ∧
    (parseCode Assembler.inCode "closure %0 c1".toList).map (fun r => r.1)
      = some ⟨false, "invalid operand(s)"⟩ ∧
    (parseCode Assembler.inCode "closure %0 k1".toList).map (fun r => r.1)
      = some ⟨true, ""⟩ :=
  ⟨(C26_const_prefix_matching Assembler.inCode Operand.uninit LIMIT_CONSTANT "co".toList
      (by decide)).1 ' ' "5".toList (by decide),
    by decide,
    (C26_const_prefix_matching Assembler.inCode Operand.uninit LIMIT_PROTO "c".toList
      (by decide)).2 '1' [] (by decide) (by decide),
    by decide, by decide⟩


theorem lineMarker_no_semicolon (line : List Char) (h : ';' ∉ line) :
    get_linenumber_from_asm_line_comment (get_line_comment_from_asm_line_code line)
      = some (-1) := by
  have hc : get_line_comment_from_asm_line_code line = [] := by
    unfold get_line_comment_from_asm_line_code
    rw [List.dropWhile_eq_nil_iff]
    intro c hc
    have hm : c ∈ line := List.mem_of_mem_drop hc
    have hne : c ≠ ';' := fun e => h (e ▸ hm)
    simpa using hne
  rw [hc]
  rfl

theorem parseLabel_colon (name t : List Char) (hne : name ≠ [])
    (hchars : ∀ c ∈ name, isLabelChar c = true) :
    parseLabel (name ++ ':' :: t) = some (String.mk name, ':' :: t) := by
  obtain ⟨h1, h2⟩ := takeWhile_run (p := isLabelChar) name ':' t hchars (by decide)
  cases name with
  | nil => exact absurd rfl hne
  | cons c cs =>
    have hb := isLabelChar_not_blank (hchars c (List.mem_cons_self _ _))
    have hs : c ≠ ';' := isLabelChar_ne (hchars c (List.mem_cons_self _ _)) (by decide)
    have hd : (c :: cs ++ ':' :: t).dropWhile isblank = c :: (cs ++ ':' :: t) := by
      rw [List.cons_append, List.dropWhile_cons, hb]
      rfl
    rw [List.cons_append] at h1 h2
    unfold parseLabel
    rw [hd]
    simp only [hs, if_false, h1, h2, reduceCtorEq]

/-- C27. Label lines ignore their tail: for every state, every identifier
`name` (a non-empty run of letters, digits and `_`) and every text `t` without
`;`, `parseCode` on the line `name:t` succeeds and gives the state of
`declareLabel`, the same as for the line `name:` alone. In that state the label
is recorded at the current instruction count, the pending patches of the label
are erased and the others kept, the instruction list has the same length, every
instruction that no pending patch of the label designates is unchanged, every
instruction that one designates has its sBx field set to the relative distance,
and every other member keeps its value. -/
theorem C27_label_line_ignores_tail (a : Assembler) (name t : List Char) (hne : name ≠ [])
    (hchars : ∀ c ∈ name, isLabelChar c = true) (ht : ';' ∉ t) :
    parseCode a (name ++ ':' :: t) = some (⟨true, ""⟩, declareLabel a (String.mk name)) ∧
    parseCode a (name ++ ':' :: t) = parseCode a (name ++ [':']) ∧
    declareLabel a (String.mk name)
      = { a with
          locations_ := mapAssign a.locations_ (String.mk name) (toInt a.instructions_.length)
          neededLocations_ :=
            a.neededLocations_.filter (fun e => decide (e.1 ≠ String.mk name))
          instructions_ := (declareLabel a (String.mk name)).instructions_ } ∧
    (a.instructions_.length < 2 ^ 31 →
      mapFind (declareLabel a (String.mk name)).locations_ (String.mk name)
        = some (a.instructions_.length : Int)) ∧
    (declareLabel a (String.mk name)).instructions_.length = a.instructions_.length ∧
    (∀ q : Nat, (∀ e ∈ a.neededLocations_, e.1 = String.mk name → e.2 ≠ (q : Int)) →
      (declareLabel a (String.mk name)).instructions_[q]? = a.instructions_[q]?) ∧
    (∀ q : Nat, (String.mk name, (q : Int)) ∈ a.neededLocations_ →
      (a.neededLocations_.map Prod.snd).Nodup →
      (declareLabel a (String.mk name)).instructions_[q]?
        = (a.instructions_[q]?).map
            (fun i => SETARG_sBx i (sizeArith ((a.instructions_.length : Int) - q - 1)))) := by
  have hsemi : ∀ u : List Char, ';' ∉ u → ';' ∉ name ++ ':' :: u := by
    intro u hu hm
    rcases List.mem_append.1 hm with h | h
    · exact isLabelChar_ne (hchars _ h) (by decide) rfl
    · rcases List.mem_cons.1 h with h | h
      · exact absurd h (by decide)
      · exact hu h
  have hcode : ∀ u : List Char, ';' ∉ u →
      parseCode a (name ++ ':' :: u) = some (⟨true, ""⟩, declareLabel a (String.mk name)) := by
    intro u hu
    have hw : withLineinfo a (-1) = a := by
      unfold withLineinfo
      rw [if_neg (by decide)]
    unfold parseCode
    rw [parseLabel_colon name u hne hchars, lineMarker_no_semicolon _ (hsemi u hu)]
    simp only [hw]
  refine ⟨hcode t ht, ?_, ?_, ?_, ?_, ?_, ?_⟩
  · rw [hcode t ht, hcode [] (by simp)]
  · simp only [declareLabel, resolveLocations_eq, patchLoop_fst]
  · intro hlt
    show mapFind (mapAssign a.locations_ (String.mk name) (toInt a.instructions_.length))
      (String.mk name) = _
    rw [mapFind_mapAssign_self, toInt_small _ (by omega) (by exact_mod_cast hlt)]
  · simp only [declareLabel, resolveLocations_eq, patchLoop_length]
  · intro q hq
    simp only [declareLabel, resolveLocations_eq]
    exact patchLoop_untouched _ _ q _ _ hq
  · intro q hq hnd
    simp only [declareLabel, resolveLocations_eq]
    exact patchLoop_patched _ _ q _ _ hq hnd


/-- C27 at a concrete input: in the state in which the jump at index 0 awaits
the label `L` and two instructions are present, the line `L: move %0 %1` is
accepted, declares `L` at 2, resolves the jump to the distance 1, and leaves
two instructions: the `move` behind the colon is dropped. -/
theorem C27_label_line_ignores_tail_witness :
    stateAwaitingLabel.neededLocations_ = [("L", 0)] ∧
    stateAwaitingLabel.instructions_.length = 2 ∧
    parseCode stateAwaitingLabel "L: move %0 %1".toList
      = some (⟨true, ""⟩, declareLabel stateAwaitingLabel "L") ∧
    (declareLabel stateAwaitingLabel "L").instructions_.length = 2 ∧
    (declareLabel stateAwaitingLabel "L").neededLocations_ = [] ∧
    mapFind (declareLabel stateAwaitingLabel "L").locations_ "L" = some 2 ∧
    ((declareLabel stateAwaitingLabel "L").instructions_[0]?).map GETARG_sBx = some 1 ∧
    (declareLabel stateAwaitingLabel "L").instructions_[1]?
      = stateAwaitingLabel.instructions_[1]? :=
  ⟨by decide, by decide,
    (C27_label_line_ignores_tail stateAwaitingLabel "L".toList " move %0 %1".toList
      (by decide) (by decide) (by decide)).1,
    by decide, by decide, by decide, by decide,
    (C27_label_line_ignores_tail stateAwaitingLabel "L".toList " move %0 %1".toList
      (by decide) (by decide) (by decide)).2.2.2.2.2.1 1 (by decide)⟩


theorem resolveSubroutines_shape (functions : List (String × ParsedFunction)) :
    ∀ (used : List String) (i : Nat) (protos : List String) (f : ParsedFunction),
      (resolveSubroutines functions used i protos f).2.2.usedSubroutines = f.usedSubroutines ∧
      ((resolveSubroutines functions used i protos f).1 = none →
        (resolveSubroutines functions used i protos f).2.1 = protos ++ used ∧
        ∀ p ∈ used, mapFind functions p ≠ none) := by
  intro used
  induction used with
  | nil => intro i protos f; simp [resolveSubroutines]
  | cons u us ih =>
    intro i protos f
    unfold resolveSubroutines
    cases hu : mapFind functions u with
    | none => simp
    | some fu =>
      simp only
      obtain ⟨h1, h2⟩ := ih (i + 1) (protos ++ [u])
        { f with
          neededSubroutines :=
            (patchSubroutines u i f.neededSubroutines f.instructions).1
          instructions :=
            (patchSubroutines u i f.neededSubroutines f.instructions).2 }
      refine ⟨h1, fun hn => ?_⟩
      obtain ⟨h3, h4⟩ := h2 hn
      refine ⟨by rw [h3]; simp, ?_⟩
      intro p hp
      rcases List.mem_cons.1 hp with h | h
      · rw [h, hu]; simp
      · exact h4 p h

theorem usedOf_mapAssign (functions : List (String × ParsedFunction)) (key : String)
    (f f1 : ParsedFunction) (hf : mapFind functions key = some f)
    (hu : f1.usedSubroutines = f.usedSubroutines) (k : String) :
    usedOf (mapAssign functions key f1) k = usedOf functions k := by
  unfold usedOf
  by_cases hk : key = k
  · subst hk
    rw [mapFind_mapAssign_self, hf, Option.map_some', Option.map_some', hu]
  · rw [mapFind_mapAssign_ne _ _ _ _ hk]

theorem usedOf_keys_length (g : List (String × ParsedFunction)) (l : List String)
    (hnd : l.Nodup) (hl : ∀ p ∈ l, usedOf g p ≠ none) : l.length ≤ g.length := by
  have hsub : l ⊆ g.map Prod.fst := by
    intro p hp
    have h := hl p hp
    unfold usedOf at h
    cases hm : mapFind g p with
    | none => rw [hm] at h; exact absurd rfl h
    | some v => exact List.mem_map.2 ⟨(p, v), mapFind_mem g p v hm, rfl⟩
  have := (List.Nodup.subperm hnd hsub).length_le
  simpa using this

theorem andThenSome_total (P : Assembler → Prop) {r : Option (BoolRes × Assembler)}
    {k : Assembler → Option (BoolRes × Assembler)}
    (hr : ∃ res b, r = some (res, b) ∧ P b)
    (hk : ∀ b, P b → ∃ res b1, k b = some (res, b1) ∧ P b1) :
    ∃ res b1, andThenSome r k = some (res, b1) ∧ P b1 := by
  obtain ⟨res, b, hrb, hp⟩ := hr
  subst hrb
  unfold andThenSome
  simp only
  split
  · exact hk b hp
  · exact ⟨res, b, rfl, hp⟩

theorem writeProtos_total (P : Assembler → Prop)
    (write : String → Assembler → Option (BoolRes × Assembler)) :
    ∀ (protos : List String) (a : Assembler), P a →
      (∀ c ∈ protos, ∀ b, P b → ∃ res b1, write c b = some (res, b1) ∧ P b1) →
      ∃ res b1, writeProtos write protos a = some (res, b1) ∧ P b1 := by
  intro protos
  induction protos with
  | nil => intro a hp _; exact ⟨_, _, rfl, hp⟩
  | cons c cs ih =>
    intro a hp hw
    unfold writeProtos
    exact andThenSome_total P (hw c (List.mem_cons_self _ _) a hp)
      (fun b hb => ih b hb (fun c2 hc2 => hw c2 (List.mem_cons_of_mem _ hc2)))

theorem writeFunction_total_aux (g : List (String × ParsedFunction)) :
    ∀ (fuel : Nat) (key : String) (a : Assembler) (path : List String),
      (∀ k, usedOf a.functions_ k = usedOf g k) → usedOf g key ≠ none → AcyclicFrom g key →
      path.Nodup → (∀ p ∈ path, usedOf g p ≠ none) →
      (∀ p ∈ path, Relation.TransGen (Uses g) p key) → g.length ≤ path.length + fuel →
      ∃ res a1, writeFunction fuel key a = some (res, a1) ∧
        ∀ k, usedOf a1.functions_ k = usedOf g k := by
  intro fuel
  induction fuel with
  | zero =>
    intro key a path _ hkey hac hnd hfound hreach hlen
    exfalso
    have hnot : key ∉ path := fun hm => hac key Relation.ReflTransGen.refl (hreach key hm)
    have h := usedOf_keys_length g (key :: path) (List.nodup_cons.2 ⟨hnot, hnd⟩)
      (fun p hp => by
        rcases List.mem_cons.1 hp with h | h
        · rw [h]; exact hkey
        · exact hfound p h)
    simp only [List.length_cons] at h
    omega
  | succ fuel ih =>
    intro key a path hP hkey hac hnd hfound hreach hlen
    have hnot : key ∉ path := fun hm => hac key Relation.ReflTransGen.refl (hreach key hm)
    have hka : usedOf a.functions_ key ≠ none := by rw [hP]; exact hkey
    cases hf : mapFind a.functions_ key with
    | none => unfold usedOf at hka; rw [hf] at hka; exact absurd rfl hka
    | some f =>
      have hused : usedOf g key = some f.usedSubroutines := by
        rw [← hP, usedOf, hf]; rfl
      unfold writeFunction
      simp only [hf]
      refine andThenSome_total (fun b => ∀ k, usedOf b.functions_ k = usedOf g k)
        ⟨(writeFunctionHead f a).1, (writeFunctionHead f a).2, rfl, ?_⟩ ?_
      · intro k
        rw [onlyWriter_functions (writeFunctionHead_onlyWriter f a)]
        exact hP k
      intro a1 hP1
      obtain ⟨f0, hf0, hu0⟩ : ∃ f0, mapFind a1.functions_ key = some f0 ∧
          f0.usedSubroutines = f.usedSubroutines := by
        have h1 := hP1 key
        rw [hused] at h1
        unfold usedOf at h1
        cases hm : mapFind a1.functions_ key with
        | none => rw [hm] at h1; cases h1
        | some f0 =>
          rw [hm] at h1
          simp only [Option.map_some', Option.some.injEq] at h1
          exact ⟨f0, rfl, h1⟩
      obtain ⟨hs1, hs2⟩ := resolveSubroutines_shape a1.functions_ f.usedSubroutines 0 [] f
      rcases hR : resolveSubroutines a1.functions_ f.usedSubroutines 0 [] f with ⟨m, protos, f1⟩
      rw [hR] at hs1 hs2
      simp only at hs1 hs2
      have hP2 : ∀ k, usedOf (mapAssign a1.functions_ key f1) k = usedOf g k := by
        intro k
        rw [usedOf_mapAssign a1.functions_ key f0 f1 hf0 (by rw [hs1, hu0])]
        exact hP1 k
      cases m with
      | some pName => exact ⟨_, _, rfl, hP2⟩
      | none =>
        obtain ⟨hprotos, hall⟩ := hs2 rfl
        simp only [List.nil_append] at hprotos
        simp only
        refine andThenSome_total (fun b => ∀ k, usedOf b.functions_ k = usedOf g k)
          ⟨(writeFunctionBody f1 { a1 with functions_ := mapAssign a1.functions_ key f1 }).1,
            (writeFunctionBody f1 { a1 with functions_ := mapAssign a1.functions_ key f1 }).2,
            rfl, ?_⟩ ?_
        · intro k
          rw [onlyWriter_functions (writeFunctionBody_onlyWriter f1 _)]
          exact hP2 k
        intro a2 hP2a
        refine andThenSome_total (fun b => ∀ k, usedOf b.functions_ k = usedOf g k)
          ⟨(wwrite a2 (.i32 (toInt protos.length))).1,
            (wwrite a2 (.i32 (toInt protos.length))).2, rfl, ?_⟩ ?_
        · intro k
          rw [onlyWriter_functions (wwrite_onlyWriter a2 _)]
          exact hP2a k
        intro a3 hP3
        refine andThenSome_total (fun b => ∀ k, usedOf b.functions_ k = usedOf g k)
          (writeProtos_total (fun b => ∀ k, usedOf b.functions_ k = usedOf g k)
            (writeFunction fuel) protos a3 hP3 ?_) ?_
        · intro c hc b hPb
          rw [hprotos] at hc
          have huse : Uses g key c := ⟨f.usedSubroutines, hused, hc⟩
          have hcg : usedOf g c ≠ none := by
            rw [← hP1 c]
            unfold usedOf
            cases hm : mapFind a1.functions_ c with
            | none => exact absurd hm (hall c hc)
            | some v => simp
          refine ih c b (key :: path) hPb hcg ?_ (List.nodup_cons.2 ⟨hnot, hnd⟩) ?_ ?_ ?_
          · intro k hk
            exact hac k (Relation.ReflTransGen.head huse hk)
          · intro p hp
            rcases List.mem_cons.1 hp with h | h
            · rw [h]; exact hkey
            · exact hfound p h
          · intro p hp
            rcases List.mem_cons.1 hp with h | h
            · rw [h]; exact Relation.TransGen.single huse
            · exact Relation.TransGen.tail (hreach p h) huse
          · simp only [List.length_cons]
            omega
        intro a4 hP4
        refine ⟨(writeFunctionTail f1 a4).1, (writeFunctionTail f1 a4).2, rfl, ?_⟩
        intro k
        rw [onlyWriter_functions (writeFunctionTail_onlyWriter f1 a4)]
        exact hP4 k


theorem writeFunction_self_loop (key : String) :
    ∀ (fuel : Nat) (a : Assembler) (f : ParsedFunction), Ready a →
      mapFind a.functions_ key = some f → f.usedSubroutines = [key] →
      writeFunction fuel key a = none := by
  intro fuel
  induction fuel with
  | zero => intro a f _ _ _; rfl
  | succ fuel ih =>
    intro a f hr hf hu
    obtain ⟨hs1, hw1⟩ := emits_writeFunctionHead f hr
    have r1 : Ready (writeFunctionHead f a).2 := ready_wrote hr hw1
    have hfun1 : (writeFunctionHead f a).2.functions_ = a.functions_ :=
      onlyWriter_functions (writeFunctionHead_onlyWriter f a)
    unfold writeFunction
    simp only [hf]
    rw [andThenSome_pair, if_pos hs1]
    generalize (writeFunctionHead f a).2 = a1 at r1 hfun1
    have hR : resolveSubroutines a1.functions_ [key] 0 [] f
        = (none, [key],
          { f with
            neededSubroutines :=
              (patchSubroutines key 0 f.neededSubroutines f.instructions).1
            instructions :=
              (patchSubroutines key 0 f.neededSubroutines f.instructions).2 }) := by
      simp [resolveSubroutines, hfun1, hf]
    rw [hu]
    simp only [hR]
    generalize hf1 : ({ f with
            neededSubroutines :=
              (patchSubroutines key 0 f.neededSubroutines f.instructions).1
            instructions :=
              (patchSubroutines key 0 f.neededSubroutines f.instructions).2 } : ParsedFunction)
      = f1
    have hu1 : f1.usedSubroutines = [key] := by rw [← hf1]; exact hu
    have r2 : Ready { a1 with functions_ := mapAssign a1.functions_ key f1 } := r1
    obtain ⟨hs2, hw2⟩ := emits_writeFunctionBody f1 r2
    have r3 := ready_wrote r2 hw2
    have hfun2 := onlyWriter_functions (writeFunctionBody_onlyWriter f1
      { a1 with functions_ := mapAssign a1.functions_ key f1 })
    rw [andThenSome_pair, if_pos hs2]
    generalize (writeFunctionBody f1 { a1 with functions_ := mapAssign a1.functions_ key f1 }).2
      = a2 at r3 hfun2
    obtain ⟨hs3, hw3⟩ := emits_wwrite (.i32 (toInt [key].length)) r3
    have r4 := ready_wrote r3 hw3
    have hfun3 := onlyWriter_functions (wwrite_onlyWriter a2 (.i32 (toInt [key].length)))
    rw [andThenSome_pair, if_pos hs3]
    have hf3 : mapFind (wwrite a2 (.i32 (toInt [key].length))).2.functions_ key = some f1 := by
      rw [hfun3, hfun2]
      exact mapFind_mapAssign_self _ _ _
    simp only [writeProtos]
    rw [ih _ f1 r4 hf3 hu1]
    rfl


theorem uses_stateForward (x y : String) (h : Uses stateForward.functions_ x y) :
    x = "main" ∧ y = "sub" := by
  obtain ⟨l, hl, hy⟩ := h
  have ht : stateForward.functions_
      = [("main", functionForwardMain), ("sub", functionForwardSub)] := rfl
  rw [ht] at hl
  unfold usedOf at hl
  by_cases h1 : "main" = x
  · subst h1
    simp only [mapFind, if_true, Option.map_some', Option.some.injEq] at hl
    subst hl
    exact ⟨rfl, by simpa [functionForwardMain] using hy⟩
  · by_cases h2 : "sub" = x
    · subst h2
      simp only [mapFind, h1, if_false, if_true, Option.map_some', Option.some.injEq] at hl
      subst hl
      simp [functionForwardSub] at hy
    · simp [mapFind, h1, h2] at hl

theorem acyclicFrom_stateForward : AcyclicFrom stateForward.functions_ "main" := by
  intro k _ hcyc
  obtain ⟨b, hkb, hbk⟩ := Relation.TransGen.head'_iff.1 hcyc
  obtain ⟨hk, hb⟩ := uses_stateForward k b hkb
  subst hk hb
  rcases Relation.ReflTransGen.cases_head hbk with h | ⟨c, hc, _⟩
  · exact absurd h (by decide)
  · exact absurd (uses_stateForward _ _ hc).1 (by decide)

/-- C28. Termination of the recursive writer: for every state, every key `key`
of its function table and the function under it, when the used-subroutine
relation reachable from `key` is acyclic, `writeFunction` returns a result with
every recursion budget of at least the number of functions in the table, so
that its recursion depth does not exceed that number. The parser does not
enforce acyclicity: the lines of `sourceSelfClosure`, whose `main` names
`main` in its closure instruction, are all accepted and `main` is finalized
without error; in the resulting table `main` uses `main`, the relation is not
acyclic from `main`, and `writeFunction` on `main` has no result, whatever the
recursion budget. -/
theorem C28_writer_terminates (a : Assembler) (key : String) (f : ParsedFunction)
    (hkey : mapFind a.functions_ key = some f) (hac : AcyclicFrom a.functions_ key) :
    (∀ fuel, a.functions_.length ≤ fuel →
      ∃ res a1, writeFunction fuel key a = some (res, a1)) ∧
    (assembleLines sourceSelfClosure 0 (Assembler.onSource sourceSelfClosure)).map
        (fun r => r.1) = some ⟨true, ""⟩ ∧
    (finalizeFunction (Assembler.afterRead sourceSelfClosure)).1 = ⟨true, ""⟩ ∧
    usedOf stateSelfClosure.functions_ "main" = some ["main"] ∧
    ¬AcyclicFrom stateSelfClosure.functions_ "main" ∧
    ∀ fuel, writeFunction fuel "main" stateSelfClosure = none := by
  have hself : usedOf stateSelfClosure.functions_ "main" = some ["main"] := by decide
  refine ⟨?_, by decide, by decide, hself, ?_, ?_⟩
  · intro fuel hfuel
    have hk : usedOf a.functions_ key ≠ none := by
      unfold usedOf
      rw [hkey]
      simp
    obtain ⟨res, a1, h, -⟩ := writeFunction_total_aux a.functions_ fuel key a []
      (fun _ => rfl) hk hac List.nodup_nil (fun p hp => absurd hp (List.not_mem_nil p))
      (fun p hp => absurd hp (List.not_mem_nil p)) (by simpa using hfuel)
    exact ⟨res, a1, h⟩
  · intro hacyc
    exact hacyc "main" Relation.ReflTransGen.refl
      (Relation.TransGen.single ⟨["main"], hself, List.mem_singleton.2 rfl⟩)
  · intro fuel
    cases hm : mapFind stateSelfClosure.functions_ "main" with
    | none =>
      unfold usedOf at hself
      rw [hm] at hself
      cases hself
    | some f0 =>
      refine writeFunction_self_loop "main" fuel stateSelfClosure f0
        ⟨WriteBuffer.accepting, rfl, nonFailing_accepting⟩ hm ?_
      unfold usedOf at hself
      rw [hm] at hself
      simpa using hself

/-- C28 at a concrete input: in the table of `sourceForward`, where `main` uses
`sub` and `sub` uses nothing, the relation is acyclic from `main`, the table
has two functions, and `writeFunction` on `main` returns with the budget 2; its
result is success. -/
theorem C28_writer_terminates_witness :
    mapFind stateForward.functions_ "main" = some functionForwardMain ∧
    stateForward.functions_.length = 2 ∧
    (∃ res a1, writeFunction 2 "main" stateForward = some (res, a1)) ∧
    (writeFunction 2 "main" stateForward).map (fun r => r.1) = some ⟨true, ""⟩ ∧
    (writeFunction 1 "main" stateForward).map (fun r => r.1) = none :=
  ⟨by decide, by decide,
    (C28_writer_terminates stateForward "main" functionForwardMain (by decide)
      acyclicFrom_stateForward).1 2 (by decide),
    by decide, by decide⟩


theorem lineComment_marked {l ds : List Char} (h : MarkedLine l ds) :
    ∃ t, MarkerShape (get_line_comment_from_asm_line_code l) ds t := by
  obtain ⟨pre, t, hl, hne, hsemi, hd0, hds⟩ := h
  cases pre with
  | nil => exact absurd rfl hne
  | cons p ps =>
    have hps : ∀ d ∈ ps, (fun c : Char => decide (c ≠ ';')) d = true := by
      intro d hd
      have : d ≠ ';' := fun e => hsemi (e ▸ List.mem_cons_of_mem _ hd)
      simpa using this
    have hrun := (takeWhile_run (p := fun c : Char => decide (c ≠ ';')) ps ';'
      ('L' :: (ds ++ ';' :: t)) hps (by decide)).2
    refine ⟨t, ?_, hd0, hds⟩
    unfold get_line_comment_from_asm_line_code
    rw [hl, List.cons_append, List.drop_succ_cons, List.drop_zero, hrun]

theorem lineMarker_marked {l ds : List Char} (h : MarkedLine l ds) : lineMarker l = stoi ds := by
  obtain ⟨t, ht⟩ := lineComment_marked h
  exact marker_of_shape ht

theorem marked_of_shape {l ds t : List Char} (hl : ∀ t0, l ≠ ';' :: t0)
    (h : MarkerShape (get_line_comment_from_asm_line_code l) ds t) : MarkedLine l ds := by
  obtain ⟨hc, hd0, hds⟩ := h
  cases l with
  | nil => simp [get_line_comment_from_asm_line_code] at hc
  | cons p ps =>
    have hp : p ≠ ';' := fun e => hl ps (by rw [e])
    unfold get_line_comment_from_asm_line_code at hc
    simp only [List.drop_succ_cons, List.drop_zero] at hc
    refine ⟨p :: ps.takeWhile (fun c => decide (c ≠ ';')), t, ?_, List.cons_ne_nil _ _, ?_,
      hd0, hds⟩
    · rw [List.cons_append, ← hc, List.takeWhile_append_dropWhile]
    · intro hm
      rcases List.mem_cons.1 hm with h1 | h1
      · exact hp h1.symm
      · have := List.mem_takeWhile_imp h1
        simp at this

theorem accepted_not_comment {a b : Assembler} {l : List Char} {res : BoolRes}
    (h : parseCode a l = some (res, b)) (hs : res.success = true) : ∀ t0, l ≠ ';' :: t0 := by
  intro t0 hl
  subst hl
  have hp : parseLabel (';' :: t0) = none := by
    have hb : isblank ';' = false := by decide
    simp [parseLabel, List.dropWhile, hb]
  unfold parseCode at h
  rw [hp] at h
  simp only [Option.some.injEq, Prod.mk.injEq] at h
  rw [← h.1] at hs
  cases hs

theorem parseCode_markerValue {a b : Assembler} {l : List Char} {res : BoolRes}
    (h : parseCode a l = some (res, b)) (hs : res.success = true) :
    ∃ new, b.lineinfos_ = a.lineinfos_ ++ new ∧
      ((∃ n, new = [n] ∧ CarriesMarker l n) ∨ (new = [] ∧ ¬∃ ds, MarkedLine l ds)) := by
  obtain ⟨ln, hm, hl⟩ := parseCode_lineinfos h hs
  have hnc := accepted_not_comment h hs
  by_cases hge : ln ≥ 0
  · rw [if_pos hge] at hl
    refine ⟨[ln], hl, Or.inl ⟨ln, rfl, ?_⟩⟩
    unfold lineMarker at hm
    rcases marker_cases (get_line_comment_from_asm_line_code l) with ⟨ds, t, hsh, hv⟩ | ⟨-, hv⟩
    · rw [hm] at hv
      unfold stoi at hv
      split at hv
      · rename_i hle
        simp only [Option.some.injEq] at hv
        exact ⟨ds, marked_of_shape hnc hsh, hv.symm, by rw [hv]; exact hle⟩
      · cases hv
    · rw [hm] at hv
      simp only [Option.some.injEq] at hv
      omega
  · rw [if_neg hge] at hl
    refine ⟨[], hl, Or.inr ⟨rfl, ?_⟩⟩
    rintro ⟨ds, hmk⟩
    have hst := lineMarker_marked hmk
    obtain ⟨pre, t, -, -, -, -, hds⟩ := hmk
    have hnn := digitsValue_nonneg ds 0 (Int.le_refl 0) hds
    rw [hm] at hst
    unfold stoi at hst
    split at hst
    · simp only [Option.some.injEq] at hst
      omega
    · cases hst

theorem parseCodeLines_markerValues : ∀ (lines : List (List Char)) (a a1 : Assembler)
    (res : BoolRes), parseCodeLines a lines = some (res, a1) → res.success = true →
    ∃ new, a1.lineinfos_ = a.lineinfos_ ++ new ∧ MarkerValues lines new := by
  intro lines
  induction lines with
  | nil =>
    intro a a1 res h _
    simp only [parseCodeLines, Option.some.injEq, Prod.mk.injEq] at h
    rw [← h.2]
    exact ⟨[], by simp, MarkerValues.nil⟩
  | cons l ls ih =>
    intro a a1 res h hs
    unfold parseCodeLines at h
    split at h
    · cases h
    · rename_i r1 b heq
      by_cases hr : r1.success = true
      · simp only [hr, if_true] at h
        obtain ⟨new1, hl1, hcase⟩ := parseCode_markerValue heq hr
        obtain ⟨new2, hl2, hv2⟩ := ih b a1 res h hs
        rcases hcase with ⟨n, hn, hc⟩ | ⟨hn, hu⟩
        · refine ⟨n :: new2, ?_, MarkerValues.marked hc hv2⟩
          rw [hl2, hl1, hn, List.append_assoc]
          rfl
        · refine ⟨new2, ?_, MarkerValues.unmarked hu hv2⟩
          rw [hl2, hl1, hn, List.append_nil]
      · have hf : r1.success = false := by simpa using hr
        simp only [hf, Bool.false_eq_true, if_false, Option.some.injEq, Prod.mk.injEq] at h
        rw [← h.1] at hs
        exact absurd hs hr

theorem markerValues_instructions : ∀ {lines : List (List Char)} {new : List Int},
    MarkerValues lines new →
    (∀ l ∈ lines, isLabelLine l = true → ¬∃ ds, MarkedLine l ds) →
    (∀ l ∈ lines, isLabelLine l = false → ∃ n, CarriesMarker l n) →
    List.Forall₂ CarriesMarker (lines.filter (fun l => !isLabelLine l)) new := by
  intro lines new hv
  induction hv with
  | nil => intro _ _; exact List.Forall₂.nil
  | @marked l ls n ns hc _ ih =>
    intro hlab hins
    have ih' := ih (fun x hx => hlab x (List.mem_cons_of_mem _ hx))
      (fun x hx => hins x (List.mem_cons_of_mem _ hx))
    cases hk : isLabelLine l with
    | true =>
      obtain ⟨ds, hm, -⟩ := hc
      exact absurd ⟨ds, hm⟩ (hlab l (List.mem_cons_self _ _) hk)
    | false =>
      simp only [List.filter_cons, hk, Bool.not_false, if_true]
      exact List.Forall₂.cons hc ih'
  | @unmarked l ls ns hu _ ih =>
    intro hlab hins
    have ih' := ih (fun x hx => hlab x (List.mem_cons_of_mem _ hx))
      (fun x hx => hins x (List.mem_cons_of_mem _ hx))
    cases hk : isLabelLine l with
    | true =>
      simp only [List.filter_cons, hk, Bool.not_true, Bool.false_eq_true, if_false]
      exact ih'
    | false =>
      obtain ⟨n, ds, hm, -⟩ := hins l (List.mem_cons_self _ _) hk
      exact absurd ⟨ds, hm⟩ hu

theorem carriesMarker_unique {l : List Char} {n n' : Int} (h : CarriesMarker l n)
    (h' : CarriesMarker l n') : n = n' := by
  obtain ⟨ds, hm, hv, hle⟩ := h
  obtain ⟨ds', hm', hv', hle'⟩ := h'
  have e1 := lineMarker_marked hm
  have e2 := lineMarker_marked hm'
  unfold stoi at e1 e2
  rw [hv, if_pos hle] at e1
  rw [hv', if_pos hle'] at e2
  rw [e1] at e2
  exact Option.some.inj e2

theorem dropWhile_append_all {p : Char → Bool} : ∀ (bl xs : List Char),
    (∀ b ∈ bl, p b = true) → (bl ++ xs).dropWhile p = xs.dropWhile p := by
  intro bl
  induction bl with
  | nil => intro xs _; rfl
  | cons b bs ih =>
    intro xs h
    rw [List.cons_append, List.dropWhile_cons, h b (List.mem_cons_self _ _), if_pos rfl]
    exact ih xs (fun c hc => h c (List.mem_cons_of_mem _ hc))

theorem isLabelLine_iff (l : List Char) : isLabelLine l = true ↔ LabelText l := by
  constructor
  · intro h
    unfold isLabelLine at h
    split at h
    · rename_i name rest hp
      unfold parseLabel at hp
      split at hp
      · cases hp
      · rename_i c cs hd
        split at hp
        · cases hp
        · split at hp
          · cases hp
          · rename_i hne
            simp only [Option.some.injEq, Prod.mk.injEq] at hp
            refine ⟨l.takeWhile isblank, (c :: cs).takeWhile isLabelChar, rest, ?_, ?_, hne, ?_⟩
            · rw [← hp.2, List.takeWhile_append_dropWhile, ← hd,
                List.takeWhile_append_dropWhile]
            · intro b hb
              exact List.mem_takeWhile_imp hb
            · intro x hx
              exact List.mem_takeWhile_imp hx
    · cases h
  · rintro ⟨bl, name, rest, hl, hbl, hne, hname⟩
    have hd : l.dropWhile isblank = (name ++ ':' :: rest).dropWhile isblank := by
      rw [hl]
      exact dropWhile_append_all bl _ hbl
    have hcong : parseLabel l = parseLabel (name ++ ':' :: rest) := by
      unfold parseLabel
      rw [hd]
    unfold isLabelLine
    rw [hcong, parseLabel_colon name rest hne hname]
    rfl

/-- C23, amended. Line-info lockstep: when the lines of a code segment are all
accepted, the line-info sequence grows by the marker values of the lines that
carry a marker `;L<n>;` behind their first `;`, in line order, whether the line
is an instruction or a label. Hence, when every instruction line consists of a
text without `;` followed by a marker and no label line has a marker, the
sequence has grown by exactly one entry per instruction line, the i-th being
the marker value of the i-th instruction line, and the label lines have
contributed nothing; an extra-argument word never contributes an entry, since
entries come from lines only. The marker value of a line is unique, and the
label lines are the lines made of blanks, an identifier and a colon. -/
theorem C23_lineinfo_lockstep (a a1 : Assembler) (lines : List (List Char)) (res : BoolRes)
    (h : parseCodeLines a lines = some (res, a1)) (hs : res.success = true) :
    (∃ new, a1.lineinfos_ = a.lineinfos_ ++ new ∧ MarkerValues lines new) ∧
    ((∀ l ∈ lines, isLabelLine l = true → ¬∃ ds, MarkedLine l ds) →
      (∀ l ∈ lines, isLabelLine l = false → ∃ n, CarriesMarker l n) →
      ∃ new, a1.lineinfos_ = a.lineinfos_ ++ new ∧
        List.Forall₂ CarriesMarker (lines.filter (fun l => !isLabelLine l)) new) ∧
    (∀ l n n', CarriesMarker l n → CarriesMarker l n' → n = n') ∧
    (∀ l, isLabelLine l = true ↔ LabelText l) := by
  obtain ⟨new, hnew, hv⟩ := parseCodeLines_markerValues lines a a1 res h hs
  refine ⟨⟨new, hnew, hv⟩, ?_, fun l n n' h1 h2 => carriesMarker_unique h1 h2, isLabelLine_iff⟩
  intro hlab hins
  exact ⟨new, hnew, markerValues_instructions hv hlab hins⟩

/-- C23, amended, at a concrete input: three instruction lines with the
markers 3, 4 and 9 and one label line without a marker leave the line-info
sequence `[3, 4, 9]`, one entry per instruction line, next to four instruction
words, one of them an extra-argument word. -/
theorem C23_lineinfo_lockstep_witness :
    parseCodeLines Assembler.inCode linesLockstep = some (⟨true, ""⟩, stateLockstep) ∧
    stateLockstep.lineinfos_ = [3, 4, 9] ∧
    stateLockstep.instructions_.length = 4 ∧
    linesLockstep.filter (fun l => !isLabelLine l)
      = ["return %0 1 ;L3;".toList, "setlist %0 1 600 ;L4;".toList,
         "return %0 1 ;L9;".toList] ∧
    ∃ new, stateLockstep.lineinfos_ = Assembler.inCode.lineinfos_ ++ new ∧
      List.Forall₂ CarriesMarker (linesLockstep.filter (fun l => !isLabelLine l)) new :=
  ⟨rfl, by decide, by decide, by decide,
    (C23_lineinfo_lockstep Assembler.inCode stateLockstep linesLockstep ⟨true, ""⟩ rfl rfl).2.1
      (by
        intro l hl hk
        simp only [linesLockstep, List.mem_cons, List.mem_singleton, List.not_mem_nil,
          or_false] at hl
        rcases hl with rfl | rfl | rfl | rfl
        · exact absurd hk (by decide)
        · rintro ⟨ds, pre, t, hline, -⟩
          have hmem : ';' ∈ "L:".toList := by
            rw [hline]
            exact List.mem_append_right _ (List.mem_cons_self _ _)
          exact absurd hmem (by decide)
        · exact absurd hk (by decide)
        · exact absurd hk (by decide))
      (by
        intro l hl hk
        simp only [linesLockstep, List.mem_cons, List.mem_singleton, List.not_mem_nil,
          or_false] at hl
        rcases hl with rfl | rfl | rfl | rfl
        · exact ⟨3, "3".toList, ⟨"return %0 1 ".toList, [], rfl, by decide, by decide,
            by decide, by decide⟩, by decide, by decide⟩
        · exact absurd hk (by decide)
        · exact ⟨4, "4".toList, ⟨"setlist %0 1 600 ".toList, [], rfl, by decide, by decide,
            by decide, by decide⟩, by decide, by decide⟩
        · exact ⟨9, "9".toList, ⟨"return %0 1 ".toList, [], rfl, by decide, by decide,
            by decide, by decide⟩, by decide, by decide⟩)⟩

/-- The marker scan does not know string constants: the first `;` of the line
is taken even inside a string. The line `loadk %0 const "a;b" ;L7;` is accepted
and records no entry, and `loadk %0 const ";L5;" ;L7;` records 5. -/
theorem marker_scan_enters_string :
    (parseCode Assembler.inCode lineStringSemicolon).map
        (fun r => (r.1, r.2.constants_, r.2.lineinfos_))
      = some (⟨true, ""⟩, [.TString "a;b"], []) ∧
    (parseCode Assembler.inCode lineStringMarker).map
        (fun r => (r.1, r.2.constants_, r.2.lineinfos_))
      = some (⟨true, ""⟩, [.TString ";L5;"], [5]) := by
  constructor <;> decide
end LuaDisAss
